import Mathlib

/-! # Transportation planner (street map + bus overlay): embedding and properties

Shallow embedding of `DijkstraTransportationPlanner.cpp`, `BusSystemIndexer.cpp`,
`CSVBusSystem.cpp`, `DijkstraPathRouter.cpp`, `DSVWriter.cpp`, `DSVReader.cpp` and of
`EditDistance` and `Lower` of `StringUtils.cpp`.

Conventions of the embedding.

* `double` values are exact rationals (`ℚ`); `std::numeric_limits<double>::max()`
  is the rational constant `DBL_MAX`.  Rounding is not modelled, and a division by a
  zero speed (which yields an infinity or a NaN in C++) is outside the embedding:
  the theorems that depend on arithmetic assume positive speeds.
* `std::size_t` and the 64-bit identifiers are natural numbers, `int` is `Int`;
  vertex indices are assumed to fit the `int` entries of `prev`.
* `std::vector<T>` indexed by vertex (`dist`, `prev`, the adjacency containers) is
  a function on indices; `vector::push_back` on an adjacency list appends.
* `std::unordered_map<K, V>` is a function `K → Option V`; `operator[]=` overwrites.
* `std::map<K, V>` is the list of its entries in ascending key order; the
  `std::unordered_set` filled by `RoutesByNodeIDs` is the list of its elements.
* `std::priority_queue<std::pair<double, size_t>, ..., std::greater<>>` is the list
  of its elements; `top` is the least pair in the lexicographic order of
  `std::pair`, `pop` removes one occurrence of it.
* The `while` loops take a fuel argument and return `none` when it runs out.
* `SGeographicUtils::HaversineDistanceInMiles` and `std::stod` are not part of the
  sources; they are parameters (`Deps`).  `std::stoull` is a parameter of the
  `CCSVBusSystem` constructor; an exception that leaves the constructor is the
  result `none`.
* In the embedding of the DSV writer and reader and of `StringUtils`, a `std::string`
  is the list of its characters; `CDataSink` and `CDataSource` are not part of the
  sources: the sink is the list of the characters written, the source the list of the
  characters not yet read.
-/

namespace Planner

abbrev TNodeID := Nat
abbrev TStopID := Nat
abbrev TLocation := ℚ × ℚ

/-- The value of `std::numeric_limits<double>::max()`, `(2 - 2^(-52)) * 2^1023`. -/
def DBL_MAX : ℚ := (2 ^ 53 - 1) * 2 ^ 971

/-- Library functions the planner calls whose code is not in the repository. -/
structure Deps where
  /-- `SGeographicUtils::HaversineDistanceInMiles`. -/
  Haversine : TLocation → TLocation → ℚ
  /-- `std::stod`; `none` when it throws. -/
  stod : String → Option ℚ

/-! ## Street map (`CStreetMap`, as implemented by `COpenStreetMap`) -/

structure SNode where
  ID : TNodeID
  Location : TLocation
  Attributes : List (String × String)
deriving DecidableEq

structure SWay where
  ID : Nat
  NodeIDs : List TNodeID
  Attributes : List (String × String)
deriving DecidableEq

def InvalidNodeID : TNodeID := 2 ^ 64 - 1

def SWay.NodeCount (w : SWay) : Nat := w.NodeIDs.length

def SWay.GetNodeID (w : SWay) (index : Nat) : TNodeID :=
  if index ≥ w.NodeIDs.length then InvalidNodeID else w.NodeIDs.getD index InvalidNodeID

def SWay.HasAttribute (w : SWay) (key : String) : Bool :=
  w.Attributes.any (fun a => a.1 == key)

def SWay.GetAttribute (w : SWay) (key : String) : String :=
  match w.Attributes.find? (fun a => a.1 == key) with
  | some a => a.2
  | none => ""

/-- The nodes and ways a street map reports through `NodeByIndex(0 .. NodeCount()-1)`
and `WayByIndex(0 .. WayCount()-1)`, in index order. -/
structure CStreetMap where
  Nodes : List SNode
  Ways : List SWay

def CStreetMap.NodeCount (m : CStreetMap) : Nat := m.Nodes.length

def CStreetMap.NodeByIndex (m : CStreetMap) (index : Nat) : Option SNode := m.Nodes[index]?

def CStreetMap.WayCount (m : CStreetMap) : Nat := m.Ways.length

def CStreetMap.WayByIndex (m : CStreetMap) (index : Nat) : Option SWay := m.Ways[index]?

/-! ## Bus system (`CBusSystem`) and the indexer's node-to-stop map -/

structure SStop where
  ID : TStopID
  NodeID : TNodeID
deriving DecidableEq

structure SRoute where
  Name : String
  StopIDs : List TStopID
deriving DecidableEq

def InvalidStopID : TStopID := 2 ^ 64 - 1

def SRoute.StopCount (r : SRoute) : Nat := r.StopIDs.length

def SRoute.GetStopID (r : SRoute) (index : Nat) : TStopID :=
  if index ≥ r.StopIDs.length then InvalidStopID else r.StopIDs.getD index InvalidStopID

/-- The stops and routes a bus system reports through `StopByIndex` and
`RouteByIndex`, in index order. -/
structure CBusSystem where
  Stops : List SStop
  Routes : List SRoute

def CBusSystem.StopCount (b : CBusSystem) : Nat := b.Stops.length

def CBusSystem.RouteCount (b : CBusSystem) : Nat := b.Routes.length

def CBusSystem.StopByIndex (b : CBusSystem) (index : Nat) : Option SStop := b.Stops[index]?

def CBusSystem.RouteByIndex (b : CBusSystem) (index : Nat) : Option SRoute := b.Routes[index]?

/-- The state of `CBusSystemIndexer::SImplementation`: `sortedStops`, `sortedRoutes`
and `nodeToStop`. -/
structure CBusSystemIndexer where
  sortedStops : List SStop
  sortedRoutes : List SRoute
  nodeToStop : TNodeID → Option SStop

/-- Constructor of the indexer, lines 13-43: collect the non-null stops, sort them by
stop id, fill `nodeToStop` in that order (a later stop overwrites an earlier one);
collect the non-null routes and sort them. The comparator handed to the second
`std::sort` (lines 40-42) declares the single operand `a` and its body is
`a->Name() < b->Name()`; the embedding reads it as that comparison of two operands. -/
def CBusSystemIndexer.create (bs : CBusSystem) : CBusSystemIndexer :=
  let collected := (List.range bs.StopCount).filterMap bs.StopByIndex
  let sorted := collected.insertionSort (fun a b => a.ID ≤ b.ID)
  let routes := (List.range bs.RouteCount).filterMap bs.RouteByIndex
  { sortedStops := sorted
    sortedRoutes := routes.insertionSort (fun a b => a.Name ≤ b.Name)
    nodeToStop := sorted.foldl (fun m stop => Function.update m stop.NodeID (some stop))
      (fun _ => none) }

def CBusSystemIndexer.StopCount (ix : CBusSystemIndexer) : Nat := ix.sortedStops.length

def CBusSystemIndexer.RouteCount (ix : CBusSystemIndexer) : Nat := ix.sortedRoutes.length

def CBusSystemIndexer.SortedStopByIndex (ix : CBusSystemIndexer) (index : Nat) :
    Option SStop :=
  if index < ix.sortedStops.length then ix.sortedStops[index]? else none

def CBusSystemIndexer.SortedRouteByIndex (ix : CBusSystemIndexer) (index : Nat) :
    Option SRoute :=
  if index < ix.sortedRoutes.length then ix.sortedRoutes[index]? else none

def CBusSystemIndexer.StopByNodeID (ix : CBusSystemIndexer) (id : TNodeID) : Option SStop :=
  ix.nodeToStop id

/-- Inner loop of `RoutesByNodeIDs`, lines 110-119: some `i` with `i + 1 < count` has
the stop ids `srcID`, `destID` at positions `i`, `i + 1` in either order. -/
def routeLinks (route : SRoute) (srcID destID : TStopID) : Bool :=
  (List.range route.StopCount).any (fun i =>
    decide (i + 1 < route.StopCount) &&
      ((decide (route.GetStopID i = srcID) && decide (route.GetStopID (i + 1) = destID)) ||
        (decide (route.GetStopID i = destID) && decide (route.GetStopID (i + 1) = srcID))))

/-- `RoutesByNodeIDs`, lines 94-122: the returned flag and the content of the out
parameter `routes` (an unordered set, listed here in insertion order). The set is
cleared first, so its incoming content plays no part. -/
def CBusSystemIndexer.RoutesByNodeIDs (ix : CBusSystemIndexer) (src dest : TNodeID)
    (routes : List SRoute) : Bool × List SRoute :=
  let cleared := routes.drop routes.length
  match ix.StopByNodeID src, ix.StopByNodeID dest with
  | some srcStop, some destStop =>
    let found := ix.sortedRoutes.foldl
      (fun acc route => if routeLinks route srcStop.ID destStop.ID then acc ++ [route] else acc)
      cleared
    (!found.isEmpty, found)
  | _, _ => (false, cleared)

/-- `RouteBetweenNodeIDs`, lines 124-127. -/
def CBusSystemIndexer.RouteBetweenNodeIDs (ix : CBusSystemIndexer) (src dest : TNodeID) :
    Bool :=
  (ix.RoutesByNodeIDs src dest []).1

/-! ## Planner configuration and state -/

/-- `STransportationPlannerConfig` through its getters. -/
structure SConfiguration where
  StreetMap : CStreetMap
  BusSystem : CBusSystem
  WalkSpeed : ℚ
  BikeSpeed : ℚ
  DefaultSpeedLimit : ℚ
  BusStopTime : ℚ

abbrev Graph := Nat → List (Nat × ℚ)

/-- `graph[u].push_back(e)`. -/
def Graph.pushBack (g : Graph) (u : Nat) (e : Nat × ℚ) : Graph :=
  Function.update g u (g u ++ [e])

/-- `CDijkstraTransportationPlanner::SImplementation`. -/
structure SImplementation where
  the_config : SConfiguration
  sortedNodes : List SNode
  nodeIndexMap : TNodeID → Option Nat
  graphDriving : Graph
  graphWalking : Graph
  graphBiking : Graph
  busIndexer : CBusSystemIndexer

/-- The three adjacency containers while `buildGraphs` fills them. -/
structure Graphs where
  graphDriving : Graph
  graphWalking : Graph
  graphBiking : Graph

/-- Lines 39-40: `for i: nodeIndexMap[sortedNodes[i]->ID()] = i`, started at index `i`. -/
def fillNodeIndexMap : List SNode → Nat → (TNodeID → Option Nat) → (TNodeID → Option Nat)
  | [], _, m => m
  | n :: rest, i, m => fillNodeIndexMap rest (i + 1) (Function.update m n.ID (some i))

/-- `sortedNodes[idx]->Location()`. -/
def locationAt (sortedNodes : List SNode) (idx : Nat) : TLocation :=
  match sortedNodes[idx]? with
  | some n => n.Location
  | none => (0, 0)

/-- `sortedNodes[idx]->ID()`. -/
def idAt (sortedNodes : List SNode) (idx : Nat) : TNodeID :=
  match sortedNodes[idx]? with
  | some n => n.ID
  | none => 0

/-- Body of the inner loop of `buildGraphs` (lines 65-88) for the pair `(id1, id2)`. -/
def addPair (deps : Deps) (cfg : SConfiguration) (sortedNodes : List SNode)
    (nodeIndexMap : TNodeID → Option Nat) (oneWay bicycleAllowed : Bool) (effectiveSpeed : ℚ)
    (G : Graphs) (id1 id2 : TNodeID) : Graphs :=
  match nodeIndexMap id1, nodeIndexMap id2 with
  | some idx1, some idx2 =>
    let dist := deps.Haversine (locationAt sortedNodes idx1) (locationAt sortedNodes idx2)
    let walking := (G.graphWalking.pushBack idx1 (idx2, dist / cfg.WalkSpeed)).pushBack idx2
      (idx1, dist / cfg.WalkSpeed)
    let driving :=
      if oneWay then G.graphDriving.pushBack idx1 (idx2, dist / effectiveSpeed)
      else (G.graphDriving.pushBack idx1 (idx2, dist / effectiveSpeed)).pushBack idx2
        (idx1, dist / effectiveSpeed)
    let biking :=
      if bicycleAllowed then
        if oneWay then G.graphBiking.pushBack idx1 (idx2, dist / cfg.BikeSpeed)
        else (G.graphBiking.pushBack idx1 (idx2, dist / cfg.BikeSpeed)).pushBack idx2
          (idx1, dist / cfg.BikeSpeed)
      else G.graphBiking
    { graphDriving := driving, graphWalking := walking, graphBiking := biking }
  | _, _ => G

/-- Lines 50-52. -/
def wayOneWay (way : SWay) : Bool :=
  way.HasAttribute "oneway" && way.GetAttribute "oneway" == "yes"

/-- Lines 53-55. -/
def wayBicycleAllowed (way : SWay) : Bool :=
  !(way.HasAttribute "bicycle" && way.GetAttribute "bicycle" == "no")

/-- Lines 56-63: the parsed `maxspeed` when the attribute is present and `std::stod`
does not throw, the configured default otherwise. -/
def wayEffectiveSpeed (deps : Deps) (cfg : SConfiguration) (way : SWay) : ℚ :=
  if way.HasAttribute "maxspeed" then
    match deps.stod (way.GetAttribute "maxspeed") with
    | some s => s
    | none => cfg.DefaultSpeedLimit
  else cfg.DefaultSpeedLimit

/-- One iteration of the loop over ways (lines 47-90). -/
def addWay (deps : Deps) (cfg : SConfiguration) (sortedNodes : List SNode)
    (nodeIndexMap : TNodeID → Option Nat) (G : Graphs) (way : SWay) : Graphs :=
  (List.range (way.NodeCount - 1)).foldl
    (fun G j => addPair deps cfg sortedNodes nodeIndexMap (wayOneWay way) (wayBicycleAllowed way)
      (wayEffectiveSpeed deps cfg way) G (way.GetNodeID j) (way.GetNodeID (j + 1)))
    G

/-- Lines 31-38: collect `NodeByIndex(0 .. NodeCount()-1)` and sort by id. -/
def buildSortedNodes (m : CStreetMap) : List SNode :=
  ((List.range m.NodeCount).filterMap m.NodeByIndex).insertionSort (fun a b => a.ID ≤ b.ID)

/-- `buildGraphs` (lines 30-91): the members it fills, in a planner whose bus indexer
is not constructed yet. -/
def buildGraphs (deps : Deps) (config : SConfiguration) : SImplementation :=
  let sortedNodes := buildSortedNodes config.StreetMap
  let nodeIndexMap := fillNodeIndexMap sortedNodes 0 (fun _ => none)
  let empty : Graphs :=
    { graphDriving := fun _ => [], graphWalking := fun _ => [], graphBiking := fun _ => [] }
  let G := ((List.range config.StreetMap.WayCount).filterMap config.StreetMap.WayByIndex).foldl
    (addWay deps config sortedNodes nodeIndexMap) empty
  { the_config := config
    sortedNodes := sortedNodes
    nodeIndexMap := nodeIndexMap
    graphDriving := G.graphDriving
    graphWalking := G.graphWalking
    graphBiking := G.graphBiking
    busIndexer := { sortedStops := [], sortedRoutes := [], nodeToStop := fun _ => none } }

/-- Constructor of `SImplementation` (lines 25-28): `buildGraphs()`, then the bus
indexer. -/
def SImplementation.create (deps : Deps) (config : SConfiguration) : SImplementation :=
  { buildGraphs deps config with busIndexer := CBusSystemIndexer.create config.BusSystem }

def SImplementation.NodeCount (S : SImplementation) : Nat := S.sortedNodes.length

def SImplementation.SortedNodeByIndex (S : SImplementation) (index : Nat) : Option SNode :=
  if index < S.sortedNodes.length then S.sortedNodes[index]? else none

/-! ## Priority queue -/

/-- `operator<` of `std::pair<double, std::size_t>`. -/
def pqLess (a b : ℚ × Nat) : Bool :=
  decide (a.1 < b.1) || (!decide (b.1 < a.1) && decide (a.2 < b.2))

/-- Least element of `m :: q`. -/
def pqMin : ℚ × Nat → List (ℚ × Nat) → ℚ × Nat
  | m, [] => m
  | m, x :: xs => pqMin (if pqLess x m then x else m) xs

/-- `pq.top()`; `none` when `pq.empty()`. -/
def pqTop : List (ℚ × Nat) → Option (ℚ × Nat)
  | [] => none
  | x :: xs => some (pqMin x xs)

/-- `pq.pop()`. -/
def pqPop (q : List (ℚ × Nat)) : List (ℚ × Nat) :=
  match pqTop q with
  | none => []
  | some m => q.erase m

/-- `pq.push(x)`. -/
def pqPush (q : List (ℚ × Nat)) (x : ℚ × Nat) : List (ℚ × Nat) := x :: q

/-! ## `dijkstraDriving` and `FindShortestPath` -/

/-- The arrays and the queue of a search: `dist`, `prev`, `pq`. -/
structure DState where
  dist : Nat → ℚ
  prev : Nat → Int
  pq : List (ℚ × Nat)

/-- Lines 113-119: relaxation of one edge out of `u`. -/
def relaxDriving (u : Nat) (st : DState) (edge : Nat × ℚ) : DState :=
  let v := edge.1
  let weight := edge.2
  if st.dist u + weight < st.dist v then
    let dist := Function.update st.dist v (st.dist u + weight)
    { dist := dist, prev := Function.update st.prev v (u : Int), pq := pqPush st.pq (dist v, v) }
  else st

/-- The `while (!pq.empty())` loop of `dijkstraDriving` (lines 105-121). -/
def dijkstraDrivingLoop (graphDriving : Graph) (dest : Nat) : Nat → DState → Option DState
  | 0, _ => none
  | fuel + 1, st =>
    match pqTop st.pq with
    | none => some st
    | some (d, u) =>
      let st1 : DState := { st with pq := pqPop st.pq }
      if d > st1.dist u then dijkstraDrivingLoop graphDriving dest fuel st1
      else if u = dest then some st1
      else dijkstraDrivingLoop graphDriving dest fuel ((graphDriving u).foldl (relaxDriving u) st1)

/-- Lines 125-126: `for (int at = dest; at != -1; at = prev[at]) revPath.push_back(at)`. -/
def walkBack (prev : Nat → Int) : Nat → Int → List Nat → Option (List Nat)
  | 0, _, _ => none
  | fuel + 1, cur, revPath =>
    if cur = -1 then some revPath
    else walkBack prev fuel (prev cur.toNat) (revPath ++ [cur.toNat])

/-- `dijkstraDriving` (lines 93-130); the second component is `pathIndices` on return. -/
def dijkstraDriving (S : SImplementation) (fuel : Nat) (srcID destID : TNodeID)
    (pathIndices : List Nat) : Option (ℚ × List Nat) :=
  match S.nodeIndexMap srcID, S.nodeIndexMap destID with
  | some src, some dest =>
    let st0 : DState :=
      { dist := Function.update (fun _ => DBL_MAX) src 0, prev := fun _ => -1, pq := [(0, src)] }
    match dijkstraDrivingLoop S.graphDriving dest fuel st0 with
    | none => none
    | some st =>
      if st.dist dest = DBL_MAX then some (st.dist dest, pathIndices)
      else
        match walkBack st.prev fuel (dest : Int) [] with
        | none => none
        | some revPath => some (st.dist dest, revPath.reverse)
  | _, _ => some (DBL_MAX, pathIndices)

/-- `FindShortestPath` (lines 142-151); `path` is the caller's vector on entry, the
second component of the result is that vector on return. -/
def SImplementation.FindShortestPath (S : SImplementation) (fuel : Nat) (src dest : TNodeID)
    (path : List TNodeID) : Option (ℚ × List TNodeID) :=
  match dijkstraDriving S fuel src dest [] with
  | none => none
  | some (cost, indices) =>
    if cost < DBL_MAX then some (cost, indices.map (idAt S.sortedNodes))
    else some (cost, path)

/-! ## Sample inputs -/

/-- A stand-in for the great-circle distance on sample inputs: 69 miles per degree
along the grid. -/
def gridMiles (p q : TLocation) : ℚ := 69 * (|p.1 - q.1| + |p.2 - q.2|)

/-- A stand-in for `std::stod` on sample inputs: unsigned decimal integers. -/
def stodNat (s : String) : Option ℚ := s.toNat?.map (fun n => (n : ℚ))

def sampleDeps : Deps := { Haversine := gridMiles, stod := stodNat }

def noBus : CBusSystem := { Stops := [], Routes := [] }

/-- Default configuration of `transplanner.cpp`: 3 mph, 8 mph, 25 mph, 30 s. -/
def defaultConfig (m : CStreetMap) (b : CBusSystem) : SConfiguration :=
  { StreetMap := m, BusSystem := b, WalkSpeed := 3, BikeSpeed := 8, DefaultSpeedLimit := 25,
    BusStopTime := 30 / 3600 }

/-- Scenario S1: nodes `1@(0,0)` and `2@(0,1)`, one bidirectional way. -/
def mapS1 : CStreetMap :=
  { Nodes := [⟨1, (0, 0), []⟩, ⟨2, (0, 1), []⟩], Ways := [⟨10, [1, 2], []⟩] }

/-- Scenario S2: as S1 with the way tagged `oneway=yes`. -/
def mapS2 : CStreetMap :=
  { Nodes := [⟨1, (0, 0), []⟩, ⟨2, (0, 1), []⟩],
    Ways := [⟨10, [1, 2], [("oneway", "yes")]⟩] }

/-- Scenario S3: nodes 1, 2, 3 and one way joining 1 and 2 only. -/
def mapS3 : CStreetMap :=
  { Nodes := [⟨3, (1, 1), []⟩, ⟨1, (0, 0), []⟩, ⟨2, (0, 1), []⟩],
    Ways := [⟨10, [1, 2], []⟩] }

def plannerS1 : SImplementation :=
  SImplementation.create sampleDeps (defaultConfig mapS1 noBus)

def plannerS2 : SImplementation :=
  SImplementation.create sampleDeps (defaultConfig mapS2 noBus)

def plannerS3 : SImplementation :=
  SImplementation.create sampleDeps (defaultConfig mapS3 noBus)

/-- Three nodes on a line, two degrees apart, joined by one way tagged
`maxspeed=1e-306`. -/
def mapLine : CStreetMap :=
  { Nodes := [⟨1, (0, 0), []⟩, ⟨2, (0, 2), []⟩, ⟨3, (0, 4), []⟩],
    Ways := [⟨10, [1, 2, 3], [("maxspeed", "1e-306")]⟩] }

/-- A stand-in for `std::stod` that also reads the literal `1e-306`. -/
def stodSmall (s : String) : Option ℚ :=
  if s = "1e-306" then some (1 / 10 ^ 306) else stodNat s

def slowDeps : Deps := { Haversine := gridMiles, stod := stodSmall }

def plannerSlow : SImplementation :=
  SImplementation.create slowDeps (defaultConfig mapLine noBus)

/-! ## Search core

The two searches of the planner share one loop shape: pop the least pair, skip it
when stale, stop at a destination, otherwise relax the outgoing transitions in
order.  `searchLoop` is that shape over an arbitrary adjacency function; `live`
tells whether the relaxation re-reads `dist[u]` (as `dijkstraDriving` does) or adds
to the popped cost (as `FindFastestPath` does). -/

/-- Relaxation of the transition `e` out of `u` with cost `base` at `u`. -/
def relax (u : Nat) (base : ℚ) (st : DState) (e : Nat × ℚ) : DState :=
  if base + e.2 < st.dist e.1 then
    { dist := Function.update st.dist e.1 (base + e.2)
      prev := Function.update st.prev e.1 (u : Int)
      pq := pqPush st.pq (base + e.2, e.1) }
  else st

/-- The search loop; the second component of the result is the popped pair when the
loop stopped at a destination and `none` when the queue ran empty. -/
def searchLoop (adj : Graph) (isDest : Nat → Bool) (live : Bool) :
    Nat → DState → Option (DState × Option (ℚ × Nat))
  | 0, _ => none
  | fuel + 1, st =>
    match pqTop st.pq with
    | none => some (st, none)
    | some (d, u) =>
      let st1 : DState := { st with pq := pqPop st.pq }
      if d > st1.dist u then searchLoop adj isDest live fuel st1
      else if isDest u then some (st1, some (d, u))
      else searchLoop adj isDest live fuel
        ((adj u).foldl (fun s e => relax u (if live then s.dist u else d) s e) st1)

/-- Initial arrays and queue of a search from `src`. -/
def initState (src : Nat) : DState :=
  { dist := Function.update (fun _ => DBL_MAX) src 0, prev := fun _ => -1, pq := [(0, src)] }

/-- `RPath adj src (v :: p) W`: the vertex list `v :: p`, read backwards, is a path of
`adj` from `src` to `v` along edges whose weights sum to `W`. -/
inductive RPath (adj : Graph) (src : Nat) : List Nat → ℚ → Prop
  | base : RPath adj src [src] 0
  | step {u v : Nat} {p : List Nat} {W w : ℚ} :
      RPath adj src (u :: p) W → (v, w) ∈ adj u → RPath adj src (v :: u :: p) (W + w)

/-- Weights of `adj` are non-negative. -/
def NonnegWeights (adj : Graph) : Prop := ∀ u e, e ∈ adj u → 0 ≤ e.2

/-- Edges of `adj` out of the vertices below `N` end below `N`. -/
def InRange (adj : Graph) (N : Nat) : Prop := ∀ u, u < N → ∀ e, e ∈ adj u → e.1 < N

/-- Invariant of the arrays alone, whatever the weights: finite entries hang on a
`prev` link that is an edge out of a vertex with a finite entry, and only `src` has a
finite entry without a link. -/
structure LinkInv (adj : Graph) (src : Nat) (st : DState) : Prop where
  dist_le : ∀ v, st.dist v ≤ DBL_MAX
  pq_lt : ∀ d x, (d, x) ∈ st.pq → st.dist x ≤ d ∧ d < DBL_MAX
  root : ∀ v, st.prev v = -1 → st.dist v < DBL_MAX → v = src
  link : ∀ v, st.prev v ≠ -1 →
    ∃ (u : Nat) (w : ℚ), st.prev v = (u : Int) ∧ st.dist u < DBL_MAX ∧ (v, w) ∈ adj u

/-- The part of the search invariant that does not mention the queue.  `done` is the
set of settled vertices, `rank` orders every vertex after its `prev` link. -/
structure TreeInv (adj : Graph) (src : Nat) (st : DState) (done : Finset Nat)
    (rank : Nat → Nat) : Prop where
  dist_src : st.dist src = 0
  prev_src : st.prev src = -1
  dist_nonneg : ∀ v, 0 ≤ st.dist v
  dist_le : ∀ v, st.dist v ≤ DBL_MAX
  done_lt : ∀ u, u ∈ done → st.dist u < DBL_MAX
  tree : ∀ v, st.dist v < DBL_MAX → v ≠ src →
    ∃ (u : Nat) (w : ℚ), st.prev v = (u : Int) ∧ u ∈ done ∧ (v, w) ∈ adj u ∧
      st.dist v = st.dist u + w ∧ rank u < rank v

/-- The search invariant for non-negative weights.  `rel u` is the list of edges out
of the settled vertex `u` that have been relaxed. -/
structure Inv (adj rel : Graph) (src : Nat) (isDest : Nat → Bool) (N : Nat) (st : DState)
    (done : Finset Nat) (rank : Nat → Nat) extends TreeInv adj src st done rank : Prop where
  pq_key : ∀ d x, (d, x) ∈ st.pq → st.dist x ≤ d ∧ d < DBL_MAX ∧ x < N
  pq_has : ∀ v, st.dist v < DBL_MAX → v ∉ done → (st.dist v, v) ∈ st.pq
  done_range : ∀ u, u ∈ done → u < N ∧ isDest u = false
  done_edge : ∀ u, u ∈ done → ∀ e, e ∈ rel u → st.dist e.1 ≤ st.dist u + e.2
  done_pq : ∀ u, u ∈ done → ∀ d x, (d, x) ∈ st.pq → st.dist u ≤ d

/-- Number of loop iterations still possible: queue entries plus edges out of
unsettled vertices. -/
def potential (adj : Graph) (N : Nat) (st : DState) (done : Finset Nat) : Nat :=
  st.pq.length + Finset.sum (Finset.range N \ done) (fun x => (adj x).length)

/-- What the search guarantees on return. -/
structure Post (adj : Graph) (src : Nat) (isDest : Nat → Bool) (st : DState)
    (found : Option (ℚ × Nat)) : Prop where
  tree : ∃ done rank, TreeInv adj src st done rank
  at_dest : ∀ d u, found = some (d, u) → isDest u = true ∧ st.dist u = d ∧ d < DBL_MAX
  least : ∀ d u, found = some (d, u) →
    ∀ x p W, isDest x = true → RPath adj src (x :: p) W → d ≤ W
  all_least : found = none → ∀ x p W, RPath adj src (x :: p) W → st.dist x ≤ W
  no_dest : found = none → ∀ x, isDest x = true → st.dist x = DBL_MAX

/-! ## Predicates used in the statements about `FindShortestPath` -/

/-- Exact non-negative driving weights: distances are non-negative and the effective
speed of every way is positive. -/
def DrivingOK (deps : Deps) (cfg : SConfiguration) : Prop :=
  (∀ p q, 0 ≤ deps.Haversine p q) ∧
    ∀ way, way ∈ cfg.StreetMap.Ways → 0 < wayEffectiveSpeed deps cfg way

/-- The street nodes `a` and `b` are joined by an edge of `graph_walk` from `a` to `b`. -/
def WalkEdge (S : SImplementation) (a b : TNodeID) : Prop :=
  ∃ i j w, S.nodeIndexMap a = some i ∧ S.nodeIndexMap b = some j ∧ (j, w) ∈ S.graphWalking i

/-- What `buildGraphs` guarantees for every entry of `graphDriving`: both ends are
indices of known node ids, the same pair is joined in `graphWalking`, the weight is a
distance over the effective speed of a way, and the reverse entry is present unless
that way is one-way. -/
def DrivingEdges (deps : Deps) (cfg : SConfiguration) (nodeIndexMap : TNodeID → Option Nat)
    (G : Graphs) : Prop :=
  ∀ u e, e ∈ G.graphDriving u →
    (∃ id, nodeIndexMap id = some u) ∧ (∃ id, nodeIndexMap id = some e.1) ∧
    (∃ w, (e.1, w) ∈ G.graphWalking u) ∧
    ∃ way p q, way ∈ cfg.StreetMap.Ways ∧
      e.2 = deps.Haversine p q / wayEffectiveSpeed deps cfg way ∧
      (wayOneWay way = false → (u, e.2) ∈ G.graphDriving e.1)

/-! ## `FindFastestPath` -/

inductive ETransportationMode where
  | Walk
  | Bike
  | Bus
deriving DecidableEq, Repr

abbrev TTripStep := ETransportationMode × TNodeID

/-- The arrays and the queue of `FindFastestPath`, indexed by `node * 2 + mode`
(`Mode::Walk = 0`, `Mode::Bike = 1`). -/
structure FState where
  dist : Nat → ℚ
  prev : Nat → Int
  prevEdgeType : Nat → Int
  pq : List (ℚ × Nat)

/-- The relaxation blocks of `FindFastestPath` (lines 214-219, 226-231, 236-241,
297-302): `newCost` replaces `dist[nextState]` when it is smaller. -/
def relaxFastest (curStateIdx : Nat) (edgeType : Int) (st : FState) (nextState : Nat)
    (newCost : ℚ) : FState :=
  if newCost < st.dist nextState then
    { dist := Function.update st.dist nextState newCost
      prev := Function.update st.prev nextState (curStateIdx : Int)
      prevEdgeType := Function.update st.prevEdgeType nextState edgeType
      pq := pqPush st.pq (newCost, nextState) }
  else st

/-- Lines 249-255: the first index of `route` whose stop id is `stopID`. -/
def currentIndexInRoute (route : SRoute) (stopID : TStopID) : Option Nat :=
  (List.range route.StopCount).find? (fun j => route.GetStopID j == stopID)

/-- Lines 268-282: `routeDistance` for the alight index `j`, summed over
`k = cur .. j-1` with the stops taken from `BusSystem()->StopByIndex`. -/
def routeDistance (deps : Deps) (S : SImplementation) (cur j : Nat) : ℚ :=
  (List.range' cur (j - cur)).foldl
    (fun acc k =>
      match S.the_config.BusSystem.StopByIndex k, S.the_config.BusSystem.StopByIndex (k + 1) with
      | some stopA, some stopB =>
        match S.nodeIndexMap stopA.NodeID, S.nodeIndexMap stopB.NodeID with
        | some ia, some ib =>
          acc + deps.Haversine (locationAt S.sortedNodes ia) (locationAt S.sortedNodes ib)
        | _, _ => acc
      | _, _ => acc)
    0

/-- The locals `bestRemainingDist`, `bestAlightNode`, `bestBusTime` (lines 257-259). -/
structure BestAlight where
  bestRemainingDist : ℚ
  bestAlightNode : Nat
  bestBusTime : ℚ

/-- Body of the loop over alight indices `j` (lines 261-291). -/
def bestAlightStep (deps : Deps) (S : SImplementation) (destIdx cur : Nat) (best : BestAlight)
    (j : Nat) : BestAlight :=
  match S.the_config.BusSystem.StopByIndex j with
  | none => best
  | some alightStop =>
    match S.nodeIndexMap alightStop.NodeID with
    | none => best
    | some alightNodeIdx =>
      let busTime := routeDistance deps S cur j / S.the_config.DefaultSpeedLimit
      let remainingDist := deps.Haversine (locationAt S.sortedNodes destIdx)
        (locationAt S.sortedNodes alightNodeIdx)
      if remainingDist < best.bestRemainingDist then
        { bestRemainingDist := remainingDist, bestAlightNode := alightNodeIdx,
          bestBusTime := busTime }
      else best

/-- Lines 247-303 for one route: the alight node and `totalBusCost` of the bus
relaxation made for `route`, if one is made. -/
def busCandidate (deps : Deps) (S : SImplementation) (destIdx : Nat) (busStop : SStop)
    (route : SRoute) : Option (Nat × ℚ) :=
  match currentIndexInRoute route busStop.ID with
  | none => none
  | some cur =>
    if cur + 1 < route.StopCount then
      let best := (List.range' (cur + 1) (route.StopCount - (cur + 1))).foldl
        (bestAlightStep deps S destIdx cur)
        { bestRemainingDist := DBL_MAX, bestAlightNode := 0, bestBusTime := 0 }
      if best.bestRemainingDist < DBL_MAX then
        some (best.bestAlightNode, S.the_config.BusStopTime + best.bestBusTime)
      else none
    else none

/-- The routes in `RouteByIndex` order (line 246-247). -/
def routesByIndex (b : CBusSystem) : List SRoute :=
  (List.range b.RouteCount).filterMap b.RouteByIndex

/-- Lines 210-307: everything the loop body does after the destination test, for the
popped pair `(curCost, curStateIdx)`. -/
def fastestStep (deps : Deps) (S : SImplementation) (destIdx : Nat) (curCost : ℚ)
    (curStateIdx : Nat) (st : FState) : FState :=
  let curNode := curStateIdx / 2
  let curMode := curStateIdx % 2
  let st1 :=
    if curMode = 0 then
      (S.graphWalking curNode).foldl
        (fun s edge => relaxFastest curStateIdx 0 s (edge.1 * 2 + 0) (curCost + edge.2)) st
    else
      (S.graphBiking curNode).foldl
        (fun s edge => relaxFastest curStateIdx 0 s (edge.1 * 2 + 1) (curCost + edge.2)) st
  let otherState := curNode * 2 + (if curMode = 0 then 1 else 0)
  let st2 := relaxFastest curStateIdx 0 st1 otherState curCost
  if curMode = 0 then
    match S.busIndexer.StopByNodeID (idAt S.sortedNodes curNode) with
    | none => st2
    | some busStop =>
      (routesByIndex S.the_config.BusSystem).foldl
        (fun s route =>
          match busCandidate deps S destIdx busStop route with
          | none => s
          | some (bestAlightNode, totalBusCost) =>
            relaxFastest curStateIdx 1 s (bestAlightNode * 2 + 0) (curCost + totalBusCost))
        st2
  else st2

/-- The `while (!pq.empty())` loop of `FindFastestPath` (lines 179-308) up to the
point where it leaves: with the popped pair when a state at `dest` was dequeued, with
`none` when the queue ran empty. -/
def fastestLoop (deps : Deps) (S : SImplementation) (dest : TNodeID) (destIdx : Nat) :
    Nat → FState → Option (FState × Option (ℚ × Nat))
  | 0, _ => none
  | fuel + 1, st =>
    match pqTop st.pq with
    | none => some (st, none)
    | some (curCost, curStateIdx) =>
      let st1 : FState := { st with pq := pqPop st.pq }
      if curCost > st1.dist curStateIdx then fastestLoop deps S dest destIdx fuel st1
      else if idAt S.sortedNodes (curStateIdx / 2) = dest then
        some (st1, some (curCost, curStateIdx))
      else fastestLoop deps S dest destIdx fuel
        (fastestStep deps S destIdx curCost curStateIdx st1)

/-- Lines 196-206: the trip step emitted for `state`. -/
def tripStep (S : SImplementation) (st : FState) (state : Nat) : TTripStep :=
  let mode :=
    if st.prevEdgeType state = 1 then ETransportationMode.Bus
    else if state % 2 = 1 then ETransportationMode.Bike
    else ETransportationMode.Walk
  (mode, idAt S.sortedNodes (state / 2))

/-- `FindFastestPath` (lines 153-310); `tripPath` is the caller's vector on entry,
the second component of the result is that vector on return. -/
def SImplementation.FindFastestPath (deps : Deps) (S : SImplementation) (fuel : Nat)
    (src dest : TNodeID) (tripPath : List TTripStep) : Option (ℚ × List TTripStep) :=
  match S.nodeIndexMap src, S.nodeIndexMap dest with
  | some srcIdx, some destIdx =>
    let startState := srcIdx * 2 + 0
    let st0 : FState :=
      { dist := Function.update (fun _ => DBL_MAX) startState 0, prev := fun _ => -1,
        prevEdgeType := fun _ => -1, pq := [(0, startState)] }
    match fastestLoop deps S dest destIdx fuel st0 with
    | none => none
    | some (st, some (curCost, curStateIdx)) =>
      match walkBack st.prev fuel (curStateIdx : Int) [] with
      | none => none
      | some statePath => some (curCost, statePath.reverse.map (tripStep S st))
    | some (_, none) => some (DBL_MAX, tripPath)
  | _, _ => some (DBL_MAX, tripPath)

/-- Street map of the bus example: nodes `1@(0,0)`, `2@(0,1)`, `3@(0,3)`,
`4@(0,5/2)`; ways 1-2 and 2-4; node 3 lies on no way. -/
def mapBus : CStreetMap :=
  { Nodes := [⟨1, (0, 0), []⟩, ⟨2, (0, 1), []⟩, ⟨3, (0, 3), []⟩, ⟨4, (0, 5 / 2), []⟩],
    Ways := [⟨10, [1, 2], []⟩, ⟨11, [2, 4], []⟩] }

/-- Bus system of the bus example: stops 101, 102, 103 at nodes 1, 2, 3 and one route
through them in that order. -/
def busLine : CBusSystem :=
  { Stops := [⟨101, 1⟩, ⟨102, 2⟩, ⟨103, 3⟩], Routes := [⟨"R", [101, 102, 103]⟩] }

def plannerBus : SImplementation :=
  SImplementation.create sampleDeps (defaultConfig mapBus busLine)

/-! ## Predicates used in the statements about `FindFastestPath` -/

/-- Exact non-negative travel times: distances are non-negative, the three speeds are
positive and the boarding penalty is non-negative. -/
def FastestOK (deps : Deps) (cfg : SConfiguration) : Prop :=
  (∀ p q, 0 ≤ deps.Haversine p q) ∧ 0 < cfg.WalkSpeed ∧ 0 < cfg.BikeSpeed ∧
    0 < cfg.DefaultSpeedLimit ∧ 0 ≤ cfg.BusStopTime

/-- The arrays of `FindFastestPath` that the search core reads. -/
def FState.core (st : FState) : DState :=
  { dist := st.dist, prev := st.prev, pq := st.pq }

/-- The bus relaxations made at `(curNode, Walk)`, as `(target state, totalBusCost)`,
in the order of the loop over routes. -/
def busTransitions (deps : Deps) (S : SImplementation) (destIdx curNode : Nat) :
    List (Nat × ℚ) :=
  match S.busIndexer.StopByNodeID (idAt S.sortedNodes curNode) with
  | none => []
  | some busStop =>
    (routesByIndex S.the_config.BusSystem).filterMap
      (fun route => (busCandidate deps S destIdx busStop route).map (fun c => (c.1 * 2 + 0, c.2)))

/-- All relaxations `fastestStep` attempts at `state`, as `(target state, added cost)`,
in order: the walk or bike edges, the mode swap, the bus relaxations. -/
def fastTransitions (deps : Deps) (S : SImplementation) (destIdx : Nat) (state : Nat) :
    List (Nat × ℚ) :=
  (if state % 2 = 0 then (S.graphWalking (state / 2)).map (fun e => (e.1 * 2 + 0, e.2))
    else (S.graphBiking (state / 2)).map (fun e => (e.1 * 2 + 1, e.2))) ++
  [(state / 2 * 2 + (if state % 2 = 0 then 1 else 0), 0)] ++
  (if state % 2 = 0 then busTransitions deps S destIdx (state / 2) else [])

/-- `state` is a state at the street node `dest` (line 187). -/
def atDest (S : SImplementation) (dest : TNodeID) (state : Nat) : Bool :=
  decide (idAt S.sortedNodes (state / 2) = dest)

/-- Index of the street node of the stop with id `stopID`. -/
def stopNodeIdx (S : SImplementation) (stopID : TStopID) : Option Nat :=
  match S.the_config.BusSystem.Stops.find? (fun s => s.ID == stopID) with
  | some s => S.nodeIndexMap s.NodeID
  | none => none

/-- Spec 4.3, bus travel distance from position `i` to position `j` of `route`: the
sum of the Haversine miles between the street nodes of consecutive stops. -/
def specBusMiles (deps : Deps) (S : SImplementation) (route : SRoute) (i j : Nat) : ℚ :=
  ((List.range' i (j - i)).map (fun k =>
    match stopNodeIdx S (route.GetStopID k), stopNodeIdx S (route.GetStopID (k + 1)) with
    | some a, some b =>
      deps.Haversine (locationAt S.sortedNodes a) (locationAt S.sortedNodes b)
    | _, _ => 0)).sum

/-- Itineraries of the transition table of spec 4.3, from `(srcIdx, Walk)` at cost 0:
`Itinerary deps S allowBus srcIdx v m c` says that the state (node `v`, mode `m`, with
0 for Walk and 1 for Bike) is reached with total time `c`.  The bus segment, from the
stop at position `i` of a route to a later position `j`, is available when `allowBus`
is true. -/
inductive Itinerary (deps : Deps) (S : SImplementation) (allowBus : Bool) (srcIdx : Nat) :
    Nat → Nat → ℚ → Prop
  | start : Itinerary deps S allowBus srcIdx srcIdx 0 0
  | walkEdge {u v : Nat} {c w : ℚ} : Itinerary deps S allowBus srcIdx u 0 c →
      (v, w) ∈ S.graphWalking u → Itinerary deps S allowBus srcIdx v 0 (c + w)
  | bikeEdge {u v : Nat} {c w : ℚ} : Itinerary deps S allowBus srcIdx u 1 c →
      (v, w) ∈ S.graphBiking u → Itinerary deps S allowBus srcIdx v 1 (c + w)
  | swapToBike {u : Nat} {c : ℚ} : Itinerary deps S allowBus srcIdx u 0 c →
      Itinerary deps S allowBus srcIdx u 1 c
  | swapToWalk {u : Nat} {c : ℚ} : Itinerary deps S allowBus srcIdx u 1 c →
      Itinerary deps S allowBus srcIdx u 0 c
  | busSegment {u v : Nat} {c : ℚ} (route : SRoute) (i j : Nat) :
      Itinerary deps S allowBus srcIdx u 0 c → allowBus = true →
      route ∈ S.the_config.BusSystem.Routes → i < j → j < route.StopCount →
      stopNodeIdx S (route.GetStopID i) = some u → stopNodeIdx S (route.GetStopID j) = some v →
      Itinerary deps S allowBus srcIdx v 0
        (c + (S.the_config.BusStopTime +
          specBusMiles deps S route i j / S.the_config.DefaultSpeedLimit))

/-- What `buildGraphs` guarantees for the entries of `graphWalking` and `graphBiking`:
the end is the index of a known node id and the weight is a distance over the walking
or biking speed. -/
def WalkBikeEdges (deps : Deps) (cfg : SConfiguration) (nodeIndexMap : TNodeID → Option Nat)
    (G : Graphs) : Prop :=
  (∀ u e, e ∈ G.graphWalking u →
    (∃ id, nodeIndexMap id = some e.1) ∧ ∃ p q, e.2 = deps.Haversine p q / cfg.WalkSpeed) ∧
  (∀ u e, e ∈ G.graphBiking u →
    (∃ id, nodeIndexMap id = some e.1) ∧ ∃ p q, e.2 = deps.Haversine p q / cfg.BikeSpeed)

/-! ## Bus system indexer: what its queries are compared with -/

/-- Some stop of the bus system has the id `stopID` and is located at `node`. -/
def LocatedAt (bs : CBusSystem) (stopID : TStopID) (node : TNodeID) : Prop :=
  ∃ s ∈ bs.Stops, s.ID = stopID ∧ s.NodeID = node

/-- The route has two consecutive stops, one located at `a` and the other at `b`, in
either order. -/
def Links (bs : CBusSystem) (route : SRoute) (a b : TNodeID) : Prop :=
  ∃ i, i + 1 < route.StopCount ∧
    ((LocatedAt bs (route.GetStopID i) a ∧ LocatedAt bs (route.GetStopID (i + 1)) b) ∨
      (LocatedAt bs (route.GetStopID i) b ∧ LocatedAt bs (route.GetStopID (i + 1)) a))

/-- No two stops of the bus system are located at the same node. -/
def OneStopPerNode (bs : CBusSystem) : Prop :=
  ∀ s ∈ bs.Stops, ∀ t ∈ bs.Stops, s.NodeID = t.NodeID → s = t

/-- Stops 1 and 2 are both located at node 5; route R runs from stop 1 to stop 3. -/
def busShared : CBusSystem :=
  { Stops := [⟨1, 5⟩, ⟨2, 5⟩, ⟨3, 6⟩], Routes := [⟨"R", [1, 3]⟩] }

/-! ## Bus-shortcut scenario -/

/-- Street map of the bus-shortcut scenario: the collinear nodes `1@(0,0)`, `2@(0,1)`,
`3@(0,2)` on one two-way way 1-2-3. -/
def mapShortcut : CStreetMap :=
  { Nodes := [⟨1, (0, 0), []⟩, ⟨2, (0, 1), []⟩, ⟨3, (0, 2), []⟩],
    Ways := [⟨10, [1, 2, 3], []⟩] }

/-- Bus system of the scenario with the stop at node 1 listed first: stops 10 (node 1)
and 20 (node 3), route R from stop 10 to stop 20. -/
def busShortcut : CBusSystem :=
  { Stops := [⟨10, 1⟩, ⟨20, 3⟩], Routes := [⟨"R", [10, 20]⟩] }

/-- The same stops and route with the stop at node 3 listed first. -/
def busShortcutSwapped : CBusSystem :=
  { Stops := [⟨20, 3⟩, ⟨10, 1⟩], Routes := [⟨"R", [10, 20]⟩] }

def plannerShortcut : SImplementation :=
  SImplementation.create sampleDeps (defaultConfig mapShortcut busShortcut)

def plannerShortcutSwapped : SImplementation :=
  SImplementation.create sampleDeps (defaultConfig mapShortcut busShortcutSwapped)

/-! ## Travel times near the sentinel -/

/-- A configuration whose walking and biking speeds are so small that one degree takes
`1.5 * 10^308` hours on foot and `10^308` hours by bike, both below `DBL_MAX`. -/
def crawlConfig (m : CStreetMap) (b : CBusSystem) : SConfiguration :=
  { StreetMap := m, BusSystem := b, WalkSpeed := 46 / 10 ^ 308, BikeSpeed := 69 / 10 ^ 308,
    DefaultSpeedLimit := 25, BusStopTime := 30 / 3600 }

def plannerCrawl : SImplementation :=
  SImplementation.create sampleDeps (crawlConfig mapShortcut noBus)

/-! ## `CCSVBusSystem` (CSVBusSystem.cpp) -/

/-- What a call of `std::stoull` on a field does: it returns a value, or throws
`std::invalid_argument`, or throws `std::out_of_range`. -/
inductive StoullResult where
  | value (n : Nat)
  | invalid_argument
  | out_of_range
deriving DecidableEq

/-- `m[k] = v` on a `std::map`, kept as the list of its entries in ascending key
order. -/
def mapAssign {K V : Type} [LinearOrder K] : List (K × V) → K → V → List (K × V)
  | [], k, v => [(k, v)]
  | (k2, v2) :: rest, k, v =>
    if k < k2 then (k, v) :: (k2, v2) :: rest
    else if k = k2 then (k, v) :: rest
    else (k2, v2) :: mapAssign rest k v

/-- `m.find(k)` on a `std::map`: the mapped value, if the key is present. -/
def mapFind {K V : Type} [LinearOrder K] : List (K × V) → K → Option V
  | [], _ => none
  | (k2, v2) :: rest, k => if k2 = k then some v2 else mapFind rest k

/-- The members of `CCSVBusSystem::SImplementation` (lines 54-57). -/
structure CCSVBusSystem where
  DStopsById : List (TStopID × SStop)
  DStopsOrdered : List SStop
  DRoutesByName : List (String × SRoute)
  DRoutesOrdered : List SRoute

/-- The loop over the rows of the stops reader (lines 65-78); `none` when an exception
leaves the constructor. Only `std::invalid_argument` is caught. -/
def stopsLoop (stoull : String → StoullResult) :
    List (List String) → CCSVBusSystem → Option CCSVBusSystem
  | [], st => some st
  | row :: rest, st =>
    match row with
    | f0 :: f1 :: _ =>
      match stoull f0 with
      | StoullResult.invalid_argument => stopsLoop stoull rest st
      | StoullResult.out_of_range => none
      | StoullResult.value stopId =>
        match stoull f1 with
        | StoullResult.invalid_argument => stopsLoop stoull rest st
        | StoullResult.out_of_range => none
        | StoullResult.value nodeId =>
          stopsLoop stoull rest
            { st with
              DStopsById := mapAssign st.DStopsById stopId ⟨stopId, nodeId⟩
              DStopsOrdered := st.DStopsOrdered ++ [⟨stopId, nodeId⟩] }
    | _ => stopsLoop stoull rest st

/-- The loop over the rows of the routes reader (lines 81-94), on the local map
`stop_per_route`; `none` when an exception leaves the constructor. -/
def routesLoop (stoull : String → StoullResult) :
    List (List String) → List (String × List TStopID) → Option (List (String × List TStopID))
  | [], stop_per_route => some stop_per_route
  | row :: rest, stop_per_route =>
    match row with
    | routeName :: f1 :: _ =>
      match stoull f1 with
      | StoullResult.invalid_argument => routesLoop stoull rest stop_per_route
      | StoullResult.out_of_range => none
      | StoullResult.value stopId =>
        routesLoop stoull rest
          (mapAssign stop_per_route routeName
            ((mapFind stop_per_route routeName).getD [] ++ [stopId]))
    | _ => routesLoop stoull rest stop_per_route

/-- The loop that creates the route objects (lines 97-101). -/
def makeRoutes (stop_per_route : List (String × List TStopID)) (st : CCSVBusSystem) :
    CCSVBusSystem :=
  stop_per_route.foldl
    (fun s entry =>
      { s with
        DRoutesByName := mapAssign s.DRoutesByName entry.1 ⟨entry.1, entry.2⟩
        DRoutesOrdered := s.DRoutesOrdered ++ [⟨entry.1, entry.2⟩] })
    st

/-- Constructor of `CCSVBusSystem` (lines 60-102) on the rows the two readers deliver;
`none` when an exception leaves it. -/
def CCSVBusSystem.create (stoull : String → StoullResult)
    (stopRows routeRows : List (List String)) : Option CCSVBusSystem :=
  match stopsLoop stoull stopRows
      { DStopsById := [], DStopsOrdered := [], DRoutesByName := [], DRoutesOrdered := [] } with
  | none => none
  | some st =>
    match routesLoop stoull routeRows [] with
    | none => none
    | some stop_per_route => some (makeRoutes stop_per_route st)

def CCSVBusSystem.StopCount (b : CCSVBusSystem) : Nat := b.DStopsById.length

def CCSVBusSystem.RouteCount (b : CCSVBusSystem) : Nat := b.DRoutesByName.length

def CCSVBusSystem.StopByIndex (b : CCSVBusSystem) (index : Nat) : Option SStop :=
  if index ≥ b.DStopsOrdered.length then none else b.DStopsOrdered[index]?

def CCSVBusSystem.StopByID (b : CCSVBusSystem) (id : TStopID) : Option SStop :=
  mapFind b.DStopsById id

def CCSVBusSystem.RouteByIndex (b : CCSVBusSystem) (index : Nat) : Option SRoute :=
  if index ≥ b.DRoutesOrdered.length then none else b.DRoutesOrdered[index]?

def CCSVBusSystem.RouteByName (b : CCSVBusSystem) (name : String) : Option SRoute :=
  mapFind b.DRoutesByName name

/-- The pair `(route_name, stop_id)` a row of the routes input carries: the row has at
least two fields and `std::stoull` converts the second one. -/
def routeRowOf (stoull : String → StoullResult) (raw : List String) :
    Option (String × TStopID) :=
  match raw with
  | routeName :: f1 :: _ =>
    match stoull f1 with
    | StoullResult.value stopId => some (routeName, stopId)
    | _ => none
  | _ => none

/-- The stop id field of a row of the routes input is out of the range of
`std::stoull`. -/
def routeRowOutOfRange (stoull : String → StoullResult) (raw : List String) : Bool :=
  match raw with
  | _ :: f1 :: _ => decide (stoull f1 = StoullResult.out_of_range)
  | _ => false

/-- `std::stoull` in base 10 on the fields used in the examples: leading white space,
an optional sign, then the longest run of decimal digits. -/
def stoullDecimal (s : String) : StoullResult :=
  let cs := s.toList.dropWhile (fun c => c = ' ' ∨ c = '\t' ∨ c = '\n' ∨ c = '\r')
  let signed : Bool × List Char :=
    match cs with
    | '-' :: r => (true, r)
    | '+' :: r => (false, r)
    | _ => (false, cs)
  let ds := signed.2.takeWhile Char.isDigit
  if ds = [] then StoullResult.invalid_argument
  else
    let n := ds.foldl (fun a c => a * 10 + (c.toNat - 48)) 0
    if n ≥ 2 ^ 64 then StoullResult.out_of_range
    else StoullResult.value (if signed.1 then (2 ^ 64 - n) % 2 ^ 64 else n)

/-- Rows of a routes file: a header, then route B and route A interleaved. -/
def sampleRouteRows : List (List String) :=
  [["route", "stop_id"], ["B", "5"], ["A", "1"], ["B", "3"], ["A", "2"], ["B", "5"]]

/-- Rows of a stops file: a header and two stops. -/
def sampleStopRows : List (List String) :=
  [["stop_id", "node_id"], ["1", "100"], ["2", "200"]]

/-! ## `CDijkstraPathRouter` (DijkstraPathRouter.cpp) -/

abbrev TVertexID := Nat

/-- `CDijkstraPathRouter::SImplementation` (lines 14-17); `Tag` stands for `std::any`. -/
structure CDijkstraPathRouter (Tag : Type) where
  vertices : List Tag
  adjacencyList : Graph

/-- The router the constructor leaves (lines 19-21). -/
def CDijkstraPathRouter.empty (Tag : Type) : CDijkstraPathRouter Tag :=
  { vertices := [], adjacencyList := fun _ => [] }

def CDijkstraPathRouter.VertexCount {Tag : Type} (r : CDijkstraPathRouter Tag) : Nat :=
  r.vertices.length

/-- `AddVertex` (lines 31-35): the returned id and the router afterwards. -/
def CDijkstraPathRouter.AddVertex {Tag : Type} (r : CDijkstraPathRouter Tag) (tag : Tag) :
    TVertexID × CDijkstraPathRouter Tag :=
  let vertices := r.vertices ++ [tag]
  (vertices.length - 1,
    { vertices := vertices
      adjacencyList := Function.update r.adjacencyList r.vertices.length [] })

/-- `GetVertexTag` (lines 39-44); `none` is the default `std::any`. -/
def CDijkstraPathRouter.GetVertexTag {Tag : Type} (r : CDijkstraPathRouter Tag)
    (id : TVertexID) : Option Tag :=
  if id < r.vertices.length then r.vertices[id]? else none

/-- `AddEdge` (lines 49-58): the returned flag and the router afterwards. -/
def CDijkstraPathRouter.AddEdge {Tag : Type} (r : CDijkstraPathRouter Tag)
    (src dest : TVertexID) (weight : ℚ) (bidir : Bool) : Bool × CDijkstraPathRouter Tag :=
  if src ≥ r.vertices.length ∨ dest ≥ r.vertices.length ∨ weight < 0 then (false, r)
  else
    let adj1 := r.adjacencyList.pushBack src (dest, weight)
    let adj2 := if bidir then adj1.pushBack dest (src, weight) else adj1
    (true, { r with adjacencyList := adj2 })

/-- Lines 89-97 for one edge out of `u`, popped with distance `d`. -/
def routerRelax (u : Nat) (d : ℚ) (st : DState) (edge : Nat × ℚ) : DState :=
  let v := edge.1
  let alt := d + edge.2
  if alt < st.dist v then
    { dist := Function.update st.dist v alt
      prev := Function.update st.prev v (u : Int)
      pq := pqPush st.pq (alt, v) }
  else st

/-- The `while (!pq.empty())` loop of the router's `FindShortestPath` (lines 80-98). -/
def routerLoop (adjacencyList : Graph) (dest : Nat) : Nat → DState → Option DState
  | 0, _ => none
  | fuel + 1, st =>
    match pqTop st.pq with
    | none => some st
    | some (d, u) =>
      let st1 : DState := { st with pq := pqPop st.pq }
      if d > st1.dist u then routerLoop adjacencyList dest fuel st1
      else if u = dest then some st1
      else routerLoop adjacencyList dest fuel ((adjacencyList u).foldl (routerRelax u d) st1)

/-- Modelled from the spec: the constant `CPathRouter::NoPathExists` of the header
`PathRouter.h`, which is not among the sources, is positive infinity, a value apart
from every number `dist[dest]` can hold. A result of the router's `FindShortestPath` is
that constant or a distance. -/
inductive PathResult where
  | NoPathExists
  | distance (d : ℚ)
deriving DecidableEq

/-- The router's `FindShortestPath` (lines 66-112); `path` is the caller's vector on
entry and the second component of the result is that vector on return. In `prev` the
entry `-1` stands for `CPathRouter::InvalidVertexID`. -/
def CDijkstraPathRouter.FindShortestPath {Tag : Type} (r : CDijkstraPathRouter Tag)
    (fuel : Nat) (src dest : TVertexID) (path : List TVertexID) :
    Option (PathResult × List TVertexID) :=
  let n := r.vertices.length
  if src ≥ n ∨ dest ≥ n then some (PathResult.NoPathExists, path)
  else
    let st0 : DState :=
      { dist := Function.update (fun _ => DBL_MAX) src 0, prev := fun _ => -1, pq := [(0, src)] }
    match routerLoop r.adjacencyList dest fuel st0 with
    | none => none
    | some st =>
      if st.dist dest = DBL_MAX then some (PathResult.NoPathExists, path)
      else
        match walkBack st.prev fuel (dest : Int) path with
        | none => none
        | some pushed => some (PathResult.distance (st.dist dest), pushed.reverse)

/-- The routers reachable from the empty one by `AddVertex` and `AddEdge` calls. -/
inductive Built {Tag : Type} : CDijkstraPathRouter Tag → Prop
  | empty : Built (CDijkstraPathRouter.empty Tag)
  | addVertex (r : CDijkstraPathRouter Tag) (tag : Tag) : Built r → Built (r.AddVertex tag).2
  | addEdge (r : CDijkstraPathRouter Tag) (src dest : TVertexID) (weight : ℚ) (bidir : Bool) :
      Built r → Built (r.AddEdge src dest weight bidir).2

/-- Three vertices and the edges 0 -> 1 and 1 -> 2, each of weight `10^308`. -/
def routerHeavy : CDijkstraPathRouter Unit :=
  ((((((CDijkstraPathRouter.empty Unit).AddVertex ()).2.AddVertex ()).2.AddVertex ()).2.AddEdge
    0 1 (10 ^ 308) false).2.AddEdge 1 2 (10 ^ 308) false).2

/-- Three vertices, the edges 0 -> 1 (weight 2), 1 -> 2 (weight 3) and 0 -> 2
(weight 7). -/
def routerSmall : CDijkstraPathRouter Unit :=
  (((((((CDijkstraPathRouter.empty Unit).AddVertex ()).2.AddVertex ()).2.AddVertex ()).2.AddEdge
    0 1 2 false).2.AddEdge 1 2 3 false).2.AddEdge 0 2 7 false).2

/-! ## Sample inputs for the tabular bus system -/

/-- Rows of a stops file whose second data row has a stop id too large for 64 bits. -/
def stopRowsTooLarge : List (List String) :=
  [["stop_id", "node_id"], ["1", "100"], ["99999999999999999999", "5"], ["2", "200"]]

/-- Rows of a stops file whose second data row has the stop id field `12abc`. -/
def stopRowsTrailing : List (List String) :=
  [["stop_id", "node_id"], ["1", "100"], ["12abc", "7"], ["2", "200"]]

/-- Rows of a routes file whose second data row has a stop id too large for 64 bits. -/
def routeRowsTooLarge : List (List String) :=
  [["route", "stop_id"], ["A", "1"], ["A", "99999999999999999999"], ["A", "2"]]

/-! ## Where the edges of the three graphs come from -/

/-- The entries `j` and `j + 1` of the node sequence of `way`, a way of the street map,
are known node ids, with the indices `idx1` and `idx2`. -/
def PairOf (S : SImplementation) (way : SWay) (j idx1 idx2 : Nat) : Prop :=
  way ∈ S.the_config.StreetMap.Ways ∧ j + 1 < way.NodeCount ∧
    S.nodeIndexMap (way.GetNodeID j) = some idx1 ∧
    S.nodeIndexMap (way.GetNodeID (j + 1)) = some idx2

/-- Line 72: the distance computed for the pair of indices `(idx1, idx2)`. -/
def pairMiles (deps : Deps) (S : SImplementation) (idx1 idx2 : Nat) : ℚ :=
  deps.Haversine (locationAt S.sortedNodes idx1) (locationAt S.sortedNodes idx2)

/-- A stand-in for `std::stod` on sample inputs: leading blanks, an optional sign and
the longest run of decimal digits; it throws when there is no digit. -/
def stodLeading (s : String) : Option ℚ :=
  let cs := s.toList.dropWhile (fun c => c = ' ')
  let signed : Bool × List Char :=
    match cs with
    | '-' :: r => (true, r)
    | '+' :: r => (false, r)
    | _ => (false, cs)
  let ds := signed.2.takeWhile Char.isDigit
  if ds = [] then none
  else
    let n : ℚ := ((ds.foldl (fun a c => a * 10 + (c.toNat - 48)) 0 : Nat) : ℚ)
    some (if signed.1 then -n else n)

def leadingDeps : Deps := { Haversine := gridMiles, stod := stodLeading }

/-- Nodes 1 and 2 one degree apart on a two-way way tagged `maxspeed=-25`. -/
def mapNegSpeed : CStreetMap :=
  { Nodes := [⟨1, (0, 0), []⟩, ⟨2, (0, 1), []⟩],
    Ways := [⟨10, [1, 2], [("maxspeed", "-25")]⟩] }

/-- Nodes 1 and 2 one degree apart on a two-way way tagged `maxspeed=40 mph`. -/
def mapUnitSpeed : CStreetMap :=
  { Nodes := [⟨1, (0, 0), []⟩, ⟨2, (0, 1), []⟩],
    Ways := [⟨10, [1, 2], [("maxspeed", "40 mph")]⟩] }

/-- Nodes 1 and 2 one degree apart on a two-way way tagged `maxspeed=fast`. -/
def mapTextSpeed : CStreetMap :=
  { Nodes := [⟨1, (0, 0), []⟩, ⟨2, (0, 1), []⟩],
    Ways := [⟨10, [1, 2], [("maxspeed", "fast")]⟩] }

/-- Nodes 1, 2, 3 and one way 1, 99, 2, 3 whose second entry is not a node of the map. -/
def mapBroken : CStreetMap :=
  { Nodes := [⟨1, (0, 0), []⟩, ⟨2, (0, 1), []⟩, ⟨3, (0, 2), []⟩],
    Ways := [⟨10, [1, 99, 2, 3], []⟩] }

/-- Nodes 1, 2, 3 on a one-way way 1, 2 closed to bicycles and a two-way way 2, 3. -/
def mapNoBike : CStreetMap :=
  { Nodes := [⟨1, (0, 0), []⟩, ⟨2, (0, 1), []⟩, ⟨3, (0, 2), []⟩],
    Ways := [⟨10, [1, 2], [("oneway", "yes"), ("bicycle", "no")]⟩, ⟨11, [2, 3], []⟩] }

def plannerNegSpeed : SImplementation :=
  SImplementation.create leadingDeps (defaultConfig mapNegSpeed noBus)

def plannerUnitSpeed : SImplementation :=
  SImplementation.create leadingDeps (defaultConfig mapUnitSpeed noBus)

def plannerTextSpeed : SImplementation :=
  SImplementation.create leadingDeps (defaultConfig mapTextSpeed noBus)

def plannerBroken : SImplementation :=
  SImplementation.create sampleDeps (defaultConfig mapBroken noBus)

def plannerNoBike : SImplementation :=
  SImplementation.create sampleDeps (defaultConfig mapNoBike noBus)


/-! ## How a state of `FindFastestPath` is entered -/

/-- The five relaxations of the loop body of `FindFastestPath`: along a walking edge
(lines 212-220), along a biking edge (lines 222-232), the mode swap (lines 234-241) in
its two directions, and the bus relaxation (lines 293-302). -/
inductive EntryKind where
  | walkEdge
  | bikeEdge
  | swapToBike
  | swapToWalk
  | busSegment
deriving DecidableEq, Repr

/-- The value the relaxation stores in `prevEdgeType[nextState]`: 1 for the bus
relaxation (line 300), 0 for the others (lines 217, 229, 239). -/
def EntryKind.tag : EntryKind → Int
  | EntryKind.busSegment => 1
  | _ => 0

/-- `Entered deps S destIdx a b w kind`: while processing the state `a` with the cost
`curCost`, the loop body attempts the relaxation of the given kind with `nextState = b`
and `newCost = curCost + w`. -/
def Entered (deps : Deps) (S : SImplementation) (destIdx a b : Nat) (w : ℚ) :
    EntryKind → Prop
  | EntryKind.walkEdge => a % 2 = 0 ∧ ∃ e ∈ S.graphWalking (a / 2), b = e.1 * 2 + 0 ∧ w = e.2
  | EntryKind.bikeEdge => a % 2 ≠ 0 ∧ ∃ e ∈ S.graphBiking (a / 2), b = e.1 * 2 + 1 ∧ w = e.2
  | EntryKind.swapToBike => a % 2 = 0 ∧ b = a / 2 * 2 + 1 ∧ w = 0
  | EntryKind.swapToWalk => a % 2 ≠ 0 ∧ b = a / 2 * 2 + 0 ∧ w = 0
  | EntryKind.busSegment => a % 2 = 0 ∧ ∃ busStop route c,
      S.busIndexer.StopByNodeID (idAt S.sortedNodes (a / 2)) = some busStop ∧
      route ∈ routesByIndex S.the_config.BusSystem ∧
      busCandidate deps S destIdx busStop route = some c ∧ b = c.1 * 2 + 0 ∧ w = c.2

/-- Every state with a `prev` link was entered from that link by a relaxation whose
tag is the state's `prevEdgeType`. -/
def TagInv (deps : Deps) (S : SImplementation) (destIdx : Nat) (st : FState) : Prop :=
  ∀ b, st.prev b ≠ -1 → ∃ (a : Nat) (w : ℚ) (kind : EntryKind),
    st.prev b = (a : Int) ∧ Entered deps S destIdx a b w kind ∧
    st.prevEdgeType b = kind.tag

/-- `TransChain deps S destIdx srcState (b :: p) W`: the list of states `b :: p`, read
backwards, starts at `srcState` and every state after the first is the target of a
relaxation the loop body attempts at the state before it; `W` is the sum of the costs
these relaxations add. -/
inductive TransChain (deps : Deps) (S : SImplementation) (destIdx srcState : Nat) :
    List Nat → ℚ → Prop
  | start : TransChain deps S destIdx srcState [srcState] 0
  | step {a b : Nat} {p : List Nat} {W w : ℚ} {kind : EntryKind} :
      TransChain deps S destIdx srcState (a :: p) W → Entered deps S destIdx a b w kind →
      TransChain deps S destIdx srcState (b :: a :: p) (W + w)

/-- Spec 4.3, trip emission: the mode of the incoming edge, "Walk edge or mode-swap:
Walk; Bike edge: Bike; Bus segment: Bus". -/
def specStepMode : EntryKind → ETransportationMode
  | EntryKind.walkEdge => ETransportationMode.Walk
  | EntryKind.swapToBike => ETransportationMode.Walk
  | EntryKind.swapToWalk => ETransportationMode.Walk
  | EntryKind.bikeEdge => ETransportationMode.Bike
  | EntryKind.busSegment => ETransportationMode.Bus

/-- The mode lines 196-206 emit for a state by the relaxation that entered it: `Bus`
when `prevEdgeType` is 1, otherwise the mode of the state itself, which is Bike for the
target of a bike edge or of the swap from Walk, and Walk for the target of a walk edge
or of the swap from Bike. -/
def emittedMode : EntryKind → ETransportationMode
  | EntryKind.walkEdge => ETransportationMode.Walk
  | EntryKind.swapToWalk => ETransportationMode.Walk
  | EntryKind.bikeEdge => ETransportationMode.Bike
  | EntryKind.swapToBike => ETransportationMode.Bike
  | EntryKind.busSegment => ETransportationMode.Bus


/-! ## Where the entries of `dist` come from

Every pair `(cost, state)` pushed to the queue is pushed while another pair is being
processed, the start pair apart; `hist` records, for a pair, the pairs it descends from
in this way, itself first.  The invariant below holds for every weight function: it is
what makes the cost of the dequeued state equal to the sum of the transition costs along
its `prev` links. -/

/-- Invariant of the arrays, the queue and the record `hist`.  `exc p v w` tells the
edges `(v, w)` out of `p` that the running loop body has still to relax. -/
structure HistCore (adj : Graph) (src : Nat) (st : DState)
    (hist : ℚ × Nat → List (ℚ × Nat)) (exc : Nat → Nat → ℚ → Prop) : Prop where
  dist_le : ∀ v, st.dist v ≤ DBL_MAX
  pq_key : ∀ e ∈ st.pq, st.dist e.2 ≤ e.1 ∧ e.1 < DBL_MAX
  self : ∀ e ∈ st.pq, e ∈ hist e
  pair : ∀ e1 ∈ st.pq, ∀ e2 ∈ st.pq, ∀ E ∈ hist e1, E ∉ hist e2 → E.1 ≤ max e1.1 e2.1
  root : ∀ v, st.prev v = -1 → st.dist v < DBL_MAX →
    v = src ∧ st.dist v = 0 ∧ hist (0, v) = [(0, v)]
  link : ∀ v, st.prev v ≠ -1 → ∃ (p : Nat) (D w : ℚ), st.prev v = (p : Int) ∧
    (v, w) ∈ adj p ∧ st.dist v = D + w ∧ st.dist p ≤ D ∧ D < DBL_MAX ∧
    hist (st.dist v, v) = (st.dist v, v) :: hist (D, p) ∧ (D, p) ∈ hist (D, p) ∧
    (st.dist p < D → (st.dist p, p) ∈ st.pq ∨ exc p v w)

/-- The invariant at the head of the loop. -/
def HistInv (adj : Graph) (src : Nat) (st : DState) (hist : ℚ × Nat → List (ℚ × Nat)) : Prop :=
  HistCore adj src st hist (fun _ _ _ => False)

/-- What is known of the dequeued pair `(d, u)` while its edges are relaxed. -/
structure HistTop (u : Nat) (d : ℚ) (st : DState) (hist : ℚ × Nat → List (ℚ × Nat)) :
    Prop where
  top_le : st.dist u ≤ d
  top_lt : d < DBL_MAX
  top_pend : st.dist u < d → (st.dist u, u) ∈ st.pq
  top_mem : (d, u) ∈ hist (d, u)
  top_pair : ∀ e2 ∈ st.pq, (∀ E ∈ hist (d, u), E ∉ hist e2 → E.1 ≤ e2.1) ∧
    (∀ E ∈ hist e2, E ∉ hist (d, u) → E.1 ≤ e2.1)


/-! ## The alight loop -/

/-- Lines 262-286 for the alight index `j`: the alight node index, `busTime` and
`remainingDist`, when the loop body for `j` reaches the comparison of line 287. -/
def alightCandidate (deps : Deps) (S : SImplementation) (destIdx cur j : Nat) :
    Option (Nat × ℚ × ℚ) :=
  match S.the_config.BusSystem.StopByIndex j with
  | none => none
  | some alightStop =>
    match S.nodeIndexMap alightStop.NodeID with
    | none => none
    | some alightNodeIdx =>
      some (alightNodeIdx, routeDistance deps S cur j / S.the_config.DefaultSpeedLimit,
        deps.Haversine (locationAt S.sortedNodes destIdx) (locationAt S.sortedNodes alightNodeIdx))

/-- Bus system of the detour example: stop 5 at node 2 is listed before the stops 10
(node 1) and 20 (node 3) of route R. -/
def busDetour : CBusSystem :=
  { Stops := [⟨5, 2⟩, ⟨10, 1⟩, ⟨20, 3⟩], Routes := [⟨"R", [10, 20]⟩] }

def plannerDetour : SImplementation :=
  SImplementation.create sampleDeps (defaultConfig mapShortcut busDetour)


/-! ## `CDSVWriter` and `CDSVReader` (DSVWriter.cpp, DSVReader.cpp)

A `std::string` is the list of its characters.  The data sink is the list of the
characters written so far and accepts every write; the data source is the list of the
characters not yet read: `Get` removes the first, `Peek` looks at it, `End` holds when
none is left. -/

/-- The character `'"'`. -/
def quoteChar : Char := Char.ofNat 34

/-- The character `'\n'`. -/
def newlineChar : Char := Char.ofNat 10

/-- The character `'\r'`. -/
def returnChar : Char := Char.ofNat 13

/-- The members `Delimiter` and `QuoteAll` of the writer. -/
structure CDSVWriter where
  Delimiter : Char
  QuoteAll : Bool
deriving DecidableEq

/-- Lines 44-50: the characters of a quoted field, every `'"'` doubled. -/
def escapeQuotes : List Char → List Char
  | [] => []
  | ch :: rest =>
    if ch = quoteChar then quoteChar :: quoteChar :: escapeQuotes rest
    else ch :: escapeQuotes rest

/-- Lines 35-39: `needQuotes`. -/
def needQuotes (w : CDSVWriter) (field : List Char) : Bool :=
  w.QuoteAll || decide (w.Delimiter ∈ field) || decide (quoteChar ∈ field) ||
    decide (newlineChar ∈ field) || decide (returnChar ∈ field)

/-- Lines 32-55: what one field adds to `row`. -/
def fieldText (w : CDSVWriter) (field : List Char) : List Char :=
  if needQuotes w field then quoteChar :: (escapeQuotes field ++ [quoteChar]) else field

/-- The loop over the fields (lines 31-60): every field, and the delimiter after each
field but the last. -/
def fieldsText (w : CDSVWriter) : List (List Char) → List Char
  | [] => []
  | [field] => fieldText w field
  | field :: rest => fieldText w field ++ w.Delimiter :: fieldsText w rest

/-- `CDSVWriter::WriteRow` (lines 20-72) with the sink `sink`: the return value and the
sink afterwards. -/
def CDSVWriter.WriteRow (w : CDSVWriter) (sink : List Char) (buf : List (List Char)) :
    Bool × List Char :=
  (true, sink ++ (fieldsText w buf ++ [newlineChar]))

/-- The members of the reader: the data source, `Delimiter` and `ifend`. -/
structure CDSVReader where
  DataSource : List Char
  Delimiter : Char
  ifend : Bool
deriving DecidableEq

/-- Constructor of the reader (lines 11-16). -/
def CDSVReader.create (src : List Char) (delimiter : Char) : CDSVReader :=
  { DataSource := src, Delimiter := delimiter, ifend := false }

/-- `CDSVReader::End` (lines 20-22). -/
def CDSVReader.End (r : CDSVReader) : Bool := r.ifend

/-- The loop `while (true)` of `ReadRow` (lines 34-105) on the data source, `row`,
`cell`, `inQuotes` and `firstChar`: the return value, `row`, the data source and `ifend`
when the loop returns. -/
def readLoop (delimiter : Char) :
    Nat → List Char → List (List Char) → List Char → Bool → Bool →
      Option (Bool × List (List Char) × List Char × Bool)
  | 0, _, _, _, _, _ => none
  | _ + 1, [], row, cell, _, _ =>
    let row2 := if cell ≠ [] ∨ row ≠ [] then row ++ [cell] else row
    some (!row2.isEmpty, row2, [], true)
  | fuel + 1, ch :: src, row, cell, inQuotes, firstChar =>
    if firstChar = true ∧ ch = quoteChar then readLoop delimiter fuel src row cell true false
    else if inQuotes = true then
      if ch = quoteChar then
        match src with
        | peekch :: src2 =>
          if peekch = quoteChar then
            readLoop delimiter fuel src2 row (cell ++ [quoteChar]) true false
          else readLoop delimiter fuel src row cell false false
        | [] => readLoop delimiter fuel src row cell false false
      else readLoop delimiter fuel src row (cell ++ [ch]) true false
    else if ch = delimiter then readLoop delimiter fuel src (row ++ [cell]) [] false true
    else if ch = newlineChar ∨ ch = returnChar then
      let row2 := row ++ [cell]
      let src2 :=
        if ch = returnChar then
          match src with
          | next :: rest => if next = newlineChar then rest else src
          | [] => src
        else src
      some (!row2.isEmpty, row2, src2, src2.isEmpty)
    else if ch = quoteChar then
      match src with
      | peekch :: src2 =>
        if peekch = quoteChar then
          readLoop delimiter fuel src2 row (cell ++ [quoteChar]) false false
        else readLoop delimiter fuel src row cell false false
      | [] => readLoop delimiter fuel src row cell false false
    else readLoop delimiter fuel src row (cell ++ [ch]) false false

/-- `CDSVReader::ReadRow` (lines 24-106); `row` is the caller's vector on entry, the
result holds the return value, the vector on return and the reader afterwards. -/
def CDSVReader.ReadRow (r : CDSVReader) (fuel : Nat) (row : List (List Char)) :
    Option (Bool × List (List Char) × CDSVReader) :=
  if r.ifend then some (false, row, r)
  else
    match readLoop r.Delimiter fuel r.DataSource [] [] false true with
    | none => none
    | some (res, row2, src2, e) => some (res, row2, { r with DataSource := src2, ifend := e })

/-- The sink after `WriteRow` has been called for every row of `rows` in order. -/
def writeRows (w : CDSVWriter) (rows : List (List (List Char))) : List Char :=
  rows.foldl (fun sink buf => (w.WriteRow sink buf).2) []

/-- The results of `k` successive calls of `ReadRow`, each with an empty vector, and
the reader after them. -/
def readRows (fuel : Nat) : Nat → CDSVReader →
    Option (List (Bool × List (List Char)) × CDSVReader)
  | 0, r => some ([], r)
  | k + 1, r =>
    match r.ReadRow fuel [] with
    | none => none
    | some (res, row, r2) =>
      match readRows fuel k r2 with
      | none => none
      | some (l, r3) => some ((res, row) :: l, r3)

/-- Number of iterations of the loop of `ReadRow` spent on the text of a field. -/
def fieldSteps (w : CDSVWriter) (field : List Char) : Nat :=
  if needQuotes w field then field.length + 2 else field.length

/-- Number of iterations of the loop of `ReadRow` spent on the text of a row. -/
def rowSteps (w : CDSVWriter) (buf : List (List Char)) : Nat :=
  (buf.map (fun field => fieldSteps w field + 1)).sum

/-- The character `','`. -/
def commaChar : Char := Char.ofNat 44

/-- A row whose fields hold the delimiter, nothing, and a quote, a newline and a
carriage return. -/
def dsvSampleRow : List (List Char) :=
  ["a,b".toList, [], [Char.ofNat 120, quoteChar, newlineChar, returnChar, Char.ofNat 121]]


/-! ## `StringUtils::EditDistance` and `StringUtils::Lower` (StringUtils.cpp)

A `std::string` is the list of its characters; `int` is `Nat` (the lengths of the two
strings are taken to fit an `int`); `std::tolower` is a parameter. -/

/-- `StringUtils::Lower` (lines 64-73). -/
def Lower (tolower : Char → Char) (str : List Char) : List Char :=
  if str.isEmpty then [] else str.map tolower

/-- The assignment `matr[i][j] = v`. -/
def setCell (matr : Nat → Nat → Nat) (i j v : Nat) : Nat → Nat → Nat :=
  Function.update matr i (Function.update (matr i) j v)

/-- Body of the inner loop of `EditDistance` (lines 234-238) for the cell `(i, j)`. -/
def editCell (s1 s2 : List Char) (i : Nat) (matr : Nat → Nat → Nat) (j : Nat) :
    Nat → Nat → Nat :=
  if s1[i - 1]? = s2[j - 1]? then setCell matr i j (matr (i - 1) (j - 1))
  else setCell matr i j
    (1 + min (matr (i - 1) j) (min (matr i (j - 1)) (matr (i - 1) (j - 1))))

/-- The inner loop `for (int j = 1; j <= n; ++j)` (lines 233-239) for the row `i`. -/
def editRow (s1 s2 : List Char) (n : Nat) (matr : Nat → Nat → Nat) (i : Nat) :
    Nat → Nat → Nat :=
  (List.range' 1 n).foldl (editCell s1 s2 i) matr

/-- `StringUtils::EditDistance` (lines 216-243). -/
def EditDistance (tolower : Char → Char) (left right : List Char) (ignorecase : Bool) : Nat :=
  let s1 := if ignorecase then Lower tolower left else left
  let s2 := if ignorecase then Lower tolower right else right
  let m := s1.length
  let n := s2.length
  let matr0 : Nat → Nat → Nat := fun _ _ => 0
  let matr1 := (List.range (m + 1)).foldl (fun matr i => setCell matr i 0 i) matr0
  let matr2 := (List.range (n + 1)).foldl (fun matr j => setCell matr 0 j j) matr1
  let matr3 := (List.range' 1 m).foldl (editRow s1 s2 n) matr2
  matr3 m n

/-- Edit scripts: `Edits xs ys n` says that `xs` is turned into `ys` by `n`
single-character deletions, insertions and substitutions, the other characters being
kept. -/
inductive Edits {α : Type} : List α → List α → Nat → Prop
  | done : Edits [] [] 0
  | delete (a : α) {xs ys : List α} {n : Nat} : Edits xs ys n → Edits (a :: xs) ys (n + 1)
  | insert (b : α) {xs ys : List α} {n : Nat} : Edits xs ys n → Edits xs (b :: ys) (n + 1)
  | substitute (a b : α) {xs ys : List α} {n : Nat} :
      Edits xs ys n → Edits (a :: xs) (b :: ys) (n + 1)
  | keep (a : α) {xs ys : List α} {n : Nat} : Edits xs ys n → Edits (a :: xs) (a :: ys) n

/-- The Levenshtein distance, with unit costs, between the first `i` characters of `s1`
and the first `j` characters of `s2`. -/
def editSpec (s1 s2 : List Char) (i j : Nat) : Nat :=
  levenshtein Levenshtein.defaultCost (s1.take i) (s2.take j)


/-! ## Itineraries with the bus segments the planner considers -/

/-- From position `i` of `route` on, the bus system lists the stops of `route` in route
order: for every position `k ≥ i` of `route`, the stop at index `k` of the bus system
is the stop whose id the route holds at position `k`. -/
def RouteAligned (S : SImplementation) (route : SRoute) (i : Nat) : Prop :=
  ∀ k, i ≤ k → k < route.StopCount →
    S.the_config.BusSystem.StopByIndex k =
      S.the_config.BusSystem.Stops.find? (fun s => s.ID == route.GetStopID k)

/-- Position `j` is the alight position for a ride on `route` boarded at position `i`,
towards the node `destIdx`: the first position after `i` among those whose stop lies at a
known node of least Haversine distance to the destination, that distance being below
the sentinel. -/
def BestAlightPosition (deps : Deps) (S : SImplementation) (destIdx : Nat) (route : SRoute)
    (i j : Nat) : Prop :=
  i < j ∧ j < route.StopCount ∧
  ∃ v, stopNodeIdx S (route.GetStopID j) = some v ∧
    deps.Haversine (locationAt S.sortedNodes destIdx) (locationAt S.sortedNodes v) < DBL_MAX ∧
    ∀ j2 v2, i < j2 → j2 < route.StopCount → stopNodeIdx S (route.GetStopID j2) = some v2 →
      deps.Haversine (locationAt S.sortedNodes destIdx) (locationAt S.sortedNodes v) ≤
        deps.Haversine (locationAt S.sortedNodes destIdx) (locationAt S.sortedNodes v2) ∧
      (j2 < j →
        deps.Haversine (locationAt S.sortedNodes destIdx) (locationAt S.sortedNodes v) <
          deps.Haversine (locationAt S.sortedNodes destIdx) (locationAt S.sortedNodes v2))

/-- Itineraries of the transition table of spec 4.3 towards the node `destIdx`, from
`(srcIdx, Walk)` at cost 0, in which every bus segment boards the stop that
`StopByNodeID` gives for the current node, at the first position `i` of that stop on a
route whose stops the bus system lists in route order from `i` on, and alights at the
position `j` of `BestAlightPosition`; its cost is the one of the spec,
`bus_stop_time + bus_miles / default_speed_limit`. -/
inductive PlannedItinerary (deps : Deps) (S : SImplementation) (destIdx srcIdx : Nat) :
    Nat → Nat → ℚ → Prop
  | start : PlannedItinerary deps S destIdx srcIdx srcIdx 0 0
  | walkEdge {u v : Nat} {c w : ℚ} : PlannedItinerary deps S destIdx srcIdx u 0 c →
      (v, w) ∈ S.graphWalking u → PlannedItinerary deps S destIdx srcIdx v 0 (c + w)
  | bikeEdge {u v : Nat} {c w : ℚ} : PlannedItinerary deps S destIdx srcIdx u 1 c →
      (v, w) ∈ S.graphBiking u → PlannedItinerary deps S destIdx srcIdx v 1 (c + w)
  | swapToBike {u : Nat} {c : ℚ} : PlannedItinerary deps S destIdx srcIdx u 0 c →
      PlannedItinerary deps S destIdx srcIdx u 1 c
  | swapToWalk {u : Nat} {c : ℚ} : PlannedItinerary deps S destIdx srcIdx u 1 c →
      PlannedItinerary deps S destIdx srcIdx u 0 c
  | busSegment {u v : Nat} {c : ℚ} (busStop : SStop) (route : SRoute) (i j : Nat) :
      PlannedItinerary deps S destIdx srcIdx u 0 c →
      route ∈ S.the_config.BusSystem.Routes →
      S.busIndexer.StopByNodeID (idAt S.sortedNodes u) = some busStop →
      currentIndexInRoute route busStop.ID = some i →
      stopNodeIdx S (route.GetStopID i) = some u →
      RouteAligned S route i →
      BestAlightPosition deps S destIdx route i j →
      stopNodeIdx S (route.GetStopID j) = some v →
      PlannedItinerary deps S destIdx srcIdx v 0
        (c + (S.the_config.BusStopTime +
          specBusMiles deps S route i j / S.the_config.DefaultSpeedLimit))

/-- Bus system of the twin-stop example, on the street map of scenario S1: stops 1 and 2
are both located at node 1, stop 3 at node 2; route R runs from stop 1 to stop 3. -/
def busTwin : CBusSystem :=
  { Stops := [⟨1, 1⟩, ⟨3, 2⟩, ⟨2, 1⟩], Routes := [⟨"R", [1, 3]⟩] }

def plannerTwin : SImplementation :=
  SImplementation.create sampleDeps (defaultConfig mapS1 busTwin)

/-- Bus system of the loop example, on the street map with nodes 1, 2, 3 in a row: route
R visits stop 10 (node 1) at positions 0 and 2, between them stop 20 (node 2), and ends
at stop 30 (node 3); the stops are listed in route order. -/
def busLoop : CBusSystem :=
  { Stops := [⟨10, 1⟩, ⟨20, 2⟩, ⟨10, 1⟩, ⟨30, 3⟩], Routes := [⟨"R", [10, 20, 10, 30]⟩] }

def plannerLoop : SImplementation :=
  SImplementation.create sampleDeps (defaultConfig mapShortcut busLoop)
/-! # Theorems -/

/-! ## Priority queue facts -/

theorem pqLess_true_le {a b : ℚ × Nat} (h : pqLess a b = true) : a.1 ≤ b.1 := by
  unfold pqLess at h
  simp only [Bool.or_eq_true, Bool.and_eq_true, decide_eq_true_eq, Bool.not_eq_true',
    decide_eq_false_iff_not] at h
  rcases h with h | ⟨h, _⟩
  · exact le_of_lt h
  · exact not_lt.mp h

theorem pqLess_false_le {a b : ℚ × Nat} (h : pqLess a b = false) : b.1 ≤ a.1 := by
  unfold pqLess at h
  simp only [Bool.or_eq_false_iff, decide_eq_false_iff_not] at h
  exact not_lt.mp h.1

theorem pqMin_mem (m : ℚ × Nat) (xs : List (ℚ × Nat)) : pqMin m xs ∈ m :: xs := by
  induction xs generalizing m with
  | nil => simp [pqMin]
  | cons x xs ih =>
    simp only [pqMin]
    have := ih (if pqLess x m then x else m)
    rcases List.mem_cons.mp this with h | h
    · rw [h]; split <;> simp
    · exact List.mem_cons_of_mem _ (List.mem_cons_of_mem _ h)

theorem pqMin_le (m : ℚ × Nat) (xs : List (ℚ × Nat)) :
    (pqMin m xs).1 ≤ m.1 ∧ ∀ x ∈ xs, (pqMin m xs).1 ≤ x.1 := by
  induction xs generalizing m with
  | nil => simp [pqMin]
  | cons x xs ih =>
    simp only [pqMin]
    obtain ⟨h1, h2⟩ := ih (if pqLess x m then x else m)
    by_cases hx : pqLess x m = true
    · rw [if_pos hx] at h1 h2 ⊢
      refine ⟨le_trans h1 (pqLess_true_le hx), ?_⟩
      intro y hy
      rcases List.mem_cons.mp hy with rfl | hy
      · exact h1
      · exact h2 y hy
    · rw [if_neg hx] at h1 h2 ⊢
      refine ⟨h1, ?_⟩
      intro y hy
      rcases List.mem_cons.mp hy with rfl | hy
      · exact le_trans h1 (pqLess_false_le (by simpa using hx))
      · exact h2 y hy

theorem pqTop_none {q : List (ℚ × Nat)} (h : pqTop q = none) : q = [] := by
  cases q with
  | nil => rfl
  | cons x xs => simp [pqTop] at h

theorem pqTop_some {q : List (ℚ × Nat)} {m : ℚ × Nat} (h : pqTop q = some m) :
    m ∈ q ∧ ∀ x ∈ q, m.1 ≤ x.1 := by
  cases q with
  | nil => simp [pqTop] at h
  | cons x xs =>
    simp only [pqTop, Option.some.injEq] at h
    subst h
    refine ⟨pqMin_mem x xs, ?_⟩
    intro y hy
    rcases List.mem_cons.mp hy with rfl | hy
    · exact (pqMin_le _ xs).1
    · exact (pqMin_le x xs).2 y hy

theorem pqPop_eq {q : List (ℚ × Nat)} {m : ℚ × Nat} (h : pqTop q = some m) :
    pqPop q = q.erase m := by
  simp [pqPop, h]

theorem pqPop_length {q : List (ℚ × Nat)} {m : ℚ × Nat} (h : pqTop q = some m) :
    (pqPop q).length + 1 = q.length := by
  rw [pqPop_eq h, List.length_erase_of_mem (pqTop_some h).1]
  have : 0 < q.length := List.length_pos_of_mem (pqTop_some h).1
  omega

theorem mem_pqPop {q : List (ℚ × Nat)} {x : ℚ × Nat} (h : x ∈ pqPop q) : x ∈ q := by
  unfold pqPop at h
  split at h
  · simp at h
  · exact List.mem_of_mem_erase h

theorem mem_pqPop_of_ne {q : List (ℚ × Nat)} {m x : ℚ × Nat} (h : pqTop q = some m)
    (hx : x ∈ q) (hne : x ≠ m) : x ∈ pqPop q := by
  rw [pqPop_eq h]
  exact (List.mem_erase_of_ne hne).mpr hx

/-! ## The `prev` links form paths (any weights) -/

theorem DBL_MAX_pos : 0 < DBL_MAX := by
  unfold DBL_MAX
  norm_num

theorem relax_link {adj : Graph} {src u : Nat} {st : DState} {e : Nat × ℚ} (base : ℚ)
    (hI : LinkInv adj src st) (hu : st.dist u < DBL_MAX) (he : e ∈ adj u) :
    LinkInv adj src (relax u base st e) ∧ (relax u base st e).dist u < DBL_MAX := by
  unfold relax
  by_cases hc : base + e.2 < st.dist e.1
  · rw [if_pos hc]
    have hnew : base + e.2 < DBL_MAX := lt_of_lt_of_le hc (hI.dist_le _)
    have hdist : ∀ x, Function.update st.dist e.1 (base + e.2) x < DBL_MAX ∨
        (x ≠ e.1 ∧ Function.update st.dist e.1 (base + e.2) x = st.dist x) := by
      intro x
      by_cases hx : x = e.1
      · left; rw [hx, Function.update_same]; exact hnew
      · right; exact ⟨hx, Function.update_noteq hx _ _⟩
    have hfin : ∀ x, st.dist x < DBL_MAX →
        Function.update st.dist e.1 (base + e.2) x < DBL_MAX := by
      intro x hx
      rcases hdist x with h | ⟨_, h⟩
      · exact h
      · rw [h]; exact hx
    refine ⟨⟨?_, ?_, ?_, ?_⟩, hfin u hu⟩
    · intro x
      show Function.update st.dist e.1 (base + e.2) x ≤ DBL_MAX
      rcases hdist x with h | ⟨_, h⟩
      · exact le_of_lt h
      · rw [h]; exact hI.dist_le x
    · intro d x hm
      show Function.update st.dist e.1 (base + e.2) x ≤ d ∧ d < DBL_MAX
      simp only [pqPush, List.mem_cons, Prod.mk.injEq] at hm
      rcases hm with ⟨rfl, rfl⟩ | hm
      · rw [Function.update_same]; exact ⟨le_refl _, hnew⟩
      · refine ⟨?_, (hI.pq_lt d x hm).2⟩
        by_cases hx : x = e.1
        · rw [hx, Function.update_same]
          rw [hx] at hm
          exact le_trans (le_of_lt hc) (hI.pq_lt d _ hm).1
        · rw [Function.update_noteq hx]; exact (hI.pq_lt d x hm).1
    · intro x hp hd
      change Function.update st.prev e.1 (u : Int) x = -1 at hp
      change Function.update st.dist e.1 (base + e.2) x < DBL_MAX at hd
      by_cases hx : x = e.1
      · exfalso
        rw [hx, Function.update_same] at hp
        omega
      · rw [Function.update_noteq hx] at hp hd
        exact hI.root x hp hd
    · intro x hp
      change Function.update st.prev e.1 (u : Int) x ≠ -1 at hp
      show ∃ (u0 : Nat) (w : ℚ), Function.update st.prev e.1 (u : Int) x = (u0 : Int) ∧
        Function.update st.dist e.1 (base + e.2) u0 < DBL_MAX ∧ (x, w) ∈ adj u0
      by_cases hx : x = e.1
      · refine ⟨u, e.2, ?_, hfin u hu, ?_⟩
        · rw [hx, Function.update_same]
        · rw [hx]; exact he
      · rw [Function.update_noteq hx] at hp ⊢
        obtain ⟨u0, w0, h1, h2, h3⟩ := hI.link x hp
        exact ⟨u0, w0, h1, hfin u0 h2, h3⟩
  · rw [if_neg hc]
    exact ⟨hI, hu⟩

theorem foldl_relax_link {adj : Graph} {src u : Nat} (base : DState → ℚ) (es : List (Nat × ℚ))
    (hes : ∀ e ∈ es, e ∈ adj u) (st : DState) (hI : LinkInv adj src st)
    (hu : st.dist u < DBL_MAX) :
    LinkInv adj src (es.foldl (fun s e => relax u (base s) s e) st) := by
  induction es generalizing st with
  | nil => exact hI
  | cons e es ih =>
    simp only [List.foldl_cons]
    obtain ⟨h1, h2⟩ := relax_link (base st) hI hu (hes e (List.mem_cons_self _ _))
    exact ih (fun x hx => hes x (List.mem_cons_of_mem _ hx)) _ h1 h2

theorem initState_link (adj : Graph) (src : Nat) : LinkInv adj src (initState src) := by
  refine ⟨?_, ?_, ?_, ?_⟩
  · intro v
    by_cases hv : v = src
    · simp only [initState, hv, Function.update_same]; exact le_of_lt DBL_MAX_pos
    · simp only [initState, Function.update_noteq hv]; exact le_refl _
  · intro d x hm
    simp only [initState, List.mem_singleton, Prod.mk.injEq] at hm
    rw [hm.1, hm.2]
    simp only [initState, Function.update_same]
    exact ⟨le_refl _, DBL_MAX_pos⟩
  · intro v _ hd
    by_contra hv
    simp only [initState, Function.update_noteq hv] at hd
    exact lt_irrefl _ hd
  · intro v hp
    exact absurd rfl hp

theorem searchLoop_link {adj : Graph} {src : Nat} (isDest : Nat → Bool) (live : Bool)
    (fuel : Nat) (st : DState) (hI : LinkInv adj src st) (r : DState × Option (ℚ × Nat))
    (hr : searchLoop adj isDest live fuel st = some r) : LinkInv adj src r.1 := by
  induction fuel generalizing st with
  | zero => simp [searchLoop] at hr
  | succ fuel ih =>
    unfold searchLoop at hr
    cases htop : pqTop st.pq with
    | none =>
      simp only [htop, Option.some.injEq] at hr
      rw [← hr]; exact hI
    | some m =>
      obtain ⟨d, u⟩ := m
      simp only [htop] at hr
      have hpop : LinkInv adj src { st with pq := pqPop st.pq } :=
        ⟨hI.dist_le, fun d x hm => hI.pq_lt d x (mem_pqPop hm), hI.root, hI.link⟩
      have hkey := hI.pq_lt d u (pqTop_some htop).1
      by_cases hs : d > st.dist u
      · rw [if_pos hs] at hr
        exact ih _ hpop hr
      · rw [if_neg hs] at hr
        by_cases hd : isDest u = true
        · rw [if_pos hd, Option.some.injEq] at hr
          rw [← hr]; exact hpop
        · rw [if_neg hd] at hr
          have hu : st.dist u < DBL_MAX := lt_of_le_of_lt hkey.1 hkey.2
          exact ih _ (foldl_relax_link _ (adj u) (fun _ h => h) _ hpop hu) hr

theorem walkBack_link {adj : Graph} {src : Nat} {st : DState} (hI : LinkInv adj src st)
    (fuel : Nat) (v : Nat) (acc r : List Nat) (hv : st.dist v < DBL_MAX)
    (hr : walkBack st.prev fuel (v : Int) acc = some r) :
    ∃ p W, r = acc ++ (v :: p) ∧ RPath adj src (v :: p) W := by
  induction fuel generalizing v acc with
  | zero => simp [walkBack] at hr
  | succ fuel ih =>
    unfold walkBack at hr
    have hne : ((v : Int) = -1) = False := by
      simp only [eq_iff_iff, iff_false]; omega
    simp only [hne, if_false, Int.toNat_ofNat] at hr
    by_cases hp : st.prev v = -1
    · rw [hp] at hr
      cases fuel with
      | zero => simp [walkBack] at hr
      | succ fuel =>
        unfold walkBack at hr
        simp only [if_true, Option.some.injEq] at hr
        have hsrc := hI.root v hp hv
        subst hsrc
        exact ⟨[], 0, by rw [← hr], RPath.base⟩
    · obtain ⟨u, w, h1, h2, h3⟩ := hI.link v hp
      rw [h1] at hr
      obtain ⟨p, W, hp1, hp2⟩ := ih u _ h2 hr
      refine ⟨u :: p, W + w, ?_, RPath.step hp2 h3⟩
      rw [hp1]; simp

/-! ## The search invariant for non-negative weights -/

theorem Inv.path_bound {adj : Graph} {src N : Nat} {isDest : Nat → Bool} {st : DState}
    {done : Finset Nat} {rank : Nat → Nat} (hI : Inv adj adj src isDest N st done rank)
    (hnn : NonnegWeights adj) {l : List Nat} {W : ℚ} (h : RPath adj src l W) :
    ∀ x p, l = x :: p → st.dist x ≤ W ∨ ∃ d y, (d, y) ∈ st.pq ∧ d ≤ W := by
  induction h with
  | base =>
    intro x p hl
    simp only [List.cons.injEq] at hl
    left; rw [← hl.1, hI.dist_src]
  | @step u v p W w _ he ih =>
    intro x q hl
    simp only [List.cons.injEq] at hl
    have hw : 0 ≤ w := hnn _ _ he
    rcases ih u p rfl with h1 | ⟨d, y, hm, hd⟩
    · by_cases hu : u ∈ done
      · left
        rw [← hl.1]
        have := hI.done_edge u hu (v, w) he
        simp only at this
        linarith
      · by_cases hfin : st.dist u < DBL_MAX
        · right
          exact ⟨st.dist u, u, hI.pq_has u hfin hu, by linarith⟩
        · left
          have := hI.dist_le x
          have h2 := not_lt.mp hfin
          linarith
    · right
      exact ⟨d, y, hm, by linarith⟩

theorem Inv.pop_stale {adj : Graph} {src N : Nat} {isDest : Nat → Bool} {st : DState}
    {done : Finset Nat} {rank : Nat → Nat} (hI : Inv adj adj src isDest N st done rank)
    {d : ℚ} {u : Nat} (htop : pqTop st.pq = some (d, u)) (hs : d > st.dist u) :
    Inv adj adj src isDest N { st with pq := pqPop st.pq } done rank := by
  refine ⟨⟨hI.dist_src, hI.prev_src, hI.dist_nonneg, hI.dist_le, hI.done_lt, hI.tree⟩, ?_, ?_,
    hI.done_range, hI.done_edge, ?_⟩
  · intro d' x hm
    exact hI.pq_key d' x (mem_pqPop hm)
  · intro v hv hnd
    refine mem_pqPop_of_ne htop (hI.pq_has v hv hnd) ?_
    intro heq
    simp only [Prod.mk.injEq] at heq
    rw [← heq.2, ← heq.1] at hs
    exact lt_irrefl _ hs
  · intro x hx d' y hm
    exact hI.done_pq x hx d' y (mem_pqPop hm)

theorem Inv.pop_settle {adj : Graph} {src N : Nat} {isDest : Nat → Bool} {st : DState}
    {done : Finset Nat} {rank : Nat → Nat} (hI : Inv adj adj src isDest N st done rank)
    {d : ℚ} {u : Nat} (htop : pqTop st.pq = some (d, u)) (hs : ¬ d > st.dist u)
    (hd : isDest u = false) :
    Inv adj (Function.update adj u []) src isDest N { st with pq := pqPop st.pq }
      (insert u done) rank ∧ st.dist u = d ∧ ∀ x ∈ insert u done, st.dist x ≤ d := by
  obtain ⟨hmem, hmin⟩ := pqTop_some htop
  obtain ⟨hk1, hk2, hk3⟩ := hI.pq_key d u hmem
  have hdu : st.dist u = d := le_antisymm hk1 (not_lt.mp hs)
  have hle : ∀ x ∈ insert u done, st.dist x ≤ d := by
    intro x hx
    rcases Finset.mem_insert.mp hx with rfl | hx
    · exact hk1
    · exact hI.done_pq x hx d u hmem
  refine ⟨⟨⟨hI.dist_src, hI.prev_src, hI.dist_nonneg, hI.dist_le, ?_, ?_⟩, ?_, ?_, ?_, ?_, ?_⟩,
    hdu, hle⟩
  · intro x hx
    rcases Finset.mem_insert.mp hx with rfl | hx
    · exact lt_of_le_of_lt hk1 hk2
    · exact hI.done_lt x hx
  · intro v hv hne
    obtain ⟨u0, w0, h1, h2, h3⟩ := hI.tree v hv hne
    exact ⟨u0, w0, h1, Finset.mem_insert_of_mem h2, h3⟩
  · intro d' x hm
    exact hI.pq_key d' x (mem_pqPop hm)
  · intro v hv hnd
    have hvu : v ≠ u := fun h => hnd (by rw [h]; exact Finset.mem_insert_self _ _)
    have hnd2 : v ∉ done := fun h => hnd (Finset.mem_insert_of_mem h)
    refine mem_pqPop_of_ne htop (hI.pq_has v hv hnd2) ?_
    intro heq
    simp only [Prod.mk.injEq] at heq
    exact hvu heq.2
  · intro x hx
    rcases Finset.mem_insert.mp hx with rfl | hx
    · exact ⟨hk3, hd⟩
    · exact hI.done_range x hx
  · intro x hx e he
    by_cases hxu : x = u
    · subst hxu
      simp only [Function.update_same, List.not_mem_nil] at he
    · rw [Function.update_noteq hxu] at he
      rcases Finset.mem_insert.mp hx with h | hx
      · exact absurd h hxu
      · exact hI.done_edge x hx e he
  · intro x hx d' y hm
    have hm2 := mem_pqPop hm
    exact le_trans (hle x hx) (hmin (d', y) hm2)

theorem relax_inv {adj rel : Graph} {src N : Nat} {isDest : Nat → Bool} {st : DState}
    {done : Finset Nat} {rank : Nat → Nat} {u : Nat} {d : ℚ} {e : Nat × ℚ}
    (hI : Inv adj rel src isDest N st done rank) (hu : u ∈ done) (hdu : st.dist u = d)
    (hle : ∀ x ∈ done, st.dist x ≤ d) (he : e ∈ adj u) (hw : 0 ≤ e.2) (hN : e.1 < N) :
    ∃ rank2, Inv adj (Function.update rel u (rel u ++ [e])) src isDest N (relax u d st e) done
      rank2 ∧ (relax u d st e).dist u = d ∧ ∀ x ∈ done, (relax u d st e).dist x ≤ d := by
  unfold relax
  by_cases hc : d + e.2 < st.dist e.1
  · rw [if_pos hc]
    have hd0 : 0 ≤ d := hdu ▸ hI.dist_nonneg u
    have hvd : e.1 ∉ done := by
      intro h
      have := hle _ h
      linarith
    have hvu : u ≠ e.1 := fun h => hvd (by rw [← h]; exact hu)
    have hvs : src ≠ e.1 := by
      intro h
      have := hI.dist_src
      rw [h] at this
      linarith
    have hdone : ∀ x ∈ done, Function.update st.dist e.1 (d + e.2) x = st.dist x := by
      intro x hx
      exact Function.update_noteq (fun h => hvd (by rw [← h]; exact hx)) _ _
    have hmono : ∀ x, Function.update st.dist e.1 (d + e.2) x ≤ st.dist x := by
      intro x
      by_cases hx : x = e.1
      · rw [hx, Function.update_same]; exact le_of_lt hc
      · rw [Function.update_noteq hx]
    refine ⟨Function.update rank e.1 (rank u + 1),
      ⟨⟨?_, ?_, ?_, ?_, ?_, ?_⟩, ?_, ?_, hI.done_range, ?_, ?_⟩, ?_, ?_⟩
    · show Function.update st.dist e.1 (d + e.2) src = 0
      rw [Function.update_noteq hvs]; exact hI.dist_src
    · show Function.update st.prev e.1 (u : Int) src = -1
      rw [Function.update_noteq hvs]; exact hI.prev_src
    · intro x
      show 0 ≤ Function.update st.dist e.1 (d + e.2) x
      by_cases hx : x = e.1
      · rw [hx, Function.update_same]; linarith
      · rw [Function.update_noteq hx]; exact hI.dist_nonneg x
    · intro x
      exact le_trans (hmono x) (hI.dist_le x)
    · intro x hx
      show Function.update st.dist e.1 (d + e.2) x < DBL_MAX
      rw [hdone x hx]; exact hI.done_lt x hx
    · intro x hx hne
      change Function.update st.dist e.1 (d + e.2) x < DBL_MAX at hx
      show ∃ (u0 : Nat) (w : ℚ), Function.update st.prev e.1 (u : Int) x = (u0 : Int) ∧ u0 ∈ done ∧
        (x, w) ∈ adj u0 ∧ Function.update st.dist e.1 (d + e.2) x =
          Function.update st.dist e.1 (d + e.2) u0 + w ∧
        Function.update rank e.1 (rank u + 1) u0 < Function.update rank e.1 (rank u + 1) x
      by_cases hxv : x = e.1
      · refine ⟨u, e.2, ?_, hu, ?_, ?_, ?_⟩
        · rw [hxv, Function.update_same]
        · rw [hxv]; exact he
        · rw [hxv, Function.update_same, Function.update_noteq hvu, hdu]
        · rw [hxv, Function.update_same, Function.update_noteq hvu]; exact Nat.lt_succ_self _
      · rw [Function.update_noteq hxv] at hx
        obtain ⟨u0, w0, h1, h2, h3, h4, h5⟩ := hI.tree x hx hne
        have hu0 : u0 ≠ e.1 := fun h => hvd (by rw [← h]; exact h2)
        refine ⟨u0, w0, ?_, h2, h3, ?_, ?_⟩
        · rw [Function.update_noteq hxv]; exact h1
        · rw [Function.update_noteq hxv, Function.update_noteq hu0]; exact h4
        · rw [Function.update_noteq hxv, Function.update_noteq hu0]; exact h5
    · intro d' x hm
      show Function.update st.dist e.1 (d + e.2) x ≤ d' ∧ d' < DBL_MAX ∧ x < N
      simp only [pqPush, List.mem_cons, Prod.mk.injEq] at hm
      rcases hm with ⟨rfl, rfl⟩ | hm
      · rw [Function.update_same]
        exact ⟨le_refl _, lt_of_lt_of_le hc (hI.dist_le _), hN⟩
      · obtain ⟨k1, k2, k3⟩ := hI.pq_key d' x hm
        exact ⟨le_trans (hmono x) k1, k2, k3⟩
    · intro x hx hnd
      change Function.update st.dist e.1 (d + e.2) x < DBL_MAX at hx
      show (Function.update st.dist e.1 (d + e.2) x, x) ∈ pqPush st.pq (d + e.2, e.1)
      by_cases hxv : x = e.1
      · rw [hxv, Function.update_same]
        exact List.mem_cons_self _ _
      · rw [Function.update_noteq hxv] at hx ⊢
        exact List.mem_cons_of_mem _ (hI.pq_has x hx hnd)
    · intro x hx e' he'
      show Function.update st.dist e.1 (d + e.2) e'.1 ≤
        Function.update st.dist e.1 (d + e.2) x + e'.2
      rw [hdone x hx]
      by_cases hxu : x = u
      · subst hxu
        rw [Function.update_same, List.mem_append, List.mem_singleton] at he'
        rcases he' with he' | rfl
        · exact le_trans (hmono _) (hI.done_edge x hx e' he')
        · rw [Function.update_same, hdu]
      · rw [Function.update_noteq hxu] at he'
        exact le_trans (hmono _) (hI.done_edge x hx e' he')
    · intro x hx d' y hm
      show Function.update st.dist e.1 (d + e.2) x ≤ d'
      rw [hdone x hx]
      simp only [pqPush, List.mem_cons, Prod.mk.injEq] at hm
      rcases hm with ⟨rfl, _⟩ | hm
      · have := hle x hx
        linarith
      · exact hI.done_pq x hx d' y hm
    · show Function.update st.dist e.1 (d + e.2) u = d
      rw [Function.update_noteq hvu]; exact hdu
    · intro x hx
      show Function.update st.dist e.1 (d + e.2) x ≤ d
      rw [hdone x hx]; exact hle x hx
  · rw [if_neg hc]
    refine ⟨rank, ⟨hI.toTreeInv, hI.pq_key, hI.pq_has, hI.done_range, ?_, hI.done_pq⟩, hdu, hle⟩
    intro x hx e' he'
    by_cases hxu : x = u
    · subst hxu
      rw [Function.update_same, List.mem_append, List.mem_singleton] at he'
      rcases he' with he' | rfl
      · exact hI.done_edge x hx e' he'
      · rw [hdu]; exact not_lt.mp hc
    · rw [Function.update_noteq hxu] at he'
      exact hI.done_edge x hx e' he'

theorem foldl_relax_inv {adj : Graph} {src N : Nat} {isDest : Nat → Bool} {done : Finset Nat}
    {u : Nat} {d : ℚ} (live : Bool) (hnn : NonnegWeights adj) (hrng : InRange adj N)
    (hu : u ∈ done) (huN : u < N) (es : List (Nat × ℚ)) (hes : ∀ e ∈ es, e ∈ adj u) (rel : Graph)
    (st : DState) (rank : Nat → Nat) (hI : Inv adj rel src isDest N st done rank)
    (hdu : st.dist u = d) (hle : ∀ x ∈ done, st.dist x ≤ d) :
    ∃ rank2, Inv adj (Function.update rel u (rel u ++ es)) src isDest N
      (es.foldl (fun s e => relax u (if live then s.dist u else d) s e) st) done rank2 := by
  induction es generalizing rel st rank with
  | nil =>
    refine ⟨rank, ?_⟩
    simpa using hI
  | cons e es ih =>
    have he := hes e (List.mem_cons_self _ _)
    obtain ⟨rank1, h1, h2, h3⟩ := relax_inv hI hu hdu hle he (hnn _ _ he) (hrng u huN _ he)
    have hbase : (if live then st.dist u else d) = d := by
      cases live
      · rfl
      · simp [hdu]
    simp only [List.foldl_cons, hbase]
    obtain ⟨rank2, h4⟩ := ih (fun x hx => hes x (List.mem_cons_of_mem _ hx)) _ _ rank1 h1 h2 h3
    refine ⟨rank2, ?_⟩
    simpa using h4

theorem foldl_relax_length (u : Nat) (base : DState → ℚ) (es : List (Nat × ℚ)) (st : DState) :
    (es.foldl (fun s e => relax u (base s) s e) st).pq.length ≤ st.pq.length + es.length := by
  induction es generalizing st with
  | nil => simp
  | cons e es ih =>
    simp only [List.foldl_cons, List.length_cons]
    refine le_trans (ih _) ?_
    have : (relax u (base st) st e).pq.length ≤ st.pq.length + 1 := by
      unfold relax
      split
      · simp [pqPush]
      · omega
    omega

theorem foldl_relax_id (u : Nat) (base : DState → ℚ) (es : List (Nat × ℚ)) (st : DState)
    (h : ∀ e ∈ es, st.dist e.1 ≤ base st + e.2) :
    es.foldl (fun s e => relax u (base s) s e) st = st := by
  induction es with
  | nil => rfl
  | cons e es ih =>
    have h1 : relax u (base st) st e = st := by
      unfold relax
      rw [if_neg (not_lt.mpr (h e (List.mem_cons_self _ _)))]
    simp only [List.foldl_cons, h1]
    exact ih (fun x hx => h x (List.mem_cons_of_mem _ hx))

theorem potential_insert (adj : Graph) (N : Nat) (done : Finset Nat) (u : Nat) (hu : u < N)
    (hnd : u ∉ done) :
    Finset.sum (Finset.range N \ insert u done) (fun x => (adj x).length) + (adj u).length
      = Finset.sum (Finset.range N \ done) (fun x => (adj x).length) := by
  have hmem : u ∈ Finset.range N \ done :=
    Finset.mem_sdiff.mpr ⟨Finset.mem_range.mpr hu, hnd⟩
  rw [Finset.sdiff_insert, add_comm]
  exact Finset.add_sum_erase _ (fun x => (adj x).length) hmem

theorem Inv.post_empty {adj : Graph} {src N : Nat} {isDest : Nat → Bool} {st : DState}
    {done : Finset Nat} {rank : Nat → Nat} (hI : Inv adj adj src isDest N st done rank)
    (hnn : NonnegWeights adj) (hq : st.pq = []) : Post adj src isDest st none := by
  have hall : ∀ x p W, RPath adj src (x :: p) W → st.dist x ≤ W := by
    intro x p W hp
    rcases hI.path_bound hnn hp x p rfl with h | ⟨d, y, hm, _⟩
    · exact h
    · rw [hq] at hm; simp at hm
  refine ⟨⟨done, rank, hI.toTreeInv⟩, ?_, ?_, fun _ => hall, ?_⟩
  · intro d u h; simp at h
  · intro d u h; simp at h
  · intro _ x hx
    by_contra hne
    have hlt : st.dist x < DBL_MAX := lt_of_le_of_ne (hI.dist_le x) hne
    by_cases hd : x ∈ done
    · have := (hI.done_range x hd).2
      rw [hx] at this; simp at this
    · have := hI.pq_has x hlt hd
      rw [hq] at this; simp at this

theorem Inv.post_dest {adj : Graph} {src N : Nat} {isDest : Nat → Bool} {st : DState}
    {done : Finset Nat} {rank : Nat → Nat} (hI : Inv adj adj src isDest N st done rank)
    (hnn : NonnegWeights adj) {d : ℚ} {u : Nat} (htop : pqTop st.pq = some (d, u))
    (hs : ¬ d > st.dist u) (hd : isDest u = true) :
    Post adj src isDest { st with pq := pqPop st.pq } (some (d, u)) := by
  obtain ⟨hmem, hmin⟩ := pqTop_some htop
  obtain ⟨hk1, hk2, _⟩ := hI.pq_key d u hmem
  have hdu : st.dist u = d := le_antisymm hk1 (not_lt.mp hs)
  refine ⟨⟨done, rank, ⟨hI.dist_src, hI.prev_src, hI.dist_nonneg, hI.dist_le, hI.done_lt,
    hI.tree⟩⟩, ?_, ?_, ?_, ?_⟩
  · intro d' u' h
    simp only [Option.some.injEq, Prod.mk.injEq] at h
    rw [← h.1, ← h.2]
    exact ⟨hd, hdu, hk2⟩
  · intro d' u' h x p W hx hp
    simp only [Option.some.injEq, Prod.mk.injEq] at h
    rw [← h.1]
    rcases hI.path_bound hnn hp x p rfl with h1 | ⟨d2, y, hm, h2⟩
    · by_cases hW : W < DBL_MAX
      · have hxd : x ∉ done := by
          intro hxd
          have := (hI.done_range x hxd).2
          rw [hx] at this; simp at this
        have := hmin _ (hI.pq_has x (lt_of_le_of_lt h1 hW) hxd)
        simp only at this
        linarith
      · have := not_lt.mp hW
        linarith
    · have := hmin _ hm
      simp only at this
      linarith
  · intro h; simp at h
  · intro h; simp at h

/-- Total correctness of the search loop for non-negative weights. -/
theorem searchLoop_total {adj : Graph} {src N : Nat} {isDest : Nat → Bool} (live : Bool)
    (hnn : NonnegWeights adj) (hrng : InRange adj N) (fuel : Nat) (st : DState)
    (done : Finset Nat) (rank : Nat → Nat) (hI : Inv adj adj src isDest N st done rank)
    (hfuel : potential adj N st done < fuel) :
    ∃ r, searchLoop adj isDest live fuel st = some r ∧ Post adj src isDest r.1 r.2 := by
  induction fuel generalizing st done rank with
  | zero => omega
  | succ fuel ih =>
    unfold searchLoop
    cases htop : pqTop st.pq with
    | none =>
      exact ⟨(st, none), rfl, hI.post_empty hnn (pqTop_none htop)⟩
    | some m =>
      obtain ⟨d, u⟩ := m
      have hlen := pqPop_length htop
      simp only
      by_cases hs : d > st.dist u
      · rw [if_pos hs]
        refine ih _ done rank (hI.pop_stale htop hs) ?_
        unfold potential at hfuel ⊢
        simp only
        omega
      · rw [if_neg hs]
        by_cases hd : isDest u = true
        · rw [if_pos hd]
          exact ⟨_, rfl, hI.post_dest hnn htop hs hd⟩
        · rw [if_neg hd]
          have hd2 : isDest u = false := by simpa using hd
          obtain ⟨h1, h2, h3⟩ := hI.pop_settle htop hs hd2
          obtain ⟨rank2, h4⟩ := foldl_relax_inv live hnn hrng (Finset.mem_insert_self u done)
            (h1.done_range u (Finset.mem_insert_self u done)).1
            (adj u) (fun _ h => h) _ _ rank h1 h2 h3
          have hrel : Function.update (Function.update adj u []) u
              ((Function.update adj u []) u ++ adj u) = adj := by
            funext x
            by_cases hx : x = u
            · rw [hx]; simp
            · simp [Function.update_noteq hx]
          rw [hrel] at h4
          refine ih _ (insert u done) rank2 h4 ?_
          by_cases hud : u ∈ done
          · have hid := foldl_relax_id u (fun s => if live then s.dist u else d) (adj u)
              { st with pq := pqPop st.pq } (by
                intro e he
                have hb : (if live then st.dist u else d) = d := by
                  cases live
                  · rfl
                  · simp [h2]
                show st.dist e.1 ≤ (if live then st.dist u else d) + e.2
                rw [hb, ← h2]
                exact hI.done_edge u hud e he)
            rw [hid, Finset.insert_eq_of_mem hud]
            unfold potential at hfuel ⊢
            simp only
            omega
          · have hlen2 := foldl_relax_length u (fun s => if live then s.dist u else d) (adj u)
              { st with pq := pqPop st.pq }
            have hsum := potential_insert adj N done u (hI.pq_key d u (pqTop_some htop).1).2.2 hud
            unfold potential at hfuel ⊢
            simp only at hlen2 ⊢
            omega

theorem initState_inv (adj : Graph) (src N : Nat) (isDest : Nat → Bool) (hsrc : src < N) :
    Inv adj adj src isDest N (initState src) ∅ (fun _ => 0) := by
  have hd : ∀ v, v ≠ src → (initState src).dist v = DBL_MAX := by
    intro v hv
    simp only [initState, Function.update_noteq hv]
  have hs : (initState src).dist src = 0 := by
    simp only [initState, Function.update_same]
  refine ⟨⟨hs, rfl, ?_, ?_, ?_, ?_⟩, ?_, ?_, ?_, ?_, ?_⟩
  · intro v
    by_cases hv : v = src
    · rw [hv, hs]
    · rw [hd v hv]; exact le_of_lt DBL_MAX_pos
  · intro v
    by_cases hv : v = src
    · rw [hv, hs]; exact le_of_lt DBL_MAX_pos
    · rw [hd v hv]
  · intro u hu; simp at hu
  · intro v hv hne
    rw [hd v hne] at hv
    exact absurd hv (lt_irrefl _)
  · intro d x hm
    simp only [initState, List.mem_singleton, Prod.mk.injEq] at hm
    rw [hm.1, hm.2, hs]
    exact ⟨le_refl _, DBL_MAX_pos, hsrc⟩
  · intro v hv _
    by_cases hvs : v = src
    · rw [hvs, hs]; simp [initState]
    · rw [hd v hvs] at hv
      exact absurd hv (lt_irrefl _)
  · intro u hu; simp at hu
  · intro u hu; simp at hu
  · intro u hu; simp at hu

theorem searchLoop_mono (adj : Graph) (isDest : Nat → Bool) (live : Bool) (fuel : Nat)
    (st : DState) (r : DState × Option (ℚ × Nat))
    (h : searchLoop adj isDest live fuel st = some r) (k : Nat) :
    searchLoop adj isDest live (fuel + k) st = some r := by
  induction fuel generalizing st with
  | zero => simp [searchLoop] at h
  | succ fuel ih =>
    rw [Nat.add_right_comm]
    unfold searchLoop at h ⊢
    cases htop : pqTop st.pq with
    | none => simpa [htop] using h
    | some m =>
      obtain ⟨d, u⟩ := m
      simp only [htop] at h ⊢
      by_cases hs : d > st.dist u
      · rw [if_pos hs] at h ⊢
        exact ih _ h
      · rw [if_neg hs] at h ⊢
        by_cases hd : isDest u = true
        · rw [if_pos hd] at h ⊢
          exact h
        · rw [if_neg hd] at h ⊢
          exact ih _ h

/-- The search from `src` returns for every fuel above the number of edges plus one,
with the same result, and that result satisfies `Post`. -/
theorem search_correct (adj : Graph) (src N : Nat) (isDest : Nat → Bool) (live : Bool)
    (hnn : NonnegWeights adj) (hrng : InRange adj N) (hsrc : src < N) :
    ∃ r, Post adj src isDest r.1 r.2 ∧ ∀ fuel,
      1 + Finset.sum (Finset.range N) (fun x => (adj x).length) < fuel →
      searchLoop adj isDest live fuel (initState src) = some r := by
  have hpot : potential adj N (initState src) ∅ =
      1 + Finset.sum (Finset.range N) (fun x => (adj x).length) := by
    simp [potential, initState]
  obtain ⟨r, hr, hpost⟩ := searchLoop_total live hnn hrng _ (initState src) ∅ (fun _ => 0)
    (initState_inv adj src N isDest hsrc) (Nat.lt_succ_self _)
  refine ⟨r, hpost, ?_⟩
  intro fuel hfuel
  rw [hpot] at hr
  obtain ⟨k, hk⟩ := Nat.exists_eq_add_of_le (Nat.succ_le_of_lt hfuel)
  rw [hk]
  exact searchLoop_mono adj isDest live _ _ r hr k

theorem walkBack_tree {adj : Graph} {src : Nat} {st : DState} {done : Finset Nat}
    {rank : Nat → Nat} (hT : TreeInv adj src st done rank) (v : Nat)
    (hv : st.dist v < DBL_MAX) :
    ∃ p, RPath adj src (v :: p) (st.dist v) ∧ ∀ fuel acc, rank v + 2 ≤ fuel →
      walkBack st.prev fuel (v : Int) acc = some (acc ++ (v :: p)) := by
  have key : ∀ n v, rank v = n → st.dist v < DBL_MAX →
      ∃ p, RPath adj src (v :: p) (st.dist v) ∧ ∀ fuel acc, rank v + 2 ≤ fuel →
        walkBack st.prev fuel (v : Int) acc = some (acc ++ (v :: p)) := by
    intro n
    induction n using Nat.strong_induction_on with
    | _ n ih =>
      intro v hn hv
      have hne : ((v : Int) = -1) = False := by
        simp only [eq_iff_iff, iff_false]; omega
      by_cases hvs : v = src
      · subst hvs
        refine ⟨[], ?_, ?_⟩
        · rw [hT.dist_src]; exact RPath.base
        · intro fuel acc hfuel
          obtain ⟨k, rfl⟩ : ∃ k, fuel = k + 2 := ⟨fuel - 2, by omega⟩
          unfold walkBack
          simp only [hne, if_false, Int.toNat_ofNat, hT.prev_src]
          unfold walkBack
          simp
      · obtain ⟨u, w, h1, h2, h3, h4, h5⟩ := hT.tree v hv hvs
        obtain ⟨p, hp1, hp2⟩ := ih (rank u) (hn ▸ h5) u rfl (hT.done_lt u h2)
        refine ⟨u :: p, ?_, ?_⟩
        · rw [h4]; exact RPath.step hp1 h3
        · intro fuel acc hfuel
          obtain ⟨k, rfl⟩ : ∃ k, fuel = k + 1 := ⟨fuel - 1, by omega⟩
          unfold walkBack
          simp only [hne, if_false, Int.toNat_ofNat, h1]
          rw [hp2 k (acc ++ [v]) (by omega)]
          simp
  exact key _ v rfl hv

/-! ## Facts about `buildGraphs` -/

theorem mem_pushBack (g : Graph) (u : Nat) (x e : Nat × ℚ) (y : Nat) :
    e ∈ (g.pushBack u x) y ↔ e ∈ g y ∨ (y = u ∧ e = x) := by
  unfold Graph.pushBack
  by_cases h : y = u
  · subst h
    simp
  · simp [Function.update_noteq h, h]

theorem range_filterMap_getElem {α : Type} (l : List α) :
    (List.range l.length).filterMap (fun i => l[i]?) = l := by
  induction l using List.reverseRecOn with
  | nil => rfl
  | append_singleton l a ih =>
    rw [List.length_append, List.length_singleton, List.range_succ, List.filterMap_append]
    have h1 : List.filterMap (fun i => (l ++ [a])[i]?) (List.range l.length) =
        List.filterMap (fun i => l[i]?) (List.range l.length) := by
      apply List.filterMap_congr
      intro i hi
      rw [List.mem_range] at hi
      exact List.getElem?_append_left hi
    rw [h1, ih]
    simp

theorem fillNodeIndexMap_some (l : List SNode) (i : Nat) (m : TNodeID → Option Nat)
    (id : TNodeID) (j : Nat) (h : fillNodeIndexMap l i m id = some j) :
    m id = some j ∨ (i ≤ j ∧ j < i + l.length ∧ ∃ n, l[j - i]? = some n ∧ n.ID = id) := by
  induction l generalizing i m with
  | nil => left; exact h
  | cons n rest ih =>
    simp only [fillNodeIndexMap] at h
    rcases ih (i + 1) _ h with h1 | ⟨h1, h2, n2, h3, h4⟩
    · by_cases hid : id = n.ID
      · right
        rw [hid, Function.update_same, Option.some.injEq] at h1
        subst h1
        refine ⟨le_refl _, by simp, n, by simp, hid.symm⟩
      · left
        rw [Function.update_noteq hid] at h1
        exact h1
    · right
      refine ⟨by omega, by simp only [List.length_cons]; omega, n2, ?_, h4⟩
      have : j - i = (j - (i + 1)) + 1 := by omega
      rw [this, List.getElem?_cons_succ]
      exact h3

theorem nodeIndexMap_some (deps : Deps) (cfg : SConfiguration) (id : TNodeID) (j : Nat)
    (h : (SImplementation.create deps cfg).nodeIndexMap id = some j) :
    j < (SImplementation.create deps cfg).sortedNodes.length ∧
      idAt (SImplementation.create deps cfg).sortedNodes j = id := by
  have := fillNodeIndexMap_some (buildSortedNodes cfg.StreetMap) 0 (fun _ => none) id j h
  rcases this with h1 | ⟨_, h2, n, h3, h4⟩
  · simp at h1
  · refine ⟨by simpa [SImplementation.create, buildGraphs] using h2, ?_⟩
    simp only [Nat.sub_zero] at h3
    simp only [SImplementation.create, buildGraphs, idAt, h3, h4]

theorem addPair_drivingEdges (deps : Deps) (cfg : SConfiguration) (sortedNodes : List SNode)
    (nodeIndexMap : TNodeID → Option Nat) (way : SWay) (hway : way ∈ cfg.StreetMap.Ways)
    (bike : Bool) (G : Graphs) (id1 id2 : TNodeID)
    (hG : DrivingEdges deps cfg nodeIndexMap G) :
    DrivingEdges deps cfg nodeIndexMap (addPair deps cfg sortedNodes nodeIndexMap
      (wayOneWay way) bike (wayEffectiveSpeed deps cfg way) G id1 id2) := by
  unfold addPair
  cases h1 : nodeIndexMap id1 with
  | none => exact hG
  | some idx1 =>
    cases h2 : nodeIndexMap id2 with
    | none => exact hG
    | some idx2 =>
      simp only
      generalize hd : deps.Haversine (locationAt sortedNodes idx1) (locationAt sortedNodes idx2)
        = d
      intro u e he
      have hwalk : ∀ x y w, (y, w) ∈ G.graphWalking x → (y, w) ∈
          ((G.graphWalking.pushBack idx1 (idx2, d / cfg.WalkSpeed)).pushBack idx2
            (idx1, d / cfg.WalkSpeed)) x := by
        intro x y w h
        rw [mem_pushBack, mem_pushBack]
        exact Or.inl (Or.inl h)
      cases hO : wayOneWay way with
      | true =>
        simp only [hO, if_true] at he ⊢
        rw [mem_pushBack] at he
        rcases he with he | ⟨rfl, rfl⟩
        · obtain ⟨a1, a2, ⟨w, a3⟩, way2, p, q, a4, a5, a6⟩ := hG u e he
          refine ⟨a1, a2, ⟨w, hwalk _ _ _ a3⟩, way2, p, q, a4, a5, ?_⟩
          intro h
          rw [mem_pushBack]
          exact Or.inl (a6 h)
        · refine ⟨⟨id1, h1⟩, ⟨id2, h2⟩, ⟨d / cfg.WalkSpeed, ?_⟩, way, _, _, hway,
            by rw [hd], ?_⟩
          · rw [mem_pushBack, mem_pushBack]
            exact Or.inl (Or.inr ⟨rfl, rfl⟩)
          · intro h; rw [hO] at h; exact absurd h (by simp)
      | false =>
        simp only [hO, Bool.false_eq_true, if_false] at he ⊢
        rw [mem_pushBack, mem_pushBack] at he
        rcases he with (he | ⟨rfl, rfl⟩) | ⟨rfl, rfl⟩
        · obtain ⟨a1, a2, ⟨w, a3⟩, way2, p, q, a4, a5, a6⟩ := hG u e he
          refine ⟨a1, a2, ⟨w, hwalk _ _ _ a3⟩, way2, p, q, a4, a5, ?_⟩
          intro h
          rw [mem_pushBack, mem_pushBack]
          exact Or.inl (Or.inl (a6 h))
        · refine ⟨⟨id1, h1⟩, ⟨id2, h2⟩, ⟨d / cfg.WalkSpeed, ?_⟩, way, _, _, hway,
            by rw [hd], ?_⟩
          · rw [mem_pushBack, mem_pushBack]
            exact Or.inl (Or.inr ⟨rfl, rfl⟩)
          · intro _
            rw [mem_pushBack, mem_pushBack]
            exact Or.inr ⟨rfl, rfl⟩
        · refine ⟨⟨id2, h2⟩, ⟨id1, h1⟩, ⟨d / cfg.WalkSpeed, ?_⟩, way, _, _, hway,
            by rw [hd], ?_⟩
          · rw [mem_pushBack, mem_pushBack]
            exact Or.inr ⟨rfl, rfl⟩
          · intro _
            rw [mem_pushBack, mem_pushBack]
            exact Or.inl (Or.inr ⟨rfl, rfl⟩)

theorem foldl_preserves {α β : Type} (P : β → Prop) (f : β → α → β) (l : List α)
    (hf : ∀ b a, a ∈ l → P b → P (f b a)) (b : β) (hb : P b) : P (l.foldl f b) := by
  induction l generalizing b with
  | nil => exact hb
  | cons a l ih =>
    simp only [List.foldl_cons]
    exact ih (fun b x hx => hf b x (List.mem_cons_of_mem _ hx)) _
      (hf b a (List.mem_cons_self _ _) hb)

theorem create_drivingEdges (deps : Deps) (cfg : SConfiguration) :
    DrivingEdges deps cfg (SImplementation.create deps cfg).nodeIndexMap
      { graphDriving := (SImplementation.create deps cfg).graphDriving
        graphWalking := (SImplementation.create deps cfg).graphWalking
        graphBiking := (SImplementation.create deps cfg).graphBiking } := by
  simp only [SImplementation.create, buildGraphs]
  apply foldl_preserves (DrivingEdges deps cfg _)
  · intro G way hway hG
    unfold addWay
    apply foldl_preserves (DrivingEdges deps cfg _)
    · intro G2 j _ hG2
      refine addPair_drivingEdges deps cfg _ _ way ?_ _ G2 _ _ hG2
      rw [List.mem_filterMap] at hway
      obtain ⟨i, _, hi⟩ := hway
      exact List.getElem?_mem hi
    · exact hG
  · intro u e he
    simp at he

theorem fillNodeIndexMap_none (l : List SNode) (i : Nat) (m : TNodeID → Option Nat)
    (id : TNodeID) (hl : ∀ n, n ∈ l → n.ID ≠ id) (hm : m id = none) :
    fillNodeIndexMap l i m id = none := by
  induction l generalizing i m with
  | nil => exact hm
  | cons n rest ih =>
    simp only [fillNodeIndexMap]
    apply ih
    · exact fun x hx => hl x (List.mem_cons_of_mem _ hx)
    · rw [Function.update_noteq (fun h => hl n (List.mem_cons_self _ _) h.symm)]
      exact hm

theorem nodeIndexMap_none (deps : Deps) (cfg : SConfiguration) (id : TNodeID)
    (h : ∀ n, n ∈ cfg.StreetMap.Nodes → n.ID ≠ id) :
    (SImplementation.create deps cfg).nodeIndexMap id = none := by
  simp only [SImplementation.create, buildGraphs]
  apply fillNodeIndexMap_none _ _ _ _ _ rfl
  intro n hn
  apply h
  unfold buildSortedNodes at hn
  have h1 := (List.perm_insertionSort (fun a b : SNode => a.ID ≤ b.ID) _).mem_iff.mp hn
  rw [List.mem_filterMap] at h1
  obtain ⟨i, _, hi⟩ := h1
  exact List.getElem?_mem hi

/-! ## `dijkstraDriving` and `FindShortestPath` through the search core -/

theorem relaxDriving_eq (u : Nat) (st : DState) (e : Nat × ℚ) :
    relaxDriving u st e = relax u (st.dist u) st e := by
  unfold relaxDriving relax
  by_cases h : st.dist u + e.2 < st.dist e.1
  · simp only [h, if_true, Function.update_same]
  · simp only [h, if_false]

theorem dijkstraDrivingLoop_eq (g : Graph) (dest : Nat) (fuel : Nat) (st : DState) :
    dijkstraDrivingLoop g dest fuel st =
      (searchLoop g (fun x => decide (x = dest)) true fuel st).map Prod.fst := by
  induction fuel generalizing st with
  | zero => rfl
  | succ fuel ih =>
    unfold dijkstraDrivingLoop searchLoop
    cases htop : pqTop st.pq with
    | none => rfl
    | some m =>
      obtain ⟨d, u⟩ := m
      simp only
      by_cases hs : d > st.dist u
      · rw [if_pos hs, if_pos hs]; exact ih _
      · rw [if_neg hs, if_neg hs]
        by_cases hd : u = dest
        · simp [hd]
        · have hfold : List.foldl (relaxDriving u) { st with pq := pqPop st.pq } (g u) =
              List.foldl (fun s e => relax u (if true = true then s.dist u else d) s e)
                { st with pq := pqPop st.pq } (g u) := by
            congr 1
            funext s e
            simp only [if_true]
            exact relaxDriving_eq u s e
          simp only [hd, if_false, decide_False, Bool.false_eq_true]
          rw [hfold]
          exact ih _

theorem walkBack_mono (prev : Nat → Int) (fuel : Nat) (cur : Int) (acc r : List Nat)
    (h : walkBack prev fuel cur acc = some r) (k : Nat) :
    walkBack prev (fuel + k) cur acc = some r := by
  induction fuel generalizing cur acc with
  | zero => simp [walkBack] at h
  | succ fuel ih =>
    rw [Nat.add_right_comm]
    unfold walkBack at h ⊢
    by_cases hc : cur = -1
    · rw [if_pos hc] at h ⊢; exact h
    · rw [if_neg hc] at h ⊢; exact ih _ _ h

theorem dijkstraDriving_mono (S : SImplementation) (fuel : Nat) (a b : TNodeID)
    (pin : List Nat) (r : ℚ × List Nat) (h : dijkstraDriving S fuel a b pin = some r) (k : Nat) :
    dijkstraDriving S (fuel + k) a b pin = some r := by
  unfold dijkstraDriving at h ⊢
  cases hs : S.nodeIndexMap a with
  | none => simpa [hs] using h
  | some s =>
    cases ht : S.nodeIndexMap b with
    | none => simpa [hs, ht] using h
    | some t =>
      simp only [hs, ht] at h ⊢
      rw [dijkstraDrivingLoop_eq] at h ⊢
      cases hl : searchLoop S.graphDriving (fun x => decide (x = t)) true fuel
          { dist := Function.update (fun _ => DBL_MAX) s 0, prev := fun _ => -1, pq := [(0, s)] }
        with
      | none => simp [hl] at h
      | some res =>
        rw [searchLoop_mono _ _ _ _ _ res hl k]
        simp only [hl, Option.map_some'] at h ⊢
        by_cases hm : res.1.dist t = DBL_MAX
        · simpa [hm] using h
        · simp only [hm, if_false] at h ⊢
          cases hw : walkBack res.1.prev fuel (t : Int) [] with
          | none => simp [hw] at h
          | some rev =>
            rw [walkBack_mono _ _ _ _ _ hw k]
            simpa [hw] using h

theorem FindShortestPath_mono (S : SImplementation) (fuel : Nat) (a b : TNodeID)
    (pin : List TNodeID) (r : ℚ × List TNodeID)
    (h : S.FindShortestPath fuel a b pin = some r) (k : Nat) :
    S.FindShortestPath (fuel + k) a b pin = some r := by
  unfold SImplementation.FindShortestPath at h ⊢
  cases hd : dijkstraDriving S fuel a b [] with
  | none => simp [hd] at h
  | some res =>
    rw [dijkstraDriving_mono S fuel a b [] res hd k]
    simpa [hd] using h

/-- Total correctness of `FindShortestPath` over a driving graph with non-negative
weights and in-range edges. -/
theorem FindShortestPath_total (S : SImplementation) (hnn : NonnegWeights S.graphDriving)
    (hrng : InRange S.graphDriving S.sortedNodes.length) (a b : TNodeID) (s t : Nat)
    (hs : S.nodeIndexMap a = some s) (ht : S.nodeIndexMap b = some t)
    (hsN : s < S.sortedNodes.length) :
    ∃ cost idxs n, cost ≤ DBL_MAX ∧
      (∀ p W, RPath S.graphDriving s (t :: p) W → cost ≤ W) ∧
      (cost < DBL_MAX → ∃ p, RPath S.graphDriving s (t :: p) cost ∧ idxs = (t :: p).reverse) ∧
      ∀ fuel, n ≤ fuel → ∀ pin, S.FindShortestPath fuel a b pin =
        some (cost, if cost < DBL_MAX then idxs.map (idAt S.sortedNodes) else pin) := by
  obtain ⟨r, hpost, hrun⟩ := search_correct S.graphDriving s S.sortedNodes.length
    (fun x => decide (x = t)) true hnn hrng hsN
  obtain ⟨done, rank, hT⟩ := hpost.tree
  have hleast : ∀ p W, RPath S.graphDriving s (t :: p) W → r.1.dist t ≤ W := by
    intro p W hp
    cases hf : r.2 with
    | none => exact hpost.all_least hf t p W hp
    | some m =>
      obtain ⟨d, u⟩ := m
      obtain ⟨h1, h2, _⟩ := hpost.at_dest d u hf
      have hu : u = t := by simpa using h1
      rw [← hu, h2]
      exact hpost.least d u hf t p W (by simp) hp
  by_cases hfin : r.1.dist t < DBL_MAX
  · obtain ⟨p, hp1, hp2⟩ := walkBack_tree hT t hfin
    refine ⟨r.1.dist t, (t :: p).reverse,
      max (2 + Finset.sum (Finset.range S.sortedNodes.length)
        (fun x => (S.graphDriving x).length)) (rank t + 2),
      hT.dist_le t, hleast, fun _ => ⟨p, hp1, rfl⟩, ?_⟩
    intro fuel hfuel pin
    have h1 := hrun fuel (by omega)
    have h2 := hp2 fuel [] (by omega)
    unfold SImplementation.FindShortestPath dijkstraDriving
    simp only [hs, ht]
    rw [dijkstraDrivingLoop_eq]
    change searchLoop S.graphDriving (fun x => decide (x = t)) true fuel
      { dist := Function.update (fun _ => DBL_MAX) s 0, prev := fun _ => -1, pq := [(0, s)] }
      = some r at h1
    rw [h1]
    simp only [Option.map_some', ne_of_lt hfin, if_false, h2, List.nil_append, hfin, if_true]
  · have heq : r.1.dist t = DBL_MAX := le_antisymm (hT.dist_le t) (not_lt.mp hfin)
    refine ⟨r.1.dist t, [],
      2 + Finset.sum (Finset.range S.sortedNodes.length) (fun x => (S.graphDriving x).length),
      hT.dist_le t, hleast, fun h => absurd h hfin, ?_⟩
    intro fuel hfuel pin
    have h1 := hrun fuel (by omega)
    unfold SImplementation.FindShortestPath dijkstraDriving
    simp only [hs, ht]
    rw [dijkstraDrivingLoop_eq]
    change searchLoop S.graphDriving (fun x => decide (x = t)) true fuel
      { dist := Function.update (fun _ => DBL_MAX) s 0, prev := fun _ => -1, pq := [(0, s)] }
      = some r at h1
    rw [h1]
    simp only [Option.map_some', heq, if_true, lt_irrefl, if_false]

theorem create_nonneg (deps : Deps) (cfg : SConfiguration) (hok : DrivingOK deps cfg) :
    NonnegWeights (SImplementation.create deps cfg).graphDriving := by
  intro u e he
  obtain ⟨_, _, _, way, p, q, hw, heq, _⟩ := create_drivingEdges deps cfg u e he
  rw [heq]
  exact div_nonneg (hok.1 p q) (le_of_lt (hok.2 way hw))

theorem create_inRange (deps : Deps) (cfg : SConfiguration) :
    InRange (SImplementation.create deps cfg).graphDriving
      (SImplementation.create deps cfg).sortedNodes.length := by
  intro u _ e he
  obtain ⟨_, ⟨id, hid⟩, _⟩ := create_drivingEdges deps cfg u e he
  exact (nodeIndexMap_some deps cfg id e.1 hid).1

/-! ## Paths -/

theorem RPath_getLast {adj : Graph} {src : Nat} {l : List Nat} {W : ℚ}
    (h : RPath adj src l W) : l.getLast? = some src := by
  induction h with
  | base => rfl
  | step _ _ ih => rw [List.getLast?_cons_cons]; exact ih

theorem RPath_mono {adj adj2 : Graph} {src : Nat}
    (hsub : ∀ u v w, (v, w) ∈ adj u → ∃ w2, (v, w2) ∈ adj2 u) {l : List Nat} {W : ℚ}
    (h : RPath adj src l W) : ∃ W2, RPath adj2 src l W2 := by
  induction h with
  | base => exact ⟨0, RPath.base⟩
  | step _ he ih =>
    obtain ⟨W2, h2⟩ := ih
    obtain ⟨w2, hw2⟩ := hsub _ _ _ he
    exact ⟨W2 + w2, RPath.step h2 hw2⟩

theorem RPath_prepend {adj : Graph} {u v : Nat} {w : ℚ} (he : (u, w) ∈ adj v) {l : List Nat}
    {W : ℚ} (h : RPath adj u l W) : ∀ x q, l = x :: q → ∃ q2, RPath adj v (x :: q2) (w + W) := by
  induction h with
  | base =>
    intro x q hl
    simp only [List.cons.injEq] at hl
    rw [← hl.1]
    refine ⟨[v], ?_⟩
    have := RPath.step (@RPath.base adj v) he
    rwa [zero_add, ← add_zero w] at this
  | @step y x2 p W2 w2 _ he2 ih =>
    intro x q hl
    simp only [List.cons.injEq] at hl
    obtain ⟨q2, hq2⟩ := ih y p rfl
    rw [← hl.1]
    refine ⟨y :: q2, ?_⟩
    have := RPath.step hq2 he2
    rwa [add_assoc] at this

theorem RPath_reverse {adj : Graph} (hsym : ∀ u v w, (v, w) ∈ adj u → (u, w) ∈ adj v)
    {a : Nat} {l : List Nat} {W : ℚ} (h : RPath adj a l W) :
    ∀ b p, l = b :: p → ∃ q, RPath adj b (a :: q) W := by
  induction h with
  | base =>
    intro b p hl
    simp only [List.cons.injEq] at hl
    rw [← hl.1]
    exact ⟨[], RPath.base⟩
  | @step u v p W w _ he ih =>
    intro b q hl
    simp only [List.cons.injEq] at hl
    obtain ⟨q1, hq1⟩ := ih u p rfl
    obtain ⟨q2, hq2⟩ := RPath_prepend (hsym _ _ _ he) hq1 a q1 rfl
    rw [← hl.1, add_comm]
    exact ⟨q2, hq2⟩

theorem RPath_append {adj : Graph} {a b : Nat} {p : List Nat} {W1 : ℚ}
    (h1 : RPath adj a (b :: p) W1) {l : List Nat} {W2 : ℚ} (h2 : RPath adj b l W2) :
    ∀ c q, l = c :: q → ∃ r, RPath adj a (c :: r) (W1 + W2) := by
  induction h2 with
  | base =>
    intro c q hl
    simp only [List.cons.injEq] at hl
    rw [← hl.1, add_zero]
    exact ⟨p, h1⟩
  | @step u v p2 W w _ he ih =>
    intro c q hl
    simp only [List.cons.injEq] at hl
    obtain ⟨r, hr⟩ := ih u p2 rfl
    rw [← hl.1, ← add_assoc]
    exact ⟨u :: r, RPath.step hr he⟩

theorem RPath_walkChain (deps : Deps) (cfg : SConfiguration) {s : Nat} {l : List Nat} {W : ℚ}
    (h : RPath (SImplementation.create deps cfg).graphDriving s l W) :
    List.Chain' (fun b a => WalkEdge (SImplementation.create deps cfg)
      (idAt (SImplementation.create deps cfg).sortedNodes a)
      (idAt (SImplementation.create deps cfg).sortedNodes b)) l := by
  induction h with
  | base => exact List.chain'_singleton _
  | @step u v p W w _ he ih =>
    refine List.chain'_cons.mpr ⟨?_, ih⟩
    obtain ⟨⟨idu, hu⟩, ⟨idv, hv⟩, ⟨w2, hw2⟩, _⟩ := create_drivingEdges deps cfg u (v, w) he
    refine ⟨u, v, w2, ?_, ?_, hw2⟩
    · rw [(nodeIndexMap_some deps cfg idu u hu).2]; exact hu
    · rw [(nodeIndexMap_some deps cfg idv v hv).2]; exact hv

theorem create_walk_of_drive (deps : Deps) (cfg : SConfiguration) (u v : Nat) (w : ℚ)
    (h : (v, w) ∈ (SImplementation.create deps cfg).graphDriving u) :
    ∃ w2, (v, w2) ∈ (SImplementation.create deps cfg).graphWalking u :=
  (create_drivingEdges deps cfg u (v, w) h).2.2.1

theorem create_symmetric (deps : Deps) (cfg : SConfiguration)
    (hno : ∀ way, way ∈ cfg.StreetMap.Ways → wayOneWay way = false) (u v : Nat) (w : ℚ)
    (h : (v, w) ∈ (SImplementation.create deps cfg).graphDriving u) :
    (u, w) ∈ (SImplementation.create deps cfg).graphDriving v := by
  obtain ⟨_, _, _, way, _, _, hw, _, hsym⟩ := create_drivingEdges deps cfg u (v, w) h
  exact hsym (hno way hw)

/-- A finite result of `FindShortestPath` carries a path from `src` to `dest` along
edges of `graph_walk`, whatever the weights. -/
theorem FindShortestPath_path (deps : Deps) (cfg : SConfiguration) (src dest : TNodeID)
    (fuel : Nat) (pin : List TNodeID) (cost : ℚ) (path : List TNodeID)
    (h : (SImplementation.create deps cfg).FindShortestPath fuel src dest pin = some (cost, path))
    (hfin : cost < DBL_MAX) :
    path ≠ [] ∧ path.head? = some src ∧ path.getLast? = some dest ∧
      List.Chain' (WalkEdge (SImplementation.create deps cfg)) path := by
  unfold SImplementation.FindShortestPath dijkstraDriving at h
  cases hs : (SImplementation.create deps cfg).nodeIndexMap src with
  | none =>
    simp only [hs, lt_irrefl, if_false, Option.some.injEq, Prod.mk.injEq] at h
    rw [← h.1] at hfin; exact absurd hfin (lt_irrefl _)
  | some s =>
    cases ht : (SImplementation.create deps cfg).nodeIndexMap dest with
    | none =>
      simp only [hs, ht, lt_irrefl, if_false, Option.some.injEq, Prod.mk.injEq] at h
      rw [← h.1] at hfin; exact absurd hfin (lt_irrefl _)
    | some t =>
      simp only [hs, ht] at h
      rw [dijkstraDrivingLoop_eq] at h
      cases hl : searchLoop (SImplementation.create deps cfg).graphDriving
          (fun x => decide (x = t)) true fuel (initState s) with
      | none =>
        change searchLoop _ _ true fuel { dist := _, prev := _, pq := _ } = none at hl
        simp [hl] at h
      | some res =>
        have hlink := searchLoop_link (fun x => decide (x = t)) true fuel (initState s)
          (initState_link _ s) res hl
        change searchLoop _ _ true fuel { dist := _, prev := _, pq := _ } = some res at hl
        simp only [hl, Option.map_some'] at h
        by_cases hm : res.1.dist t = DBL_MAX
        · simp only [hm, if_true, lt_irrefl, if_false, Option.some.injEq, Prod.mk.injEq] at h
          rw [← h.1] at hfin; exact absurd hfin (lt_irrefl _)
        · simp only [hm, if_false] at h
          cases hw : walkBack res.1.prev fuel (t : Int) [] with
          | none => simp [hw] at h
          | some rev =>
            have hlt : res.1.dist t < DBL_MAX := lt_of_le_of_ne (hlink.dist_le t) hm
            obtain ⟨p, W, hp1, hp2⟩ := walkBack_link hlink fuel t [] rev hlt hw
            simp only [hw, hlt, if_true, Option.some.injEq, Prod.mk.injEq] at h
            rw [List.nil_append] at hp1
            rw [← h.2, hp1]
            have hsid := (nodeIndexMap_some deps cfg src s hs).2
            have htid := (nodeIndexMap_some deps cfg dest t ht).2
            refine ⟨by simp, ?_, ?_, ?_⟩
            · rw [List.head?_map, List.head?_reverse, RPath_getLast hp2]
              simp [hsid]
            · rw [List.getLast?_map, List.getLast?_reverse]
              simp [htid]
            · rw [List.chain'_map, List.chain'_reverse]
              exact RPath_walkChain deps cfg hp2

/-! ## Claims about `FindShortestPath`, `NodeCount` and `SortedNodeByIndex` -/

theorem gridMiles_nonneg (p q : TLocation) : 0 ≤ gridMiles p q := by
  unfold gridMiles
  have h1 := abs_nonneg (p.1 - q.1)
  have h2 := abs_nonneg (p.2 - q.2)
  positivity

theorem FindShortestPath_unknown (S : SImplementation) (fuel : Nat) (a b : TNodeID)
    (pin : List TNodeID) (h : S.nodeIndexMap a = none ∨ S.nodeIndexMap b = none) :
    S.FindShortestPath fuel a b pin = some (DBL_MAX, pin) := by
  unfold SImplementation.FindShortestPath dijkstraDriving
  rcases h with h | h
  · simp [h]
  · cases ha : S.nodeIndexMap a <;> simp [h]

theorem FindShortestPath_known (S : SImplementation) (fuel : Nat) (a b : TNodeID)
    (pin : List TNodeID) (cost : ℚ) (path : List TNodeID)
    (h : S.FindShortestPath fuel a b pin = some (cost, path)) (hfin : cost < DBL_MAX) :
    ∃ s t, S.nodeIndexMap a = some s ∧ S.nodeIndexMap b = some t := by
  cases ha : S.nodeIndexMap a with
  | none =>
    rw [FindShortestPath_unknown S fuel a b pin (Or.inl ha)] at h
    simp only [Option.some.injEq, Prod.mk.injEq] at h
    rw [← h.1] at hfin; exact absurd hfin (lt_irrefl _)
  | some s =>
    cases hb : S.nodeIndexMap b with
    | none =>
      rw [FindShortestPath_unknown S fuel a b pin (Or.inr hb)] at h
      simp only [Option.some.injEq, Prod.mk.injEq] at h
      rw [← h.1] at hfin; exact absurd hfin (lt_irrefl _)
    | some t => exact ⟨s, t, rfl, rfl⟩

/-- `FindShortestPath` on a constructed planner with exact non-negative weights. -/
theorem create_total (deps : Deps) (cfg : SConfiguration) (hok : DrivingOK deps cfg)
    (a b : TNodeID) (s t : Nat)
    (hs : (SImplementation.create deps cfg).nodeIndexMap a = some s)
    (ht : (SImplementation.create deps cfg).nodeIndexMap b = some t) :
    ∃ cost idxs n, cost ≤ DBL_MAX ∧
      (∀ p W, RPath (SImplementation.create deps cfg).graphDriving s (t :: p) W → cost ≤ W) ∧
      (cost < DBL_MAX → ∃ p, RPath (SImplementation.create deps cfg).graphDriving s (t :: p) cost ∧
        idxs = (t :: p).reverse) ∧
      ∀ fuel, n ≤ fuel → ∀ pin, (SImplementation.create deps cfg).FindShortestPath fuel a b pin =
        some (cost, if cost < DBL_MAX then
          idxs.map (idAt (SImplementation.create deps cfg).sortedNodes) else pin) :=
  FindShortestPath_total _ (create_nonneg deps cfg hok) (create_inRange deps cfg) a b s t hs ht
    (nodeIndexMap_some deps cfg a s hs).1

/-- Two runs with enough fuel agree. -/
theorem FindShortestPath_agree (S : SImplementation) (a b : TNodeID) (pin : List TNodeID)
    (fuel n : Nat) (r1 r2 : ℚ × List TNodeID) (h1 : S.FindShortestPath fuel a b pin = some r1)
    (h2 : ∀ k, n ≤ k → S.FindShortestPath k a b pin = some r2) : r1 = r2 := by
  have e1 := FindShortestPath_mono S fuel a b pin r1 h1 n
  have e2 := h2 (fuel + n) (by omega)
  rw [e1] at e2
  exact Option.some.inj e2

/-- What `FindShortestPath` computes on a street map with exact non-negative driving
weights, for a pair of known node ids: it returns (for every sufficient fuel) one value;
that value is at most the summed `graphDriving` weight of every path from `src` to
`dest` in `graphDriving`, and when it is below the sentinel it is the weight of such a
path. -/
theorem FindShortestPath_least_over_graphDriving (deps : Deps) (cfg : SConfiguration)
    (hok : DrivingOK deps cfg) (src dest : TNodeID) (s t : Nat)
    (hs : (SImplementation.create deps cfg).nodeIndexMap src = some s)
    (ht : (SImplementation.create deps cfg).nodeIndexMap dest = some t) :
    ∃ cost n,
      (∀ fuel, n ≤ fuel → ∀ pin, ∃ path,
        (SImplementation.create deps cfg).FindShortestPath fuel src dest pin = some (cost, path)) ∧
      (∀ p W, RPath (SImplementation.create deps cfg).graphDriving s (t :: p) W → cost ≤ W) ∧
      (cost < DBL_MAX →
        ∃ p, RPath (SImplementation.create deps cfg).graphDriving s (t :: p) cost) := by
  obtain ⟨cost, idxs, n, _, h2, h3, h4⟩ := create_total deps cfg hok src dest s t hs ht
  refine ⟨cost, n, fun fuel hf pin => ⟨_, h4 fuel hf pin⟩, h2, fun h => ?_⟩
  obtain ⟨p, hp, _⟩ := h3 h
  exact ⟨p, hp⟩

/-- C1 (code at the failing input): in scenario S2 the one way runs from node 1 to
node 2 and is tagged `oneway=yes`.  Node 1 is reachable from node 2 in `graph_walk` by
the edge from 2 to 1 of weight 23, and the sibling `FindFastestPath(2, 1)` walks it in
23 hours; `FindShortestPath(2, 1)` searches `graph_drive`, which holds no edge out of
node 2, and returns `DBL_MAX`, which is above the weight of that walking path, with
the output left empty. -/
theorem C1_shortest_misses_walking_path :
    plannerS2.nodeIndexMap 2 = some 1 ∧ plannerS2.nodeIndexMap 1 = some 0 ∧
    RPath plannerS2.graphWalking 1 [0, 1] (0 + 23) ∧
    plannerS2.graphDriving 1 = [] ∧
    plannerS2.FindShortestPath 5 2 1 [] = some (DBL_MAX, []) ∧ ¬ DBL_MAX ≤ (0 + 23 : ℚ) ∧
    plannerS2.FindFastestPath sampleDeps 9 2 1 [] =
      some (23, [(ETransportationMode.Walk, 2), (ETransportationMode.Walk, 1)]) := by
  refine ⟨by decide!, by decide!, RPath.step RPath.base (by decide!), by decide!, by decide!,
    ?_, by decide!⟩
  unfold DBL_MAX
  norm_num

/-- C2: on every street map, whenever `FindShortestPath` returns a value below the
sentinel, the returned sequence is non-empty, starts with `src`, ends with `dest`, and
every two consecutive entries are joined by an edge of `graph_walk` in that direction;
and with exact non-negative weights the call does return for every sufficient fuel. -/
theorem C2_shortest_path_is_walk_path (deps : Deps) (cfg : SConfiguration)
    (src dest : TNodeID) :
    (DrivingOK deps cfg → ∃ n, ∀ fuel, n ≤ fuel → ∀ pin,
      ((SImplementation.create deps cfg).FindShortestPath fuel src dest pin).isSome = true) ∧
    ∀ fuel pin cost path,
      (SImplementation.create deps cfg).FindShortestPath fuel src dest pin = some (cost, path) →
      cost < DBL_MAX →
      path ≠ [] ∧ path.head? = some src ∧ path.getLast? = some dest ∧
        List.Chain' (WalkEdge (SImplementation.create deps cfg)) path := by
  refine ⟨fun hok => ?_, fun fuel pin cost path h hfin =>
    FindShortestPath_path deps cfg src dest fuel pin cost path h hfin⟩
  cases hs : (SImplementation.create deps cfg).nodeIndexMap src with
  | none =>
    exact ⟨0, fun fuel _ pin => by
      rw [FindShortestPath_unknown _ fuel src dest pin (Or.inl hs)]; rfl⟩
  | some s =>
    cases ht : (SImplementation.create deps cfg).nodeIndexMap dest with
    | none =>
      exact ⟨0, fun fuel _ pin => by
        rw [FindShortestPath_unknown _ fuel src dest pin (Or.inr ht)]; rfl⟩
    | some t =>
      obtain ⟨cost, idxs, n, _, _, _, h4⟩ := create_total deps cfg hok src dest s t hs ht
      exact ⟨n, fun fuel hf pin => by rw [h4 fuel hf pin]; rfl⟩

/-- C2, witness: scenario S1, query (1, 2) returns the path `[1, 2]`. -/
theorem C2_witness :
    plannerS1.FindShortestPath 5 1 2 [] = some (69 / 25, [1, 2]) ∧
    ([1, 2] ≠ [] ∧ [1, 2].head? = some 1 ∧ [1, 2].getLast? = some 2 ∧
      List.Chain' (WalkEdge plannerS1) [1, 2]) :=
  ⟨by decide!, (C2_shortest_path_is_walk_path sampleDeps (defaultConfig mapS1 noBus) 1 2).2
    5 [] (69 / 25) [1, 2] (by decide!) (by unfold DBL_MAX; norm_num)⟩

/-- C3 (code at the failing input): in scenario S1 the distance between the two nodes
is 69 miles, and `FindShortestPath(1, 2)` returns `69 / 25`, the driving time in hours
at the default speed limit and not the 69 miles, with the path `[1, 2]`. -/
theorem C3_shortest_returns_driving_hours :
    sampleDeps.Haversine (0, 0) (0, 1) = 69 ∧
    plannerS1.FindShortestPath 5 1 2 [] = some (69 / 25, [1, 2]) ∧ (69 / 25 : ℚ) ≠ 69 :=
  ⟨by decide!, by decide!, by decide!⟩

/-- C5 (amended): for every street map with exact non-negative driving weights and
every pair of known node ids that no `graph_walk` path joins, `FindShortestPath`
returns `std::numeric_limits<double>::max()` and leaves the path output as it was on
entry. -/
theorem C5_disconnected_returns_max_path_untouched (deps : Deps) (cfg : SConfiguration)
    (hok : DrivingOK deps cfg) (src dest : TNodeID) (s t : Nat)
    (hs : (SImplementation.create deps cfg).nodeIndexMap src = some s)
    (ht : (SImplementation.create deps cfg).nodeIndexMap dest = some t)
    (hdis : ¬ ∃ p W, RPath (SImplementation.create deps cfg).graphWalking s (t :: p) W) :
    ∃ n, ∀ fuel, n ≤ fuel → ∀ pin,
      (SImplementation.create deps cfg).FindShortestPath fuel src dest pin =
        some (DBL_MAX, pin) := by
  obtain ⟨cost, idxs, n, h1, _, h3, h4⟩ := create_total deps cfg hok src dest s t hs ht
  have hmax : cost = DBL_MAX := by
    by_contra hne
    obtain ⟨p, hp, _⟩ := h3 (lt_of_le_of_ne h1 hne)
    obtain ⟨W2, hW2⟩ := RPath_mono (create_walk_of_drive deps cfg) hp
    exact hdis ⟨p, W2, hW2⟩
  refine ⟨n, fun fuel hf pin => ?_⟩
  rw [h4 fuel hf pin, hmax]
  simp

theorem RPath_S3_none (l : List Nat) (W : ℚ) (h : RPath plannerS3.graphWalking 0 l W) :
    ∀ x, x ∈ l → x ≠ 2 := by
  induction h with
  | base => intro x hx; simp at hx; omega
  | @step u v p W w _ he ih =>
    intro x hx
    rcases List.mem_cons.mp hx with rfl | hx
    · have hu : u ≠ 2 := ih u (List.mem_cons_self _ _)
      have h0 : plannerS3.graphWalking 0 = [(1, 23)] := by decide!
      have h1 : plannerS3.graphWalking 1 = [(0, 23)] := by decide!
      have h3 : ∀ k, plannerS3.graphWalking (k + 3) = [] := by
        intro k
        simp [plannerS3, SImplementation.create, buildGraphs, mapS3, defaultConfig, CStreetMap.WayCount,
          CStreetMap.WayByIndex, addWay, SWay.NodeCount, addPair, SWay.GetNodeID,
          buildSortedNodes, CStreetMap.NodeCount, CStreetMap.NodeByIndex, fillNodeIndexMap,
          Graph.pushBack, Function.update, List.range, List.range.loop]
      intro hx2
      match u, hu, he with
      | 0, _, he => rw [h0] at he; simp at he; omega
      | 1, _, he => rw [h1] at he; simp at he; omega
      | k + 3, _, he => rw [h3 k] at he; simp at he
    · exact ih x hx

/-- C5, witness: scenario S3, query (1, 3). -/
theorem C5_witness :
    DrivingOK sampleDeps (defaultConfig mapS3 noBus) ∧
    plannerS3.nodeIndexMap 1 = some 0 ∧ plannerS3.nodeIndexMap 3 = some 2 ∧
    (¬ ∃ p W, RPath plannerS3.graphWalking 0 (2 :: p) W) ∧
    ∃ n, ∀ fuel, n ≤ fuel → ∀ pin, plannerS3.FindShortestPath fuel 1 3 pin =
      some (DBL_MAX, pin) :=
  have hdis : ¬ ∃ p W, RPath plannerS3.graphWalking 0 (2 :: p) W :=
    fun ⟨_, _, h⟩ => RPath_S3_none _ _ h 2 (List.mem_cons_self _ _) rfl
  ⟨⟨gridMiles_nonneg, by decide!⟩, by decide!, by decide!, hdis,
    C5_disconnected_returns_max_path_untouched sampleDeps (defaultConfig mapS3 noBus)
      ⟨gridMiles_nonneg, by decide!⟩ 1 3 0 2 (by decide!) (by decide!) hdis⟩

/-- C5, counterexample to the claim as stated: in scenario S3 the query (1, 3) with
the output vector holding `[7]` on entry returns the finite number `DBL_MAX` and the
vector still holds `[7]`. -/
theorem C5_counterexample :
    plannerS3.FindShortestPath 5 1 3 [7] = some (DBL_MAX, [7]) ∧
      ¬ (∃ cost, plannerS3.FindShortestPath 5 1 3 [7] = some (cost, [])) := by
  have h : plannerS3.FindShortestPath 5 1 3 [7] = some (DBL_MAX, [7]) := by decide!
  refine ⟨h, ?_⟩
  rintro ⟨cost, hc⟩
  rw [h] at hc
  simp at hc

/-- On a street map in which no way is one-way, with exact non-negative driving
weights, `FindShortestPath(a, b)` and `FindShortestPath(b, a)` return equal values: every
edge of `graphDriving` is then stored in both directions with one weight. -/
theorem FindShortestPath_symmetric_without_oneway (deps : Deps) (cfg : SConfiguration)
    (hok : DrivingOK deps cfg)
    (hno : ∀ way, way ∈ cfg.StreetMap.Ways → wayOneWay way = false) (a b : TNodeID) :
    ∃ cost n, ∀ fuel, n ≤ fuel → ∀ pin1 pin2, ∃ p1 p2,
      (SImplementation.create deps cfg).FindShortestPath fuel a b pin1 = some (cost, p1) ∧
      (SImplementation.create deps cfg).FindShortestPath fuel b a pin2 = some (cost, p2) := by
  cases hs : (SImplementation.create deps cfg).nodeIndexMap a with
  | none =>
    exact ⟨DBL_MAX, 0, fun fuel _ pin1 pin2 => ⟨pin1, pin2,
      FindShortestPath_unknown _ fuel a b pin1 (Or.inl hs),
      FindShortestPath_unknown _ fuel b a pin2 (Or.inr hs)⟩⟩
  | some s =>
    cases ht : (SImplementation.create deps cfg).nodeIndexMap b with
    | none =>
      exact ⟨DBL_MAX, 0, fun fuel _ pin1 pin2 => ⟨pin1, pin2,
        FindShortestPath_unknown _ fuel a b pin1 (Or.inr ht),
        FindShortestPath_unknown _ fuel b a pin2 (Or.inl ht)⟩⟩
    | some t =>
      obtain ⟨c1, i1, n1, a1, a2, a3, a4⟩ := create_total deps cfg hok a b s t hs ht
      obtain ⟨c2, i2, n2, b1, b2, b3, b4⟩ := create_total deps cfg hok b a t s ht hs
      have hsym := create_symmetric deps cfg hno
      have h12 : c1 ≤ c2 := by
        by_cases hf : c2 < DBL_MAX
        · obtain ⟨p, hp, _⟩ := b3 hf
          obtain ⟨q, hq⟩ := RPath_reverse hsym hp s p rfl
          exact a2 q c2 hq
        · exact le_trans a1 (not_lt.mp hf)
      have h21 : c2 ≤ c1 := by
        by_cases hf : c1 < DBL_MAX
        · obtain ⟨p, hp, _⟩ := a3 hf
          obtain ⟨q, hq⟩ := RPath_reverse hsym hp t p rfl
          exact b2 q c1 hq
        · exact le_trans b1 (not_lt.mp hf)
      have heq : c2 = c1 := le_antisymm h21 h12
      subst heq
      exact ⟨c2, max n1 n2, fun fuel hf pin1 pin2 =>
        ⟨_, _, a4 fuel (le_trans (le_max_left _ _) hf) pin1,
          b4 fuel (le_trans (le_max_right _ _) hf) pin2⟩⟩

/-- C8 (code at the failing input): in scenario S2 the one way runs from node 1 to
node 2 and is tagged `oneway=yes`.  `graph_walk` holds the edge in both directions with
the weight 23, `graph_drive` holds it from 1 to 2 only; `FindShortestPath(1, 2)` returns
`69 / 25` with the path `[1, 2]` and `FindShortestPath(2, 1)` returns `DBL_MAX` with the
output left empty: the two values differ. -/
theorem C8_oneway_breaks_symmetry :
    plannerS2.graphWalking 0 = [(1, 23)] ∧ plannerS2.graphWalking 1 = [(0, 23)] ∧
    plannerS2.graphDriving 0 = [(1, 69 / 25)] ∧ plannerS2.graphDriving 1 = [] ∧
    plannerS2.FindShortestPath 5 1 2 [] = some (69 / 25, [1, 2]) ∧
    plannerS2.FindShortestPath 5 2 1 [] = some (DBL_MAX, []) ∧ (69 / 25 : ℚ) ≠ DBL_MAX :=
  ⟨by decide!, by decide!, by decide!, by decide!, by decide!, by decide!, by decide!⟩

/-- C9 (amended): for every street map with exact non-negative driving weights and all
node ids `a`, `b`, `c` such that `FindShortestPath(a, b)` and `FindShortestPath(b, c)`
are finite and their sum is below `std::numeric_limits<double>::max()`,
`FindShortestPath(a, c)` is finite and at most that sum. -/
theorem C9_triangle_below_max (deps : Deps) (cfg : SConfiguration) (hok : DrivingOK deps cfg)
    (a b c : TNodeID) (fuel1 fuel2 : Nat) (pin1 pin2 : List TNodeID) (cab cbc : ℚ)
    (pab pbc : List TNodeID)
    (h1 : (SImplementation.create deps cfg).FindShortestPath fuel1 a b pin1 = some (cab, pab))
    (h2 : (SImplementation.create deps cfg).FindShortestPath fuel2 b c pin2 = some (cbc, pbc))
    (hf1 : cab < DBL_MAX) (hf2 : cbc < DBL_MAX) (hsum : cab + cbc < DBL_MAX) :
    ∃ cac n,
      (∀ fuel, n ≤ fuel → ∀ pin, ∃ path,
        (SImplementation.create deps cfg).FindShortestPath fuel a c pin = some (cac, path)) ∧
      cac < DBL_MAX ∧ cac ≤ cab + cbc := by
  obtain ⟨s, t, hs, ht⟩ := FindShortestPath_known _ fuel1 a b pin1 cab pab h1 hf1
  obtain ⟨t2, r, ht2, hr⟩ := FindShortestPath_known _ fuel2 b c pin2 cbc pbc h2 hf2
  rw [ht] at ht2
  obtain rfl : t = t2 := Option.some.inj ht2
  obtain ⟨c1, i1, n1, _, _, a3, a4⟩ := create_total deps cfg hok a b s t hs ht
  obtain ⟨c2, i2, n2, _, _, b3, b4⟩ := create_total deps cfg hok b c t r ht hr
  obtain ⟨c3, i3, n3, _, d2, _, d4⟩ := create_total deps cfg hok a c s r hs hr
  have e1 := FindShortestPath_agree _ a b pin1 fuel1 n1 _ _ h1 (fun k hk => a4 k hk pin1)
  have e2 := FindShortestPath_agree _ b c pin2 fuel2 n2 _ _ h2 (fun k hk => b4 k hk pin2)
  have hc1 : cab = c1 := (Prod.mk.inj e1).1
  have hc2 : cbc = c2 := (Prod.mk.inj e2).1
  subst hc1 hc2
  obtain ⟨p1, hp1, _⟩ := a3 hf1
  obtain ⟨p2, hp2, _⟩ := b3 hf2
  obtain ⟨q, hq⟩ := RPath_append hp1 hp2 r p2 rfl
  have hle := d2 q _ hq
  exact ⟨c3, n3, fun fuel hf pin => ⟨_, d4 fuel hf pin⟩, lt_of_le_of_lt hle hsum, hle⟩

/-- C9, witness: nodes 1, 2, 3 in a row on one two-way way, queries (1, 2), (2, 3)
and (1, 3): the two legs cost `69 / 25` each and `FindShortestPath(1, 3)` returns
`138 / 25`, their sum. -/
theorem C9_witness :
    DrivingOK sampleDeps (defaultConfig mapShortcut busShortcut) ∧
    plannerShortcut.FindShortestPath 9 1 2 [] = some (69 / 25, [1, 2]) ∧
    plannerShortcut.FindShortestPath 9 2 3 [] = some (69 / 25, [2, 3]) ∧
    plannerShortcut.FindShortestPath 9 1 3 [] = some (138 / 25, [1, 2, 3]) ∧
    ∃ cac n,
      (∀ fuel, n ≤ fuel → ∀ pin, ∃ path,
        plannerShortcut.FindShortestPath fuel 1 3 pin = some (cac, path)) ∧
      cac < DBL_MAX ∧ cac ≤ 69 / 25 + 69 / 25 :=
  ⟨⟨gridMiles_nonneg, by decide!⟩, by decide!, by decide!, by decide!,
    C9_triangle_below_max sampleDeps (defaultConfig mapShortcut busShortcut)
      ⟨gridMiles_nonneg, by decide!⟩
      1 2 3 9 9 [] [] (69 / 25) (69 / 25) [1, 2] [2, 3] (by decide!) (by decide!)
      (by decide!) (by decide!) (by decide!)⟩

/-- C9, counterexample to the claim as stated: three nodes on a line, 138 miles
apart, on a way tagged `maxspeed=1e-306`.  `FindShortestPath(1, 2)` and `FindShortestPath(2, 3)`
are finite (`1.38e308`), their sum exceeds `DBL_MAX`, and `FindShortestPath(1, 3)`
returns the sentinel although all weights are non-negative. -/
theorem C9_counterexample :
    DrivingOK slowDeps (defaultConfig mapLine noBus) ∧
    plannerSlow.FindShortestPath 9 1 2 [] = some (138 * 10 ^ 306, [1, 2]) ∧
    plannerSlow.FindShortestPath 9 2 3 [] = some (138 * 10 ^ 306, [2, 3]) ∧
    (138 * 10 ^ 306 : ℚ) < DBL_MAX ∧
    plannerSlow.FindShortestPath 9 1 3 [] = some (DBL_MAX, []) :=
  ⟨⟨gridMiles_nonneg, by decide!⟩, by decide!, by decide!, by decide!, by decide!⟩

/-- C10: `NodeCount()` is the number of nodes of the map; the sequence
`SortedNodeByIndex(0), ..., SortedNodeByIndex(N-1)` lists non-null nodes that are a
permutation of the map's nodes in ascending id order (strictly ascending when the ids
are distinct); `SortedNodeByIndex(i)` is null for every `i ≥ N`. -/
theorem C10_sorted_nodes (deps : Deps) (cfg : SConfiguration) :
    (SImplementation.create deps cfg).NodeCount = cfg.StreetMap.NodeCount ∧
    (∃ l : List SNode,
      (List.range (SImplementation.create deps cfg).NodeCount).map
        (SImplementation.create deps cfg).SortedNodeByIndex = l.map some ∧
      l.Perm cfg.StreetMap.Nodes ∧ List.Sorted (fun a b => a.ID ≤ b.ID) l ∧
      ((cfg.StreetMap.Nodes.map (fun n => n.ID)).Nodup →
        List.Sorted (fun a b => a.ID < b.ID) l)) ∧
    ∀ i, (SImplementation.create deps cfg).NodeCount ≤ i →
      (SImplementation.create deps cfg).SortedNodeByIndex i = none := by
  have hcollect : (List.range cfg.StreetMap.NodeCount).filterMap cfg.StreetMap.NodeByIndex =
      cfg.StreetMap.Nodes := range_filterMap_getElem cfg.StreetMap.Nodes
  have hsorted : (SImplementation.create deps cfg).sortedNodes =
      cfg.StreetMap.Nodes.insertionSort (fun a b => a.ID ≤ b.ID) := by
    simp only [SImplementation.create, buildGraphs, buildSortedNodes, hcollect]
  have hperm : (SImplementation.create deps cfg).sortedNodes.Perm cfg.StreetMap.Nodes := by
    rw [hsorted]; exact List.perm_insertionSort _ _
  have hsort : List.Sorted (fun a b : SNode => a.ID ≤ b.ID)
      (SImplementation.create deps cfg).sortedNodes := by
    rw [hsorted]
    haveI : IsTotal SNode (fun a b => a.ID ≤ b.ID) := ⟨fun a b => Nat.le_total a.ID b.ID⟩
    haveI : IsTrans SNode (fun a b => a.ID ≤ b.ID) := ⟨fun a b c => Nat.le_trans⟩
    exact List.sorted_insertionSort _ _
  refine ⟨?_, ⟨(SImplementation.create deps cfg).sortedNodes, ?_, hperm, hsort, ?_⟩, ?_⟩
  · unfold SImplementation.NodeCount CStreetMap.NodeCount
    exact hperm.length_eq
  · apply List.ext_getElem?
    intro i
    simp only [SImplementation.NodeCount, SImplementation.SortedNodeByIndex, List.getElem?_map,
      List.getElem?_range]
    by_cases hi : i < (SImplementation.create deps cfg).sortedNodes.length
    · simp [List.getElem?_range hi, hi, SImplementation.SortedNodeByIndex]
    · simp [List.getElem?_eq_none (not_lt.mp hi),
        List.getElem?_eq_none (l := List.range _) (by simpa using not_lt.mp hi)]
  · intro hnd
    have hnd2 : ((SImplementation.create deps cfg).sortedNodes.map (fun n => n.ID)).Nodup :=
      (hperm.map _).nodup_iff.mpr hnd
    have h1 : List.Pairwise (fun a b : SNode => a.ID ≠ b.ID)
        (SImplementation.create deps cfg).sortedNodes := by
      rw [List.Nodup, List.pairwise_map] at hnd2
      exact hnd2
    exact (List.Pairwise.and hsort h1).imp (fun h => lt_of_le_of_ne h.1 h.2)
  · intro i hi
    unfold SImplementation.SortedNodeByIndex
    unfold SImplementation.NodeCount at hi
    rw [if_neg (not_lt.mpr hi)]

/-! ## `FindFastestPath` through the search core -/

theorem relaxFastest_core (cur : Nat) (tag : Int) (st : FState) (next : Nat) (curCost w : ℚ) :
    (relaxFastest cur tag st next (curCost + w)).core = relax cur curCost st.core (next, w) := by
  unfold relaxFastest relax FState.core
  by_cases h : curCost + w < st.dist next
  · simp only [h, if_true]
  · simp only [h, if_false]

theorem foldl_edges_core (cur : Nat) (curCost : ℚ) (m : Nat) (es : List (Nat × ℚ))
    (st : FState) :
    (es.foldl (fun s edge => relaxFastest cur 0 s (edge.1 * 2 + m) (curCost + edge.2)) st).core =
      (es.map (fun e => (e.1 * 2 + m, e.2))).foldl (fun s e => relax cur curCost s e)
        st.core := by
  induction es generalizing st with
  | nil => rfl
  | cons e es ih =>
    simp only [List.foldl_cons, List.map_cons]
    rw [ih, relaxFastest_core]

theorem foldl_bus_core (deps : Deps) (S : SImplementation) (destIdx : Nat) (busStop : SStop)
    (cur : Nat) (curCost : ℚ) (rs : List SRoute) (st : FState) :
    (rs.foldl (fun s route =>
        match busCandidate deps S destIdx busStop route with
        | none => s
        | some (bestAlightNode, totalBusCost) =>
          relaxFastest cur 1 s (bestAlightNode * 2 + 0) (curCost + totalBusCost)) st).core =
      (rs.filterMap (fun route =>
        (busCandidate deps S destIdx busStop route).map (fun c => (c.1 * 2 + 0, c.2)))).foldl
        (fun s e => relax cur curCost s e) st.core := by
  induction rs generalizing st with
  | nil => rfl
  | cons r rs ih =>
    simp only [List.foldl_cons, List.filterMap_cons]
    rw [ih]
    cases hc : busCandidate deps S destIdx busStop r with
    | none => rfl
    | some c =>
      obtain ⟨n, w⟩ := c
      simp only [Option.map_some', List.foldl_cons]
      rw [relaxFastest_core]

theorem fastestStep_core (deps : Deps) (S : SImplementation) (destIdx : Nat) (curCost : ℚ)
    (cur : Nat) (st : FState) :
    (fastestStep deps S destIdx curCost cur st).core =
      (fastTransitions deps S destIdx cur).foldl (fun s e => relax cur curCost s e) st.core := by
  have hswap : ∀ (s : FState) (o : Nat), (relaxFastest cur 0 s o curCost).core =
      relax cur curCost s.core (o, 0) := by
    intro s o
    have := relaxFastest_core cur 0 s o curCost 0
    rwa [add_zero] at this
  unfold fastestStep fastTransitions busTransitions
  by_cases hm : cur % 2 = 0
  · rcases hb : S.busIndexer.StopByNodeID (idAt S.sortedNodes (cur / 2)) with _ | busStop
    · simp only [hb, hm, if_true, List.append_nil, List.foldl_append, List.foldl_cons,
        List.foldl_nil]
      rw [hswap, foldl_edges_core]
    · simp only [hb, hm, if_true, List.foldl_append, List.foldl_cons, List.foldl_nil]
      rw [foldl_bus_core, hswap, foldl_edges_core]
  · simp only [hm, if_false, List.append_nil, List.foldl_append, List.foldl_cons,
      List.foldl_nil]
    rw [hswap, foldl_edges_core]

theorem fastestLoop_core (deps : Deps) (S : SImplementation) (dest : TNodeID) (destIdx : Nat)
    (fuel : Nat) (st : FState) :
    (fastestLoop deps S dest destIdx fuel st).map (fun r => (r.1.core, r.2)) =
      searchLoop (fastTransitions deps S destIdx) (atDest S dest) false fuel st.core := by
  induction fuel generalizing st with
  | zero => rfl
  | succ fuel ih =>
    unfold fastestLoop searchLoop
    have hpq : st.core.pq = st.pq := rfl
    rw [hpq]
    cases htop : pqTop st.pq with
    | none => rfl
    | some m =>
      obtain ⟨d, u⟩ := m
      simp only
      have hdist : st.core.dist u = st.dist u := rfl
      rw [hdist]
      by_cases hs : d > st.dist u
      · rw [if_pos hs, if_pos hs]; exact ih _
      · rw [if_neg hs, if_neg hs]
        by_cases hd : idAt S.sortedNodes (u / 2) = dest
        · simp only [hd, atDest, if_true, decide_True, Option.map_some']
          rfl
        · simp only [hd, atDest, if_false, decide_False, Bool.false_eq_true]
          rw [ih, fastestStep_core]
          rfl

/-! ## Facts about the transitions of `FindFastestPath` -/

theorem addPair_walkBikeEdges (deps : Deps) (cfg : SConfiguration) (sortedNodes : List SNode)
    (nodeIndexMap : TNodeID → Option Nat) (oneWay bike : Bool) (speed : ℚ) (G : Graphs)
    (id1 id2 : TNodeID) (hG : WalkBikeEdges deps cfg nodeIndexMap G) :
    WalkBikeEdges deps cfg nodeIndexMap
      (addPair deps cfg sortedNodes nodeIndexMap oneWay bike speed G id1 id2) := by
  unfold addPair
  cases h1 : nodeIndexMap id1 with
  | none => exact hG
  | some idx1 =>
    cases h2 : nodeIndexMap id2 with
    | none => exact hG
    | some idx2 =>
      simp only
      generalize hd : deps.Haversine (locationAt sortedNodes idx1) (locationAt sortedNodes idx2)
        = d
      have hex : ∀ sp : ℚ, ∃ p q, d / sp = deps.Haversine p q / sp :=
        fun sp => ⟨_, _, by rw [hd]⟩
      refine ⟨?_, ?_⟩
      · intro u e he
        rw [mem_pushBack, mem_pushBack] at he
        rcases he with (he | ⟨_, rfl⟩) | ⟨_, rfl⟩
        · exact hG.1 u e he
        · exact ⟨⟨id2, h2⟩, hex _⟩
        · exact ⟨⟨id1, h1⟩, hex _⟩
      · intro u e he
        cases bike with
        | false => exact hG.2 u e (by simpa using he)
        | true =>
          cases oneWay with
          | true =>
            simp only [if_true] at he
            rw [mem_pushBack] at he
            rcases he with he | ⟨_, rfl⟩
            · exact hG.2 u e he
            · exact ⟨⟨id2, h2⟩, hex _⟩
          | false =>
            simp only [if_true, Bool.false_eq_true, if_false] at he
            rw [mem_pushBack, mem_pushBack] at he
            rcases he with (he | ⟨_, rfl⟩) | ⟨_, rfl⟩
            · exact hG.2 u e he
            · exact ⟨⟨id2, h2⟩, hex _⟩
            · exact ⟨⟨id1, h1⟩, hex _⟩

theorem create_walkBikeEdges (deps : Deps) (cfg : SConfiguration) :
    WalkBikeEdges deps cfg (SImplementation.create deps cfg).nodeIndexMap
      { graphDriving := (SImplementation.create deps cfg).graphDriving
        graphWalking := (SImplementation.create deps cfg).graphWalking
        graphBiking := (SImplementation.create deps cfg).graphBiking } := by
  simp only [SImplementation.create, buildGraphs]
  apply foldl_preserves (WalkBikeEdges deps cfg _)
  · intro G way _ hG
    unfold addWay
    apply foldl_preserves (WalkBikeEdges deps cfg _)
    · intro G2 j _ hG2
      exact addPair_walkBikeEdges deps cfg _ _ _ _ _ G2 _ _ hG2
    · exact hG
  · exact ⟨fun u e he => by simp at he, fun u e he => by simp at he⟩

theorem routeDistance_nonneg (deps : Deps) (S : SImplementation)
    (hh : ∀ p q, 0 ≤ deps.Haversine p q) (cur j : Nat) : 0 ≤ routeDistance deps S cur j := by
  unfold routeDistance
  apply foldl_preserves (fun acc : ℚ => 0 ≤ acc)
  · intro acc k _ hacc
    cases S.the_config.BusSystem.StopByIndex k with
    | none => exact hacc
    | some stopA =>
      cases S.the_config.BusSystem.StopByIndex (k + 1) with
      | none => exact hacc
      | some stopB =>
        simp only
        cases S.nodeIndexMap stopA.NodeID with
        | none => exact hacc
        | some ia =>
          cases S.nodeIndexMap stopB.NodeID with
          | none => exact hacc
          | some ib => exact add_nonneg hacc (hh _ _)
  · exact le_refl _

theorem busCandidate_some (deps : Deps) (cfg : SConfiguration) (hok : FastestOK deps cfg)
    (destIdx : Nat) (busStop : SStop) (route : SRoute) (node : Nat) (cost : ℚ)
    (h : busCandidate deps (SImplementation.create deps cfg) destIdx busStop route =
      some (node, cost)) :
    node < (SImplementation.create deps cfg).sortedNodes.length ∧ 0 ≤ cost := by
  obtain ⟨hh, _, _, hsp, hbst⟩ := hok
  unfold busCandidate at h
  cases hc : currentIndexInRoute route busStop.ID with
  | none => simp [hc] at h
  | some cur =>
    simp only [hc] at h
    by_cases hlt : cur + 1 < route.StopCount
    · simp only [hlt, if_true] at h
      have hinv : ∀ l : List Nat,
          (fun best : BestAlight => 0 ≤ best.bestBusTime ∧ (best.bestRemainingDist < DBL_MAX →
            best.bestAlightNode < (SImplementation.create deps cfg).sortedNodes.length))
          (l.foldl (bestAlightStep deps (SImplementation.create deps cfg) destIdx cur)
            { bestRemainingDist := DBL_MAX, bestAlightNode := 0, bestBusTime := 0 }) := by
        intro l
        refine foldl_preserves (fun best : BestAlight => 0 ≤ best.bestBusTime ∧
          (best.bestRemainingDist < DBL_MAX →
            best.bestAlightNode < (SImplementation.create deps cfg).sortedNodes.length))
          _ l ?_ _ ?_
        · intro best j _ hbest
          unfold bestAlightStep
          cases (SImplementation.create deps cfg).the_config.BusSystem.StopByIndex j with
          | none => exact hbest
          | some alightStop =>
            simp only
            cases hn : (SImplementation.create deps cfg).nodeIndexMap alightStop.NodeID with
            | none => exact hbest
            | some idx =>
              simp only
              split
              · refine ⟨div_nonneg (routeDistance_nonneg deps _ hh cur j) (le_of_lt hsp),
                  fun _ => (nodeIndexMap_some deps cfg _ idx hn).1⟩
              · exact hbest
        · exact ⟨le_refl _, fun h => absurd h (lt_irrefl _)⟩
      have hb := hinv (List.range' (cur + 1) (route.StopCount - (cur + 1)))
      simp only at hb
      split at h
      · next hfin =>
        simp only [Option.some.injEq, Prod.mk.injEq] at h
        rw [← h.1, ← h.2]
        exact ⟨hb.2 hfin, add_nonneg hbst hb.1⟩
      · simp at h
    · simp [hlt] at h

theorem mem_fastTransitions (deps : Deps) (S : SImplementation) (destIdx state : Nat)
    (e : Nat × ℚ) (h : e ∈ fastTransitions deps S destIdx state) :
    (state % 2 = 0 ∧ ∃ v w, (v, w) ∈ S.graphWalking (state / 2) ∧ e = (v * 2 + 0, w)) ∨
    (state % 2 ≠ 0 ∧ ∃ v w, (v, w) ∈ S.graphBiking (state / 2) ∧ e = (v * 2 + 1, w)) ∨
    e = (state / 2 * 2 + (if state % 2 = 0 then 1 else 0), 0) ∨
    (state % 2 = 0 ∧ ∃ busStop route node cost,
      busCandidate deps S destIdx busStop route = some (node, cost) ∧ e = (node * 2 + 0, cost)) := by
  unfold fastTransitions at h
  rw [List.mem_append, List.mem_append, List.mem_singleton] at h
  rcases h with (h | h) | h
  · by_cases hm : state % 2 = 0
    · simp only [hm, if_true, List.mem_map] at h
      obtain ⟨x, hx, rfl⟩ := h
      exact Or.inl ⟨hm, x.1, x.2, hx, rfl⟩
    · simp only [hm, if_false, List.mem_map] at h
      obtain ⟨x, hx, rfl⟩ := h
      exact Or.inr (Or.inl ⟨hm, x.1, x.2, hx, rfl⟩)
  · exact Or.inr (Or.inr (Or.inl h))
  · by_cases hm : state % 2 = 0
    · simp only [hm, if_true] at h
      unfold busTransitions at h
      cases hb : S.busIndexer.StopByNodeID (idAt S.sortedNodes (state / 2)) with
      | none => simp [hb] at h
      | some busStop =>
        simp only [hb, List.mem_filterMap, Option.map_eq_some'] at h
        obtain ⟨route, _, c, hc, rfl⟩ := h
        exact Or.inr (Or.inr (Or.inr ⟨hm, busStop, route, c.1, c.2, hc, rfl⟩))
    · simp [hm] at h

theorem fastTransitions_nonneg (deps : Deps) (cfg : SConfiguration) (hok : FastestOK deps cfg)
    (destIdx : Nat) :
    NonnegWeights (fastTransitions deps (SImplementation.create deps cfg) destIdx) := by
  intro u e he
  rcases mem_fastTransitions deps _ destIdx u e he with
    ⟨_, v, w, hvw, rfl⟩ | ⟨_, v, w, hvw, rfl⟩ | rfl | ⟨_, bs, r, n, c, hc, rfl⟩
  · obtain ⟨_, p, q, hw⟩ := (create_walkBikeEdges deps cfg).1 _ _ hvw
    simp only at hw ⊢
    rw [hw]
    exact div_nonneg (hok.1 p q) (le_of_lt hok.2.1)
  · obtain ⟨_, p, q, hw⟩ := (create_walkBikeEdges deps cfg).2 _ _ hvw
    simp only at hw ⊢
    rw [hw]
    exact div_nonneg (hok.1 p q) (le_of_lt hok.2.2.1)
  · exact le_refl _
  · exact (busCandidate_some deps cfg hok destIdx bs r n c hc).2

theorem fastTransitions_inRange (deps : Deps) (cfg : SConfiguration) (hok : FastestOK deps cfg)
    (destIdx : Nat) :
    InRange (fastTransitions deps (SImplementation.create deps cfg) destIdx)
      (2 * (SImplementation.create deps cfg).sortedNodes.length) := by
  intro u hu e he
  rcases mem_fastTransitions deps _ destIdx u e he with
    ⟨_, v, w, hvw, rfl⟩ | ⟨_, v, w, hvw, rfl⟩ | rfl | ⟨_, bs, r, n, c, hc, rfl⟩
  · obtain ⟨⟨id, hid⟩, _⟩ := (create_walkBikeEdges deps cfg).1 _ _ hvw
    have := (nodeIndexMap_some deps cfg id v hid).1
    simp only
    omega
  · obtain ⟨⟨id, hid⟩, _⟩ := (create_walkBikeEdges deps cfg).2 _ _ hvw
    have := (nodeIndexMap_some deps cfg id v hid).1
    simp only
    omega
  · simp only
    split <;> omega
  · have := (busCandidate_some deps cfg hok destIdx bs r n c hc).1
    simp only
    omega

theorem itinerary_path (deps : Deps) (S : SImplementation) (destIdx s : Nat) {v m : Nat} {c : ℚ}
    (h : Itinerary deps S false s v m c) :
    m < 2 ∧ ∃ p, RPath (fastTransitions deps S destIdx) (s * 2 + 0) ((v * 2 + m) :: p) c := by
  induction h with
  | start => exact ⟨by omega, [], RPath.base⟩
  | @walkEdge u v c w _ he ih =>
    obtain ⟨_, p, hp⟩ := ih
    refine ⟨by omega, _, RPath.step hp ?_⟩
    unfold fastTransitions
    have h1 : (u * 2 + 0) % 2 = 0 := by omega
    have h2 : (u * 2 + 0) / 2 = u := by omega
    simp only [h1, h2, if_true, List.mem_append, List.mem_map]
    exact Or.inl (Or.inl ⟨(v, w), he, rfl⟩)
  | @bikeEdge u v c w _ he ih =>
    obtain ⟨_, p, hp⟩ := ih
    refine ⟨by omega, _, RPath.step hp ?_⟩
    unfold fastTransitions
    have h1 : ¬ (u * 2 + 1) % 2 = 0 := by omega
    have h2 : (u * 2 + 1) / 2 = u := by omega
    simp only [h1, h2, if_false, List.mem_append, List.mem_map]
    exact Or.inl (Or.inl ⟨(v, w), he, rfl⟩)
  | @swapToBike u c _ ih =>
    obtain ⟨_, p, hp⟩ := ih
    refine ⟨by omega, (u * 2 + 0) :: p, ?_⟩
    have hmem : (u * 2 + 1, (0 : ℚ)) ∈ fastTransitions deps S destIdx (u * 2 + 0) := by
      unfold fastTransitions
      have h1 : (u * 2 + 0) % 2 = 0 := by omega
      have h2 : (u * 2 + 0) / 2 = u := by omega
      simp only [h1, h2, if_true, List.mem_append, List.mem_singleton]
      exact Or.inl (Or.inr trivial)
    have := RPath.step hp hmem
    rwa [add_zero c] at this
  | @swapToWalk u c _ ih =>
    obtain ⟨_, p, hp⟩ := ih
    refine ⟨by omega, (u * 2 + 1) :: p, ?_⟩
    have hmem : (u * 2 + 0, (0 : ℚ)) ∈ fastTransitions deps S destIdx (u * 2 + 1) := by
      unfold fastTransitions
      have h1 : ¬ (u * 2 + 1) % 2 = 0 := by omega
      have h2 : (u * 2 + 1) / 2 = u := by omega
      simp only [h1, h2, if_false, List.mem_append, List.mem_singleton]
      exact Or.inl (Or.inr trivial)
    have := RPath.step hp hmem
    rwa [add_zero c] at this
  | busSegment route i j _ hb _ _ _ _ _ _ => exact absurd hb (by simp)

/-! ## Claims about `FindFastestPath` -/

theorem FindFastestPath_unknown (deps : Deps) (S : SImplementation) (fuel : Nat)
    (a b : TNodeID) (trip : List TTripStep)
    (h : S.nodeIndexMap a = none ∨ S.nodeIndexMap b = none) :
    S.FindFastestPath deps fuel a b trip = some (DBL_MAX, trip) := by
  unfold SImplementation.FindFastestPath
  rcases h with h | h
  · simp [h]
  · cases ha : S.nodeIndexMap a <;> simp [h]

/-- Total correctness of `FindFastestPath` with exact non-negative travel times, in
terms of the transitions the loop relaxes. -/
theorem FindFastestPath_total (deps : Deps) (cfg : SConfiguration) (hok : FastestOK deps cfg)
    (src dest : TNodeID) (s t : Nat)
    (hs : (SImplementation.create deps cfg).nodeIndexMap src = some s)
    (ht : (SImplementation.create deps cfg).nodeIndexMap dest = some t) :
    ∃ cost n, cost ≤ DBL_MAX ∧
      (∀ x p W, atDest (SImplementation.create deps cfg) dest x = true →
        RPath (fastTransitions deps (SImplementation.create deps cfg) t) (s * 2 + 0) (x :: p) W →
        cost ≤ W) ∧
      (cost < DBL_MAX → ∃ x p, atDest (SImplementation.create deps cfg) dest x = true ∧
        RPath (fastTransitions deps (SImplementation.create deps cfg) t) (s * 2 + 0) (x :: p)
          cost) ∧
      ∀ fuel, n ≤ fuel → ∀ trip, ∃ trip2,
        (SImplementation.create deps cfg).FindFastestPath deps fuel src dest trip =
          some (cost, trip2) ∧ (¬ cost < DBL_MAX → trip2 = trip) := by
  have hsN := (nodeIndexMap_some deps cfg src s hs).1
  obtain ⟨r, hpost, hrun⟩ := search_correct
    (fastTransitions deps (SImplementation.create deps cfg) t) (s * 2 + 0)
    (2 * (SImplementation.create deps cfg).sortedNodes.length)
    (atDest (SImplementation.create deps cfg) dest) false
    (fastTransitions_nonneg deps cfg hok t) (fastTransitions_inRange deps cfg hok t) (by omega)
  obtain ⟨done, rank, hT⟩ := hpost.tree
  have hloop : ∀ fuel, 1 + Finset.sum
      (Finset.range (2 * (SImplementation.create deps cfg).sortedNodes.length))
      (fun x => (fastTransitions deps (SImplementation.create deps cfg) t x).length) < fuel →
      ∃ st, fastestLoop deps (SImplementation.create deps cfg) dest t fuel
        { dist := Function.update (fun _ => DBL_MAX) (s * 2 + 0) 0, prev := fun _ => -1,
          prevEdgeType := fun _ => -1, pq := [(0, s * 2 + 0)] } = some (st, r.2) ∧
        st.core = r.1 := by
    intro fuel hfuel
    have h1 := hrun fuel hfuel
    have h2 := fastestLoop_core deps (SImplementation.create deps cfg) dest t fuel
      { dist := Function.update (fun _ => DBL_MAX) (s * 2 + 0) 0, prev := fun _ => -1,
        prevEdgeType := fun _ => -1, pq := [(0, s * 2 + 0)] }
    change _ = searchLoop _ _ false fuel (initState (s * 2 + 0)) at h2
    rw [h1, Option.map_eq_some'] at h2
    obtain ⟨x, hx1, hx2⟩ := h2
    refine ⟨x.1, ?_, ?_⟩
    · rw [hx1, ← hx2]
    · rw [← hx2]
  cases hf : r.2 with
  | none =>
    refine ⟨DBL_MAX, 2 + Finset.sum
      (Finset.range (2 * (SImplementation.create deps cfg).sortedNodes.length))
      (fun x => (fastTransitions deps (SImplementation.create deps cfg) t x).length),
      le_refl _, ?_, fun h => absurd h (lt_irrefl _), ?_⟩
    · intro x p W hx hp
      rw [← hpost.no_dest hf x hx]
      exact hpost.all_least hf x p W hp
    · intro fuel hfuel trip
      obtain ⟨st, hst, _⟩ := hloop fuel (by omega)
      refine ⟨trip, ?_, fun _ => rfl⟩
      unfold SImplementation.FindFastestPath
      simp only [hs, ht]
      rw [hst, hf]
  | some m =>
    obtain ⟨d, u⟩ := m
    obtain ⟨h1, h2, h3⟩ := hpost.at_dest d u hf
    obtain ⟨p, hp1, hp2⟩ := walkBack_tree hT u (by rw [h2]; exact h3)
    refine ⟨d, max (2 + Finset.sum
      (Finset.range (2 * (SImplementation.create deps cfg).sortedNodes.length))
      (fun x => (fastTransitions deps (SImplementation.create deps cfg) t x).length))
      (rank u + 2), le_of_lt h3, hpost.least d u hf, fun _ => ⟨u, p, h1, by rwa [h2] at hp1⟩, ?_⟩
    intro fuel hfuel trip
    obtain ⟨st, hst, hcore⟩ := hloop fuel (by omega)
    have hprev : st.prev = r.1.prev := by rw [← hcore]; rfl
    have hw := hp2 fuel [] (by omega)
    refine ⟨(u :: p).reverse.map (tripStep (SImplementation.create deps cfg) st), ?_,
      fun h => absurd h3 h⟩
    unfold SImplementation.FindFastestPath
    simp only [hs, ht]
    rw [hst, hf]
    simp only [hprev, hw, List.nil_append]

/-- C4, counterexample to the claim as stated, in three instances.  (1) Stops at nodes 1,
2, 3 of one route, ways 1-2 and 2-4, query (1, 4): riding the bus from node 1 to node 2
(position 0 to position 1 of the route) and biking from node 2 to node 4 is a valid
itinerary of total time `18847/1200` hours; `FindFastestPath(1, 4)` returns `345/16`
hours, because the bus is relaxed to node 3 only, the stop nearest to node 4.  (2) Stops
1 and 2 both at node 1 and route R from stop 1 to stop 3 at node 2, query (1, 2): the
bus ride from position 0 to position 1 takes `1/120 + 69/25` hours;
`StopByNodeID` gives stop 2 for node 1, which is not on R, no bus is relaxed and
`FindFastestPath(1, 2)` returns the biking time `69/8`.  (3) Route R visits stop 10 at
node 1 at positions 0 and 2 and ends at node 3, query (1, 3): the bus ride from position
2 to position 3 takes `1/120 + 138/25` hours; the planner boards at position 0, the first
position of stop 10, and `FindFastestPath(1, 3)` returns `6629/600` hours. -/
theorem C4_counterexample :
    (∃ c, Itinerary sampleDeps plannerBus true 0 3 1 c ∧ idAt plannerBus.sortedNodes 3 = 4 ∧
      plannerBus.nodeIndexMap 1 = some 0 ∧
      ∃ cost trip, plannerBus.FindFastestPath sampleDeps 40 1 4 [] = some (cost, trip) ∧
        c < cost) ∧
    (∃ c, Itinerary sampleDeps plannerTwin true 0 1 0 c ∧ idAt plannerTwin.sortedNodes 1 = 2 ∧
      plannerTwin.nodeIndexMap 1 = some 0 ∧
      plannerTwin.busIndexer.StopByNodeID (idAt plannerTwin.sortedNodes 0) = some ⟨2, 1⟩ ∧
      currentIndexInRoute ⟨"R", [1, 3]⟩ 2 = none ∧
      ∃ cost trip, plannerTwin.FindFastestPath sampleDeps 40 1 2 [] = some (cost, trip) ∧
        c < cost) ∧
    ∃ c, Itinerary sampleDeps plannerLoop true 0 2 0 c ∧ idAt plannerLoop.sortedNodes 2 = 3 ∧
      plannerLoop.nodeIndexMap 1 = some 0 ∧
      plannerLoop.busIndexer.StopByNodeID (idAt plannerLoop.sortedNodes 0) = some ⟨10, 1⟩ ∧
      currentIndexInRoute ⟨"R", [10, 20, 10, 30]⟩ 10 = some 0 ∧
      ∃ cost trip, plannerLoop.FindFastestPath sampleDeps 40 1 3 [] = some (cost, trip) ∧
        c < cost := by
  have h1 : Itinerary sampleDeps plannerBus true 0 1 0
      (0 + (plannerBus.the_config.BusStopTime +
        specBusMiles sampleDeps plannerBus ⟨"R", [101, 102, 103]⟩ 0 1 /
          plannerBus.the_config.DefaultSpeedLimit)) :=
    Itinerary.busSegment ⟨"R", [101, 102, 103]⟩ 0 1 Itinerary.start rfl (by decide!)
      (by decide!) (by decide!) (by decide!) (by decide!)
  have h2 := Itinerary.bikeEdge (Itinerary.swapToBike h1)
    (show (3, (207 / 16 : ℚ)) ∈ plannerBus.graphBiking 1 by decide!)
  have h3 : Itinerary sampleDeps plannerTwin true 0 1 0
      (0 + (plannerTwin.the_config.BusStopTime +
        specBusMiles sampleDeps plannerTwin ⟨"R", [1, 3]⟩ 0 1 /
          plannerTwin.the_config.DefaultSpeedLimit)) :=
    Itinerary.busSegment ⟨"R", [1, 3]⟩ 0 1 Itinerary.start rfl (by decide!)
      (by decide!) (by decide!) (by decide!) (by decide!)
  have h4 : Itinerary sampleDeps plannerLoop true 0 2 0
      (0 + (plannerLoop.the_config.BusStopTime +
        specBusMiles sampleDeps plannerLoop ⟨"R", [10, 20, 10, 30]⟩ 2 3 /
          plannerLoop.the_config.DefaultSpeedLimit)) :=
    Itinerary.busSegment ⟨"R", [10, 20, 10, 30]⟩ 2 3 Itinerary.start rfl (by decide!)
      (by decide!) (by decide!) (by decide!) (by decide!)
  exact ⟨⟨_, h2, by decide!, by decide!, 345 / 16,
      [(ETransportationMode.Walk, 1), (ETransportationMode.Bike, 1),
        (ETransportationMode.Bike, 2), (ETransportationMode.Bike, 4)], by decide!, by decide!⟩,
    ⟨_, h3, by decide!, by decide!, by decide!, by decide, 69 / 8,
      [(ETransportationMode.Walk, 1), (ETransportationMode.Bike, 1),
        (ETransportationMode.Bike, 2)], by decide!, by decide!⟩,
    ⟨_, h4, by decide!, by decide!, by decide!, by decide, 6629 / 600,
      [(ETransportationMode.Walk, 1), (ETransportationMode.Bus, 3)], by decide!, by decide!⟩⟩

/-- C6 (amended): for every street map and every query whose `src` or `dest` is not
the id of a node of the map, `FindShortestPath` and `FindFastestPath` both return
`std::numeric_limits<double>::max()` and leave their output vector as it was on
entry. -/
theorem C6_unknown_endpoint (deps : Deps) (cfg : SConfiguration) (src dest : TNodeID)
    (h : (∀ n, n ∈ cfg.StreetMap.Nodes → n.ID ≠ src) ∨
      (∀ n, n ∈ cfg.StreetMap.Nodes → n.ID ≠ dest))
    (fuel : Nat) (path : List TNodeID) (trip : List TTripStep) :
    (SImplementation.create deps cfg).FindShortestPath fuel src dest path =
      some (DBL_MAX, path) ∧
    (SImplementation.create deps cfg).FindFastestPath deps fuel src dest trip =
      some (DBL_MAX, trip) := by
  have h2 : (SImplementation.create deps cfg).nodeIndexMap src = none ∨
      (SImplementation.create deps cfg).nodeIndexMap dest = none :=
    h.imp (nodeIndexMap_none deps cfg src) (nodeIndexMap_none deps cfg dest)
  exact ⟨FindShortestPath_unknown _ fuel src dest path h2,
    FindFastestPath_unknown deps _ fuel src dest trip h2⟩

/-- C6, witness: scenario S1, query (5, 2) with node id 5 unknown. -/
theorem C6_witness :
    ((∀ n, n ∈ mapS1.Nodes → n.ID ≠ 5) ∨ (∀ n, n ∈ mapS1.Nodes → n.ID ≠ 2)) ∧
    plannerS1.FindShortestPath 0 5 2 [] = some (DBL_MAX, []) ∧
    plannerS1.FindFastestPath sampleDeps 0 5 2 [] = some (DBL_MAX, []) :=
  ⟨Or.inl (by decide),
    C6_unknown_endpoint sampleDeps (defaultConfig mapS1 noBus) 5 2 (Or.inl (by decide)) 0 [] []⟩

/-- C6, counterexample to the claim as stated: scenario S1, query (5, 2) with node id 5
unknown and non-empty output vectors on entry.  Both calls return the finite number
`DBL_MAX` and the outputs are not empty on return. -/
theorem C6_counterexample :
    (∀ n, n ∈ mapS1.Nodes → n.ID ≠ 5) ∧
    plannerS1.FindShortestPath 3 5 2 [7] = some (DBL_MAX, [7]) ∧
    plannerS1.FindFastestPath sampleDeps 3 5 2 [(ETransportationMode.Walk, 7)] =
      some (DBL_MAX, [(ETransportationMode.Walk, 7)]) :=
  ⟨by decide, by decide!, by decide!⟩

/-- C7 (amended): for every street map and bus system with exact non-negative travel
times and every pair of known node ids such that no state at `dest` is reachable from
`(src, Walk)` through the transitions the planner relaxes, `FindFastestPath` returns
`std::numeric_limits<double>::max()` and leaves the trip output as it was on entry. -/
theorem C7_fastest_unreachable (deps : Deps) (cfg : SConfiguration) (hok : FastestOK deps cfg)
    (src dest : TNodeID) (s t : Nat)
    (hs : (SImplementation.create deps cfg).nodeIndexMap src = some s)
    (ht : (SImplementation.create deps cfg).nodeIndexMap dest = some t)
    (hun : ¬ ∃ x p W, atDest (SImplementation.create deps cfg) dest x = true ∧
      RPath (fastTransitions deps (SImplementation.create deps cfg) t) (s * 2 + 0) (x :: p) W) :
    ∃ n, ∀ fuel, n ≤ fuel → ∀ trip,
      (SImplementation.create deps cfg).FindFastestPath deps fuel src dest trip =
        some (DBL_MAX, trip) := by
  obtain ⟨cost, n, h1, _, h3, h4⟩ := FindFastestPath_total deps cfg hok src dest s t hs ht
  have hnot : ¬ cost < DBL_MAX := by
    intro hlt
    obtain ⟨x, p, hx, hp⟩ := h3 hlt
    exact hun ⟨x, p, cost, hx, hp⟩
  have hmax : cost = DBL_MAX := le_antisymm h1 (not_lt.mp hnot)
  refine ⟨n, fun fuel hf trip => ?_⟩
  obtain ⟨trip2, h5, h6⟩ := h4 fuel hf trip
  rw [h5, h6 hnot, hmax]

theorem S3_fast_closed (l : List Nat) (W : ℚ)
    (h : RPath (fastTransitions sampleDeps plannerS3 2) 0 l W) : ∀ x, x ∈ l → x < 4 := by
  induction h with
  | base => intro x hx; simp at hx; omega
  | @step u v p W w _ he ih =>
    intro x hx
    rcases List.mem_cons.mp hx with rfl | hx
    · have hu : u < 4 := ih u (List.mem_cons_self _ _)
      have h0 : ∀ e, e ∈ fastTransitions sampleDeps plannerS3 2 0 → e.1 < 4 := by decide!
      have h1 : ∀ e, e ∈ fastTransitions sampleDeps plannerS3 2 1 → e.1 < 4 := by decide!
      have h2 : ∀ e, e ∈ fastTransitions sampleDeps plannerS3 2 2 → e.1 < 4 := by decide!
      have h3 : ∀ e, e ∈ fastTransitions sampleDeps plannerS3 2 3 → e.1 < 4 := by decide!
      match u, hu, he with
      | 0, _, he => exact h0 _ he
      | 1, _, he => exact h1 _ he
      | 2, _, he => exact h2 _ he
      | 3, _, he => exact h3 _ he
    · exact ih x hx

theorem S3_fast_unreachable :
    ¬ ∃ x p W, atDest plannerS3 3 x = true ∧
      RPath (fastTransitions sampleDeps plannerS3 2) (0 * 2 + 0) (x :: p) W := by
  rintro ⟨x, p, W, hx, hp⟩
  have hlt := S3_fast_closed _ _ hp x (List.mem_cons_self _ _)
  have hall : ∀ y, y < 4 → atDest plannerS3 3 y = false := by decide!
  rw [hall x hlt] at hx
  exact absurd hx (by simp)

/-- C7, witness: scenario S3, query (1, 3). -/
theorem C7_witness :
    FastestOK sampleDeps (defaultConfig mapS3 noBus) ∧
    plannerS3.nodeIndexMap 1 = some 0 ∧ plannerS3.nodeIndexMap 3 = some 2 ∧
    (¬ ∃ x p W, atDest plannerS3 3 x = true ∧
      RPath (fastTransitions sampleDeps plannerS3 2) (0 * 2 + 0) (x :: p) W) ∧
    ∃ n, ∀ fuel, n ≤ fuel → ∀ trip,
      plannerS3.FindFastestPath sampleDeps fuel 1 3 trip = some (DBL_MAX, trip) :=
  ⟨⟨gridMiles_nonneg, by decide!, by decide!, by decide!, by decide!⟩, by decide!, by decide!,
    S3_fast_unreachable,
    C7_fastest_unreachable sampleDeps (defaultConfig mapS3 noBus)
      ⟨gridMiles_nonneg, by decide!, by decide!, by decide!, by decide!⟩ 1 3 0 2
      (by decide!) (by decide!) S3_fast_unreachable⟩

/-- C7, counterexample to the claim as stated: scenario S3, query (1, 3), where no
state at node 3 is reachable, with the trip output holding one step on entry.  The
call returns the finite number `DBL_MAX` and the trip output still holds that step. -/
theorem C7_counterexample :
    (¬ ∃ x p W, atDest plannerS3 3 x = true ∧
      RPath (fastTransitions sampleDeps plannerS3 2) (0 * 2 + 0) (x :: p) W) ∧
    plannerS3.FindFastestPath sampleDeps 9 1 3 [(ETransportationMode.Walk, 7)] =
      some (DBL_MAX, [(ETransportationMode.Walk, 7)]) :=
  ⟨S3_fast_unreachable, by decide!⟩

/-! ## Bus system indexer -/

theorem indexer_sortedStops (bs : CBusSystem) :
    (CBusSystemIndexer.create bs).sortedStops =
      bs.Stops.insertionSort (fun a b => a.ID ≤ b.ID) := by
  have h : (List.range bs.StopCount).filterMap bs.StopByIndex = bs.Stops :=
    range_filterMap_getElem bs.Stops
  simp only [CBusSystemIndexer.create, h]

theorem indexer_sortedRoutes (bs : CBusSystem) :
    (CBusSystemIndexer.create bs).sortedRoutes =
      bs.Routes.insertionSort (fun a b => a.Name ≤ b.Name) := by
  have h : (List.range bs.RouteCount).filterMap bs.RouteByIndex = bs.Routes :=
    range_filterMap_getElem bs.Routes
  simp only [CBusSystemIndexer.create, h]

theorem indexer_nodeToStop (bs : CBusSystem) :
    (CBusSystemIndexer.create bs).nodeToStop =
      (bs.Stops.insertionSort (fun a b => a.ID ≤ b.ID)).foldl
        (fun (m : TNodeID → Option SStop) (stop : SStop) =>
          Function.update m stop.NodeID (some stop)) (fun _ => none) := by
  have h : (List.range bs.StopCount).filterMap bs.StopByIndex = bs.Stops :=
    range_filterMap_getElem bs.Stops
  simp only [CBusSystemIndexer.create, h]

theorem mem_sortedStops (bs : CBusSystem) (s : SStop) :
    s ∈ (CBusSystemIndexer.create bs).sortedStops ↔ s ∈ bs.Stops := by
  rw [indexer_sortedStops]
  exact (List.perm_insertionSort _ _).mem_iff

theorem mem_sortedRoutes (bs : CBusSystem) (r : SRoute) :
    r ∈ (CBusSystemIndexer.create bs).sortedRoutes ↔ r ∈ bs.Routes := by
  rw [indexer_sortedRoutes]
  exact (List.perm_insertionSort _ _).mem_iff

/-- Filling `nodeToStop`: a node at which no listed stop is located keeps its entry. -/
theorem fillStops_other (l : List SStop) (m : TNodeID → Option SStop) (n : TNodeID)
    (h : ∀ s ∈ l, s.NodeID ≠ n) :
    l.foldl (fun (m : TNodeID → Option SStop) (stop : SStop) =>
          Function.update m stop.NodeID (some stop)) m n = m n := by
  induction l generalizing m with
  | nil => rfl
  | cons s rest ih =>
    rw [List.foldl_cons, ih _ (fun t ht => h t (List.mem_cons_of_mem _ ht))]
    exact Function.update_noteq (Ne.symm (h s (List.mem_cons_self _ _))) _ _

/-- Filling `nodeToStop`: a node at which a listed stop is located ends up with a listed
stop located there. -/
theorem fillStops_mem (l : List SStop) (m : TNodeID → Option SStop) (n : TNodeID)
    (h : ∃ s ∈ l, s.NodeID = n) :
    ∃ s ∈ l, s.NodeID = n ∧
      l.foldl (fun (m : TNodeID → Option SStop) (stop : SStop) =>
          Function.update m stop.NodeID (some stop)) m n = some s := by
  induction l generalizing m with
  | nil => obtain ⟨s, hs, _⟩ := h; cases hs
  | cons s rest ih =>
    by_cases hr : ∃ t ∈ rest, t.NodeID = n
    · obtain ⟨t, ht, htn, hres⟩ := ih (Function.update m s.NodeID (some s)) hr
      exact ⟨t, List.mem_cons_of_mem _ ht, htn, hres⟩
    · have hs : s.NodeID = n := by
        obtain ⟨t, ht, htn⟩ := h
        rcases List.mem_cons.1 ht with rfl | ht
        · exact htn
        · exact absurd ⟨t, ht, htn⟩ hr
      refine ⟨s, List.mem_cons_self _ _, hs, ?_⟩
      rw [List.foldl_cons, fillStops_other rest _ n (fun t ht htn => hr ⟨t, ht, htn⟩), ← hs]
      exact Function.update_same _ _ _

theorem StopByNodeID_none (bs : CBusSystem) (n : TNodeID) (h : ∀ s ∈ bs.Stops, s.NodeID ≠ n) :
    (CBusSystemIndexer.create bs).StopByNodeID n = none := by
  unfold CBusSystemIndexer.StopByNodeID
  rw [indexer_nodeToStop, fillStops_other]
  intro s hs
  exact h s ((List.perm_insertionSort _ _).mem_iff.1 hs)

theorem StopByNodeID_mem (bs : CBusSystem) (n : TNodeID) (h : ∃ s ∈ bs.Stops, s.NodeID = n) :
    ∃ s ∈ bs.Stops, s.NodeID = n ∧ (CBusSystemIndexer.create bs).StopByNodeID n = some s := by
  unfold CBusSystemIndexer.StopByNodeID
  rw [indexer_nodeToStop]
  obtain ⟨s, hs, hn⟩ := h
  obtain ⟨t, ht, htn, hres⟩ := fillStops_mem (bs.Stops.insertionSort (fun a b => a.ID ≤ b.ID))
    (fun _ => none) n ⟨s, (List.perm_insertionSort _ _).mem_iff.2 hs, hn⟩
  exact ⟨t, (List.perm_insertionSort _ _).mem_iff.1 ht, htn, hres⟩

theorem StopByNodeID_some (bs : CBusSystem) (n : TNodeID) (s : SStop)
    (h : (CBusSystemIndexer.create bs).StopByNodeID n = some s) :
    s ∈ bs.Stops ∧ s.NodeID = n := by
  by_cases hex : ∃ t ∈ bs.Stops, t.NodeID = n
  · obtain ⟨t, ht, htn, hres⟩ := StopByNodeID_mem bs n hex
    rw [hres, Option.some.injEq] at h
    subst h
    exact ⟨ht, htn⟩
  · rw [StopByNodeID_none bs n (fun t ht htn => hex ⟨t, ht, htn⟩)] at h
    cases h

theorem routeLinks_iff (route : SRoute) (a b : TStopID) :
    routeLinks route a b = true ↔
      ∃ i, i + 1 < route.StopCount ∧
        ((route.GetStopID i = a ∧ route.GetStopID (i + 1) = b) ∨
          (route.GetStopID i = b ∧ route.GetStopID (i + 1) = a)) := by
  unfold routeLinks
  simp only [List.any_eq_true, List.mem_range, Bool.and_eq_true, Bool.or_eq_true,
    decide_eq_true_eq]
  constructor
  · rintro ⟨i, _, h1, h2⟩
    exact ⟨i, h1, h2⟩
  · rintro ⟨i, h1, h2⟩
    exact ⟨i, by omega, h1, h2⟩

theorem foldl_collect {α : Type} (p : α → Bool) (l acc : List α) :
    l.foldl (fun acc x => if p x then acc ++ [x] else acc) acc = acc ++ l.filter p := by
  induction l generalizing acc with
  | nil => simp
  | cons x rest ih =>
    rw [List.foldl_cons, ih]
    by_cases hp : p x = true
    · simp [hp, List.filter_cons]
    · simp [hp, List.filter_cons]

/-- `RoutesByNodeIDs` whatever the incoming set: the matching routes of `sortedRoutes`
when both nodes have a stop, nothing otherwise. -/
theorem RoutesByNodeIDs_eq (ix : CBusSystemIndexer) (src dest : TNodeID)
    (routes : List SRoute) :
    ix.RoutesByNodeIDs src dest routes =
      match ix.StopByNodeID src, ix.StopByNodeID dest with
      | some srcStop, some destStop =>
        (!(ix.sortedRoutes.filter
            (fun r => routeLinks r srcStop.ID destStop.ID)).isEmpty,
          ix.sortedRoutes.filter (fun r => routeLinks r srcStop.ID destStop.ID))
      | _, _ => (false, []) := by
  unfold CBusSystemIndexer.RoutesByNodeIDs
  cases ix.StopByNodeID src <;> cases ix.StopByNodeID dest <;>
    simp [foldl_collect, List.drop_length]

theorem StopByNodeID_unique (bs : CBusSystem) (h : OneStopPerNode bs) (s : SStop)
    (hs : s ∈ bs.Stops) : (CBusSystemIndexer.create bs).StopByNodeID s.NodeID = some s := by
  obtain ⟨t, ht, htn, hres⟩ := StopByNodeID_mem bs s.NodeID ⟨s, hs, rfl⟩
  rw [hres, h t ht s hs htn]

theorem RoutesByNodeIDs_flag (ix : CBusSystemIndexer) (src dest : TNodeID)
    (routes : List SRoute) :
    (ix.RoutesByNodeIDs src dest routes).1 = true ↔
      (ix.RoutesByNodeIDs src dest routes).2 ≠ [] := by
  rw [RoutesByNodeIDs_eq]
  cases ix.StopByNodeID src <;> cases ix.StopByNodeID dest <;> simp [List.isEmpty_iff]

theorem RoutesByNodeIDs_none (bs : CBusSystem) (src dest : TNodeID) (routes : List SRoute)
    (h : (∀ s ∈ bs.Stops, s.NodeID ≠ src) ∨ (∀ s ∈ bs.Stops, s.NodeID ≠ dest)) :
    (CBusSystemIndexer.create bs).RoutesByNodeIDs src dest routes = (false, []) := by
  rw [RoutesByNodeIDs_eq]
  rcases h with h | h
  · rw [StopByNodeID_none bs src h]
  · rw [StopByNodeID_none bs dest h]
    cases (CBusSystemIndexer.create bs).StopByNodeID src <;> rfl

/-- Every route `RoutesByNodeIDs` puts in the set is a route of the bus system with
consecutive stops located at the two nodes. -/
theorem RoutesByNodeIDs_sound (bs : CBusSystem) (src dest : TNodeID) (routes : List SRoute)
    (r : SRoute) (h : r ∈ ((CBusSystemIndexer.create bs).RoutesByNodeIDs src dest routes).2) :
    r ∈ bs.Routes ∧ Links bs r src dest := by
  rw [RoutesByNodeIDs_eq] at h
  cases h1 : (CBusSystemIndexer.create bs).StopByNodeID src with
  | none => rw [h1] at h; cases h
  | some s1 =>
    cases h2 : (CBusSystemIndexer.create bs).StopByNodeID dest with
    | none => rw [h1, h2] at h; cases h
    | some s2 =>
      rw [h1, h2] at h
      obtain ⟨hr, hl⟩ := List.mem_filter.1 h
      obtain ⟨m1, n1⟩ := StopByNodeID_some bs src s1 h1
      obtain ⟨m2, n2⟩ := StopByNodeID_some bs dest s2 h2
      refine ⟨(mem_sortedRoutes bs r).1 hr, ?_⟩
      obtain ⟨i, hi, hc⟩ := (routeLinks_iff r s1.ID s2.ID).1 hl
      refine ⟨i, hi, ?_⟩
      rcases hc with ⟨a, b⟩ | ⟨a, b⟩
      · exact Or.inl ⟨⟨s1, m1, a.symm, n1⟩, ⟨s2, m2, b.symm, n2⟩⟩
      · exact Or.inr ⟨⟨s2, m2, a.symm, n2⟩, ⟨s1, m1, b.symm, n1⟩⟩

/-- When no two stops share a node, every route of the bus system with consecutive
stops located at the two nodes is put in the set. -/
theorem RoutesByNodeIDs_complete (bs : CBusSystem) (hone : OneStopPerNode bs)
    (src dest : TNodeID) (routes : List SRoute) (r : SRoute) (hr : r ∈ bs.Routes)
    (hl : Links bs r src dest) :
    r ∈ ((CBusSystemIndexer.create bs).RoutesByNodeIDs src dest routes).2 := by
  rw [RoutesByNodeIDs_eq]
  obtain ⟨i, hi, hc⟩ := hl
  have key : ∀ s1 s2 : SStop, s1 ∈ bs.Stops → s2 ∈ bs.Stops → s1.NodeID = src →
      s2.NodeID = dest →
      ((r.GetStopID i = s1.ID ∧ r.GetStopID (i + 1) = s2.ID) ∨
        (r.GetStopID i = s2.ID ∧ r.GetStopID (i + 1) = s1.ID)) →
      r ∈ (match (CBusSystemIndexer.create bs).StopByNodeID src,
            (CBusSystemIndexer.create bs).StopByNodeID dest with
        | some srcStop, some destStop =>
          (!((CBusSystemIndexer.create bs).sortedRoutes.filter
              (fun r => routeLinks r srcStop.ID destStop.ID)).isEmpty,
            (CBusSystemIndexer.create bs).sortedRoutes.filter
              (fun r => routeLinks r srcStop.ID destStop.ID))
        | _, _ => (false, [])).2 := by
    intro s1 s2 m1 m2 n1 n2 hc
    have e1 := StopByNodeID_unique bs hone s1 m1
    have e2 := StopByNodeID_unique bs hone s2 m2
    rw [n1] at e1
    rw [n2] at e2
    rw [e1, e2]
    exact List.mem_filter.2 ⟨(mem_sortedRoutes bs r).2 hr,
      (routeLinks_iff r s1.ID s2.ID).2 ⟨i, hi, hc⟩⟩
  rcases hc with ⟨⟨s1, m1, a1, n1⟩, ⟨s2, m2, a2, n2⟩⟩ | ⟨⟨s2, m2, a2, n2⟩, ⟨s1, m1, a1, n1⟩⟩
  · exact key s1 s2 m1 m2 n1 n2 (Or.inl ⟨a1.symm, a2.symm⟩)
  · exact key s1 s2 m1 m2 n1 n2 (Or.inr ⟨a2.symm, a1.symm⟩)

theorem busLine_oneStopPerNode : OneStopPerNode busLine := by
  intro s hs t ht
  simp only [busLine, List.mem_cons, List.mem_singleton, List.not_mem_nil, or_false] at hs ht
  rcases hs with rfl | rfl | rfl <;> rcases ht with rfl | rfl | rfl <;> simp

/-- C11 (amended): for every bus system in which no two stops are located at the same
node, `StopByNodeID(s.NodeID())` returns `s` for every stop `s` of the stop data; and,
for every bus system, `StopByNodeID(n)` is null for every node id `n` at which no stop
is located. -/
theorem C11_stop_by_node_id (bs : CBusSystem) :
    (OneStopPerNode bs →
      ∀ s ∈ bs.Stops, (CBusSystemIndexer.create bs).StopByNodeID s.NodeID = some s) ∧
    ∀ n, (∀ s ∈ bs.Stops, s.NodeID ≠ n) →
      (CBusSystemIndexer.create bs).StopByNodeID n = none :=
  ⟨fun h s hs => StopByNodeID_unique bs h s hs, fun n h => StopByNodeID_none bs n h⟩

/-- C11, witness: the three stops of the bus example are at nodes 1, 2, 3; the stop at
node 2 is found, and node 4 has no stop. -/
theorem C11_witness :
    OneStopPerNode busLine ∧ (⟨102, 2⟩ : SStop) ∈ busLine.Stops ∧
    (CBusSystemIndexer.create busLine).StopByNodeID 2 = some ⟨102, 2⟩ ∧
    (∀ s ∈ busLine.Stops, s.NodeID ≠ 4) ∧
    (CBusSystemIndexer.create busLine).StopByNodeID 4 = none :=
  ⟨busLine_oneStopPerNode, by decide,
    (C11_stop_by_node_id busLine).1 busLine_oneStopPerNode ⟨102, 2⟩ (by decide),
    by decide, (C11_stop_by_node_id busLine).2 4 (by decide)⟩

/-- C11, counterexample to the claim as stated: stops 1 and 2 are both located at node
5; `StopByNodeID(5)` returns stop 2, so for the stop `s` with id 1
`StopByNodeID(s.NodeID())` is not `s`. -/
theorem C11_counterexample :
    (⟨1, 5⟩ : SStop) ∈ busShared.Stops ∧
    (CBusSystemIndexer.create busShared).StopByNodeID (⟨1, 5⟩ : SStop).NodeID =
      some ⟨2, 5⟩ ∧
    (CBusSystemIndexer.create busShared).StopByNodeID (⟨1, 5⟩ : SStop).NodeID ≠
      some ⟨1, 5⟩ :=
  ⟨by decide, by decide, by decide⟩

/-- C12 (amended): for every bus system, if `RouteBetweenNodeIDs(a, b)` is true then
some route contains two consecutive stops, one located at node `a` and the other at node
`b`, in either order; and for every bus system in which no two stops are located at the
same node the converse holds too, so there `RouteBetweenNodeIDs(a, b)` is true exactly
when such a route exists. -/
theorem C12_route_between_node_ids (bs : CBusSystem) (a b : TNodeID) :
    ((CBusSystemIndexer.create bs).RouteBetweenNodeIDs a b = true →
      ∃ r ∈ bs.Routes, Links bs r a b) ∧
    (OneStopPerNode bs →
      ((CBusSystemIndexer.create bs).RouteBetweenNodeIDs a b = true ↔
        ∃ r ∈ bs.Routes, Links bs r a b)) := by
  have sound : (CBusSystemIndexer.create bs).RouteBetweenNodeIDs a b = true →
      ∃ r ∈ bs.Routes, Links bs r a b := by
    intro h
    unfold CBusSystemIndexer.RouteBetweenNodeIDs at h
    have hne := (RoutesByNodeIDs_flag _ a b []).1 h
    obtain ⟨r, hr⟩ := List.exists_mem_of_ne_nil _ hne
    exact ⟨r, RoutesByNodeIDs_sound bs a b [] r hr⟩
  refine ⟨sound, fun hone => ⟨sound, ?_⟩⟩
  rintro ⟨r, hr, hl⟩
  unfold CBusSystemIndexer.RouteBetweenNodeIDs
  exact (RoutesByNodeIDs_flag _ a b []).2
    (List.ne_nil_of_mem (RoutesByNodeIDs_complete bs hone a b [] r hr hl))

/-- C12, witness: in the bus example route R runs 101, 102, 103 with the stops at nodes
1, 2, 3, so there is a route between nodes 2 and 1. -/
theorem C12_witness :
    OneStopPerNode busLine ∧ (∃ r ∈ busLine.Routes, Links busLine r 2 1) ∧
    (CBusSystemIndexer.create busLine).RouteBetweenNodeIDs 2 1 = true :=
  have hl : ∃ r ∈ busLine.Routes, Links busLine r 2 1 :=
    ⟨⟨"R", [101, 102, 103]⟩, by decide, 0, by decide,
      Or.inr ⟨⟨⟨101, 1⟩, by decide, by decide, rfl⟩, ⟨⟨102, 2⟩, by decide, by decide, rfl⟩⟩⟩
  ⟨busLine_oneStopPerNode, hl,
    ((C12_route_between_node_ids busLine 2 1).2 busLine_oneStopPerNode).2 hl⟩

/-- C12, counterexample to the claim as stated: stops 1 and 2 are both located at node
5 and stop 3 at node 6; route R has the consecutive stops 1 and 3, located at nodes 5 and
6, yet `RouteBetweenNodeIDs(5, 6)` is false (the stop looked up for node 5 is stop 2). -/
theorem C12_counterexample :
    (∃ r ∈ busShared.Routes, Links busShared r 5 6) ∧
    (CBusSystemIndexer.create busShared).RouteBetweenNodeIDs 5 6 = false :=
  ⟨⟨⟨"R", [1, 3]⟩, by decide, 0, by decide,
      Or.inl ⟨⟨⟨1, 5⟩, by decide, by decide, rfl⟩, ⟨⟨3, 6⟩, by decide, by decide, rfl⟩⟩⟩,
    by decide⟩

/-- C13 (amended): for every `src`, `dest` and initial content of `routes`: every route
`RoutesByNodeIDs` leaves in the set is a route of the bus system that has, at some
positions `i` and `i + 1`, a stop located at `src` and a stop located at `dest` in either
order; when no two stops of the bus system are located at the same node the set holds
every such route; the set is empty and false is returned when `src` or `dest` is not the
node of any stop; and the returned flag is true exactly when the set is non-empty. -/
theorem C13_routes_by_node_ids (bs : CBusSystem) (src dest : TNodeID)
    (routes : List SRoute) :
    (∀ r, r ∈ ((CBusSystemIndexer.create bs).RoutesByNodeIDs src dest routes).2 →
      r ∈ bs.Routes ∧ Links bs r src dest) ∧
    (OneStopPerNode bs → ∀ r,
      (r ∈ ((CBusSystemIndexer.create bs).RoutesByNodeIDs src dest routes).2 ↔
        r ∈ bs.Routes ∧ Links bs r src dest)) ∧
    (((∀ s ∈ bs.Stops, s.NodeID ≠ src) ∨ (∀ s ∈ bs.Stops, s.NodeID ≠ dest)) →
      (CBusSystemIndexer.create bs).RoutesByNodeIDs src dest routes = (false, [])) ∧
    (((CBusSystemIndexer.create bs).RoutesByNodeIDs src dest routes).1 = true ↔
      ((CBusSystemIndexer.create bs).RoutesByNodeIDs src dest routes).2 ≠ []) :=
  ⟨fun r hr => RoutesByNodeIDs_sound bs src dest routes r hr,
    fun hone r => ⟨fun hr => RoutesByNodeIDs_sound bs src dest routes r hr,
      fun h => RoutesByNodeIDs_complete bs hone src dest routes r h.1 h.2⟩,
    fun h => RoutesByNodeIDs_none bs src dest routes h,
    RoutesByNodeIDs_flag _ src dest routes⟩

/-- C13, witness: in the bus example, starting from a set that holds some other route,
`RoutesByNodeIDs(1, 2, routes)` returns true and leaves exactly route R in the set; for
node 4, which has no stop, it returns false and leaves the set empty. -/
theorem C13_witness :
    OneStopPerNode busLine ∧
    (CBusSystemIndexer.create busLine).RoutesByNodeIDs 1 2 [⟨"X", [7, 8]⟩] =
      (true, [⟨"R", [101, 102, 103]⟩]) ∧
    ((⟨"R", [101, 102, 103]⟩ : SRoute) ∈
        ((CBusSystemIndexer.create busLine).RoutesByNodeIDs 1 2 [⟨"X", [7, 8]⟩]).2 ↔
      (⟨"R", [101, 102, 103]⟩ : SRoute) ∈ busLine.Routes ∧
        Links busLine ⟨"R", [101, 102, 103]⟩ 1 2) ∧
    ((∀ s ∈ busLine.Stops, s.NodeID ≠ 1) ∨ (∀ s ∈ busLine.Stops, s.NodeID ≠ 4)) ∧
    (CBusSystemIndexer.create busLine).RoutesByNodeIDs 1 4 [⟨"X", [7, 8]⟩] = (false, []) :=
  ⟨busLine_oneStopPerNode, by decide,
    (C13_routes_by_node_ids busLine 1 2 [⟨"X", [7, 8]⟩]).2.1 busLine_oneStopPerNode _,
    Or.inr (by decide),
    (C13_routes_by_node_ids busLine 1 4 [⟨"X", [7, 8]⟩]).2.2.1 (Or.inr (by decide))⟩

/-- C13, counterexample to the claim as stated: stops 1 and 2 are both located at node
5 and stop 3 at node 6; route R has a stop located at 5 at position 0 and a stop located
at 6 at position 1, yet `RoutesByNodeIDs(5, 6, routes)` returns false and leaves the set
empty. -/
theorem C13_counterexample :
    (⟨"R", [1, 3]⟩ : SRoute) ∈ busShared.Routes ∧
    Links busShared ⟨"R", [1, 3]⟩ 5 6 ∧
    (CBusSystemIndexer.create busShared).RoutesByNodeIDs 5 6 [] = (false, []) :=
  ⟨by decide, ⟨0, by decide,
      Or.inl ⟨⟨⟨1, 5⟩, by decide, by decide, rfl⟩, ⟨⟨3, 6⟩, by decide, by decide, rfl⟩⟩⟩,
    by decide⟩

/-- C18: `StopCount()` of the indexer is the number of stops of the bus system; the
sequence `SortedStopByIndex(0), ..., SortedStopByIndex(StopCount()-1)` lists non-null
stops that are a permutation of the bus system's stops with the stop ids in ascending
order (strictly ascending when the ids are distinct); `SortedStopByIndex(i)` is null for
every `i ≥ StopCount()`. -/
theorem C18_sorted_stops (bs : CBusSystem) :
    (CBusSystemIndexer.create bs).StopCount = bs.StopCount ∧
    (∃ l : List SStop,
      (List.range (CBusSystemIndexer.create bs).StopCount).map
        (CBusSystemIndexer.create bs).SortedStopByIndex = l.map some ∧
      l.Perm bs.Stops ∧ List.Sorted (fun a b => a.ID ≤ b.ID) l ∧
      ((bs.Stops.map (fun s => s.ID)).Nodup → List.Sorted (fun a b => a.ID < b.ID) l)) ∧
    ∀ i, (CBusSystemIndexer.create bs).StopCount ≤ i →
      (CBusSystemIndexer.create bs).SortedStopByIndex i = none := by
  have hsorted := indexer_sortedStops bs
  have hperm : (CBusSystemIndexer.create bs).sortedStops.Perm bs.Stops := by
    rw [hsorted]; exact List.perm_insertionSort _ _
  have hsort : List.Sorted (fun a b : SStop => a.ID ≤ b.ID)
      (CBusSystemIndexer.create bs).sortedStops := by
    rw [hsorted]
    haveI : IsTotal SStop (fun a b => a.ID ≤ b.ID) := ⟨fun a b => Nat.le_total a.ID b.ID⟩
    haveI : IsTrans SStop (fun a b => a.ID ≤ b.ID) := ⟨fun a b c => Nat.le_trans⟩
    exact List.sorted_insertionSort _ _
  refine ⟨?_, ⟨(CBusSystemIndexer.create bs).sortedStops, ?_, hperm, hsort, ?_⟩, ?_⟩
  · unfold CBusSystemIndexer.StopCount CBusSystem.StopCount
    exact hperm.length_eq
  · apply List.ext_getElem?
    intro i
    simp only [CBusSystemIndexer.StopCount, CBusSystemIndexer.SortedStopByIndex,
      List.getElem?_map, List.getElem?_range]
    by_cases hi : i < (CBusSystemIndexer.create bs).sortedStops.length
    · simp [List.getElem?_range hi, hi, CBusSystemIndexer.SortedStopByIndex]
    · simp [List.getElem?_eq_none (not_lt.mp hi),
        List.getElem?_eq_none (l := List.range _) (by simpa using not_lt.mp hi)]
  · intro hnd
    have hnd2 : ((CBusSystemIndexer.create bs).sortedStops.map (fun s => s.ID)).Nodup :=
      (hperm.map _).nodup_iff.mpr hnd
    have h1 : List.Pairwise (fun a b : SStop => a.ID ≠ b.ID)
        (CBusSystemIndexer.create bs).sortedStops := by
      rw [List.Nodup, List.pairwise_map] at hnd2
      exact hnd2
    exact (List.Pairwise.and hsort h1).imp (fun h => lt_of_le_of_ne h.1 h.2)
  · intro i hi
    unfold CBusSystemIndexer.SortedStopByIndex
    unfold CBusSystemIndexer.StopCount at hi
    rw [if_neg (not_lt.mpr hi)]

/-! ## The trip emitted by `FindFastestPath` -/

/-- The pair the search loop stops at: a destination with an entry below the
sentinel. -/
theorem searchLoop_found {adj : Graph} {src : Nat} (isDest : Nat → Bool) (live : Bool)
    (fuel : Nat) (st : DState) (hI : LinkInv adj src st) (st2 : DState) (d : ℚ) (u : Nat)
    (hr : searchLoop adj isDest live fuel st = some (st2, some (d, u))) :
    isDest u = true ∧ st2.dist u < DBL_MAX ∧ d < DBL_MAX := by
  induction fuel generalizing st with
  | zero => simp [searchLoop] at hr
  | succ fuel ih =>
    unfold searchLoop at hr
    cases htop : pqTop st.pq with
    | none => simp [htop] at hr
    | some m =>
      obtain ⟨d0, u0⟩ := m
      simp only [htop] at hr
      have hpop : LinkInv adj src { st with pq := pqPop st.pq } :=
        ⟨hI.dist_le, fun d x hm => hI.pq_lt d x (mem_pqPop hm), hI.root, hI.link⟩
      have hkey := hI.pq_lt d0 u0 (pqTop_some htop).1
      by_cases hs : d0 > st.dist u0
      · rw [if_pos hs] at hr
        exact ih _ hpop hr
      · rw [if_neg hs] at hr
        by_cases hd : isDest u0 = true
        · rw [if_pos hd, Option.some.injEq, Prod.mk.injEq, Option.some.injEq,
            Prod.mk.injEq] at hr
          obtain ⟨h1, h2, h3⟩ := hr
          subst h1 h2 h3
          exact ⟨hd, lt_of_le_of_lt hkey.1 hkey.2, hkey.2⟩
        · rw [if_neg hd] at hr
          have hu : st.dist u0 < DBL_MAX := lt_of_le_of_lt hkey.1 hkey.2
          exact ih _ (foldl_relax_link _ (adj u0) (fun _ h => h) _ hpop hu) hr

/-- Walking the `prev` links back from a finite entry ends at `src`, which has no
link. -/
theorem walkBack_link_root {adj : Graph} {src : Nat} {st : DState} (hI : LinkInv adj src st)
    (fuel : Nat) (v : Nat) (acc r : List Nat) (hv : st.dist v < DBL_MAX)
    (hr : walkBack st.prev fuel (v : Int) acc = some r) :
    ∃ p W, r = acc ++ (v :: p) ∧ RPath adj src (v :: p) W ∧ st.prev src = -1 := by
  induction fuel generalizing v acc with
  | zero => simp [walkBack] at hr
  | succ fuel ih =>
    unfold walkBack at hr
    have hne : ((v : Int) = -1) = False := by
      simp only [eq_iff_iff, iff_false]; omega
    simp only [hne, if_false, Int.toNat_ofNat] at hr
    by_cases hp : st.prev v = -1
    · rw [hp] at hr
      cases fuel with
      | zero => simp [walkBack] at hr
      | succ fuel =>
        unfold walkBack at hr
        simp only [if_true, Option.some.injEq] at hr
        have hsrc := hI.root v hp hv
        subst hsrc
        exact ⟨[], 0, by rw [← hr], RPath.base, hp⟩
    · obtain ⟨u, w, h1, h2, h3⟩ := hI.link v hp
      rw [h1] at hr
      obtain ⟨p, W, hp1, hp2, hp3⟩ := ih u _ h2 hr
      refine ⟨u :: p, W + w, ?_, RPath.step hp2 h3, hp3⟩
      rw [hp1]; simp

/-- A property of the arrays kept by every relaxation with tag 0, and by those with
tag 1 when some node has a bus stop, is kept by the loop body. -/
theorem fastestStep_preserves (P : FState → Prop) (deps : Deps) (S : SImplementation)
    (destIdx : Nat) (curCost : ℚ) (cur : Nat)
    (h0 : ∀ s next c, P s → P (relaxFastest cur 0 s next c))
    (h1 : (∃ n b, S.busIndexer.StopByNodeID n = some b) →
      ∀ s next c, P s → P (relaxFastest cur 1 s next c))
    (st : FState) (hst : P st) : P (fastestStep deps S destIdx curCost cur st) := by
  unfold fastestStep
  by_cases hm : cur % 2 = 0
  · simp only [hm, if_true]
    have hst1 := foldl_preserves P
      (fun s (edge : Nat × ℚ) => relaxFastest cur 0 s (edge.1 * 2 + 0) (curCost + edge.2))
      (S.graphWalking (cur / 2)) (fun b a _ hb => h0 b _ _ hb) st hst
    have hst2 := h0 _ (cur / 2 * 2 + 1) curCost hst1
    cases hb : S.busIndexer.StopByNodeID (idAt S.sortedNodes (cur / 2)) with
    | none => exact hst2
    | some busStop =>
      simp only
      refine foldl_preserves P _ _ (fun b a _ hb2 => ?_) _ hst2
      cases busCandidate deps S destIdx busStop a with
      | none => exact hb2
      | some c => exact h1 ⟨_, busStop, hb⟩ b _ _ hb2
  · simp only [hm, if_false]
    have hst1 := foldl_preserves P
      (fun s (edge : Nat × ℚ) => relaxFastest cur 0 s (edge.1 * 2 + 1) (curCost + edge.2))
      (S.graphBiking (cur / 2)) (fun b a _ hb => h0 b _ _ hb) st hst
    exact h0 _ (cur / 2 * 2 + 0) curCost hst1

/-- Such a property, when it does not read the queue, holds of the arrays the loop
leaves behind. -/
theorem fastestLoop_preserves (P : FState → Prop) (deps : Deps) (S : SImplementation)
    (dest : TNodeID) (destIdx : Nat)
    (hpop : ∀ st : FState, P st → P { st with pq := pqPop st.pq })
    (h0 : ∀ cur s next c, P s → P (relaxFastest cur 0 s next c))
    (h1 : (∃ n b, S.busIndexer.StopByNodeID n = some b) →
      ∀ cur s next c, P s → P (relaxFastest cur 1 s next c))
    (fuel : Nat) (st : FState) (hst : P st) (r : FState × Option (ℚ × Nat))
    (hr : fastestLoop deps S dest destIdx fuel st = some r) : P r.1 := by
  induction fuel generalizing st with
  | zero => simp [fastestLoop] at hr
  | succ fuel ih =>
    unfold fastestLoop at hr
    cases htop : pqTop st.pq with
    | none =>
      simp only [htop, Option.some.injEq] at hr
      rw [← hr]; exact hst
    | some m =>
      obtain ⟨d, u⟩ := m
      simp only [htop] at hr
      by_cases hs : d > st.dist u
      · rw [if_pos hs] at hr
        exact ih _ (hpop st hst) hr
      · rw [if_neg hs] at hr
        by_cases hd : idAt S.sortedNodes (u / 2) = dest
        · rw [if_pos hd, Option.some.injEq] at hr
          rw [← hr]; exact hpop st hst
        · rw [if_neg hd] at hr
          exact ih _ (fastestStep_preserves P deps S destIdx d u (h0 u)
            (fun hb => h1 hb u) _ (hpop st hst)) hr

theorem relaxFastest_untagged (cur : Nat) (tag : Int) (st : FState) (next : Nat) (c : ℚ)
    (h : ∀ v, st.prev v = -1 → st.prevEdgeType v = -1) :
    ∀ v, (relaxFastest cur tag st next c).prev v = -1 →
      (relaxFastest cur tag st next c).prevEdgeType v = -1 := by
  unfold relaxFastest
  split
  · intro v hv
    by_cases hvn : v = next
    · subst hvn
      simp only [Function.update_same] at hv
      omega
    · simp only [Function.update_noteq hvn] at hv ⊢
      exact h v hv
  · exact h

/-- A finite result of `FindFastestPath`, whatever the weights: the loop stopped at a
state `u` at `dest`, the `prev` links from `u` lead back to the start state along
relaxed transitions, the start state has no link and no edge tag, and the trip is the
image of that chain. -/
theorem FindFastestPath_finite (deps : Deps) (cfg : SConfiguration) (src dest : TNodeID)
    (fuel : Nat) (trip : List TTripStep) (cost : ℚ) (trip2 : List TTripStep)
    (h : (SImplementation.create deps cfg).FindFastestPath deps fuel src dest trip =
      some (cost, trip2))
    (hfin : cost < DBL_MAX) :
    ∃ s t st u p W, (SImplementation.create deps cfg).nodeIndexMap src = some s ∧
      (SImplementation.create deps cfg).nodeIndexMap dest = some t ∧
      fastestLoop deps (SImplementation.create deps cfg) dest t fuel
        { dist := Function.update (fun _ => DBL_MAX) (s * 2 + 0) 0, prev := fun _ => -1,
          prevEdgeType := fun _ => -1, pq := [(0, s * 2 + 0)] } = some (st, some (cost, u)) ∧
      atDest (SImplementation.create deps cfg) dest u = true ∧
      RPath (fastTransitions deps (SImplementation.create deps cfg) t) (s * 2 + 0) (u :: p) W ∧
      st.prev (s * 2 + 0) = -1 ∧ st.prevEdgeType (s * 2 + 0) = -1 ∧
      trip2 = (u :: p).reverse.map (tripStep (SImplementation.create deps cfg) st) := by
  unfold SImplementation.FindFastestPath at h
  cases hs : (SImplementation.create deps cfg).nodeIndexMap src with
  | none =>
    simp only [hs, Option.some.injEq, Prod.mk.injEq] at h
    rw [← h.1] at hfin; exact absurd hfin (lt_irrefl _)
  | some s =>
    cases ht : (SImplementation.create deps cfg).nodeIndexMap dest with
    | none =>
      simp only [hs, ht, Option.some.injEq, Prod.mk.injEq] at h
      rw [← h.1] at hfin; exact absurd hfin (lt_irrefl _)
    | some t =>
      simp only [hs, ht] at h
      cases hl : fastestLoop deps (SImplementation.create deps cfg) dest t fuel
          { dist := Function.update (fun _ => DBL_MAX) (s * 2 + 0) 0, prev := fun _ => -1,
            prevEdgeType := fun _ => -1, pq := [(0, s * 2 + 0)] } with
      | none => rw [hl] at h; cases h
      | some res =>
        obtain ⟨st, found⟩ := res
        cases found with
        | none =>
          rw [hl] at h
          simp only [Option.some.injEq, Prod.mk.injEq] at h
          rw [← h.1] at hfin; exact absurd hfin (lt_irrefl _)
        | some m =>
          obtain ⟨d, u⟩ := m
          rw [hl] at h
          simp only at h
          cases hw : walkBack st.prev fuel (u : Int) [] with
          | none => simp [hw] at h
          | some statePath =>
            simp only [hw, Option.some.injEq, Prod.mk.injEq] at h
            obtain ⟨hd, htrip⟩ := h
            subst hd
            have hcore := fastestLoop_core deps (SImplementation.create deps cfg) dest t fuel
              { dist := Function.update (fun _ => DBL_MAX) (s * 2 + 0) 0, prev := fun _ => -1,
                prevEdgeType := fun _ => -1, pq := [(0, s * 2 + 0)] }
            rw [hl] at hcore
            change some (st.core, some (d, u)) = searchLoop _ _ false fuel
              (initState (s * 2 + 0)) at hcore
            have hlink := searchLoop_link (atDest (SImplementation.create deps cfg) dest)
              false fuel (initState (s * 2 + 0)) (initState_link _ (s * 2 + 0)) _ hcore.symm
            obtain ⟨f1, f2, _⟩ := searchLoop_found
              (atDest (SImplementation.create deps cfg) dest) false fuel
              (initState (s * 2 + 0)) (initState_link _ (s * 2 + 0)) _ d u hcore.symm
            obtain ⟨p, W, hp1, hp2, hp3⟩ := walkBack_link_root hlink fuel u [] statePath f2 hw
            have htag := fastestLoop_preserves
              (fun x => ∀ v, x.prev v = -1 → x.prevEdgeType v = -1) deps
              (SImplementation.create deps cfg) dest t (fun x hx => hx)
              (fun cur x next c hx => relaxFastest_untagged cur 0 x next c hx)
              (fun _ cur x next c hx => relaxFastest_untagged cur 1 x next c hx)
              fuel _ (fun _ _ => rfl) _ hl
            rw [List.nil_append] at hp1
            refine ⟨s, t, st, u, p, W, rfl, rfl, hl, f1, hp2, hp3, htag _ hp3, ?_⟩
            rw [← htrip, hp1]

/-- C14: whenever `FindFastestPath` returns a value below the sentinel (the finite
values of the code), the emitted trip is non-empty, its first step is `(Walk, src)` and
the node id of its last step is `dest`; and with exact non-negative travel times the
call does return for every pair of known node ids and every sufficient fuel. -/
theorem C14_trip_endpoints (deps : Deps) (cfg : SConfiguration) (src dest : TNodeID) :
    (FastestOK deps cfg → ∃ n, ∀ fuel, n ≤ fuel → ∀ trip,
      ((SImplementation.create deps cfg).FindFastestPath deps fuel src dest trip).isSome =
        true) ∧
    ∀ fuel trip cost trip2,
      (SImplementation.create deps cfg).FindFastestPath deps fuel src dest trip =
        some (cost, trip2) →
      cost < DBL_MAX →
      trip2 ≠ [] ∧ trip2.head? = some (ETransportationMode.Walk, src) ∧
        trip2.getLast?.map Prod.snd = some dest := by
  refine ⟨fun hok => ?_, fun fuel trip cost trip2 h hfin => ?_⟩
  · cases hs : (SImplementation.create deps cfg).nodeIndexMap src with
    | none =>
      exact ⟨0, fun fuel _ trip => by
        rw [FindFastestPath_unknown deps _ fuel src dest trip (Or.inl hs)]; rfl⟩
    | some s =>
      cases ht : (SImplementation.create deps cfg).nodeIndexMap dest with
      | none =>
        exact ⟨0, fun fuel _ trip => by
          rw [FindFastestPath_unknown deps _ fuel src dest trip (Or.inr ht)]; rfl⟩
      | some t =>
        obtain ⟨cost, n, _, _, _, h4⟩ := FindFastestPath_total deps cfg hok src dest s t hs ht
        exact ⟨n, fun fuel hf trip => by
          obtain ⟨trip2, h, _⟩ := h4 fuel hf trip
          rw [h]; rfl⟩
  · obtain ⟨s, t, st, u, p, W, hs, ht, _, hu, hp, _, htag, htrip⟩ :=
      FindFastestPath_finite deps cfg src dest fuel trip cost trip2 h hfin
    have hsid := (nodeIndexMap_some deps cfg src s hs).2
    have hdest : idAt (SImplementation.create deps cfg).sortedNodes (u / 2) = dest := by
      simpa [atDest] using hu
    have hdiv : (s * 2 + 0) / 2 = s := by omega
    have hmod : (s * 2 + 0) % 2 = 0 := by omega
    have hne : ¬ st.prevEdgeType (s * 2 + 0) = 1 := by rw [htag]; decide
    rw [htrip]
    refine ⟨by simp, ?_, ?_⟩
    · rw [List.head?_map, List.head?_reverse, RPath_getLast hp]
      simp only [Option.map_some', tripStep, if_neg hne, hmod, hdiv, hsid]
      rfl
    · rw [List.getLast?_map, List.getLast?_reverse]
      simp [tripStep, hdest]

/-- C14, witness: in the bus example the query (1, 2) returns `1 / 120 + 69 / 25` with
the trip `(Walk, 1), (Bus, 2)`. -/
theorem C14_witness :
    plannerBus.FindFastestPath sampleDeps 9 1 2 [] =
      some (1 / 120 + 69 / 25, [(ETransportationMode.Walk, 1), (ETransportationMode.Bus, 2)]) ∧
    ([(ETransportationMode.Walk, 1), (ETransportationMode.Bus, 2)] ≠ [] ∧
      [(ETransportationMode.Walk, (1 : TNodeID)), (ETransportationMode.Bus, 2)].head? =
        some (ETransportationMode.Walk, 1) ∧
      [(ETransportationMode.Walk, (1 : TNodeID)),
        (ETransportationMode.Bus, 2)].getLast?.map Prod.snd = some 2) :=
  ⟨by decide!, (C14_trip_endpoints sampleDeps (defaultConfig mapBus busLine) 1 2).2
    9 [] (1 / 120 + 69 / 25) _ (by decide!) (by unfold DBL_MAX; norm_num)⟩

/-- C15 (the code at the failing input): nodes 1, 2, 3 lie one degree apart on a line
and are joined 1-2-3 by one way; the bus system has a stop at node 1 and a stop at node
3 and one route from the first to the second; the bus cost
`bus_stop_time + distance(1,3) / default_speed_limit = 3317/600` hours is smaller than
the biking time `69/4` and the walking time `46`. With the stop at node 3 listed before
the stop at node 1 in the bus system, `FindFastestPath(1, 3)` returns the biking time
`69/4` and a trip of Bike steps; with the stop at node 1 listed first it returns
`3317/600` and the trip `(Walk, 1), (Bus, 3)`. -/
theorem C15_bus_shortcut_missed :
    (defaultConfig mapShortcut busShortcutSwapped).BusStopTime +
      sampleDeps.Haversine (0, 0) (0, 2) /
        (defaultConfig mapShortcut busShortcutSwapped).DefaultSpeedLimit = 3317 / 600 ∧
    (3317 / 600 : ℚ) < 69 / 4 ∧ (3317 / 600 : ℚ) < 46 ∧
    (69 / 4 : ℚ) = 138 / (defaultConfig mapShortcut busShortcutSwapped).BikeSpeed ∧
    (46 : ℚ) = 138 / (defaultConfig mapShortcut busShortcutSwapped).WalkSpeed ∧
    plannerShortcutSwapped.FindFastestPath sampleDeps 12 1 3 [] =
      some (69 / 4, [(ETransportationMode.Walk, 1), (ETransportationMode.Bike, 1),
        (ETransportationMode.Bike, 2), (ETransportationMode.Bike, 3)]) ∧
    plannerShortcut.FindFastestPath sampleDeps 12 1 3 [] =
      some (3317 / 600, [(ETransportationMode.Walk, 1), (ETransportationMode.Bus, 3)]) :=
  ⟨by decide!, by decide!, by decide!, by decide!, by decide!, by decide!, by decide!⟩

/-! ## Walking and biking paths as itineraries -/

theorem walkPath_itinerary (deps : Deps) (S : SImplementation) (allowBus : Bool) (s : Nat)
    {l : List Nat} {W : ℚ} (h : RPath S.graphWalking s l W) :
    ∀ v q, l = v :: q → Itinerary deps S allowBus s v 0 W := by
  induction h with
  | base =>
    intro v q hl
    simp only [List.cons.injEq] at hl
    rw [← hl.1]
    exact Itinerary.start
  | @step u v2 p W w _ he ih =>
    intro v q hl
    simp only [List.cons.injEq] at hl
    rw [← hl.1]
    exact Itinerary.walkEdge (ih u p rfl) he

theorem bikePath_itinerary (deps : Deps) (S : SImplementation) (allowBus : Bool) (s : Nat)
    {l : List Nat} {W : ℚ} (h : RPath S.graphBiking s l W) :
    ∀ v q, l = v :: q → Itinerary deps S allowBus s v 1 W := by
  induction h with
  | base =>
    intro v q hl
    simp only [List.cons.injEq] at hl
    rw [← hl.1]
    exact Itinerary.swapToBike Itinerary.start
  | @step u v2 p W w _ he ih =>
    intro v q hl
    simp only [List.cons.injEq] at hl
    rw [← hl.1]
    exact Itinerary.bikeEdge (ih u p rfl) he

/-- Every walking path from the index of a known node ends at the index the planner
keeps for the id of its last node. -/
theorem walkPath_canonical (deps : Deps) (cfg : SConfiguration) (src : TNodeID) (s : Nat)
    (hs : (SImplementation.create deps cfg).nodeIndexMap src = some s)
    {l : List Nat} {W : ℚ} (h : RPath (SImplementation.create deps cfg).graphWalking s l W) :
    ∀ v q, l = v :: q → ∃ id, (SImplementation.create deps cfg).nodeIndexMap id = some v := by
  induction h with
  | base =>
    intro v q hl
    simp only [List.cons.injEq] at hl
    rw [← hl.1]
    exact ⟨src, hs⟩
  | @step u v2 p W w _ he ih =>
    intro v q hl
    simp only [List.cons.injEq] at hl
    rw [← hl.1]
    exact ((create_walkBikeEdges deps cfg).1 _ _ he).1

/-- Without bus stops the loop relaxes walk edges, bike edges and mode swaps only. -/
theorem mem_fastTransitions_noStops (deps : Deps) (cfg : SConfiguration)
    (hno : cfg.BusSystem.Stops = []) (destIdx state : Nat) (e : Nat × ℚ)
    (h : e ∈ fastTransitions deps (SImplementation.create deps cfg) destIdx state) :
    (state % 2 = 0 ∧ ∃ v w, (v, w) ∈ (SImplementation.create deps cfg).graphWalking (state / 2) ∧
      e = (v * 2 + 0, w)) ∨
    (state % 2 ≠ 0 ∧ ∃ v w, (v, w) ∈ (SImplementation.create deps cfg).graphBiking (state / 2) ∧
      e = (v * 2 + 1, w)) ∨
    e = (state / 2 * 2 + (if state % 2 = 0 then 1 else 0), 0) := by
  have hnone : ∀ n, (SImplementation.create deps cfg).busIndexer.StopByNodeID n = none := by
    intro n
    exact StopByNodeID_none cfg.BusSystem n (by rw [hno]; intro s hs; cases hs)
  have hbus : ∀ c, busTransitions deps (SImplementation.create deps cfg) destIdx c = [] := by
    intro c
    unfold busTransitions
    rw [hnone]
  unfold fastTransitions at h
  rw [List.mem_append, List.mem_append, List.mem_singleton] at h
  rcases h with (h | h) | h
  · by_cases hm : state % 2 = 0
    · simp only [hm, if_true, List.mem_map] at h
      obtain ⟨x, hx, rfl⟩ := h
      exact Or.inl ⟨hm, x.1, x.2, hx, rfl⟩
    · simp only [hm, if_false, List.mem_map] at h
      obtain ⟨x, hx, rfl⟩ := h
      exact Or.inr (Or.inl ⟨hm, x.1, x.2, hx, rfl⟩)
  · exact Or.inr (Or.inr h)
  · by_cases hm : state % 2 = 0
    · simp [hm, hbus] at h
    · simp [hm] at h

/-- Without bus stops every chain of relaxed transitions from the start state is an
itinerary of walk edges, bike edges and mode swaps. -/
theorem path_itinerary_noStops (deps : Deps) (cfg : SConfiguration)
    (hno : cfg.BusSystem.Stops = []) (destIdx s : Nat) {l : List Nat} {c : ℚ}
    (h : RPath (fastTransitions deps (SImplementation.create deps cfg) destIdx) (s * 2 + 0) l c) :
    ∀ x q, l = x :: q →
      Itinerary deps (SImplementation.create deps cfg) false s (x / 2) (x % 2) c := by
  induction h with
  | base =>
    intro x q hl
    simp only [List.cons.injEq] at hl
    rw [← hl.1]
    have h1 : (s * 2 + 0) / 2 = s := by omega
    have h2 : (s * 2 + 0) % 2 = 0 := by omega
    rw [h1, h2]
    exact Itinerary.start
  | @step u v p W w _ he ih =>
    intro x q hl
    simp only [List.cons.injEq] at hl
    rw [← hl.1]
    have hu := ih u p rfl
    rcases mem_fastTransitions_noStops deps cfg hno destIdx u _ he with
      ⟨hm, v2, w2, hvw, heq⟩ | ⟨hm, v2, w2, hvw, heq⟩ | heq
    · simp only [Prod.mk.injEq] at heq
      obtain ⟨rfl, rfl⟩ := heq
      have h1 : (v2 * 2 + 0) / 2 = v2 := by omega
      have h2 : (v2 * 2 + 0) % 2 = 0 := by omega
      rw [h1, h2]
      rw [hm] at hu
      exact Itinerary.walkEdge hu hvw
    · simp only [Prod.mk.injEq] at heq
      obtain ⟨rfl, rfl⟩ := heq
      have h1 : (v2 * 2 + 1) / 2 = v2 := by omega
      have h2 : (v2 * 2 + 1) % 2 = 1 := by omega
      have h3 : u % 2 = 1 := by omega
      rw [h1, h2]
      rw [h3] at hu
      exact Itinerary.bikeEdge hu hvw
    · simp only [Prod.mk.injEq] at heq
      obtain ⟨rfl, rfl⟩ := heq
      rw [add_zero W]
      by_cases hm : u % 2 = 0
      · have h1 : (u / 2 * 2 + (if u % 2 = 0 then 1 else 0)) / 2 = u / 2 := by
          rw [if_pos hm]; omega
        have h2 : (u / 2 * 2 + (if u % 2 = 0 then 1 else 0)) % 2 = 1 := by
          rw [if_pos hm]; omega
        rw [h1, h2]
        rw [hm] at hu
        exact Itinerary.swapToBike hu
      · have h1 : (u / 2 * 2 + (if u % 2 = 0 then 1 else 0)) / 2 = u / 2 := by
          rw [if_neg hm]; omega
        have h2 : (u / 2 * 2 + (if u % 2 = 0 then 1 else 0)) % 2 = 0 := by
          rw [if_neg hm]; omega
        have h3 : u % 2 = 1 := by omega
        rw [h1, h2]
        rw [h3] at hu
        exact Itinerary.swapToWalk hu

/-- Without bus stops a chain of relaxed transitions through Walk states only is a
walking path. -/
theorem evenPath_walk (deps : Deps) (cfg : SConfiguration)
    (hno : cfg.BusSystem.Stops = []) (destIdx s : Nat) {l : List Nat} {c : ℚ}
    (h : RPath (fastTransitions deps (SImplementation.create deps cfg) destIdx) (s * 2 + 0) l c) :
    (∀ x ∈ l, x % 2 = 0) → ∀ x q, l = x :: q →
      ∃ q2, RPath (SImplementation.create deps cfg).graphWalking s (x / 2 :: q2) c := by
  induction h with
  | base =>
    intro _ x q hl
    simp only [List.cons.injEq] at hl
    rw [← hl.1]
    have h1 : (s * 2 + 0) / 2 = s := by omega
    rw [h1]
    exact ⟨[], RPath.base⟩
  | @step u v p W w _ he ih =>
    intro hall x q hl
    simp only [List.cons.injEq] at hl
    rw [← hl.1]
    obtain ⟨q2, hq2⟩ := ih (fun y hy => hall y (List.mem_cons_of_mem _ hy)) u p rfl
    have hv : v % 2 = 0 := hall v (List.mem_cons_self _ _)
    have hu : u % 2 = 0 := hall u (List.mem_cons_of_mem _ (List.mem_cons_self _ _))
    rcases mem_fastTransitions_noStops deps cfg hno destIdx u _ he with
      ⟨hm, v2, w2, hvw, heq⟩ | ⟨hm, v2, w2, hvw, heq⟩ | heq
    · simp only [Prod.mk.injEq] at heq
      obtain ⟨rfl, rfl⟩ := heq
      have h1 : (v2 * 2 + 0) / 2 = v2 := by omega
      rw [h1]
      exact ⟨_, RPath.step hq2 hvw⟩
    · exact absurd hu hm
    · simp only [Prod.mk.injEq] at heq
      rw [if_pos hu] at heq
      omega

/-- Total correctness of `FindFastestPath` with exact non-negative travel times,
together with the chain of states the trip is read from: its transitions add up to the
returned cost. -/
theorem FindFastestPath_total_trip (deps : Deps) (cfg : SConfiguration)
    (hok : FastestOK deps cfg) (src dest : TNodeID) (s t : Nat)
    (hs : (SImplementation.create deps cfg).nodeIndexMap src = some s)
    (ht : (SImplementation.create deps cfg).nodeIndexMap dest = some t) :
    ∃ cost n, cost ≤ DBL_MAX ∧
      (∀ x p W, atDest (SImplementation.create deps cfg) dest x = true →
        RPath (fastTransitions deps (SImplementation.create deps cfg) t) (s * 2 + 0) (x :: p) W →
        cost ≤ W) ∧
      ∀ fuel, n ≤ fuel → ∀ trip, ∃ trip2,
        (SImplementation.create deps cfg).FindFastestPath deps fuel src dest trip =
          some (cost, trip2) ∧
        (cost < DBL_MAX → ∃ st u p,
          fastestLoop deps (SImplementation.create deps cfg) dest t fuel
            { dist := Function.update (fun _ => DBL_MAX) (s * 2 + 0) 0, prev := fun _ => -1,
              prevEdgeType := fun _ => -1, pq := [(0, s * 2 + 0)] } =
            some (st, some (cost, u)) ∧
          atDest (SImplementation.create deps cfg) dest u = true ∧
          RPath (fastTransitions deps (SImplementation.create deps cfg) t) (s * 2 + 0)
            (u :: p) cost ∧
          trip2 = (u :: p).reverse.map (tripStep (SImplementation.create deps cfg) st)) := by
  have hsN := (nodeIndexMap_some deps cfg src s hs).1
  obtain ⟨r, hpost, hrun⟩ := search_correct
    (fastTransitions deps (SImplementation.create deps cfg) t) (s * 2 + 0)
    (2 * (SImplementation.create deps cfg).sortedNodes.length)
    (atDest (SImplementation.create deps cfg) dest) false
    (fastTransitions_nonneg deps cfg hok t) (fastTransitions_inRange deps cfg hok t) (by omega)
  obtain ⟨done, rank, hT⟩ := hpost.tree
  have hloop : ∀ fuel, 1 + Finset.sum
      (Finset.range (2 * (SImplementation.create deps cfg).sortedNodes.length))
      (fun x => (fastTransitions deps (SImplementation.create deps cfg) t x).length) < fuel →
      ∃ st, fastestLoop deps (SImplementation.create deps cfg) dest t fuel
        { dist := Function.update (fun _ => DBL_MAX) (s * 2 + 0) 0, prev := fun _ => -1,
          prevEdgeType := fun _ => -1, pq := [(0, s * 2 + 0)] } = some (st, r.2) ∧
        st.core = r.1 := by
    intro fuel hfuel
    have h1 := hrun fuel hfuel
    have h2 := fastestLoop_core deps (SImplementation.create deps cfg) dest t fuel
      { dist := Function.update (fun _ => DBL_MAX) (s * 2 + 0) 0, prev := fun _ => -1,
        prevEdgeType := fun _ => -1, pq := [(0, s * 2 + 0)] }
    change _ = searchLoop _ _ false fuel (initState (s * 2 + 0)) at h2
    rw [h1, Option.map_eq_some'] at h2
    obtain ⟨x, hx1, hx2⟩ := h2
    refine ⟨x.1, ?_, ?_⟩
    · rw [hx1, ← hx2]
    · rw [← hx2]
  cases hf : r.2 with
  | none =>
    refine ⟨DBL_MAX, 2 + Finset.sum
      (Finset.range (2 * (SImplementation.create deps cfg).sortedNodes.length))
      (fun x => (fastTransitions deps (SImplementation.create deps cfg) t x).length),
      le_refl _, ?_, ?_⟩
    · intro x p W hx hp
      rw [← hpost.no_dest hf x hx]
      exact hpost.all_least hf x p W hp
    · intro fuel hfuel trip
      obtain ⟨st, hst, _⟩ := hloop fuel (by omega)
      refine ⟨trip, ?_, fun h => absurd h (lt_irrefl _)⟩
      unfold SImplementation.FindFastestPath
      simp only [hs, ht]
      rw [hst, hf]
  | some m =>
    obtain ⟨d, u⟩ := m
    obtain ⟨h1, h2, h3⟩ := hpost.at_dest d u hf
    obtain ⟨p, hp1, hp2⟩ := walkBack_tree hT u (by rw [h2]; exact h3)
    refine ⟨d, max (2 + Finset.sum
      (Finset.range (2 * (SImplementation.create deps cfg).sortedNodes.length))
      (fun x => (fastTransitions deps (SImplementation.create deps cfg) t x).length))
      (rank u + 2), le_of_lt h3, hpost.least d u hf, ?_⟩
    intro fuel hfuel trip
    obtain ⟨st, hst, hcore⟩ := hloop fuel (by omega)
    have hprev : st.prev = r.1.prev := by rw [← hcore]; rfl
    have hw := hp2 fuel [] (by omega)
    refine ⟨(u :: p).reverse.map (tripStep (SImplementation.create deps cfg) st), ?_,
      fun _ => ⟨st, u, p, by rw [hst, hf], h1, by rwa [h2] at hp1, rfl⟩⟩
    unfold SImplementation.FindFastestPath
    simp only [hs, ht]
    rw [hst, hf]
    simp only [hprev, hw, List.nil_append]

/-- Without bus stops no state ever gets the bus tag. -/
theorem fastestLoop_noBusTag (deps : Deps) (cfg : SConfiguration)
    (hno : cfg.BusSystem.Stops = []) (dest : TNodeID) (destIdx : Nat) (fuel : Nat)
    (st : FState) (hst : ∀ v, st.prevEdgeType v ≠ 1) (r : FState × Option (ℚ × Nat))
    (hr : fastestLoop deps (SImplementation.create deps cfg) dest destIdx fuel st = some r) :
    ∀ v, r.1.prevEdgeType v ≠ 1 := by
  have hnone : ∀ n, (SImplementation.create deps cfg).busIndexer.StopByNodeID n = none := by
    intro n
    exact StopByNodeID_none cfg.BusSystem n (by rw [hno]; intro s hs; cases hs)
  refine fastestLoop_preserves (fun x => ∀ v, x.prevEdgeType v ≠ 1) deps _ dest destIdx
    (fun x hx => hx) ?_ ?_ fuel st hst r hr
  · intro cur x next c hx v
    unfold relaxFastest
    split
    · by_cases hv : v = next
      · subst hv
        simp only [Function.update_same]
        decide
      · simp only [Function.update_noteq hv]
        exact hx v
    · exact hx v
  · rintro ⟨n, b, hb⟩
    rw [hnone n] at hb
    cases hb

/-- C16 (amended): for every street map without bus stops, with exact non-negative
travel times, and every pair of known nodes such that some path of bikeable edges from
`src` to `dest` has a total biking time `B` that is below `DBL_MAX` and strictly smaller
than the time of every walking path from `src` to `dest`: `FindFastestPath(src, dest)`
returns (for every sufficient fuel) one value, that value is at most `B`, it is the
least total time over all itineraries of walk edges, bike edges and mode swaps that end
at `dest`, and the emitted trip has a step whose mode is Bike. -/
theorem C16_bike_beats_walk (deps : Deps) (cfg : SConfiguration) (hok : FastestOK deps cfg)
    (hno : cfg.BusSystem.Stops = []) (src dest : TNodeID) (s t : Nat)
    (hs : (SImplementation.create deps cfg).nodeIndexMap src = some s)
    (ht : (SImplementation.create deps cfg).nodeIndexMap dest = some t)
    (p : List Nat) (B : ℚ)
    (hbike : RPath (SImplementation.create deps cfg).graphBiking s (t :: p) B)
    (hB : B < DBL_MAX)
    (hwalk : ∀ q W, RPath (SImplementation.create deps cfg).graphWalking s (t :: q) W → B < W) :
    ∃ cost n, cost ≤ B ∧
      (∀ v m c, Itinerary deps (SImplementation.create deps cfg) false s v m c →
        idAt (SImplementation.create deps cfg).sortedNodes v = dest → cost ≤ c) ∧
      (∃ v m, Itinerary deps (SImplementation.create deps cfg) false s v m cost ∧
        idAt (SImplementation.create deps cfg).sortedNodes v = dest) ∧
      ∀ fuel, n ≤ fuel → ∀ trip, ∃ trip2,
        (SImplementation.create deps cfg).FindFastestPath deps fuel src dest trip =
          some (cost, trip2) ∧
        ∃ step ∈ trip2, step.1 = ETransportationMode.Bike := by
  obtain ⟨cost, n, _, hleast, hrun⟩ :=
    FindFastestPath_total_trip deps cfg hok src dest s t hs ht
  have htid := (nodeIndexMap_some deps cfg dest t ht).2
  have hbikeIt := bikePath_itinerary deps (SImplementation.create deps cfg) false s hbike t p rfl
  obtain ⟨_, pb, hpb⟩ := itinerary_path deps _ t s hbikeIt
  have hcostB : cost ≤ B := by
    refine hleast (t * 2 + 1) pb B ?_ hpb
    have : (t * 2 + 1) / 2 = t := by omega
    simp [atDest, this, htid]
  have hfin : cost < DBL_MAX := lt_of_le_of_lt hcostB hB
  have hitin : ∃ v m, Itinerary deps (SImplementation.create deps cfg) false s v m cost ∧
      idAt (SImplementation.create deps cfg).sortedNodes v = dest := by
    obtain ⟨_, _, hch⟩ := hrun n (le_refl _) []
    obtain ⟨st, u, pc, _, hu, hpc, _⟩ := hch hfin
    exact ⟨u / 2, u % 2, path_itinerary_noStops deps cfg hno t s hpc u pc rfl,
      by simpa [atDest] using hu⟩
  refine ⟨cost, n, hcostB, ?_, hitin, ?_⟩
  · intro v m c hit hv
    obtain ⟨hm, q, hq⟩ := itinerary_path deps _ t s hit
    refine hleast (v * 2 + m) q c ?_ hq
    have : (v * 2 + m) / 2 = v := by omega
    simp [atDest, this, hv]
  · intro fuel hf trip
    obtain ⟨trip2, h, hch⟩ := hrun fuel hf trip
    obtain ⟨st, u, pc, hl, hu, hpc, htrip⟩ := hch hfin
    refine ⟨trip2, h, ?_⟩
    by_contra hnb
    have htagfree := fastestLoop_noBusTag deps cfg hno dest t fuel _
      (fun _ => by simp only [ne_eq]; omega) _ hl
    have heven : ∀ x ∈ u :: pc, x % 2 = 0 := by
      intro x hx
      by_contra hodd
      have h1 : x % 2 = 1 := by omega
      apply hnb
      refine ⟨tripStep (SImplementation.create deps cfg) st x, ?_, ?_⟩
      · rw [htrip]
        exact List.mem_map_of_mem _ (List.mem_reverse.2 hx)
      · unfold tripStep
        simp only [if_neg (htagfree x), h1, if_true]
    obtain ⟨q2, hq2⟩ := evenPath_walk deps cfg hno t s hpc heven u pc rfl
    obtain ⟨id, hid⟩ := walkPath_canonical deps cfg src s hs hq2 (u / 2) q2 rfl
    have hid2 := (nodeIndexMap_some deps cfg id (u / 2) hid).2
    have hdest : idAt (SImplementation.create deps cfg).sortedNodes (u / 2) = dest := by
      simpa [atDest] using hu
    rw [hdest] at hid2
    rw [← hid2, ht, Option.some.injEq] at hid
    rw [← hid] at hq2
    exact absurd (hwalk q2 cost hq2) (not_lt.mpr hcostB)

/-- C16, witness: scenario S1 (nodes 1 and 2 one degree apart on a two-way way, no bus
stops); biking takes `69/8` hours and every walking path at least `23`. -/
theorem C16_witness :
    FastestOK sampleDeps (defaultConfig mapS1 noBus) ∧
    RPath plannerS1.graphBiking 0 [1, 0] (0 + 69 / 8) ∧
    plannerS1.FindFastestPath sampleDeps 9 1 2 [] =
      some (69 / 8, [(ETransportationMode.Walk, 1), (ETransportationMode.Bike, 1),
        (ETransportationMode.Bike, 2)]) ∧
    ∃ cost n, cost ≤ 0 + 69 / 8 ∧
      (∀ v m c, Itinerary sampleDeps plannerS1 false 0 v m c →
        idAt plannerS1.sortedNodes v = 2 → cost ≤ c) ∧
      (∃ v m, Itinerary sampleDeps plannerS1 false 0 v m cost ∧
        idAt plannerS1.sortedNodes v = 2) ∧
      ∀ fuel, n ≤ fuel → ∀ trip, ∃ trip2,
        plannerS1.FindFastestPath sampleDeps fuel 1 2 trip = some (cost, trip2) ∧
        ∃ step ∈ trip2, step.1 = ETransportationMode.Bike :=
  have hbike : RPath plannerS1.graphBiking 0 [1, 0] (0 + 69 / 8) :=
    RPath.step RPath.base (by decide!)
  have hwalk : ∀ q W, RPath plannerS1.graphWalking 0 (1 :: q) W → (0 + 69 / 8 : ℚ) < W := by
    intro q W h
    have key : ∀ l W, RPath plannerS1.graphWalking 0 l W →
        ∀ v r, l = v :: r → v < 2 ∧ (v : ℚ) * 23 ≤ W := by
      intro l W h
      induction h with
      | base =>
        intro v r hl
        simp only [List.cons.injEq] at hl
        rw [← hl.1]
        exact ⟨by omega, by norm_num⟩
      | @step u v2 p W w _ he ih =>
        intro v r hl
        simp only [List.cons.injEq] at hl
        rw [← hl.1]
        obtain ⟨hu, hW⟩ := ih u p rfl
        have h0 : ∀ e, e ∈ plannerS1.graphWalking 0 → e.1 < 2 ∧ e.1 ≤ 0 + 1 ∧ e.2 = 23 := by
          decide!
        have h1 : ∀ e, e ∈ plannerS1.graphWalking 1 → e.1 < 2 ∧ e.1 ≤ 1 + 1 ∧ e.2 = 23 := by
          decide!
        have hedge : v2 < 2 ∧ v2 ≤ u + 1 ∧ w = 23 := by
          match u, hu, he with
          | 0, _, he => exact h0 _ he
          | 1, _, he => exact h1 _ he
        refine ⟨hedge.1, ?_⟩
        have hc : (v2 : ℚ) ≤ (u : ℚ) + 1 := by exact_mod_cast hedge.2.1
        rw [hedge.2.2]
        nlinarith
    have := (key _ _ h 1 q rfl).2
    norm_num at this ⊢
    linarith
  ⟨⟨gridMiles_nonneg, by decide!, by decide!, by decide!, by decide!⟩, hbike, by decide!,
    C16_bike_beats_walk sampleDeps (defaultConfig mapS1 noBus)
      ⟨gridMiles_nonneg, by decide!, by decide!, by decide!, by decide!⟩ rfl 1 2 0 1
      (by decide!) (by decide!) [0] (0 + 69 / 8) hbike (by unfold DBL_MAX; norm_num) hwalk⟩

/-- In the slow configuration every walking path from node 1 to the node of index `v`
takes at least `v` times `1.5 * 10^308` hours. -/
theorem crawl_walk_lower (l : List Nat) (W : ℚ) (h : RPath plannerCrawl.graphWalking 0 l W) :
    ∀ v r, l = v :: r → v < 3 ∧ (v : ℚ) * (3 / 2 * 10 ^ 308) ≤ W := by
  induction h with
  | base =>
    intro v r hl
    simp only [List.cons.injEq] at hl
    rw [← hl.1]
    exact ⟨by omega, by norm_num⟩
  | @step u v2 p W w _ he ih =>
    intro v r hl
    simp only [List.cons.injEq] at hl
    rw [← hl.1]
    obtain ⟨hu, hW⟩ := ih u p rfl
    have h0 : ∀ e, e ∈ plannerCrawl.graphWalking 0 →
        e.1 < 3 ∧ e.1 ≤ 0 + 1 ∧ e.2 = 3 / 2 * 10 ^ 308 := by decide!
    have h1 : ∀ e, e ∈ plannerCrawl.graphWalking 1 →
        e.1 < 3 ∧ e.1 ≤ 1 + 1 ∧ e.2 = 3 / 2 * 10 ^ 308 := by decide!
    have h2 : ∀ e, e ∈ plannerCrawl.graphWalking 2 →
        e.1 < 3 ∧ e.1 ≤ 2 + 1 ∧ e.2 = 3 / 2 * 10 ^ 308 := by decide!
    have hedge : v2 < 3 ∧ v2 ≤ u + 1 ∧ w = 3 / 2 * 10 ^ 308 := by
      match u, hu, he with
      | 0, _, he => exact h0 _ he
      | 1, _, he => exact h1 _ he
      | 2, _, he => exact h2 _ he
    refine ⟨hedge.1, ?_⟩
    have hc : (v2 : ℚ) ≤ (u : ℚ) + 1 := by exact_mod_cast hedge.2.1
    rw [hedge.2.2]
    nlinarith

/-- C16, counterexample to the claim as stated: nodes 1, 2, 3 one degree apart on a
two-way way, no bus stops, speeds so small that an edge takes `10^308` hours by bike
and `1.5 * 10^308` hours on foot (both below `DBL_MAX`). The biking path 1-2-3 takes
`2 * 10^308` hours, less than every walking path from 1 to 3, but not less than
`DBL_MAX`: `FindFastestPath(1, 3)` returns `DBL_MAX`, which is not the least itinerary
time `2 * 10^308`, and emits no trip, so no step has mode Bike. -/
theorem C16_counterexample :
    FastestOK sampleDeps (crawlConfig mapShortcut noBus) ∧
    (crawlConfig mapShortcut noBus).BusSystem.Stops = [] ∧
    plannerCrawl.nodeIndexMap 1 = some 0 ∧ plannerCrawl.nodeIndexMap 3 = some 2 ∧
    RPath plannerCrawl.graphBiking 0 [2, 1, 0] (0 + 10 ^ 308 + 10 ^ 308) ∧
    (∀ q W, RPath plannerCrawl.graphWalking 0 (2 :: q) W → (0 + 10 ^ 308 + 10 ^ 308 : ℚ) < W) ∧
    plannerCrawl.FindFastestPath sampleDeps 20 1 3 [] = some (DBL_MAX, []) ∧
    (3 / 2 * 10 ^ 308 : ℚ) < DBL_MAX ∧ DBL_MAX ≤ (0 + 10 ^ 308 + 10 ^ 308 : ℚ) ∧
    ¬ ∃ step ∈ ([] : List TTripStep), step.1 = ETransportationMode.Bike := by
  refine ⟨⟨gridMiles_nonneg, by decide!, by decide!, by decide!, by decide!⟩, rfl, by decide!,
    by decide!, RPath.step (RPath.step RPath.base (by decide!)) (by decide!), ?_, by decide!,
    by decide!, by decide!, by simp⟩
  intro q W h
  have := (crawl_walk_lower _ _ h 2 q rfl).2
  norm_num at this ⊢
  linarith

/-- C17 (amended): for every street map (one-way ways included) and bus system with
exact non-negative travel times and every pair of known nodes, `FindFastestPath`
returns (for every sufficient fuel) one value; that value is at most the total time of
every path of `graph_walk` from `src` to `dest`, and it is below `DBL_MAX` (finite)
whenever some such path has a total walking time below `DBL_MAX`. -/
theorem C17_fastest_at_most_walking (deps : Deps) (cfg : SConfiguration)
    (hok : FastestOK deps cfg) (src dest : TNodeID) (s t : Nat)
    (hs : (SImplementation.create deps cfg).nodeIndexMap src = some s)
    (ht : (SImplementation.create deps cfg).nodeIndexMap dest = some t) :
    ∃ cost n,
      (∀ fuel, n ≤ fuel → ∀ trip, ∃ trip2,
        (SImplementation.create deps cfg).FindFastestPath deps fuel src dest trip =
          some (cost, trip2)) ∧
      (∀ q W, RPath (SImplementation.create deps cfg).graphWalking s (t :: q) W → cost ≤ W) ∧
      ((∃ q W, RPath (SImplementation.create deps cfg).graphWalking s (t :: q) W ∧
        W < DBL_MAX) → cost < DBL_MAX) := by
  obtain ⟨cost, n, _, h2, _, h4⟩ := FindFastestPath_total deps cfg hok src dest s t hs ht
  have htid := (nodeIndexMap_some deps cfg dest t ht).2
  have hle : ∀ q W, RPath (SImplementation.create deps cfg).graphWalking s (t :: q) W →
      cost ≤ W := by
    intro q W hw
    have hit := walkPath_itinerary deps (SImplementation.create deps cfg) false s hw t q rfl
    obtain ⟨_, p, hp⟩ := itinerary_path deps _ t s hit
    refine h2 (t * 2 + 0) p W ?_ hp
    have : (t * 2 + 0) / 2 = t := by omega
    simp [atDest, this, htid]
  refine ⟨cost, n, fun fuel hf trip => ?_, hle, ?_⟩
  · obtain ⟨trip2, h, _⟩ := h4 fuel hf trip
    exact ⟨trip2, h⟩
  · rintro ⟨q, W, hw, hlt⟩
    exact lt_of_le_of_lt (hle q W hw) hlt

/-- C17, witness: scenario S2 (one way tagged `oneway=yes` from 1 to 2), query (2, 1):
the walking edge from node 2 to node 1 takes 23 hours and `FindFastestPath(2, 1)`
returns 23. -/
theorem C17_witness :
    FastestOK sampleDeps (defaultConfig mapS2 noBus) ∧
    RPath plannerS2.graphWalking 1 [0, 1] (0 + 23) ∧
    plannerS2.FindFastestPath sampleDeps 9 2 1 [] =
      some (23, [(ETransportationMode.Walk, 2), (ETransportationMode.Walk, 1)]) ∧
    ∃ cost n,
      (∀ fuel, n ≤ fuel → ∀ trip, ∃ trip2,
        plannerS2.FindFastestPath sampleDeps fuel 2 1 trip = some (cost, trip2)) ∧
      (∀ q W, RPath plannerS2.graphWalking 1 (0 :: q) W → cost ≤ W) ∧
      ((∃ q W, RPath plannerS2.graphWalking 1 (0 :: q) W ∧ W < DBL_MAX) → cost < DBL_MAX) :=
  ⟨⟨gridMiles_nonneg, by decide!, by decide!, by decide!, by decide!⟩,
    RPath.step RPath.base (by decide!), by decide!,
    C17_fastest_at_most_walking sampleDeps (defaultConfig mapS2 noBus)
      ⟨gridMiles_nonneg, by decide!, by decide!, by decide!, by decide!⟩ 2 1 1 0
      (by decide!) (by decide!)⟩

/-- C17, counterexample to the claim as stated: nodes 1, 2, 3 one degree apart on a
two-way way, no bus system, speeds so small that walking an edge takes
`1.5 * 10^308` hours and biking it `10^308` hours (both below `DBL_MAX`). Node 3 is
reachable from node 1 in `graph_walk`, along 1-2-3, yet `FindFastestPath(1, 3)` returns
`DBL_MAX`, the value the code returns when there is no path, and emits no trip. -/
theorem C17_counterexample :
    FastestOK sampleDeps (crawlConfig mapShortcut noBus) ∧
    plannerCrawl.nodeIndexMap 1 = some 0 ∧ plannerCrawl.nodeIndexMap 3 = some 2 ∧
    RPath plannerCrawl.graphWalking 0 [2, 1, 0] (0 + 3 / 2 * 10 ^ 308 + 3 / 2 * 10 ^ 308) ∧
    (3 / 2 * 10 ^ 308 : ℚ) < DBL_MAX ∧
    plannerCrawl.FindFastestPath sampleDeps 20 1 3 [(ETransportationMode.Walk, 7)] =
      some (DBL_MAX, [(ETransportationMode.Walk, 7)]) :=
  ⟨⟨gridMiles_nonneg, by decide!, by decide!, by decide!, by decide!⟩, by decide!, by decide!,
    RPath.step (RPath.step RPath.base (by decide!)) (by decide!), by decide!, by decide!⟩

/-! ## `CCSVBusSystem`: routes -/

theorem mapFind_mapAssign {K V : Type} [LinearOrder K] (m : List (K × V)) (k : K) (v : V)
    (k2 : K) : mapFind (mapAssign m k v) k2 = if k = k2 then some v else mapFind m k2 := by
  induction m with
  | nil => simp [mapAssign, mapFind]
  | cons e rest ih =>
    obtain ⟨ke, ve⟩ := e
    unfold mapAssign
    by_cases h1 : k < ke
    · simp only [h1, if_true]
      by_cases h2 : k = k2
      · simp [mapFind, h2]
      · simp [mapFind, h2]
    · simp only [h1, if_false]
      by_cases h3 : k = ke
      · subst h3
        simp only [if_true]
        by_cases h2 : k = k2
        · simp [mapFind, h2]
        · simp [mapFind, h2]
      · simp only [h3, if_false]
        by_cases h2 : k = k2
        · subst h2
          have h4 : ¬ ke = k := fun h => h3 h.symm
          simp [mapFind, h4, ih]
        · by_cases h5 : ke = k2
          · simp [mapFind, h5, h2]
          · simp [mapFind, h5, ih, h2]

theorem keys_mapAssign {K V : Type} [LinearOrder K] (m : List (K × V)) (k : K) (v : V)
    (b : K) (h : b ∈ (mapAssign m k v).map Prod.fst) : b = k ∨ b ∈ m.map Prod.fst := by
  induction m with
  | nil => simp [mapAssign] at h; exact Or.inl h
  | cons e rest ih =>
    obtain ⟨ke, ve⟩ := e
    unfold mapAssign at h
    by_cases h1 : k < ke
    · simp only [h1, if_true, List.map_cons, List.mem_cons] at h
      rcases h with h | h | h
      · exact Or.inl h
      · exact Or.inr (by simp [h])
      · exact Or.inr (by simp [List.mem_map] at h ⊢; exact Or.inr h)
    · simp only [h1, if_false] at h
      by_cases h3 : k = ke
      · simp only [h3, if_true, List.map_cons, List.mem_cons] at h
        rcases h with h | h
        · exact Or.inl (by rw [h, h3])
        · exact Or.inr (by simp [List.mem_map] at h ⊢; exact Or.inr h)
      · simp only [h3, if_false, List.map_cons, List.mem_cons] at h
        rcases h with h | h
        · exact Or.inr (by simp [h])
        · rcases ih h with h | h
          · exact Or.inl h
          · exact Or.inr (by simp [List.mem_map] at h ⊢; exact Or.inr h)

/-- Assigning keeps the keys of the map in strictly ascending order. -/
theorem mapAssign_sorted {K V : Type} [LinearOrder K] (m : List (K × V)) (k : K) (v : V)
    (h : (m.map Prod.fst).Sorted (fun a b => a < b)) :
    ((mapAssign m k v).map Prod.fst).Sorted (fun a b => a < b) := by
  induction m with
  | nil => simp [mapAssign]
  | cons e rest ih =>
    obtain ⟨ke, ve⟩ := e
    simp only [List.map_cons, List.sorted_cons] at h
    obtain ⟨hlt, hrest⟩ := h
    unfold mapAssign
    by_cases h1 : k < ke
    · simp only [h1, if_true, List.map_cons, List.sorted_cons, List.mem_cons]
      refine ⟨?_, hlt, hrest⟩
      rintro b (hb | hb)
      · rw [hb]; exact h1
      · exact lt_trans h1 (hlt b hb)
    · simp only [h1, if_false]
      by_cases h3 : k = ke
      · subst h3
        simp only [if_true, List.map_cons, List.sorted_cons]
        exact ⟨hlt, hrest⟩
      · simp only [h3, if_false, List.map_cons, List.sorted_cons]
        refine ⟨?_, ih hrest⟩
        intro b hb
        rcases keys_mapAssign rest k v b hb with hb | hb
        · rw [hb]
          exact lt_of_le_of_ne (not_lt.mp h1) (fun h => h3 h.symm)
        · exact hlt b hb

/-- In a map with strictly ascending keys every entry is the one `find` returns. -/
theorem mapFind_of_mem {K V : Type} [LinearOrder K] (m : List (K × V))
    (h : (m.map Prod.fst).Sorted (fun a b => a < b)) (k : K) (v : V) (hm : (k, v) ∈ m) :
    mapFind m k = some v := by
  induction m with
  | nil => cases hm
  | cons e rest ih =>
    obtain ⟨ke, ve⟩ := e
    simp only [List.map_cons, List.sorted_cons] at h
    rcases List.mem_cons.1 hm with heq | hmem
    · simp only [Prod.mk.injEq] at heq
      simp [mapFind, heq.1, heq.2]
    · have hne : ¬ ke = k := by
        intro hke
        have := h.1 k (List.mem_map_of_mem Prod.fst hmem)
        rw [hke] at this
        exact lt_irrefl _ this
      simp only [mapFind, hne, if_false]
      exact ih h.2 hmem

theorem mem_of_mapFind {K V : Type} [LinearOrder K] (m : List (K × V)) (k : K) (v : V)
    (h : mapFind m k = some v) : (k, v) ∈ m := by
  induction m with
  | nil => simp [mapFind] at h
  | cons e rest ih =>
    obtain ⟨ke, ve⟩ := e
    unfold mapFind at h
    by_cases hke : ke = k
    · simp only [hke, if_true, Option.some.injEq] at h
      rw [hke, h]
      exact List.mem_cons_self _ _
    · simp only [hke, if_false] at h
      exact List.mem_cons_of_mem _ (ih h)

theorem mapFind_none {K V : Type} [LinearOrder K] (m : List (K × V)) (k : K)
    (h : k ∉ m.map Prod.fst) : mapFind m k = none := by
  cases hf : mapFind m k with
  | none => rfl
  | some v => exact absurd (List.mem_map_of_mem Prod.fst (mem_of_mapFind m k v hf)) h

/-- The routes loop, when no stop id field is out of range: every row that carries a
pair appends its stop id to the entry of its name, in input order. -/
theorem routesLoop_eq (stoull : String → StoullResult) (raws : List (List String))
    (h : ∀ raw ∈ raws, routeRowOutOfRange stoull raw = false) (m : List (String × List TStopID)) :
    routesLoop stoull raws m =
      some ((raws.filterMap (routeRowOf stoull)).foldl
        (fun (acc : List (String × List TStopID)) (r : String × TStopID) =>
          mapAssign acc r.1 ((mapFind acc r.1).getD [] ++ [r.2])) m) := by
  induction raws generalizing m with
  | nil => rfl
  | cons raw rest ih =>
    have hrest : ∀ r ∈ rest, routeRowOutOfRange stoull r = false :=
      fun r hr => h r (List.mem_cons_of_mem _ hr)
    have hraw := h raw (List.mem_cons_self _ _)
    match raw, hraw with
    | [], _ => simp only [routesLoop, List.filterMap_cons, routeRowOf]; exact ih hrest m
    | [_], _ => simp only [routesLoop, List.filterMap_cons, routeRowOf]; exact ih hrest m
    | name :: f1 :: more, hraw =>
      simp only [routeRowOutOfRange, decide_eq_false_iff_not] at hraw
      cases hs : stoull f1 with
      | value id =>
        simp only [routesLoop, List.filterMap_cons, routeRowOf, hs, List.foldl_cons]
        exact ih hrest _
      | invalid_argument =>
        simp only [routesLoop, List.filterMap_cons, routeRowOf, hs]
        exact ih hrest m
      | out_of_range => exact absurd hs hraw

/-- The entry of `name` in `stop_per_route` after a run of rows: the stop ids of the
rows with that name, in order, behind what the entry held before. -/
theorem stopPerRoute_find (rows : List (String × TStopID)) (m : List (String × List TStopID))
    (name : String) :
    mapFind (rows.foldl
        (fun (acc : List (String × List TStopID)) (r : String × TStopID) =>
          mapAssign acc r.1 ((mapFind acc r.1).getD [] ++ [r.2])) m) name =
      if name ∈ rows.map Prod.fst then
        some ((mapFind m name).getD [] ++ (rows.filter (fun r => r.1 = name)).map Prod.snd)
      else mapFind m name := by
  induction rows generalizing m with
  | nil => simp
  | cons r rest ih =>
    rw [List.foldl_cons, ih]
    by_cases hr : r.1 = name
    · have hmem : name ∈ (r :: rest).map Prod.fst := by simp [hr]
      rw [if_pos hmem]
      by_cases hrest : name ∈ rest.map Prod.fst
      · rw [if_pos hrest, mapFind_mapAssign, if_pos hr]
        simp [List.filter_cons, hr]
      · rw [if_neg hrest, mapFind_mapAssign, if_pos hr]
        have hnil : rest.filter (fun x => x.1 = name) = [] := by
          rw [List.filter_eq_nil_iff]
          intro x hx hxn
          simp only [decide_eq_true_eq] at hxn
          exact hrest (by rw [← hxn]; exact List.mem_map_of_mem Prod.fst hx)
        simp [List.filter_cons, hr, hnil]
    · have hiff : name ∈ (r :: rest).map Prod.fst ↔ name ∈ rest.map Prod.fst := by
        simp only [List.map_cons, List.mem_cons]
        constructor
        · rintro (h | h)
          · exact absurd h.symm hr
          · exact h
        · exact Or.inr
      by_cases hrest : name ∈ rest.map Prod.fst
      · rw [if_pos hrest, if_pos (hiff.2 hrest), mapFind_mapAssign, if_neg hr]
        simp [List.filter_cons, hr]
      · rw [if_neg hrest, if_neg (fun h => hrest (hiff.1 h)), mapFind_mapAssign, if_neg hr]

theorem stopPerRoute_sorted (rows : List (String × TStopID))
    (m : List (String × List TStopID)) (h : (m.map Prod.fst).Sorted (fun a b => a < b)) :
    ((rows.foldl
        (fun (acc : List (String × List TStopID)) (r : String × TStopID) =>
          mapAssign acc r.1 ((mapFind acc r.1).getD [] ++ [r.2])) m).map
      Prod.fst).Sorted (fun a b => a < b) :=
  foldl_preserves (fun acc : List (String × List TStopID) =>
      (acc.map Prod.fst).Sorted (fun a b => a < b)) _ rows
    (fun acc r _ hacc => mapAssign_sorted acc r.1 _ hacc) m h

theorem stopsLoop_routes (stoull : String → StoullResult) (rows : List (List String))
    (st st2 : CCSVBusSystem) (h : stopsLoop stoull rows st = some st2) :
    st2.DRoutesByName = st.DRoutesByName ∧ st2.DRoutesOrdered = st.DRoutesOrdered := by
  induction rows generalizing st with
  | nil =>
    simp only [stopsLoop, Option.some.injEq] at h
    rw [← h]; exact ⟨rfl, rfl⟩
  | cons row rest ih =>
    match row with
    | [] => simp only [stopsLoop] at h; exact ih st h
    | [_] => simp only [stopsLoop] at h; exact ih st h
    | f0 :: f1 :: more =>
      simp only [stopsLoop] at h
      cases h0 : stoull f0 with
      | invalid_argument => simp only [h0] at h; exact ih st h
      | out_of_range => simp [h0] at h
      | value a =>
        simp only [h0] at h
        cases h1 : stoull f1 with
        | invalid_argument => simp only [h1] at h; exact ih st h
        | out_of_range => simp [h1] at h
        | value b =>
          simp only [h1] at h
          have hres := ih _ h
          exact hres

/-- The loop creating the route objects: one route per entry, in entry order, and
`DRoutesByName` assigned once per entry. -/
theorem makeRoutes_eq (m : List (String × List TStopID)) (st : CCSVBusSystem) :
    (makeRoutes m st).DRoutesOrdered =
        st.DRoutesOrdered ++ m.map (fun e => (⟨e.1, e.2⟩ : SRoute)) ∧
    (makeRoutes m st).DRoutesByName =
        m.foldl (fun (d : List (String × SRoute)) (e : String × List TStopID) =>
          mapAssign d e.1 ⟨e.1, e.2⟩) st.DRoutesByName := by
  induction m generalizing st with
  | nil => simp [makeRoutes]
  | cons e rest ih =>
    unfold makeRoutes at ih ⊢
    simp only [List.foldl_cons]
    obtain ⟨h1, h2⟩ := ih
      { st with
        DRoutesByName := mapAssign st.DRoutesByName e.1 ⟨e.1, e.2⟩
        DRoutesOrdered := st.DRoutesOrdered ++ [⟨e.1, e.2⟩] }
    exact ⟨by rw [h1]; simp, h2⟩

theorem routesByName_skip (m : List (String × List TStopID)) (d : List (String × SRoute))
    (name : String) (h : name ∉ m.map Prod.fst) :
    mapFind (m.foldl (fun (d : List (String × SRoute)) (e : String × List TStopID) =>
      mapAssign d e.1 ⟨e.1, e.2⟩) d) name = mapFind d name := by
  induction m generalizing d with
  | nil => rfl
  | cons e rest ih =>
    simp only [List.map_cons, List.mem_cons, not_or] at h
    rw [List.foldl_cons, ih _ h.2, mapFind_mapAssign, if_neg (fun he => h.1 he.symm)]

theorem routesByName_find (m : List (String × List TStopID))
    (hs : (m.map Prod.fst).Sorted (fun a b => a < b)) (d : List (String × SRoute))
    (name : String) (ids : List TStopID) (h : (name, ids) ∈ m) :
    mapFind (m.foldl (fun (d : List (String × SRoute)) (e : String × List TStopID) =>
      mapAssign d e.1 ⟨e.1, e.2⟩) d) name = some ⟨name, ids⟩ := by
  induction m generalizing d with
  | nil => cases h
  | cons e rest ih =>
    simp only [List.map_cons, List.sorted_cons] at hs
    rw [List.foldl_cons]
    rcases List.mem_cons.1 h with heq | hmem
    · have hnot : name ∉ rest.map Prod.fst := by
        intro hin
        have := hs.1 name hin
        rw [← heq] at this
        exact lt_irrefl _ this
      rw [routesByName_skip rest _ name hnot, mapFind_mapAssign, ← heq]
      simp
    · exact ih hs.2 _ hmem

theorem mapAssign_append {K V : Type} [LinearOrder K] (d : List (K × V)) (k : K) (v : V)
    (h : ∀ b ∈ d.map Prod.fst, b < k) : mapAssign d k v = d ++ [(k, v)] := by
  induction d with
  | nil => rfl
  | cons e rest ih =>
    obtain ⟨ke, ve⟩ := e
    have hke : ke < k := h ke (by simp)
    unfold mapAssign
    rw [if_neg (not_lt.mpr (le_of_lt hke)), if_neg (fun heq => (ne_of_lt hke) heq.symm),
      ih (fun b hb => h b (by simp only [List.map_cons, List.mem_cons]; exact Or.inr hb))]
    rfl

/-- Assigning the entries of `stop_per_route` in ascending name order fills
`DRoutesByName` with one entry per name, in that order. -/
theorem routesByName_eq (m : List (String × List TStopID))
    (hs : (m.map Prod.fst).Sorted (fun a b => a < b)) (d : List (String × SRoute))
    (hd : ∀ b ∈ d.map Prod.fst, ∀ c ∈ m.map Prod.fst, b < c) :
    m.foldl (fun (d : List (String × SRoute)) (e : String × List TStopID) =>
      mapAssign d e.1 ⟨e.1, e.2⟩) d =
      d ++ m.map (fun e => (e.1, (⟨e.1, e.2⟩ : SRoute))) := by
  induction m generalizing d with
  | nil => simp
  | cons e rest ih =>
    simp only [List.map_cons, List.sorted_cons] at hs
    rw [List.foldl_cons, mapAssign_append d e.1 _ (fun b hb => hd b hb e.1 (by simp)), ih hs.2]
    · simp
    · intro b hb c hc
      simp only [List.map_append, List.map_cons, List.map_nil, List.mem_append,
        List.mem_singleton] at hb
      rcases hb with hb | hb
      · exact hd b hb c (by simp only [List.map_cons, List.mem_cons]; exact Or.inr hc)
      · rw [hb]; exact hs.1 c hc

/-- C20: for every routes input read by the `CCSVBusSystem` constructor (the stops input
before it is read without an exception, and no stop id field of a routes row is out of
the range of `std::stoull`), with `rows` the `(route_name, stop_id)` pairs its rows
carry, in input order: construction succeeds; the routes reported by `RouteByIndex` have
pairwise distinct names, which are exactly the names occurring in `rows`; for each of
these routes `RouteByName` of its name returns it, `GetStopID(0..StopCount()-1)` is the
list of the stop ids of the rows with that name in input order, and `GetStopID(i)` is
`InvalidStopID` for every `i ≥ StopCount()`; `RouteByName` is null for every other
name. -/
theorem C20_csv_routes (stoull : String → StoullResult)
    (stopRows routeRows : List (List String))
    (hstops : (stopsLoop stoull stopRows
      { DStopsById := [], DStopsOrdered := [], DRoutesByName := [],
        DRoutesOrdered := [] }).isSome = true)
    (hrange : ∀ raw ∈ routeRows, routeRowOutOfRange stoull raw = false) :
    ∃ bs, CCSVBusSystem.create stoull stopRows routeRows = some bs ∧
      bs.RouteCount = bs.DRoutesOrdered.length ∧
      (∀ i, bs.RouteByIndex i = bs.DRoutesOrdered[i]?) ∧
      (bs.DRoutesOrdered.map (fun r => r.Name)).Nodup ∧
      (∀ name, name ∈ bs.DRoutesOrdered.map (fun r => r.Name) ↔
        name ∈ (routeRows.filterMap (routeRowOf stoull)).map Prod.fst) ∧
      (∀ r ∈ bs.DRoutesOrdered,
        bs.RouteByName r.Name = some r ∧
        (List.range r.StopCount).map r.GetStopID =
          ((routeRows.filterMap (routeRowOf stoull)).filter
            (fun row => row.1 = r.Name)).map Prod.snd ∧
        ∀ i, r.StopCount ≤ i → r.GetStopID i = InvalidStopID) ∧
      ∀ name, name ∉ (routeRows.filterMap (routeRowOf stoull)).map Prod.fst →
        bs.RouteByName name = none := by
  cases hst : stopsLoop stoull stopRows
      { DStopsById := [], DStopsOrdered := [], DRoutesByName := [], DRoutesOrdered := [] } with
  | none => rw [hst] at hstops; cases hstops
  | some st =>
    obtain ⟨hbn, hord⟩ := stopsLoop_routes stoull stopRows _ st hst
    simp only at hbn hord
    have hloop := routesLoop_eq stoull routeRows hrange []
    have hsorted := stopPerRoute_sorted (routeRows.filterMap (routeRowOf stoull)) []
      (by simp)
    have hfind := stopPerRoute_find (routeRows.filterMap (routeRowOf stoull)) []
    generalize hm : (routeRows.filterMap (routeRowOf stoull)).foldl
      (fun (acc : List (String × List TStopID)) (r : String × TStopID) =>
        mapAssign acc r.1 ((mapFind acc r.1).getD [] ++ [r.2])) [] = m
      at hloop hsorted hfind
    obtain ⟨hmo, hmb⟩ := makeRoutes_eq m st
    rw [hord, List.nil_append] at hmo
    rw [hbn, routesByName_eq m hsorted [] (by simp), List.nil_append] at hmb
    have hcreate : CCSVBusSystem.create stoull stopRows routeRows = some (makeRoutes m st) := by
      unfold CCSVBusSystem.create
      rw [hst, hloop]
    have hnames : (makeRoutes m st).DRoutesOrdered.map (fun r => r.Name) = m.map Prod.fst := by
      rw [hmo, List.map_map]; rfl
    have hkey : ∀ name, name ∈ m.map Prod.fst ↔
        name ∈ (routeRows.filterMap (routeRowOf stoull)).map Prod.fst := by
      intro name
      constructor
      · intro hin
        by_contra hnot
        have h1 := hfind name
        rw [if_neg hnot] at h1
        simp only [mapFind] at h1
        obtain ⟨e, he, hen⟩ := List.mem_map.1 hin
        have h2 := mapFind_of_mem m hsorted e.1 e.2 he
        rw [hen, h1] at h2
        cases h2
      · intro hin
        have h1 := hfind name
        rw [if_pos hin] at h1
        exact List.mem_map_of_mem Prod.fst (mem_of_mapFind m name _ h1)
    refine ⟨makeRoutes m st, hcreate, ?_, ?_, ?_, ?_, ?_, ?_⟩
    · unfold CCSVBusSystem.RouteCount
      rw [hmb, hmo, List.length_map, List.length_map]
    · intro i
      unfold CCSVBusSystem.RouteByIndex
      split
      · rename_i hi
        exact (List.getElem?_eq_none hi).symm
      · rfl
    · rw [hnames]
      exact (hsorted.imp (fun h => ne_of_lt h) : List.Pairwise (fun a b => a ≠ b) _)
    · intro name
      rw [hnames]
      exact hkey name
    · intro r hr
      rw [hmo] at hr
      obtain ⟨e, he, rfl⟩ := List.mem_map.1 hr
      have hin : e.1 ∈ (routeRows.filterMap (routeRowOf stoull)).map Prod.fst :=
        (hkey e.1).1 (List.mem_map_of_mem Prod.fst he)
      have h1 := hfind e.1
      rw [if_pos hin, mapFind_of_mem m hsorted e.1 e.2 he] at h1
      simp only [mapFind, Option.getD_none, List.nil_append, Option.some.injEq] at h1
      refine ⟨?_, ?_, ?_⟩
      · unfold CCSVBusSystem.RouteByName
        rw [hmb]
        exact mapFind_of_mem _ (by rw [List.map_map]; exact hsorted) e.1 _
          (List.mem_map_of_mem (fun e => (e.1, (⟨e.1, e.2⟩ : SRoute))) he)
      · simp only
        rw [← h1]
        apply List.ext_getElem?
        intro i
        simp only [SRoute.StopCount, List.getElem?_map, List.getElem?_range]
        by_cases hi : i < e.2.length
        · simp [List.getElem?_range hi, SRoute.GetStopID, hi, List.getD_eq_getElem?_getD,
            List.getElem?_eq_getElem hi]
        · simp [List.getElem?_eq_none (not_lt.mp hi),
            List.getElem?_eq_none (l := List.range _) (by simpa using not_lt.mp hi)]
      · intro i hi
        unfold SRoute.GetStopID
        unfold SRoute.StopCount at hi
        rw [if_pos hi]
    · intro name hnot
      unfold CCSVBusSystem.RouteByName
      rw [hmb]
      apply mapFind_none
      rw [List.map_map]
      exact fun h => hnot ((hkey name).1 h)

/-- C20, witness: a routes input with a header row and the rows of routes B and A
interleaved; route A gets the stops 1, 2 and route B the stops 5, 3, 5. -/
theorem C20_witness :
    (stopsLoop stoullDecimal sampleStopRows
      { DStopsById := [], DStopsOrdered := [], DRoutesByName := [],
        DRoutesOrdered := [] }).isSome = true ∧
    (∀ raw ∈ sampleRouteRows, routeRowOutOfRange stoullDecimal raw = false) ∧
    sampleRouteRows.filterMap (routeRowOf stoullDecimal) =
      [("B", 5), ("A", 1), ("B", 3), ("A", 2), ("B", 5)] ∧
    (CCSVBusSystem.create stoullDecimal sampleStopRows sampleRouteRows).map
        (fun bs => (bs.DRoutesOrdered, bs.RouteByName "B", bs.RouteByName "C")) =
      some ([⟨"A", [1, 2]⟩, ⟨"B", [5, 3, 5]⟩], some ⟨"B", [5, 3, 5]⟩, none) ∧
    ∃ bs, CCSVBusSystem.create stoullDecimal sampleStopRows sampleRouteRows = some bs ∧
      bs.RouteCount = bs.DRoutesOrdered.length ∧
      (∀ i, bs.RouteByIndex i = bs.DRoutesOrdered[i]?) ∧
      (bs.DRoutesOrdered.map (fun r => r.Name)).Nodup ∧
      (∀ name, name ∈ bs.DRoutesOrdered.map (fun r => r.Name) ↔
        name ∈ (sampleRouteRows.filterMap (routeRowOf stoullDecimal)).map Prod.fst) ∧
      (∀ r ∈ bs.DRoutesOrdered,
        bs.RouteByName r.Name = some r ∧
        (List.range r.StopCount).map r.GetStopID =
          ((sampleRouteRows.filterMap (routeRowOf stoullDecimal)).filter
            (fun row => row.1 = r.Name)).map Prod.snd ∧
        ∀ i, r.StopCount ≤ i → r.GetStopID i = InvalidStopID) ∧
      ∀ name, name ∉ (sampleRouteRows.filterMap (routeRowOf stoullDecimal)).map Prod.fst →
        bs.RouteByName name = none :=
  ⟨by decide!, by decide!, by decide!, by decide!,
    C20_csv_routes stoullDecimal sampleStopRows sampleRouteRows (by decide!) (by decide!)⟩

/-! ## `CDijkstraPathRouter` -/

theorem routerRelax_eq (u : Nat) (d : ℚ) (st : DState) (e : Nat × ℚ) :
    routerRelax u d st e = relax u d st e := by
  unfold routerRelax relax
  by_cases h : d + e.2 < st.dist e.1
  · simp only [h, if_true]
  · simp only [h, if_false]

theorem routerLoop_eq (g : Graph) (dest : Nat) (fuel : Nat) (st : DState) :
    routerLoop g dest fuel st =
      (searchLoop g (fun x => decide (x = dest)) false fuel st).map Prod.fst := by
  induction fuel generalizing st with
  | zero => rfl
  | succ fuel ih =>
    unfold routerLoop searchLoop
    cases htop : pqTop st.pq with
    | none => rfl
    | some m =>
      obtain ⟨d, u⟩ := m
      simp only
      by_cases hs : d > st.dist u
      · rw [if_pos hs, if_pos hs]; exact ih _
      · rw [if_neg hs, if_neg hs]
        by_cases hd : u = dest
        · simp [hd]
        · have hfold : List.foldl (routerRelax u d) { st with pq := pqPop st.pq } (g u) =
              List.foldl (fun s e => relax u (if false = true then s.dist u else d) s e)
                { st with pq := pqPop st.pq } (g u) := by
            congr 1
          simp only [hd, if_false, decide_False, Bool.false_eq_true]
          rw [hfold]
          exact ih _

/-- In a router built by `AddVertex` and `AddEdge` every stored edge joins two vertex
ids and has a non-negative weight. -/
theorem Built.wellFormed {Tag : Type} {r : CDijkstraPathRouter Tag} (h : Built r) :
    ∀ u e, e ∈ r.adjacencyList u →
      u < r.vertices.length ∧ e.1 < r.vertices.length ∧ 0 ≤ e.2 := by
  induction h with
  | empty => intro u e he; simp [CDijkstraPathRouter.empty] at he
  | addVertex r tag _ ih =>
    intro u e he
    simp only [CDijkstraPathRouter.AddVertex] at he ⊢
    by_cases hu : u = r.vertices.length
    · rw [hu, Function.update_same] at he
      cases he
    · rw [Function.update_noteq hu] at he
      obtain ⟨h1, h2, h3⟩ := ih u e he
      simp only [List.length_append, List.length_singleton]
      exact ⟨by omega, by omega, h3⟩
  | addEdge r src dest weight bidir _ ih =>
    intro u e he
    unfold CDijkstraPathRouter.AddEdge at he ⊢
    by_cases hbad : src ≥ r.vertices.length ∨ dest ≥ r.vertices.length ∨ weight < 0
    · rw [if_pos hbad] at he ⊢
      exact ih u e he
    · rw [if_neg hbad] at he ⊢
      simp only [not_or, not_le, not_lt] at hbad
      obtain ⟨hs, hd, hw⟩ := hbad
      simp only at he ⊢
      cases bidir with
      | false =>
        simp only [Bool.false_eq_true, if_false, mem_pushBack] at he
        rcases he with he | ⟨rfl, rfl⟩
        · exact ih u e he
        · exact ⟨hs, hd, hw⟩
      | true =>
        simp only [if_true, mem_pushBack] at he
        rcases he with (he | ⟨rfl, rfl⟩) | ⟨rfl, rfl⟩
        · exact ih u e he
        · exact ⟨hs, hd, hw⟩
        · exact ⟨hd, hs, hw⟩

/-- Total correctness of the router's `FindShortestPath` on a graph with non-negative
weights and in-range edges, for valid `src` and `dest`. -/
theorem router_total {Tag : Type} (r : CDijkstraPathRouter Tag)
    (hnn : NonnegWeights r.adjacencyList) (hrng : InRange r.adjacencyList r.vertices.length)
    (src dest : Nat) (hs : src < r.vertices.length) (hd : dest < r.vertices.length) :
    ∃ cost n, cost ≤ DBL_MAX ∧
      (∀ p W, RPath r.adjacencyList src (dest :: p) W → cost ≤ W) ∧
      (cost < DBL_MAX → ∃ p, RPath r.adjacencyList src (dest :: p) cost ∧
        ∀ fuel, n ≤ fuel → ∀ path, r.FindShortestPath fuel src dest path =
          some (PathResult.distance cost, (dest :: p).reverse ++ path.reverse)) ∧
      (¬ cost < DBL_MAX → ∀ fuel, n ≤ fuel → ∀ path,
        r.FindShortestPath fuel src dest path = some (PathResult.NoPathExists, path)) := by
  obtain ⟨res, hpost, hrun⟩ := search_correct r.adjacencyList src r.vertices.length
    (fun x => decide (x = dest)) false hnn hrng hs
  obtain ⟨done, rank, hT⟩ := hpost.tree
  have hleast : ∀ p W, RPath r.adjacencyList src (dest :: p) W → res.1.dist dest ≤ W := by
    intro p W hp
    cases hf : res.2 with
    | none => exact hpost.all_least hf dest p W hp
    | some m =>
      obtain ⟨d, u⟩ := m
      obtain ⟨h1, h2, _⟩ := hpost.at_dest d u hf
      have hu : u = dest := by simpa using h1
      rw [← hu, h2]
      exact hpost.least d u hf dest p W (by simp) hp
  have hcond : ¬ (src ≥ r.vertices.length ∨ dest ≥ r.vertices.length) := by
    simp only [not_or, not_le]; exact ⟨hs, hd⟩
  have hloop : ∀ fuel, 2 + Finset.sum (Finset.range r.vertices.length)
      (fun x => (r.adjacencyList x).length) ≤ fuel →
      routerLoop r.adjacencyList dest fuel
        { dist := Function.update (fun _ => DBL_MAX) src 0, prev := fun _ => -1,
          pq := [(0, src)] } = some res.1 := by
    intro fuel hfuel
    have h1 := hrun fuel (by omega)
    change searchLoop r.adjacencyList (fun x => decide (x = dest)) false fuel
      { dist := Function.update (fun _ => DBL_MAX) src 0, prev := fun _ => -1, pq := [(0, src)] }
      = some res at h1
    rw [routerLoop_eq, h1]
    rfl
  by_cases hfin : res.1.dist dest < DBL_MAX
  · obtain ⟨p, hp1, hp2⟩ := walkBack_tree hT dest hfin
    refine ⟨res.1.dist dest,
      max (2 + Finset.sum (Finset.range r.vertices.length)
        (fun x => (r.adjacencyList x).length)) (rank dest + 2),
      hT.dist_le dest, hleast, fun _ => ⟨p, hp1, ?_⟩, fun h => absurd hfin h⟩
    intro fuel hfuel path
    have h1 := hloop fuel (by omega)
    have h2 := hp2 fuel path (by omega)
    unfold CDijkstraPathRouter.FindShortestPath
    simp only [if_neg hcond, h1, ne_of_lt hfin, if_false, h2, List.reverse_append]
  · have heq : res.1.dist dest = DBL_MAX := le_antisymm (hT.dist_le dest) (not_lt.mp hfin)
    refine ⟨res.1.dist dest,
      2 + Finset.sum (Finset.range r.vertices.length) (fun x => (r.adjacencyList x).length),
      hT.dist_le dest, hleast, fun h => absurd h hfin, fun _ => ?_⟩
    intro fuel hfuel path
    have h1 := hloop fuel hfuel
    unfold CDijkstraPathRouter.FindShortestPath
    simp only [if_neg hcond, h1, heq, if_true]

/-- C22: for every router state, `AddEdge(src, dest, weight, bidir)` returns false
exactly when `src` or `dest` is not an existing vertex id or `weight` is negative; when
it returns false the router is unchanged; when it returns true the vertices are
unchanged and every adjacency list is what it was, with `(dest, weight)` appended to
the list of `src` and, when `bidir` is true, `(src, weight)` appended to the list of
`dest`. -/
theorem C22_add_edge {Tag : Type} (r : CDijkstraPathRouter Tag) (src dest : TVertexID)
    (weight : ℚ) (bidir : Bool) :
    ((r.AddEdge src dest weight bidir).1 = false ↔
      (¬ src < r.VertexCount ∨ ¬ dest < r.VertexCount ∨ weight < 0)) ∧
    ((r.AddEdge src dest weight bidir).1 = false → (r.AddEdge src dest weight bidir).2 = r) ∧
    ((r.AddEdge src dest weight bidir).1 = true →
      (r.AddEdge src dest weight bidir).2.vertices = r.vertices ∧
      ∀ u, (r.AddEdge src dest weight bidir).2.adjacencyList u =
        r.adjacencyList u ++ (if u = src then [(dest, weight)] else []) ++
          (if bidir = true ∧ u = dest then [(src, weight)] else [])) := by
  unfold CDijkstraPathRouter.AddEdge CDijkstraPathRouter.VertexCount
  by_cases hbad : src ≥ r.vertices.length ∨ dest ≥ r.vertices.length ∨ weight < 0
  · rw [if_pos hbad]
    refine ⟨⟨fun _ => ?_, fun _ => rfl⟩, fun _ => rfl, fun h => absurd h (by simp)⟩
    simpa only [not_lt] using hbad
  · rw [if_neg hbad]
    refine ⟨⟨fun h => absurd h (by simp), fun h => absurd (by simpa only [not_lt] using h) hbad⟩,
      fun h => absurd h (by simp), fun _ => ⟨rfl, fun u => ?_⟩⟩
    simp only
    cases bidir with
    | false =>
      simp only [Bool.false_eq_true, if_false, false_and, List.append_nil, Graph.pushBack]
      by_cases hu : u = src
      · subst hu; simp
      · simp [Function.update_noteq hu, hu]
    | true =>
      simp only [if_true, true_and, Graph.pushBack]
      by_cases hd : u = dest
      · subst hd
        by_cases hu : u = src
        · subst hu; simp
        · simp [Function.update_noteq hu, hu]
      · by_cases hu : u = src
        · subst hu; simp [Function.update_noteq hd, hd]
        · simp [Function.update_noteq hu, Function.update_noteq hd, hu, hd]

/-- C22, witness: on the three-vertex router an edge to the missing vertex 5 is
refused and leaves the router as it was; the edge 2 -> 0 of weight 4, both ways, is
accepted and appended to the lists of 2 and 0. -/
theorem C22_witness :
    (routerSmall.AddEdge 0 5 1 true).1 = false ∧ (routerSmall.AddEdge 0 5 1 true).2 = routerSmall ∧
    (routerSmall.AddEdge 2 0 4 true).1 = true ∧
    (routerSmall.AddEdge 2 0 4 true).2.vertices = routerSmall.vertices ∧
    ∀ u, (routerSmall.AddEdge 2 0 4 true).2.adjacencyList u =
      routerSmall.adjacencyList u ++ (if u = 2 then [(0, 4)] else []) ++
        (if true = true ∧ u = 0 then [(2, 4)] else []) :=
  have hf : (routerSmall.AddEdge 0 5 1 true).1 = false := by decide!
  have ht : (routerSmall.AddEdge 2 0 4 true).1 = true := by decide!
  ⟨hf, (C22_add_edge routerSmall 0 5 1 true).2.1 hf, ht,
    ((C22_add_edge routerSmall 2 0 4 true).2.2 ht).1,
    ((C22_add_edge routerSmall 2 0 4 true).2.2 ht).2⟩

/-- C23 (amended): for every router built with `AddVertex` and `AddEdge` and all
`src`, `dest`, the router's `FindShortestPath` returns (for every sufficient fuel), and
it returns `NoPathExists` exactly when an id is invalid or no directed path from `src`
to `dest` has a total weight below `std::numeric_limits<double>::max()`; otherwise,
called with an empty `path`, it returns the least total weight over all directed paths
from `src` to `dest`, and `path` is a vertex sequence from `src` to `dest` along stored
edges whose weights add up to the returned value. -/
theorem C23_router_shortest_path {Tag : Type} (r : CDijkstraPathRouter Tag) (hb : Built r)
    (src dest : TVertexID) :
    ∃ n, ∀ fuel, n ≤ fuel →
      (∀ path, ∃ res out, r.FindShortestPath fuel src dest path = some (res, out) ∧
        (res = PathResult.NoPathExists ↔
          (¬ src < r.VertexCount ∨ ¬ dest < r.VertexCount ∨
            ∀ p W, RPath r.adjacencyList src (dest :: p) W → DBL_MAX ≤ W))) ∧
      (src < r.VertexCount → dest < r.VertexCount →
        (∃ p W, RPath r.adjacencyList src (dest :: p) W ∧ W < DBL_MAX) →
        ∃ cost p, r.FindShortestPath fuel src dest [] =
            some (PathResult.distance cost, (dest :: p).reverse) ∧
          RPath r.adjacencyList src (dest :: p) cost ∧
          ∀ q W, RPath r.adjacencyList src (dest :: q) W → cost ≤ W) := by
  unfold CDijkstraPathRouter.VertexCount
  by_cases hvalid : src < r.vertices.length ∧ dest < r.vertices.length
  · obtain ⟨hs, hd⟩ := hvalid
    have hwf := hb.wellFormed
    obtain ⟨cost, n, _, hleast, hfound, hnone⟩ := router_total r
      (fun u e he => (hwf u e he).2.2) (fun u _ e he => (hwf u e he).2.1) src dest hs hd
    refine ⟨n, fun fuel hf => ⟨fun path => ?_, fun _ _ hex => ?_⟩⟩
    · by_cases hfin : cost < DBL_MAX
      · obtain ⟨p, hp, hrun⟩ := hfound hfin
        refine ⟨_, _, hrun fuel hf path, ?_⟩
        constructor
        · intro h; cases h
        · rintro (h | h | h)
          · exact absurd hs h
          · exact absurd hd h
          · exact absurd hfin (not_lt.mpr (h p cost hp))
      · refine ⟨_, _, hnone hfin fuel hf path, ?_⟩
        constructor
        · intro _
          exact Or.inr (Or.inr (fun p W hp => le_trans (not_lt.mp hfin) (hleast p W hp)))
        · intro _; rfl
    · obtain ⟨p0, W0, hp0, hW0⟩ := hex
      have hfin : cost < DBL_MAX := lt_of_le_of_lt (hleast p0 W0 hp0) hW0
      obtain ⟨p, hp, hrun⟩ := hfound hfin
      refine ⟨cost, p, ?_, hp, hleast⟩
      have := hrun fuel hf []
      simpa using this
  · refine ⟨0, fun fuel _ => ⟨fun path => ?_, fun hs hd _ => absurd ⟨hs, hd⟩ hvalid⟩⟩
    have hcond : src ≥ r.vertices.length ∨ dest ≥ r.vertices.length := by
      by_contra hc
      simp only [not_or, not_le] at hc
      exact hvalid hc
    refine ⟨PathResult.NoPathExists, path, ?_, ?_⟩
    · unfold CDijkstraPathRouter.FindShortestPath
      simp only [if_pos hcond]
    · constructor
      · intro _
        rcases hcond with h | h
        · exact Or.inl (not_lt.mpr h)
        · exact Or.inr (Or.inl (not_lt.mpr h))
      · intro _; rfl

theorem routerSmall_built : Built routerSmall :=
  Built.addEdge _ 0 2 7 false (Built.addEdge _ 1 2 3 false (Built.addEdge _ 0 1 2 false
    (Built.addVertex _ () (Built.addVertex _ () (Built.addVertex _ () Built.empty)))))

theorem routerHeavy_built : Built routerHeavy :=
  Built.addEdge _ 1 2 (10 ^ 308) false (Built.addEdge _ 0 1 (10 ^ 308) false
    (Built.addVertex _ () (Built.addVertex _ () (Built.addVertex _ () Built.empty))))

/-- C23, witness: on the router with edges 0 -> 1 (2), 1 -> 2 (3), 0 -> 2 (7) the call
`FindShortestPath(0, 2)` with an empty path returns 5 and the path 0, 1, 2. -/
theorem C23_witness :
    Built routerSmall ∧
    routerSmall.FindShortestPath 9 0 2 [] = some (PathResult.distance 5, [0, 1, 2]) ∧
    ∃ n, ∀ fuel, n ≤ fuel →
      (∀ path, ∃ res out, routerSmall.FindShortestPath fuel 0 2 path = some (res, out) ∧
        (res = PathResult.NoPathExists ↔
          (¬ 0 < routerSmall.VertexCount ∨ ¬ 2 < routerSmall.VertexCount ∨
            ∀ p W, RPath routerSmall.adjacencyList 0 (2 :: p) W → DBL_MAX ≤ W))) ∧
      (0 < routerSmall.VertexCount → 2 < routerSmall.VertexCount →
        (∃ p W, RPath routerSmall.adjacencyList 0 (2 :: p) W ∧ W < DBL_MAX) →
        ∃ cost p, routerSmall.FindShortestPath fuel 0 2 [] =
            some (PathResult.distance cost, (2 :: p).reverse) ∧
          RPath routerSmall.adjacencyList 0 (2 :: p) cost ∧
          ∀ q W, RPath routerSmall.adjacencyList 0 (2 :: q) W → cost ≤ W) :=
  ⟨routerSmall_built, by decide!, C23_router_shortest_path routerSmall routerSmall_built 0 2⟩

/-- C23, counterexample to the claim as stated: three vertices and the edges 0 -> 1 and
1 -> 2, both accepted by `AddEdge` with the weight `10^308`; both ids are valid and the
directed path 0, 1, 2 exists, with total weight `2 * 10^308`, yet `FindShortestPath(0, 2)`
returns `NoPathExists`. -/
theorem C23_counterexample :
    Built routerHeavy ∧ 0 < routerHeavy.VertexCount ∧ 2 < routerHeavy.VertexCount ∧
    RPath routerHeavy.adjacencyList 0 [2, 1, 0] (0 + 10 ^ 308 + 10 ^ 308) ∧
    (10 ^ 308 : ℚ) < DBL_MAX ∧
    routerHeavy.FindShortestPath 9 0 2 [] = some (PathResult.NoPathExists, []) :=
  ⟨routerHeavy_built, by decide!, by decide!,
    RPath.step (RPath.step RPath.base (by decide!)) (by decide!), by decide!, by decide!⟩

/-- The router's `FindShortestPath` does not clear `path`: called with the vector 9, 8
it pushes the vertices behind them and reverses the whole vector. -/
theorem router_path_not_cleared :
    routerSmall.FindShortestPath 9 0 2 [9, 8] =
      some (PathResult.distance 5, [0, 1, 2, 8, 9]) := by
  decide!

/-- C21 (the code at the failing inputs): a header row is skipped; but a stops row whose
stop id is too large for 64 bits makes `std::stoull` throw `std::out_of_range`, which
leaves the constructor (no bus system is constructed, whatever the other rows are), and
so does such a row of the routes input; and a stops row with the id field `12abc` is
ingested as the stop with id 12. -/
theorem C21_rows_not_skipped :
    stoullDecimal "stop_id" = StoullResult.invalid_argument ∧
    (CCSVBusSystem.create stoullDecimal sampleStopRows sampleRouteRows).map
        (fun bs => bs.DStopsOrdered) = some [⟨1, 100⟩, ⟨2, 200⟩] ∧
    stoullDecimal "99999999999999999999" = StoullResult.out_of_range ∧
    (CCSVBusSystem.create stoullDecimal stopRowsTooLarge sampleRouteRows).isSome = false ∧
    (CCSVBusSystem.create stoullDecimal sampleStopRows routeRowsTooLarge).isSome = false ∧
    stoullDecimal "12abc" = StoullResult.value 12 ∧
    (CCSVBusSystem.create stoullDecimal stopRowsTrailing sampleRouteRows).map
        (fun bs => (bs.DStopsOrdered, bs.StopByID 12)) =
      some ([⟨1, 100⟩, ⟨12, 7⟩, ⟨2, 200⟩], some ⟨12, 7⟩) :=
  ⟨by decide!, by decide!, by decide!, by decide!, by decide!, by decide!, by decide!⟩

/-! ## Where the edges of the three graphs come from -/

/-- A property gained at each step from the property before or from the step's item
holds after a fold exactly when it held before or some item gives it. -/
theorem foldl_mem_iff {α β : Type} (M : β → Prop) (C : α → Prop) (f : β → α → β)
    (hstep : ∀ b a, M (f b a) ↔ M b ∨ C a) (l : List α) (b0 : β) :
    M (l.foldl f b0) ↔ M b0 ∨ ∃ a ∈ l, C a := by
  induction l generalizing b0 with
  | nil => simp
  | cons a rest ih =>
    rw [List.foldl_cons, ih, hstep]
    constructor
    · rintro ((h | h) | ⟨x, hx, hc⟩)
      · exact Or.inl h
      · exact Or.inr ⟨a, List.mem_cons_self _ _, h⟩
      · exact Or.inr ⟨x, List.mem_cons_of_mem _ hx, hc⟩
    · rintro (h | ⟨x, hx, hc⟩)
      · exact Or.inl (Or.inl h)
      · rcases List.mem_cons.1 hx with rfl | hx
        · exact Or.inl (Or.inr hc)
        · exact Or.inr ⟨x, hx, hc⟩

/-- The entries of `graphWalking` after the loop body for the pair `(id1, id2)`. -/
theorem addPair_walking (deps : Deps) (cfg : SConfiguration) (sortedNodes : List SNode)
    (nodeIndexMap : TNodeID → Option Nat) (oneWay bike : Bool) (speed : ℚ) (G : Graphs)
    (id1 id2 : TNodeID) (u v : Nat) (w : ℚ) :
    (v, w) ∈ (addPair deps cfg sortedNodes nodeIndexMap oneWay bike speed G id1 id2).graphWalking u ↔
      (v, w) ∈ G.graphWalking u ∨
      ∃ idx1 idx2, nodeIndexMap id1 = some idx1 ∧ nodeIndexMap id2 = some idx2 ∧
        w = deps.Haversine (locationAt sortedNodes idx1) (locationAt sortedNodes idx2) /
          cfg.WalkSpeed ∧
        ((u = idx1 ∧ v = idx2) ∨ (u = idx2 ∧ v = idx1)) := by
  unfold addPair
  cases h1 : nodeIndexMap id1 with
  | none => simp
  | some idx1 =>
    cases h2 : nodeIndexMap id2 with
    | none => simp
    | some idx2 =>
      simp only [mem_pushBack, Prod.mk.injEq, Option.some.injEq]
      constructor
      · rintro ((h | ⟨rfl, rfl, rfl⟩) | ⟨rfl, rfl, rfl⟩)
        · exact Or.inl h
        · exact Or.inr ⟨_, _, rfl, rfl, rfl, Or.inl ⟨rfl, rfl⟩⟩
        · exact Or.inr ⟨_, _, rfl, rfl, rfl, Or.inr ⟨rfl, rfl⟩⟩
      · rintro (h | ⟨a, b, rfl, rfl, rfl, (⟨rfl, rfl⟩ | ⟨rfl, rfl⟩)⟩)
        · exact Or.inl (Or.inl h)
        · exact Or.inl (Or.inr ⟨rfl, rfl, rfl⟩)
        · exact Or.inr ⟨rfl, rfl, rfl⟩

/-- The entries of `graphDriving` after the loop body for the pair `(id1, id2)`. -/
theorem addPair_driving (deps : Deps) (cfg : SConfiguration) (sortedNodes : List SNode)
    (nodeIndexMap : TNodeID → Option Nat) (oneWay bike : Bool) (speed : ℚ) (G : Graphs)
    (id1 id2 : TNodeID) (u v : Nat) (w : ℚ) :
    (v, w) ∈ (addPair deps cfg sortedNodes nodeIndexMap oneWay bike speed G id1 id2).graphDriving u ↔
      (v, w) ∈ G.graphDriving u ∨
      ∃ idx1 idx2, nodeIndexMap id1 = some idx1 ∧ nodeIndexMap id2 = some idx2 ∧
        w = deps.Haversine (locationAt sortedNodes idx1) (locationAt sortedNodes idx2) / speed ∧
        ((u = idx1 ∧ v = idx2) ∨ (oneWay = false ∧ u = idx2 ∧ v = idx1)) := by
  unfold addPair
  cases h1 : nodeIndexMap id1 with
  | none => simp
  | some idx1 =>
    cases h2 : nodeIndexMap id2 with
    | none => simp
    | some idx2 =>
      cases oneWay with
      | true =>
        simp only [if_true, mem_pushBack, Prod.mk.injEq, Option.some.injEq]
        constructor
        · rintro (h | ⟨rfl, rfl, rfl⟩)
          · exact Or.inl h
          · exact Or.inr ⟨_, _, rfl, rfl, rfl, Or.inl ⟨rfl, rfl⟩⟩
        · rintro (h | ⟨a, b, rfl, rfl, rfl, (⟨rfl, rfl⟩ | ⟨hf, _⟩)⟩)
          · exact Or.inl h
          · exact Or.inr ⟨rfl, rfl, rfl⟩
          · cases hf
      | false =>
        simp only [Bool.false_eq_true, if_false, mem_pushBack, Prod.mk.injEq,
          Option.some.injEq]
        constructor
        · rintro ((h | ⟨rfl, rfl, rfl⟩) | ⟨rfl, rfl, rfl⟩)
          · exact Or.inl h
          · exact Or.inr ⟨_, _, rfl, rfl, rfl, Or.inl ⟨rfl, rfl⟩⟩
          · exact Or.inr ⟨_, _, rfl, rfl, rfl, Or.inr ⟨by trivial, rfl, rfl⟩⟩
        · rintro (h | ⟨a, b, rfl, rfl, rfl, (⟨rfl, rfl⟩ | ⟨_, rfl, rfl⟩)⟩)
          · exact Or.inl (Or.inl h)
          · exact Or.inl (Or.inr ⟨rfl, rfl, rfl⟩)
          · exact Or.inr ⟨rfl, rfl, rfl⟩

/-- The entries of `graphBiking` after the loop body for the pair `(id1, id2)`. -/
theorem addPair_biking (deps : Deps) (cfg : SConfiguration) (sortedNodes : List SNode)
    (nodeIndexMap : TNodeID → Option Nat) (oneWay bike : Bool) (speed : ℚ) (G : Graphs)
    (id1 id2 : TNodeID) (u v : Nat) (w : ℚ) :
    (v, w) ∈ (addPair deps cfg sortedNodes nodeIndexMap oneWay bike speed G id1 id2).graphBiking u ↔
      (v, w) ∈ G.graphBiking u ∨
      ∃ idx1 idx2, nodeIndexMap id1 = some idx1 ∧ nodeIndexMap id2 = some idx2 ∧
        bike = true ∧
        w = deps.Haversine (locationAt sortedNodes idx1) (locationAt sortedNodes idx2) /
          cfg.BikeSpeed ∧
        ((u = idx1 ∧ v = idx2) ∨ (oneWay = false ∧ u = idx2 ∧ v = idx1)) := by
  unfold addPair
  cases h1 : nodeIndexMap id1 with
  | none => simp
  | some idx1 =>
    cases h2 : nodeIndexMap id2 with
    | none => simp
    | some idx2 =>
      cases bike with
      | false => simp
      | true =>
        cases oneWay with
        | true =>
          simp only [if_true, mem_pushBack, Prod.mk.injEq, Option.some.injEq]
          constructor
          · rintro (h | ⟨rfl, rfl, rfl⟩)
            · exact Or.inl h
            · exact Or.inr ⟨_, _, rfl, rfl, trivial, rfl, Or.inl ⟨rfl, rfl⟩⟩
          · rintro (h | ⟨a, b, rfl, rfl, _, rfl, (⟨rfl, rfl⟩ | ⟨hf, _⟩)⟩)
            · exact Or.inl h
            · exact Or.inr ⟨rfl, rfl, rfl⟩
            · cases hf
        | false =>
          simp only [if_true, Bool.false_eq_true, if_false, mem_pushBack, Prod.mk.injEq,
            Option.some.injEq]
          constructor
          · rintro ((h | ⟨rfl, rfl, rfl⟩) | ⟨rfl, rfl, rfl⟩)
            · exact Or.inl h
            · exact Or.inr ⟨_, _, rfl, rfl, trivial, rfl, Or.inl ⟨rfl, rfl⟩⟩
            · exact Or.inr ⟨_, _, rfl, rfl, trivial, rfl, Or.inr ⟨by trivial, rfl, rfl⟩⟩
          · rintro (h | ⟨a, b, rfl, rfl, _, rfl, (⟨rfl, rfl⟩ | ⟨_, rfl, rfl⟩)⟩)
            · exact Or.inl (Or.inl h)
            · exact Or.inl (Or.inr ⟨rfl, rfl, rfl⟩)
            · exact Or.inr ⟨rfl, rfl, rfl⟩

/-- A property of the graphs that each pair either keeps or brings holds of the graphs
`buildGraphs` leaves exactly when some consecutive pair of some way brings it. -/
theorem buildGraphs_mem_iff (deps : Deps) (cfg : SConfiguration) (M : Graphs → Prop)
    (Cp : SWay → Nat → Prop)
    (hM0 : ¬ M
      { graphDriving := fun _ => [], graphWalking := fun _ => [], graphBiking := fun _ => [] })
    (hpair : ∀ G way j,
      M (addPair deps cfg (SImplementation.create deps cfg).sortedNodes
          (SImplementation.create deps cfg).nodeIndexMap (wayOneWay way) (wayBicycleAllowed way)
          (wayEffectiveSpeed deps cfg way) G (way.GetNodeID j) (way.GetNodeID (j + 1))) ↔
        M G ∨ Cp way j) :
    M { graphDriving := (SImplementation.create deps cfg).graphDriving
        graphWalking := (SImplementation.create deps cfg).graphWalking
        graphBiking := (SImplementation.create deps cfg).graphBiking } ↔
      ∃ way, way ∈ cfg.StreetMap.Ways ∧ ∃ j, j + 1 < way.NodeCount ∧ Cp way j := by
  have hways : (List.range cfg.StreetMap.WayCount).filterMap cfg.StreetMap.WayByIndex =
      cfg.StreetMap.Ways := range_filterMap_getElem cfg.StreetMap.Ways
  have hway : ∀ G way,
      M (addWay deps cfg (SImplementation.create deps cfg).sortedNodes
        (SImplementation.create deps cfg).nodeIndexMap G way) ↔
      M G ∨ ∃ j, j + 1 < way.NodeCount ∧ Cp way j := by
    intro G way
    unfold addWay
    rw [foldl_mem_iff M (Cp way) _ (fun b a => hpair b way a)]
    constructor
    · rintro (h | ⟨j, hj, hc⟩)
      · exact Or.inl h
      · exact Or.inr ⟨j, by have := List.mem_range.1 hj; omega, hc⟩
    · rintro (h | ⟨j, hj, hc⟩)
      · exact Or.inl h
      · exact Or.inr ⟨j, List.mem_range.2 (by omega), hc⟩
  have hfold := foldl_mem_iff M (fun way => ∃ j, j + 1 < way.NodeCount ∧ Cp way j)
    (addWay deps cfg (SImplementation.create deps cfg).sortedNodes
      (SImplementation.create deps cfg).nodeIndexMap) hway cfg.StreetMap.Ways
    { graphDriving := fun _ => [], graphWalking := fun _ => [], graphBiking := fun _ => [] }
  have hgoal : ({ graphDriving := (SImplementation.create deps cfg).graphDriving
                  graphWalking := (SImplementation.create deps cfg).graphWalking
                  graphBiking := (SImplementation.create deps cfg).graphBiking } : Graphs) =
      cfg.StreetMap.Ways.foldl (addWay deps cfg (SImplementation.create deps cfg).sortedNodes
        (SImplementation.create deps cfg).nodeIndexMap)
        { graphDriving := fun _ => [], graphWalking := fun _ => [], graphBiking := fun _ => [] } := by
    simp only [SImplementation.create, buildGraphs, hways]
  rw [hgoal, hfold]
  constructor
  · rintro (h | ⟨way, hw, hc⟩)
    · exact absurd h hM0
    · exact ⟨way, hw, hc⟩
  · rintro ⟨way, hw, hc⟩
    exact Or.inr ⟨way, hw, hc⟩

/-- The entries of `graph_walk`: both directions of every consecutive pair of known
nodes of every way, weighted by the pair's distance over the walking speed. -/
theorem create_walking_iff (deps : Deps) (cfg : SConfiguration) (u v : Nat) (w : ℚ) :
    (v, w) ∈ (SImplementation.create deps cfg).graphWalking u ↔
      ∃ way j idx1 idx2, PairOf (SImplementation.create deps cfg) way j idx1 idx2 ∧
        w = pairMiles deps (SImplementation.create deps cfg) idx1 idx2 / cfg.WalkSpeed ∧
        ((u = idx1 ∧ v = idx2) ∨ (u = idx2 ∧ v = idx1)) := by
  have h := buildGraphs_mem_iff deps cfg (fun G => (v, w) ∈ G.graphWalking u)
    (fun way j => ∃ idx1 idx2,
      (SImplementation.create deps cfg).nodeIndexMap (way.GetNodeID j) = some idx1 ∧
      (SImplementation.create deps cfg).nodeIndexMap (way.GetNodeID (j + 1)) = some idx2 ∧
      w = deps.Haversine (locationAt (SImplementation.create deps cfg).sortedNodes idx1)
        (locationAt (SImplementation.create deps cfg).sortedNodes idx2) / cfg.WalkSpeed ∧
      ((u = idx1 ∧ v = idx2) ∨ (u = idx2 ∧ v = idx1)))
    (by simp) (fun G way j => addPair_walking deps cfg _ _ _ _ _ G _ _ u v w)
  constructor
  · intro hm
    obtain ⟨way, hw, j, hj, a, b, h1, h2, h3, h4⟩ := h.1 hm
    exact ⟨way, j, a, b, ⟨hw, hj, h1, h2⟩, h3, h4⟩
  · rintro ⟨way, j, a, b, ⟨hw, hj, h1, h2⟩, h3, h4⟩
    exact h.2 ⟨way, hw, j, hj, a, b, h1, h2, h3, h4⟩

/-- The entries of `graph_drive`: every consecutive pair of known nodes of every way in
the way's direction, and against it when the way is not one-way, weighted by the pair's
distance over the way's effective speed. -/
theorem create_driving_iff (deps : Deps) (cfg : SConfiguration) (u v : Nat) (w : ℚ) :
    (v, w) ∈ (SImplementation.create deps cfg).graphDriving u ↔
      ∃ way j idx1 idx2, PairOf (SImplementation.create deps cfg) way j idx1 idx2 ∧
        w = pairMiles deps (SImplementation.create deps cfg) idx1 idx2 /
          wayEffectiveSpeed deps cfg way ∧
        ((u = idx1 ∧ v = idx2) ∨ (wayOneWay way = false ∧ u = idx2 ∧ v = idx1)) := by
  have h := buildGraphs_mem_iff deps cfg (fun G => (v, w) ∈ G.graphDriving u)
    (fun way j => ∃ idx1 idx2,
      (SImplementation.create deps cfg).nodeIndexMap (way.GetNodeID j) = some idx1 ∧
      (SImplementation.create deps cfg).nodeIndexMap (way.GetNodeID (j + 1)) = some idx2 ∧
      w = deps.Haversine (locationAt (SImplementation.create deps cfg).sortedNodes idx1)
        (locationAt (SImplementation.create deps cfg).sortedNodes idx2) /
          wayEffectiveSpeed deps cfg way ∧
      ((u = idx1 ∧ v = idx2) ∨ (wayOneWay way = false ∧ u = idx2 ∧ v = idx1)))
    (by simp) (fun G way j => addPair_driving deps cfg _ _ _ _ _ G _ _ u v w)
  constructor
  · intro hm
    obtain ⟨way, hw, j, hj, a, b, h1, h2, h3, h4⟩ := h.1 hm
    exact ⟨way, j, a, b, ⟨hw, hj, h1, h2⟩, h3, h4⟩
  · rintro ⟨way, j, a, b, ⟨hw, hj, h1, h2⟩, h3, h4⟩
    exact h.2 ⟨way, hw, j, hj, a, b, h1, h2, h3, h4⟩

/-- The entries of `graph_bike`: as for `graph_drive`, for the ways open to bicycles
and with the biking speed. -/
theorem create_biking_iff (deps : Deps) (cfg : SConfiguration) (u v : Nat) (w : ℚ) :
    (v, w) ∈ (SImplementation.create deps cfg).graphBiking u ↔
      ∃ way j idx1 idx2, PairOf (SImplementation.create deps cfg) way j idx1 idx2 ∧
        wayBicycleAllowed way = true ∧
        w = pairMiles deps (SImplementation.create deps cfg) idx1 idx2 / cfg.BikeSpeed ∧
        ((u = idx1 ∧ v = idx2) ∨ (wayOneWay way = false ∧ u = idx2 ∧ v = idx1)) := by
  have h := buildGraphs_mem_iff deps cfg (fun G => (v, w) ∈ G.graphBiking u)
    (fun way j => ∃ idx1 idx2,
      (SImplementation.create deps cfg).nodeIndexMap (way.GetNodeID j) = some idx1 ∧
      (SImplementation.create deps cfg).nodeIndexMap (way.GetNodeID (j + 1)) = some idx2 ∧
      wayBicycleAllowed way = true ∧
      w = deps.Haversine (locationAt (SImplementation.create deps cfg).sortedNodes idx1)
        (locationAt (SImplementation.create deps cfg).sortedNodes idx2) / cfg.BikeSpeed ∧
      ((u = idx1 ∧ v = idx2) ∨ (wayOneWay way = false ∧ u = idx2 ∧ v = idx1)))
    (by simp) (fun G way j => addPair_biking deps cfg _ _ _ _ _ G _ _ u v w)
  constructor
  · intro hm
    obtain ⟨way, hw, j, hj, a, b, h1, h2, h3, h4, h5⟩ := h.1 hm
    exact ⟨way, j, a, b, ⟨hw, hj, h1, h2⟩, h3, h4, h5⟩
  · rintro ⟨way, j, a, b, ⟨hw, hj, h1, h2⟩, h3, h4, h5⟩
    exact h.2 ⟨way, hw, j, hj, a, b, h1, h2, h3, h4, h5⟩

theorem PairOf.lt {deps : Deps} {cfg : SConfiguration} {way : SWay} {j idx1 idx2 : Nat}
    (h : PairOf (SImplementation.create deps cfg) way j idx1 idx2) :
    idx1 < (SImplementation.create deps cfg).sortedNodes.length ∧
      idx2 < (SImplementation.create deps cfg).sortedNodes.length :=
  ⟨(nodeIndexMap_some deps cfg _ idx1 h.2.2.1).1, (nodeIndexMap_some deps cfg _ idx2 h.2.2.2).1⟩

theorem gridMiles_symm (p q : TLocation) : gridMiles p q = gridMiles q p := by
  unfold gridMiles
  rw [abs_sub_comm p.1 q.1, abs_sub_comm p.2 q.2]

/-- C24: for every street map and configuration, every edge `u -> v` of weight `w` of
`graph_walk` has its reverse `v -> u` with the same weight `w` in `graph_walk`, whatever
the `oneway` attributes; `w` is the distance computed for the two nodes, taken in the
order of the way, over the walking speed, so with a symmetric distance function it is
`Haversine(u, v) / walk_speed`. -/
theorem C24_walking_symmetric (deps : Deps) (cfg : SConfiguration) (u v : Nat) (w : ℚ)
    (h : (v, w) ∈ (SImplementation.create deps cfg).graphWalking u) :
    (u, w) ∈ (SImplementation.create deps cfg).graphWalking v ∧
    (w = pairMiles deps (SImplementation.create deps cfg) u v / cfg.WalkSpeed ∨
      w = pairMiles deps (SImplementation.create deps cfg) v u / cfg.WalkSpeed) ∧
    ((∀ p q, deps.Haversine p q = deps.Haversine q p) →
      w = pairMiles deps (SImplementation.create deps cfg) u v / cfg.WalkSpeed) := by
  obtain ⟨way, j, a, b, hp, hw, hdir⟩ := (create_walking_iff deps cfg u v w).1 h
  refine ⟨(create_walking_iff deps cfg v u w).2 ⟨way, j, a, b, hp, hw, ?_⟩, ?_, ?_⟩
  · rcases hdir with ⟨rfl, rfl⟩ | ⟨rfl, rfl⟩
    · exact Or.inr ⟨rfl, rfl⟩
    · exact Or.inl ⟨rfl, rfl⟩
  · rcases hdir with ⟨rfl, rfl⟩ | ⟨rfl, rfl⟩
    · exact Or.inl hw
    · exact Or.inr hw
  · intro hsym
    rcases hdir with ⟨rfl, rfl⟩ | ⟨rfl, rfl⟩
    · exact hw
    · rw [hw]; unfold pairMiles; rw [hsym]

/-- C24, witness: scenario S2 (one way tagged `oneway=yes` from node 1 to node 2): the
walking edge from node 2 back to node 1 has its reverse, both of weight 23. -/
theorem C24_witness :
    (0, (23 : ℚ)) ∈ plannerS2.graphWalking 1 ∧ (1, (23 : ℚ)) ∈ plannerS2.graphWalking 0 ∧
    (23 : ℚ) = pairMiles sampleDeps plannerS2 1 0 / (defaultConfig mapS2 noBus).WalkSpeed :=
  have h : (0, (23 : ℚ)) ∈ plannerS2.graphWalking 1 := by decide!
  ⟨h, (C24_walking_symmetric sampleDeps (defaultConfig mapS2 noBus) 1 0 23 h).1,
    (C24_walking_symmetric sampleDeps (defaultConfig mapS2 noBus) 1 0 23 h).2.2
      gridMiles_symm⟩

/-- C25: for every street map, every way and every consecutive pair `(a, b)` of known
nodes of it, the loop body appends `a -> b` to `graph_drive` and appends `b -> a` with
the same weight exactly when the way's `oneway` attribute is not `"yes"`; so `graph_drive`
holds `a -> b` for every such pair, holds `b -> a` for the pairs of the ways that are
not one-way, and holds no other edge. -/
theorem C25_driving_edges (deps : Deps) (cfg : SConfiguration) :
    (∀ (sortedNodes : List SNode) (nodeIndexMap : TNodeID → Option Nat) (way : SWay)
      (G : Graphs) (id1 id2 : TNodeID) (idx1 idx2 : Nat),
      nodeIndexMap id1 = some idx1 → nodeIndexMap id2 = some idx2 →
      (addPair deps cfg sortedNodes nodeIndexMap (wayOneWay way) (wayBicycleAllowed way)
          (wayEffectiveSpeed deps cfg way) G id1 id2).graphDriving =
        if way.HasAttribute "oneway" = true ∧ way.GetAttribute "oneway" = "yes" then
          G.graphDriving.pushBack idx1
            (idx2, deps.Haversine (locationAt sortedNodes idx1) (locationAt sortedNodes idx2) /
              wayEffectiveSpeed deps cfg way)
        else
          (G.graphDriving.pushBack idx1
            (idx2, deps.Haversine (locationAt sortedNodes idx1) (locationAt sortedNodes idx2) /
              wayEffectiveSpeed deps cfg way)).pushBack idx2
            (idx1, deps.Haversine (locationAt sortedNodes idx1) (locationAt sortedNodes idx2) /
              wayEffectiveSpeed deps cfg way)) ∧
    (∀ way j idx1 idx2, PairOf (SImplementation.create deps cfg) way j idx1 idx2 →
      (idx2, pairMiles deps (SImplementation.create deps cfg) idx1 idx2 /
          wayEffectiveSpeed deps cfg way) ∈ (SImplementation.create deps cfg).graphDriving idx1 ∧
      (¬ (way.HasAttribute "oneway" = true ∧ way.GetAttribute "oneway" = "yes") →
        (idx1, pairMiles deps (SImplementation.create deps cfg) idx1 idx2 /
          wayEffectiveSpeed deps cfg way) ∈
            (SImplementation.create deps cfg).graphDriving idx2)) ∧
    ∀ u v w, (v, w) ∈ (SImplementation.create deps cfg).graphDriving u →
      ∃ way j idx1 idx2, PairOf (SImplementation.create deps cfg) way j idx1 idx2 ∧
        w = pairMiles deps (SImplementation.create deps cfg) idx1 idx2 /
          wayEffectiveSpeed deps cfg way ∧
        ((u = idx1 ∧ v = idx2) ∨
          (¬ (way.HasAttribute "oneway" = true ∧ way.GetAttribute "oneway" = "yes") ∧
            u = idx2 ∧ v = idx1)) := by
  have hone : ∀ way : SWay, wayOneWay way = false ↔
      ¬ (way.HasAttribute "oneway" = true ∧ way.GetAttribute "oneway" = "yes") := by
    intro way
    unfold wayOneWay
    cases way.HasAttribute "oneway" <;> simp
  refine ⟨?_, ?_, ?_⟩
  · intro sortedNodes nodeIndexMap way G id1 id2 idx1 idx2 h1 h2
    unfold addPair
    simp only [h1, h2]
    by_cases ho : way.HasAttribute "oneway" = true ∧ way.GetAttribute "oneway" = "yes"
    · have : wayOneWay way = true := by
        cases hw : wayOneWay way with
        | true => rfl
        | false => exact absurd ho ((hone way).1 hw)
      rw [this, if_pos ho]; rfl
    · rw [(hone way).2 ho, if_neg ho]; rfl
  · intro way j idx1 idx2 hp
    refine ⟨(create_driving_iff deps cfg idx1 idx2 _).2
      ⟨way, j, idx1, idx2, hp, rfl, Or.inl ⟨rfl, rfl⟩⟩, fun ho => ?_⟩
    exact (create_driving_iff deps cfg idx2 idx1 _).2
      ⟨way, j, idx1, idx2, hp, rfl, Or.inr ⟨(hone way).2 ho, rfl, rfl⟩⟩
  · intro u v w h
    obtain ⟨way, j, a, b, hp, hw, hdir⟩ := (create_driving_iff deps cfg u v w).1 h
    refine ⟨way, j, a, b, hp, hw, ?_⟩
    rcases hdir with hd | ⟨ho, hd⟩
    · exact Or.inl hd
    · exact Or.inr ⟨(hone way).1 ho, hd⟩

/-- C25, witness: scenario S2, one way tagged `oneway=yes` from node 1 (index 0) to
node 2 (index 1): `graph_drive` has the edge 1 -> 2 and no edge out of node 2. -/
theorem C25_witness :
    PairOf plannerS2 ⟨10, [1, 2], [("oneway", "yes")]⟩ 0 0 1 ∧
    (1, pairMiles sampleDeps plannerS2 0 1 /
      wayEffectiveSpeed sampleDeps (defaultConfig mapS2 noBus)
        ⟨10, [1, 2], [("oneway", "yes")]⟩) ∈ plannerS2.graphDriving 0 ∧
    plannerS2.graphDriving 0 = [(1, 69 / 25)] ∧ plannerS2.graphDriving 1 = [] :=
  have hp : PairOf plannerS2 ⟨10, [1, 2], [("oneway", "yes")]⟩ 0 0 1 :=
    ⟨by decide, by decide, by decide!, by decide!⟩
  ⟨hp, ((C25_driving_edges sampleDeps (defaultConfig mapS2 noBus)).2.1 _ 0 0 1 hp).1,
    by decide!, by decide!⟩

/-- C26: every edge of `graph_bike` comes from a consecutive pair of known nodes of a
way whose `bicycle` attribute is not `"no"`, in the way's direction or, when the way
is not one-way, against it, with the pair's distance over the biking speed as weight;
every such pair does contribute `a -> b`, and `b -> a` when the way is not one-way;
and every (source, destination) pair of `graph_bike` is one of `graph_drive`. -/
theorem C26_biking_edges (deps : Deps) (cfg : SConfiguration) :
    (∀ u v w, (v, w) ∈ (SImplementation.create deps cfg).graphBiking u →
      ∃ way j idx1 idx2, PairOf (SImplementation.create deps cfg) way j idx1 idx2 ∧
        ¬ (way.HasAttribute "bicycle" = true ∧ way.GetAttribute "bicycle" = "no") ∧
        w = pairMiles deps (SImplementation.create deps cfg) idx1 idx2 / cfg.BikeSpeed ∧
        ((u = idx1 ∧ v = idx2) ∨ (wayOneWay way = false ∧ u = idx2 ∧ v = idx1))) ∧
    (∀ way j idx1 idx2, PairOf (SImplementation.create deps cfg) way j idx1 idx2 →
      ¬ (way.HasAttribute "bicycle" = true ∧ way.GetAttribute "bicycle" = "no") →
      (idx2, pairMiles deps (SImplementation.create deps cfg) idx1 idx2 / cfg.BikeSpeed) ∈
          (SImplementation.create deps cfg).graphBiking idx1 ∧
      (wayOneWay way = false →
        (idx1, pairMiles deps (SImplementation.create deps cfg) idx1 idx2 / cfg.BikeSpeed) ∈
          (SImplementation.create deps cfg).graphBiking idx2)) ∧
    ∀ u v w, (v, w) ∈ (SImplementation.create deps cfg).graphBiking u →
      ∃ w2, (v, w2) ∈ (SImplementation.create deps cfg).graphDriving u := by
  have hbike : ∀ way : SWay, wayBicycleAllowed way = true ↔
      ¬ (way.HasAttribute "bicycle" = true ∧ way.GetAttribute "bicycle" = "no") := by
    intro way
    unfold wayBicycleAllowed
    cases way.HasAttribute "bicycle" <;> simp
  refine ⟨?_, ?_, ?_⟩
  · intro u v w h
    obtain ⟨way, j, a, b, hp, hb, hw, hdir⟩ := (create_biking_iff deps cfg u v w).1 h
    exact ⟨way, j, a, b, hp, (hbike way).1 hb, hw, hdir⟩
  · intro way j idx1 idx2 hp hb
    refine ⟨(create_biking_iff deps cfg idx1 idx2 _).2
      ⟨way, j, idx1, idx2, hp, (hbike way).2 hb, rfl, Or.inl ⟨rfl, rfl⟩⟩, fun ho => ?_⟩
    exact (create_biking_iff deps cfg idx2 idx1 _).2
      ⟨way, j, idx1, idx2, hp, (hbike way).2 hb, rfl, Or.inr ⟨ho, rfl, rfl⟩⟩
  · intro u v w h
    obtain ⟨way, j, a, b, hp, _, _, hdir⟩ := (create_biking_iff deps cfg u v w).1 h
    exact ⟨_, (create_driving_iff deps cfg u v _).2 ⟨way, j, a, b, hp, rfl, hdir⟩⟩

/-- C26, witness: a one-way way 1, 2 closed to bicycles and a two-way way 2, 3:
`graph_bike` has the edges 2 -> 3 and 3 -> 2 of weight `69/8` and nothing else, and each
of them is an edge of `graph_drive`. -/
theorem C26_witness :
    plannerNoBike.graphBiking 0 = [] ∧ plannerNoBike.graphBiking 1 = [(2, 69 / 8)] ∧
    plannerNoBike.graphBiking 2 = [(1, 69 / 8)] ∧
    PairOf plannerNoBike ⟨11, [2, 3], []⟩ 0 1 2 ∧
    (2, pairMiles sampleDeps plannerNoBike 1 2 / (defaultConfig mapNoBike noBus).BikeSpeed) ∈
      plannerNoBike.graphBiking 1 ∧
    ∃ w2, (2, w2) ∈ plannerNoBike.graphDriving 1 :=
  have hp : PairOf plannerNoBike ⟨11, [2, 3], []⟩ 0 1 2 :=
    ⟨by decide, by decide, by decide!, by decide!⟩
  have hm : (2, (69 / 8 : ℚ)) ∈ plannerNoBike.graphBiking 1 := by decide!
  ⟨by decide!, by decide!, by decide!, hp,
    ((C26_biking_edges sampleDeps (defaultConfig mapNoBike noBus)).2.1 _ 0 1 2 hp
      (by decide)).1,
    (C26_biking_edges sampleDeps (defaultConfig mapNoBike noBus)).2.2 1 2 (69 / 8) hm⟩

/-- C27 (amended): for every street map and every configuration with non-negative
distances and positive `walk_speed`, `bike_speed` and `default_speed_limit`, every
edge weight of `graph_walk` and of `graph_bike` is non-negative, and every edge weight
of `graph_drive` is non-negative when the `maxspeed` attribute of each way is absent,
rejected by `std::stod`, or converted to a positive number; a pair at a positive distance
on a way whose `maxspeed` is converted to a negative number gets a negative driving
weight. -/
theorem C27_weights_nonneg (deps : Deps) (cfg : SConfiguration)
    (hh : ∀ p q, 0 ≤ deps.Haversine p q) (hw : 0 < cfg.WalkSpeed) (hb : 0 < cfg.BikeSpeed)
    (hd : 0 < cfg.DefaultSpeedLimit) :
    (∀ u e, e ∈ (SImplementation.create deps cfg).graphWalking u → 0 ≤ e.2) ∧
    (∀ u e, e ∈ (SImplementation.create deps cfg).graphBiking u → 0 ≤ e.2) ∧
    ((∀ way, way ∈ cfg.StreetMap.Ways → ∀ x, way.HasAttribute "maxspeed" = true →
        deps.stod (way.GetAttribute "maxspeed") = some x → 0 < x) →
      ∀ u e, e ∈ (SImplementation.create deps cfg).graphDriving u → 0 ≤ e.2) ∧
    ∀ way j idx1 idx2 x, PairOf (SImplementation.create deps cfg) way j idx1 idx2 →
      way.HasAttribute "maxspeed" = true →
      deps.stod (way.GetAttribute "maxspeed") = some x → x < 0 →
      0 < pairMiles deps (SImplementation.create deps cfg) idx1 idx2 →
      ∃ e, e ∈ (SImplementation.create deps cfg).graphDriving idx1 ∧ e.2 < 0 := by
  refine ⟨?_, ?_, ?_, ?_⟩
  · intro u e he
    obtain ⟨way, j, a, b, _, hwt, _⟩ := (create_walking_iff deps cfg u e.1 e.2).1 he
    rw [hwt]
    exact div_nonneg (hh _ _) (le_of_lt hw)
  · intro u e he
    obtain ⟨way, j, a, b, _, _, hwt, _⟩ := (create_biking_iff deps cfg u e.1 e.2).1 he
    rw [hwt]
    exact div_nonneg (hh _ _) (le_of_lt hb)
  · intro hpos u e he
    obtain ⟨way, j, a, b, hp, hwt, _⟩ := (create_driving_iff deps cfg u e.1 e.2).1 he
    rw [hwt]
    refine div_nonneg (hh _ _) (le_of_lt ?_)
    unfold wayEffectiveSpeed
    cases hattr : way.HasAttribute "maxspeed" with
    | false => simpa using hd
    | true =>
      cases hs : deps.stod (way.GetAttribute "maxspeed") with
      | none => simpa using hd
      | some x => simpa using hpos way hp.1 x hattr hs
  · intro way j idx1 idx2 x hp hattr hs hx hm
    refine ⟨_, ((create_driving_iff deps cfg idx1 idx2 _).2
      ⟨way, j, idx1, idx2, hp, rfl, Or.inl ⟨rfl, rfl⟩⟩), ?_⟩
    have hsp : wayEffectiveSpeed deps cfg way = x := by
      unfold wayEffectiveSpeed
      simp [hattr, hs]
    simp only [hsp]
    exact div_neg_of_pos_of_neg hm hx

/-- C27, witness: scenario S1 with the default configuration; the way has no
`maxspeed` attribute. -/
theorem C27_witness :
    (∀ u e, e ∈ plannerS1.graphWalking u → 0 ≤ e.2) ∧
    (∀ u e, e ∈ plannerS1.graphBiking u → 0 ≤ e.2) ∧
    ((∀ way, way ∈ (defaultConfig mapS1 noBus).StreetMap.Ways → ∀ x,
        way.HasAttribute "maxspeed" = true →
        sampleDeps.stod (way.GetAttribute "maxspeed") = some x → 0 < x) →
      ∀ u e, e ∈ plannerS1.graphDriving u → 0 ≤ e.2) ∧
    ∀ way j idx1 idx2 x, PairOf plannerS1 way j idx1 idx2 →
      way.HasAttribute "maxspeed" = true →
      sampleDeps.stod (way.GetAttribute "maxspeed") = some x → x < 0 →
      0 < pairMiles sampleDeps plannerS1 idx1 idx2 →
      ∃ e, e ∈ plannerS1.graphDriving idx1 ∧ e.2 < 0 :=
  C27_weights_nonneg sampleDeps (defaultConfig mapS1 noBus) gridMiles_nonneg (by decide!)
    (by decide!) (by decide!)

/-- C27, counterexample to the claim as stated: nodes 1 and 2 one degree apart on a way
tagged `maxspeed=-25`, default configuration (all three speeds positive): the driving
edge from node 1 to node 2 has the weight `-69/25`. -/
theorem C27_counterexample :
    0 < (defaultConfig mapNegSpeed noBus).WalkSpeed ∧
    0 < (defaultConfig mapNegSpeed noBus).BikeSpeed ∧
    0 < (defaultConfig mapNegSpeed noBus).DefaultSpeedLimit ∧
    leadingDeps.stod "-25" = some (-25) ∧
    (1, (-69 / 25 : ℚ)) ∈ plannerNegSpeed.graphDriving 0 ∧ (-69 / 25 : ℚ) < 0 :=
  ⟨by decide!, by decide!, by decide!, by decide!, by decide!, by decide!⟩

/-- Every edge stored in one of the three graphs has its source index and its
destination index below the number of sorted nodes. -/
theorem create_edge_lt (deps : Deps) (cfg : SConfiguration) (u : Nat) (e : Nat × ℚ)
    (h : e ∈ (SImplementation.create deps cfg).graphWalking u ∨
      e ∈ (SImplementation.create deps cfg).graphBiking u ∨
      e ∈ (SImplementation.create deps cfg).graphDriving u) :
    u < (SImplementation.create deps cfg).NodeCount ∧
      e.1 < (SImplementation.create deps cfg).NodeCount := by
  unfold SImplementation.NodeCount
  have key : ∃ way j idx1 idx2, PairOf (SImplementation.create deps cfg) way j idx1 idx2 ∧
      ((u = idx1 ∧ e.1 = idx2) ∨ (u = idx2 ∧ e.1 = idx1)) := by
    rcases h with h | h | h
    · obtain ⟨way, j, a, b, hp, _, hdir⟩ := (create_walking_iff deps cfg u e.1 e.2).1 h
      exact ⟨way, j, a, b, hp, hdir⟩
    · obtain ⟨way, j, a, b, hp, _, _, hdir⟩ := (create_biking_iff deps cfg u e.1 e.2).1 h
      refine ⟨way, j, a, b, hp, ?_⟩
      rcases hdir with hd | ⟨_, hd⟩
      · exact Or.inl hd
      · exact Or.inr hd
    · obtain ⟨way, j, a, b, hp, _, hdir⟩ := (create_driving_iff deps cfg u e.1 e.2).1 h
      refine ⟨way, j, a, b, hp, ?_⟩
      rcases hdir with hd | ⟨_, hd⟩
      · exact Or.inl hd
      · exact Or.inr hd
  obtain ⟨way, j, a, b, hp, hdir⟩ := key
  obtain ⟨ha, hb⟩ := hp.lt
  rcases hdir with ⟨h1, h2⟩ | ⟨h1, h2⟩
  · rw [h1, h2]; exact ⟨ha, hb⟩
  · rw [h1, h2]; exact ⟨hb, ha⟩

/-- C29: the graphs are built for every street map (the construction is a total
function); a consecutive pair with an unknown endpoint leaves the three graphs as they
are; every consecutive pair of known nodes contributes its walking edges in both
directions, its driving edge, and its biking edge when bicycles are allowed; and every
edge of the three graphs joins the two nodes of a consecutive pair of known nodes of
some way, so no edge bridges over an unknown node. -/
theorem C29_unknown_nodes (deps : Deps) (cfg : SConfiguration) :
    (∀ (sortedNodes : List SNode) (nodeIndexMap : TNodeID → Option Nat) (oneWay bike : Bool)
      (speed : ℚ) (G : Graphs) (id1 id2 : TNodeID),
      nodeIndexMap id1 = none ∨ nodeIndexMap id2 = none →
      addPair deps cfg sortedNodes nodeIndexMap oneWay bike speed G id1 id2 = G) ∧
    (∀ way j idx1 idx2, PairOf (SImplementation.create deps cfg) way j idx1 idx2 →
      (idx2, pairMiles deps (SImplementation.create deps cfg) idx1 idx2 / cfg.WalkSpeed) ∈
        (SImplementation.create deps cfg).graphWalking idx1 ∧
      (idx1, pairMiles deps (SImplementation.create deps cfg) idx1 idx2 / cfg.WalkSpeed) ∈
        (SImplementation.create deps cfg).graphWalking idx2 ∧
      (idx2, pairMiles deps (SImplementation.create deps cfg) idx1 idx2 /
        wayEffectiveSpeed deps cfg way) ∈ (SImplementation.create deps cfg).graphDriving idx1 ∧
      (wayBicycleAllowed way = true →
        (idx2, pairMiles deps (SImplementation.create deps cfg) idx1 idx2 / cfg.BikeSpeed) ∈
          (SImplementation.create deps cfg).graphBiking idx1)) ∧
    ∀ u e, (e ∈ (SImplementation.create deps cfg).graphWalking u ∨
        e ∈ (SImplementation.create deps cfg).graphBiking u ∨
        e ∈ (SImplementation.create deps cfg).graphDriving u) →
      ∃ way j idx1 idx2, PairOf (SImplementation.create deps cfg) way j idx1 idx2 ∧
        ((u = idx1 ∧ e.1 = idx2) ∨ (u = idx2 ∧ e.1 = idx1)) := by
  refine ⟨?_, ?_, ?_⟩
  · intro sortedNodes nodeIndexMap oneWay bike speed G id1 id2 h
    unfold addPair
    rcases h with h | h
    · rw [h]
    · rw [h]
      cases nodeIndexMap id1 <;> rfl
  · intro way j idx1 idx2 hp
    exact ⟨(create_walking_iff deps cfg idx1 idx2 _).2
        ⟨way, j, idx1, idx2, hp, rfl, Or.inl ⟨rfl, rfl⟩⟩,
      (create_walking_iff deps cfg idx2 idx1 _).2
        ⟨way, j, idx1, idx2, hp, rfl, Or.inr ⟨rfl, rfl⟩⟩,
      (create_driving_iff deps cfg idx1 idx2 _).2
        ⟨way, j, idx1, idx2, hp, rfl, Or.inl ⟨rfl, rfl⟩⟩,
      fun hb => (create_biking_iff deps cfg idx1 idx2 _).2
        ⟨way, j, idx1, idx2, hp, hb, rfl, Or.inl ⟨rfl, rfl⟩⟩⟩
  · intro u e h
    rcases h with h | h | h
    · obtain ⟨way, j, a, b, hp, _, hdir⟩ := (create_walking_iff deps cfg u e.1 e.2).1 h
      exact ⟨way, j, a, b, hp, hdir⟩
    · obtain ⟨way, j, a, b, hp, _, _, hdir⟩ := (create_biking_iff deps cfg u e.1 e.2).1 h
      refine ⟨way, j, a, b, hp, ?_⟩
      rcases hdir with hd | ⟨_, hd⟩
      · exact Or.inl hd
      · exact Or.inr hd
    · obtain ⟨way, j, a, b, hp, _, hdir⟩ := (create_driving_iff deps cfg u e.1 e.2).1 h
      refine ⟨way, j, a, b, hp, ?_⟩
      rcases hdir with hd | ⟨_, hd⟩
      · exact Or.inl hd
      · exact Or.inr hd

/-- C29, witness: nodes 1, 2, 3 and the way 1, 99, 2, 3 with 99 unknown: node 1 (index
0) gets no edge in any graph, so nothing bridges 1 and 2 over 99, and the pair 2, 3
contributes its edges. -/
theorem C29_witness :
    plannerBroken.nodeIndexMap 99 = none ∧
    plannerBroken.graphWalking 0 = [] ∧ plannerBroken.graphDriving 0 = [] ∧
    plannerBroken.graphBiking 0 = [] ∧
    plannerBroken.graphWalking 1 = [(2, 23)] ∧ plannerBroken.graphDriving 1 = [(2, 69 / 25)] ∧
    plannerBroken.graphBiking 1 = [(2, 69 / 8)] ∧
    PairOf plannerBroken ⟨10, [1, 99, 2, 3], []⟩ 2 1 2 ∧
    (2, pairMiles sampleDeps plannerBroken 1 2 / (defaultConfig mapBroken noBus).WalkSpeed) ∈
      plannerBroken.graphWalking 1 ∧
    ∀ G : Graphs, addPair sampleDeps (defaultConfig mapBroken noBus) plannerBroken.sortedNodes
      plannerBroken.nodeIndexMap false true 25 G 1 99 = G :=
  have hp : PairOf plannerBroken ⟨10, [1, 99, 2, 3], []⟩ 2 1 2 :=
    ⟨by decide, by decide, by decide!, by decide!⟩
  ⟨by decide!, by decide!, by decide!, by decide!, by decide!, by decide!, by decide!, hp,
    ((C29_unknown_nodes sampleDeps (defaultConfig mapBroken noBus)).2.1 _ 2 1 2 hp).1,
    fun G => (C29_unknown_nodes sampleDeps (defaultConfig mapBroken noBus)).1 _ _ false true 25
      G 1 99 (Or.inr (by decide!))⟩

/-- C30 (amended): for every way, the speed used for its driving edge weights is the
configured `default_speed_limit` when the way has no `maxspeed` attribute or
`std::stod` throws on its value, and otherwise the number `std::stod` converts the value
to (the number denoted by the longest leading part of the value that reads as a number,
so that `40 mph` gives 40); every consecutive pair of known nodes of the way gets the
driving weight distance over that speed. -/
theorem C30_effective_speed (deps : Deps) (cfg : SConfiguration) (way : SWay) :
    (way.HasAttribute "maxspeed" = false →
      wayEffectiveSpeed deps cfg way = cfg.DefaultSpeedLimit) ∧
    (way.HasAttribute "maxspeed" = true → deps.stod (way.GetAttribute "maxspeed") = none →
      wayEffectiveSpeed deps cfg way = cfg.DefaultSpeedLimit) ∧
    (∀ x, way.HasAttribute "maxspeed" = true →
      deps.stod (way.GetAttribute "maxspeed") = some x → wayEffectiveSpeed deps cfg way = x) ∧
    ∀ j idx1 idx2, PairOf (SImplementation.create deps cfg) way j idx1 idx2 →
      (idx2, pairMiles deps (SImplementation.create deps cfg) idx1 idx2 /
        wayEffectiveSpeed deps cfg way) ∈ (SImplementation.create deps cfg).graphDriving idx1 := by
  refine ⟨?_, ?_, ?_, ?_⟩
  · intro h; unfold wayEffectiveSpeed; simp [h]
  · intro h hs; unfold wayEffectiveSpeed; simp [h, hs]
  · intro x h hs; unfold wayEffectiveSpeed; simp [h, hs]
  · intro j idx1 idx2 hp
    exact (create_driving_iff deps cfg idx1 idx2 _).2
      ⟨way, j, idx1, idx2, hp, rfl, Or.inl ⟨rfl, rfl⟩⟩

/-- C30, witness: a way tagged `maxspeed=fast`: `std::stod` throws, the speed is the
default 25 and the driving weight between nodes one degree apart is `69/25`; a way
without the attribute gets the default too. -/
theorem C30_witness :
    (⟨10, [1, 2], [("maxspeed", "fast")]⟩ : SWay).HasAttribute "maxspeed" = true ∧
    leadingDeps.stod ((⟨10, [1, 2], [("maxspeed", "fast")]⟩ : SWay).GetAttribute "maxspeed") =
      none ∧
    wayEffectiveSpeed leadingDeps (defaultConfig mapTextSpeed noBus)
      ⟨10, [1, 2], [("maxspeed", "fast")]⟩ = 25 ∧
    plannerTextSpeed.graphDriving 0 = [(1, 69 / 25)] ∧
    wayEffectiveSpeed leadingDeps (defaultConfig mapS1 noBus) ⟨10, [1, 2], []⟩ = 25 :=
  ⟨by decide, by decide!,
    (C30_effective_speed leadingDeps (defaultConfig mapTextSpeed noBus)
      ⟨10, [1, 2], [("maxspeed", "fast")]⟩).2.1 (by decide) (by decide!),
    by decide!,
    (C30_effective_speed leadingDeps (defaultConfig mapS1 noBus) ⟨10, [1, 2], []⟩).1
      (by decide)⟩

/-- C30, counterexample to the claim as stated: a way tagged `maxspeed=40 mph`, a
number followed by a unit, with the default speed limit 25: `std::stod` converts the
leading `40`, the speed used is 40 and not the default, and the driving weight between
nodes one degree apart is `69/40`, not `69/25`. -/
theorem C30_counterexample :
    (⟨10, [1, 2], [("maxspeed", "40 mph")]⟩ : SWay).GetAttribute "maxspeed" = "40 mph" ∧
    leadingDeps.stod "40 mph" = some 40 ∧
    (defaultConfig mapUnitSpeed noBus).DefaultSpeedLimit = 25 ∧
    wayEffectiveSpeed leadingDeps (defaultConfig mapUnitSpeed noBus)
      ⟨10, [1, 2], [("maxspeed", "40 mph")]⟩ = 40 ∧
    plannerUnitSpeed.graphDriving 0 = [(1, 69 / 40)] ∧ (69 / 40 : ℚ) ≠ 69 / 25 :=
  ⟨by decide, by decide!, by decide!, by decide!, by decide!, by decide!⟩


/-! ## A query from a node to itself -/

/-- `FindShortestPath(a, a)` for a known node id: the start vertex is the first pair
dequeued and it is the destination. -/
theorem FindShortestPath_self (S : SImplementation) (a : TNodeID) (s : Nat)
    (hs : S.nodeIndexMap a = some s) (fuel : Nat) (path : List TNodeID) :
    S.FindShortestPath (fuel + 2) a a path = some (0, [idAt S.sortedNodes s]) := by
  have hne : ¬ (0 : ℚ) = DBL_MAX := ne_of_lt DBL_MAX_pos
  have hlt : (0 : ℚ) < DBL_MAX := DBL_MAX_pos
  simp [SImplementation.FindShortestPath, dijkstraDriving, hs, dijkstraDrivingLoop, pqTop,
    pqMin, walkBack, hne, hlt]

/-- `FindFastestPath(a, a)` for a known node id: the start state is the first pair
dequeued and it is a state at the destination. -/
theorem FindFastestPath_self (deps : Deps) (S : SImplementation) (a : TNodeID) (s : Nat)
    (hs : S.nodeIndexMap a = some s) (hid : idAt S.sortedNodes s = a) (fuel : Nat)
    (trip : List TTripStep) :
    S.FindFastestPath deps (fuel + 2) a a trip = some (0, [(ETransportationMode.Walk, a)]) := by
  have h2 : (s * 2 + 0) / 2 = s := by omega
  have h3 : (s * 2) / 2 = s := by omega
  have h4 : ¬ ((s : Int) * 2 = -1) := by omega
  have h5 : ((s : Int) * 2).toNat = s * 2 := by omega
  simp [SImplementation.FindFastestPath, hs, fastestLoop, pqTop, pqMin, walkBack, tripStep,
    h2, h3, hid, h4, h5]

theorem fillNodeIndexMap_isSome (l : List SNode) (i : Nat) (m : TNodeID → Option Nat)
    (id : TNodeID) (h : (m id).isSome = true ∨ ∃ n ∈ l, n.ID = id) :
    (fillNodeIndexMap l i m id).isSome = true := by
  induction l generalizing i m with
  | nil =>
    rcases h with h | ⟨n, hn, _⟩
    · exact h
    · cases hn
  | cons n rest ih =>
    simp only [fillNodeIndexMap]
    apply ih
    by_cases hid : n.ID = id
    · left
      rw [← hid, Function.update_same]
      rfl
    · rcases h with h | ⟨x, hx, hxid⟩
      · left
        rw [Function.update_noteq (Ne.symm hid)]
        exact h
      · rcases List.mem_cons.1 hx with hx | hx
        · exact absurd (hx ▸ hxid) hid
        · exact Or.inr ⟨x, hx, hxid⟩

/-- A node id of the street map has an index. -/
theorem nodeIndexMap_known (deps : Deps) (cfg : SConfiguration) (a : TNodeID)
    (h : ∃ n ∈ cfg.StreetMap.Nodes, n.ID = a) :
    ∃ s, (SImplementation.create deps cfg).nodeIndexMap a = some s := by
  obtain ⟨n, hn, hid⟩ := h
  have hmem : n ∈ buildSortedNodes cfg.StreetMap := by
    unfold buildSortedNodes
    rw [(List.perm_insertionSort _ _).mem_iff]
    have h2 : (List.range cfg.StreetMap.NodeCount).filterMap cfg.StreetMap.NodeByIndex =
        cfg.StreetMap.Nodes := range_filterMap_getElem cfg.StreetMap.Nodes
    rw [h2]
    exact hn
  have h3 := fillNodeIndexMap_isSome (buildSortedNodes cfg.StreetMap) 0 (fun _ => none) a
    (Or.inr ⟨n, hmem, hid⟩)
  have h4 : (SImplementation.create deps cfg).nodeIndexMap a =
      fillNodeIndexMap (buildSortedNodes cfg.StreetMap) 0 (fun _ => none) a := by
    simp only [SImplementation.create, buildGraphs]
  rw [← h4] at h3
  exact Option.isSome_iff_exists.1 h3

/-- C38: for every street map, bus system and configuration values, and every node id
`a` of the map, `FindShortestPath(a, a)` returns 0 with the path `[a]` and
`FindFastestPath(a, a)` returns 0 with the trip `[(Walk, a)]`, whatever edges and bus
stops exist at `a` and whatever the output vectors held on entry; two loop iterations
suffice. -/
theorem C38_self_query (deps : Deps) (cfg : SConfiguration) (a : TNodeID)
    (ha : ∃ n ∈ cfg.StreetMap.Nodes, n.ID = a) (fuel : Nat) (hfuel : 2 ≤ fuel)
    (path : List TNodeID) (trip : List TTripStep) :
    (SImplementation.create deps cfg).FindShortestPath fuel a a path = some (0, [a]) ∧
    (SImplementation.create deps cfg).FindFastestPath deps fuel a a trip =
      some (0, [(ETransportationMode.Walk, a)]) := by
  obtain ⟨s, hs⟩ := nodeIndexMap_known deps cfg a ha
  have hid := (nodeIndexMap_some deps cfg a s hs).2
  obtain ⟨k, rfl⟩ : ∃ k, fuel = k + 2 := ⟨fuel - 2, by omega⟩
  refine ⟨?_, FindFastestPath_self deps _ a s hs hid k trip⟩
  rw [FindShortestPath_self _ a s hs k path, hid]

/-- C38, witness: node 2 of the bus example, which has a bus stop and two ways. -/
theorem C38_witness :
    (∃ n ∈ (defaultConfig mapBus busLine).StreetMap.Nodes, n.ID = 2) ∧ 2 ≤ 2 ∧
    plannerBus.FindShortestPath 2 2 2 [7] = some (0, [2]) ∧
    plannerBus.FindFastestPath sampleDeps 2 2 2 [] =
      some (0, [(ETransportationMode.Walk, 2)]) :=
  ⟨⟨⟨2, (0, 1), []⟩, by decide, rfl⟩, le_refl 2,
    C38_self_query sampleDeps (defaultConfig mapBus busLine) 2
      ⟨⟨2, (0, 1), []⟩, by decide, rfl⟩ 2 (le_refl 2) [7] []⟩


/-! ## Several stops at one street node -/

/-- Filling `nodeToStop` over a list in ascending stop-id order leaves, at a node with a
stop in the list, a stop of the list at that node whose id is the largest there. -/
theorem fillStops_largest (l : List SStop) (m : TNodeID → Option SStop) (n : TNodeID)
    (hs : List.Pairwise (fun a b : SStop => a.ID ≤ b.ID) l) (h : ∃ s ∈ l, s.NodeID = n) :
    ∃ s ∈ l, s.NodeID = n ∧
      l.foldl (fun (m : TNodeID → Option SStop) (stop : SStop) =>
          Function.update m stop.NodeID (some stop)) m n = some s ∧
      ∀ t ∈ l, t.NodeID = n → t.ID ≤ s.ID := by
  induction l generalizing m with
  | nil => obtain ⟨s, hs, _⟩ := h; cases hs
  | cons a rest ih =>
    rw [List.pairwise_cons] at hs
    by_cases hr : ∃ t ∈ rest, t.NodeID = n
    · obtain ⟨s, hsm, hsn, hres, hmax⟩ := ih (Function.update m a.NodeID (some a)) hs.2 hr
      refine ⟨s, List.mem_cons_of_mem _ hsm, hsn, by rw [List.foldl_cons]; exact hres, ?_⟩
      intro t ht htn
      rcases List.mem_cons.1 ht with ht | ht
      · rw [ht]; exact hs.1 s hsm
      · exact hmax t ht htn
    · have ha : a.NodeID = n := by
        obtain ⟨s, hsm, hsn⟩ := h
        rcases List.mem_cons.1 hsm with hsa | hsr
        · rw [← hsa]; exact hsn
        · exact absurd ⟨s, hsr, hsn⟩ hr
      refine ⟨a, List.mem_cons_self _ _, ha, ?_, ?_⟩
      · rw [List.foldl_cons, fillStops_other rest _ n (fun t ht htn => hr ⟨t, ht, htn⟩), ← ha,
          Function.update_same]
      · intro t ht htn
        rcases List.mem_cons.1 ht with ht | ht
        · rw [ht]
        · exact absurd ⟨t, ht, htn⟩ hr

/-- C36: for every bus system and every street node at which at least one stop is
located, `StopByNodeID` of that node returns one stop of the bus system located there,
and its stop id is the largest among the stops sharing the node (`nodeToStop` is filled
in ascending stop-id order and a later entry overwrites an earlier one); a stop that is
alone at its node is returned for that node, whatever stops share other nodes. -/
theorem C36_last_wins (bs : CBusSystem) :
    (∀ n, (∃ s ∈ bs.Stops, s.NodeID = n) →
      ∃ s ∈ bs.Stops, s.NodeID = n ∧
        (CBusSystemIndexer.create bs).StopByNodeID n = some s ∧
        ∀ t ∈ bs.Stops, t.NodeID = n → t.ID ≤ s.ID) ∧
    ∀ t ∈ bs.Stops, (∀ t2 ∈ bs.Stops, t2.NodeID = t.NodeID → t2 = t) →
      (CBusSystemIndexer.create bs).StopByNodeID t.NodeID = some t := by
  have key : ∀ n, (∃ s ∈ bs.Stops, s.NodeID = n) →
      ∃ s ∈ bs.Stops, s.NodeID = n ∧
        (CBusSystemIndexer.create bs).StopByNodeID n = some s ∧
        ∀ t ∈ bs.Stops, t.NodeID = n → t.ID ≤ s.ID := by
    intro n h
    have hsort : List.Pairwise (fun a b : SStop => a.ID ≤ b.ID)
        (bs.Stops.insertionSort (fun a b => a.ID ≤ b.ID)) := by
      haveI : IsTotal SStop (fun a b => a.ID ≤ b.ID) := ⟨fun a b => Nat.le_total a.ID b.ID⟩
      haveI : IsTrans SStop (fun a b => a.ID ≤ b.ID) := ⟨fun a b c => Nat.le_trans⟩
      exact List.sorted_insertionSort _ _
    obtain ⟨s, hs, hn⟩ := h
    obtain ⟨r, hr, hrn, hres, hmax⟩ := fillStops_largest _ (fun _ => none) n hsort
      ⟨s, (List.perm_insertionSort _ _).mem_iff.2 hs, hn⟩
    refine ⟨r, (List.perm_insertionSort _ _).mem_iff.1 hr, hrn, ?_, ?_⟩
    · unfold CBusSystemIndexer.StopByNodeID
      rw [indexer_nodeToStop]
      exact hres
    · intro t ht htn
      exact hmax t ((List.perm_insertionSort _ _).mem_iff.2 ht) htn
  refine ⟨key, fun t ht halone => ?_⟩
  obtain ⟨s, hs, hsn, hres, _⟩ := key t.NodeID ⟨t, ht, rfl⟩
  rw [hres, halone s hs hsn]

/-- C36, witness: stops 1 and 2 share node 5 and stop 3 is alone at node 6;
`StopByNodeID(5)` is stop 2 and `StopByNodeID(6)` is stop 3. -/
theorem C36_witness :
    (∃ s ∈ busShared.Stops, s.NodeID = 5) ∧
    (CBusSystemIndexer.create busShared).StopByNodeID 5 = some ⟨2, 5⟩ ∧
    (⟨3, 6⟩ : SStop) ∈ busShared.Stops ∧
    (∀ t2 ∈ busShared.Stops, t2.NodeID = (⟨3, 6⟩ : SStop).NodeID → t2 = ⟨3, 6⟩) ∧
    (CBusSystemIndexer.create busShared).StopByNodeID 6 = some ⟨3, 6⟩ ∧
    ∃ s ∈ busShared.Stops, s.NodeID = 5 ∧
      (CBusSystemIndexer.create busShared).StopByNodeID 5 = some s ∧
      ∀ t ∈ busShared.Stops, t.NodeID = 5 → t.ID ≤ s.ID :=
  ⟨⟨⟨1, 5⟩, by decide, rfl⟩, by decide, by decide, by decide,
    (C36_last_wins busShared).2 ⟨3, 6⟩ (by decide) (by decide),
    (C36_last_wins busShared).1 5 ⟨⟨1, 5⟩, by decide, rfl⟩⟩


/-! ## The relaxation behind every `prev` link -/

theorem relaxFastest_tagInv (deps : Deps) (S : SImplementation) (destIdx : Nat) (cur : Nat)
    (kind : EntryKind) (st : FState) (next : Nat) (c w : ℚ)
    (he : Entered deps S destIdx cur next w kind) (h : TagInv deps S destIdx st) :
    TagInv deps S destIdx (relaxFastest cur kind.tag st next c) := by
  unfold relaxFastest
  split
  · intro b hb
    by_cases hbn : b = next
    · subst hbn
      exact ⟨cur, w, kind, by simp only [Function.update_same], he,
        by simp only [Function.update_same]⟩
    · simp only [Function.update_noteq hbn] at hb ⊢
      exact h b hb
  · exact h

theorem fastestStep_tagInv (deps : Deps) (S : SImplementation) (destIdx : Nat) (curCost : ℚ)
    (cur : Nat) (st : FState) (h : TagInv deps S destIdx st) :
    TagInv deps S destIdx (fastestStep deps S destIdx curCost cur st) := by
  unfold fastestStep
  by_cases hm : cur % 2 = 0
  · simp only [hm, if_true]
    have hst1 := foldl_preserves (TagInv deps S destIdx)
      (fun s (edge : Nat × ℚ) => relaxFastest cur 0 s (edge.1 * 2 + 0) (curCost + edge.2))
      (S.graphWalking (cur / 2))
      (fun b a ha hb => relaxFastest_tagInv deps S destIdx cur EntryKind.walkEdge b _ _ a.2
        ⟨hm, a, ha, rfl, rfl⟩ hb) st h
    have hst2 := relaxFastest_tagInv deps S destIdx cur EntryKind.swapToBike _
      (cur / 2 * 2 + 1) curCost 0 ⟨hm, rfl, rfl⟩ hst1
    cases hb : S.busIndexer.StopByNodeID (idAt S.sortedNodes (cur / 2)) with
    | none => exact hst2
    | some busStop =>
      simp only
      refine foldl_preserves (TagInv deps S destIdx) _ _ (fun b a ha hb2 => ?_) _ hst2
      cases hc : busCandidate deps S destIdx busStop a with
      | none => exact hb2
      | some c =>
        exact relaxFastest_tagInv deps S destIdx cur EntryKind.busSegment b _ _ c.2
          ⟨hm, busStop, a, c, hb, ha, hc, rfl, rfl⟩ hb2
  · simp only [hm, if_false]
    have hst1 := foldl_preserves (TagInv deps S destIdx)
      (fun s (edge : Nat × ℚ) => relaxFastest cur 0 s (edge.1 * 2 + 1) (curCost + edge.2))
      (S.graphBiking (cur / 2))
      (fun b a ha hb => relaxFastest_tagInv deps S destIdx cur EntryKind.bikeEdge b _ _ a.2
        ⟨hm, a, ha, rfl, rfl⟩ hb) st h
    exact relaxFastest_tagInv deps S destIdx cur EntryKind.swapToWalk _
      (cur / 2 * 2 + 0) curCost 0 ⟨hm, rfl, rfl⟩ hst1

theorem fastestLoop_tagInv (deps : Deps) (S : SImplementation) (dest : TNodeID)
    (destIdx : Nat) (fuel : Nat) (st : FState) (hst : TagInv deps S destIdx st)
    (r : FState × Option (ℚ × Nat))
    (hr : fastestLoop deps S dest destIdx fuel st = some r) : TagInv deps S destIdx r.1 := by
  induction fuel generalizing st with
  | zero => simp [fastestLoop] at hr
  | succ fuel ih =>
    unfold fastestLoop at hr
    cases htop : pqTop st.pq with
    | none =>
      simp only [htop, Option.some.injEq] at hr
      rw [← hr]; exact hst
    | some m =>
      obtain ⟨d, u⟩ := m
      simp only [htop] at hr
      have hpop : TagInv deps S destIdx { st with pq := pqPop st.pq } := hst
      by_cases hs : d > st.dist u
      · rw [if_pos hs] at hr
        exact ih _ hpop hr
      · rw [if_neg hs] at hr
        by_cases hd : idAt S.sortedNodes (u / 2) = dest
        · rw [if_pos hd, Option.some.injEq] at hr
          rw [← hr]; exact hpop
        · rw [if_neg hd] at hr
          exact ih _ (fastestStep_tagInv deps S destIdx d u _ hpop) hr

/-- The list `walkBack` returns is the chain of `prev` links from its start. -/
theorem walkBack_prevChain (prev : Nat → Int) (hprev : ∀ v, -1 ≤ prev v) (fuel : Nat)
    (v : Nat) (acc r : List Nat) (hr : walkBack prev fuel (v : Int) acc = some r) :
    ∃ p, r = acc ++ (v :: p) ∧
      List.Chain' (fun c par : Nat => prev c = (par : Int)) (v :: p) := by
  induction fuel generalizing v acc with
  | zero => simp [walkBack] at hr
  | succ fuel ih =>
    unfold walkBack at hr
    have hne : ((v : Int) = -1) = False := by
      simp only [eq_iff_iff, iff_false]; omega
    simp only [hne, if_false, Int.toNat_ofNat] at hr
    by_cases hp : prev v = -1
    · rw [hp] at hr
      cases fuel with
      | zero => simp [walkBack] at hr
      | succ fuel =>
        unfold walkBack at hr
        simp only [if_true, Option.some.injEq] at hr
        exact ⟨[], by rw [← hr], List.chain'_singleton v⟩
    · obtain ⟨u, hu⟩ : ∃ u : Nat, prev v = (u : Int) :=
        ⟨(prev v).toNat, by have := hprev v; omega⟩
      rw [hu] at hr
      obtain ⟨p, hp1, hp2⟩ := ih u _ hr
      refine ⟨u :: p, ?_, List.chain'_cons.2 ⟨hu, hp2⟩⟩
      rw [hp1]; simp


/-- A finite result of `FindFastestPath` unfolded: the loop stopped at a state `u`,
`walkBack` collected `statePath` and the trip is its reversed image. -/
theorem FindFastestPath_walkBack (deps : Deps) (S : SImplementation) (src dest : TNodeID)
    (fuel : Nat) (trip : List TTripStep) (cost : ℚ) (trip2 : List TTripStep)
    (h : S.FindFastestPath deps fuel src dest trip = some (cost, trip2))
    (hfin : cost < DBL_MAX) :
    ∃ s t st u statePath, S.nodeIndexMap src = some s ∧ S.nodeIndexMap dest = some t ∧
      fastestLoop deps S dest t fuel
        { dist := Function.update (fun _ => DBL_MAX) (s * 2 + 0) 0, prev := fun _ => -1,
          prevEdgeType := fun _ => -1, pq := [(0, s * 2 + 0)] } = some (st, some (cost, u)) ∧
      walkBack st.prev fuel (u : Int) [] = some statePath ∧
      trip2 = statePath.reverse.map (tripStep S st) := by
  unfold SImplementation.FindFastestPath at h
  cases hs : S.nodeIndexMap src with
  | none =>
    simp only [hs, Option.some.injEq, Prod.mk.injEq] at h
    rw [← h.1] at hfin; exact absurd hfin (lt_irrefl _)
  | some s =>
    cases ht : S.nodeIndexMap dest with
    | none =>
      simp only [hs, ht, Option.some.injEq, Prod.mk.injEq] at h
      rw [← h.1] at hfin; exact absurd hfin (lt_irrefl _)
    | some t =>
      simp only [hs, ht] at h
      cases hl : fastestLoop deps S dest t fuel
          { dist := Function.update (fun _ => DBL_MAX) (s * 2 + 0) 0, prev := fun _ => -1,
            prevEdgeType := fun _ => -1, pq := [(0, s * 2 + 0)] } with
      | none => rw [hl] at h; cases h
      | some res =>
        obtain ⟨st, found⟩ := res
        cases found with
        | none =>
          rw [hl] at h
          simp only [Option.some.injEq, Prod.mk.injEq] at h
          rw [← h.1] at hfin; exact absurd hfin (lt_irrefl _)
        | some m =>
          obtain ⟨d, u⟩ := m
          rw [hl] at h
          simp only at h
          cases hw : walkBack st.prev fuel (u : Int) [] with
          | none => simp [hw] at h
          | some statePath =>
            simp only [hw, Option.some.injEq, Prod.mk.injEq] at h
            obtain ⟨hd, htrip⟩ := h
            subst hd
            exact ⟨s, t, st, u, statePath, rfl, rfl, hl, hw, htrip.symm⟩

/-- The entry kind is determined by the two states and the tag. -/
theorem Entered_unique (deps : Deps) (S : SImplementation) (destIdx a b : Nat)
    (w1 w2 : ℚ) (k1 k2 : EntryKind) (h1 : Entered deps S destIdx a b w1 k1)
    (h2 : Entered deps S destIdx a b w2 k2) (ht : k1.tag = k2.tag) : k1 = k2 := by
  cases k1 <;> cases k2 <;> first
    | rfl
    | (exfalso; revert ht; decide)
    | (exfalso
       simp only [Entered] at h1 h2
       obtain ⟨ha1, hb1⟩ := h1
       obtain ⟨ha2, hb2⟩ := h2
       omega)

/-- The mode lines 196-206 emit for a state, by the kind of relaxation that entered
it. -/
theorem tripStep_entered (deps : Deps) (S : SImplementation) (destIdx a b : Nat)
    (st : FState) (w : ℚ) (kind : EntryKind) (he : Entered deps S destIdx a b w kind)
    (ht : st.prevEdgeType b = kind.tag) :
    tripStep S st b =
      (emittedMode kind, idAt S.sortedNodes (b / 2)) := by
  unfold tripStep emittedMode
  cases kind
  · obtain ⟨_, e, _, hb, _⟩ := he
    have h2 : b % 2 ≠ 1 := by omega
    simp [ht, EntryKind.tag, h2]
  · obtain ⟨_, e, _, hb, _⟩ := he
    have h2 : b % 2 = 1 := by omega
    simp [ht, EntryKind.tag, h2]
  · obtain ⟨_, hb, _⟩ := he
    have h2 : b % 2 = 1 := by omega
    simp [ht, EntryKind.tag, h2]
  · obtain ⟨_, hb, _⟩ := he
    have h2 : b % 2 ≠ 1 := by omega
    simp [ht, EntryKind.tag, h2]
  · simp [ht, EntryKind.tag]

/-- A finite result of `FindFastestPath`, whatever the weights: the trip is the image
of a chain of states that starts at `(src, Walk)`, ends at the dequeued state `u` at
`dest`, and in which every state after the first was entered from its predecessor, its
`prev` link, by a relaxation whose tag is its `prevEdgeType`. -/
theorem FindFastestPath_entered (deps : Deps) (cfg : SConfiguration) (src dest : TNodeID)
    (fuel : Nat) (trip : List TTripStep) (cost : ℚ) (trip2 : List TTripStep)
    (h : (SImplementation.create deps cfg).FindFastestPath deps fuel src dest trip =
      some (cost, trip2))
    (hfin : cost < DBL_MAX) :
    ∃ s t st u p, (SImplementation.create deps cfg).nodeIndexMap src = some s ∧
      (SImplementation.create deps cfg).nodeIndexMap dest = some t ∧
      fastestLoop deps (SImplementation.create deps cfg) dest t fuel
        { dist := Function.update (fun _ => DBL_MAX) (s * 2 + 0) 0, prev := fun _ => -1,
          prevEdgeType := fun _ => -1, pq := [(0, s * 2 + 0)] } = some (st, some (cost, u)) ∧
      walkBack st.prev fuel (u : Int) [] = some (u :: p) ∧
      (u :: p).reverse.head? = some (s * 2 + 0) ∧
      trip2 = (u :: p).reverse.map (tripStep (SImplementation.create deps cfg) st) ∧
      List.Chain' (fun a b => ∃ w kind, st.prev b = (a : Int) ∧
        Entered deps (SImplementation.create deps cfg) t a b w kind ∧
        st.prevEdgeType b = kind.tag) (u :: p).reverse := by
  obtain ⟨s, t, st, u, statePath, hs, ht, hl, hw, htrip⟩ :=
    FindFastestPath_walkBack deps _ src dest fuel trip cost trip2 h hfin
  have htag := fastestLoop_tagInv deps (SImplementation.create deps cfg) dest t fuel _
    (fun b hb => absurd rfl hb) _ hl
  have hprev : ∀ v, -1 ≤ st.prev v := by
    intro v
    by_cases hv : st.prev v = -1
    · rw [hv]
    · obtain ⟨a, _, _, ha, _⟩ := htag v hv
      rw [ha]; omega
  obtain ⟨p, hp1, hp2⟩ := walkBack_prevChain st.prev hprev fuel u [] statePath hw
  rw [List.nil_append] at hp1
  subst hp1
  have hcore := fastestLoop_core deps (SImplementation.create deps cfg) dest t fuel
    { dist := Function.update (fun _ => DBL_MAX) (s * 2 + 0) 0, prev := fun _ => -1,
      prevEdgeType := fun _ => -1, pq := [(0, s * 2 + 0)] }
  rw [hl] at hcore
  change some (st.core, some (cost, u)) = searchLoop _ _ false fuel
    (initState (s * 2 + 0)) at hcore
  have hlink := searchLoop_link (atDest (SImplementation.create deps cfg) dest)
    false fuel (initState (s * 2 + 0)) (initState_link _ (s * 2 + 0)) _ hcore.symm
  obtain ⟨_, f2, _⟩ := searchLoop_found
    (atDest (SImplementation.create deps cfg) dest) false fuel
    (initState (s * 2 + 0)) (initState_link _ (s * 2 + 0)) _ cost u hcore.symm
  obtain ⟨p2, W, hq1, hq2, _⟩ := walkBack_link_root hlink fuel u [] (u :: p) f2 hw
  rw [List.nil_append] at hq1
  rw [← hq1] at hq2
  refine ⟨s, t, st, u, p, hs, ht, hl, hw, ?_, htrip, ?_⟩
  · rw [List.head?_reverse, RPath_getLast hq2]
  · rw [List.chain'_reverse]
    refine List.Chain'.imp ?_ hp2
    intro c par hc
    have hne : st.prev c ≠ -1 := by rw [hc]; omega
    obtain ⟨a, w, kind, ha, he, hk⟩ := htag c hne
    have hapar : a = par := by rw [hc] at ha; exact_mod_cast ha.symm
    subst hapar
    exact ⟨w, kind, ha, he, hk⟩


/-- Two consecutive entries of the image of a chain come from two consecutive states. -/
theorem chain_map_split {α β : Type} (R : α → α → Prop) (f : α → β) (states : List α)
    (hc : List.Chain' R states) (pre post : List β) (x y : β)
    (h : states.map f = pre ++ x :: y :: post) : ∃ a b, R a b ∧ f a = x ∧ f b = y := by
  induction states generalizing pre with
  | nil => simp at h
  | cons a rest ih =>
    cases pre with
    | nil =>
      cases rest with
      | nil => simp at h
      | cons b rest2 =>
        simp only [List.map_cons, List.nil_append, List.cons.injEq] at h
        exact ⟨a, b, (List.chain'_cons.1 hc).1, h.1, h.2.1⟩
    | cons z pre2 =>
      simp only [List.map_cons, List.cons_append, List.cons.injEq] at h
      exact ih (List.Chain'.tail hc) pre2 h.2

/-- C31 (amended): for every finite result of `FindFastestPath`, the trip is the image
of the chain of states from `(src, Walk)` to the dequeued state; every state `b` after
the first was entered from its predecessor `a` by exactly one kind of relaxation with
the tag stored in `prevEdgeType[b]`, and its step carries the street node id of `b` and
the mode Walk when it was entered by a walk edge or by the swap from Bike to Walk, Bike
when it was entered by a bike edge or by the swap from Walk to Bike, and Bus when it was
entered by a bus relaxation. -/
theorem C31_step_modes (deps : Deps) (cfg : SConfiguration) (src dest : TNodeID)
    (fuel : Nat) (trip : List TTripStep) (cost : ℚ) (trip2 : List TTripStep)
    (h : (SImplementation.create deps cfg).FindFastestPath deps fuel src dest trip =
      some (cost, trip2))
    (hfin : cost < DBL_MAX) :
    ∃ s t st states, (SImplementation.create deps cfg).nodeIndexMap src = some s ∧
      (SImplementation.create deps cfg).nodeIndexMap dest = some t ∧
      (∃ u, fastestLoop deps (SImplementation.create deps cfg) dest t fuel
        { dist := Function.update (fun _ => DBL_MAX) (s * 2 + 0) 0, prev := fun _ => -1,
          prevEdgeType := fun _ => -1, pq := [(0, s * 2 + 0)] } =
          some (st, some (cost, u))) ∧
      states.head? = some (s * 2 + 0) ∧
      trip2 = states.map (tripStep (SImplementation.create deps cfg) st) ∧
      List.Chain' (fun a b => ∃ w kind, st.prev b = (a : Int) ∧
        Entered deps (SImplementation.create deps cfg) t a b w kind ∧
        st.prevEdgeType b = kind.tag ∧
        (∀ w2 k2, Entered deps (SImplementation.create deps cfg) t a b w2 k2 →
          st.prevEdgeType b = k2.tag → k2 = kind) ∧
        tripStep (SImplementation.create deps cfg) st b =
          (emittedMode kind,
            idAt (SImplementation.create deps cfg).sortedNodes (b / 2))) states := by
  obtain ⟨s, t, st, u, p, hs, ht, hl, _, hhead, htrip, hchain⟩ :=
    FindFastestPath_entered deps cfg src dest fuel trip cost trip2 h hfin
  refine ⟨s, t, st, (u :: p).reverse, hs, ht, ⟨u, hl⟩, hhead, htrip, ?_⟩
  refine List.Chain'.imp ?_ hchain
  rintro a b ⟨w, kind, hp, he, hk⟩
  refine ⟨w, kind, hp, he, hk, ?_, tripStep_entered deps _ t a b st w kind he hk⟩
  intro w2 k2 he2 hk2
  exact Entered_unique deps _ t a b w2 w k2 kind he2 he (by rw [← hk2, hk])

/-- C31, witness: scenario S1, query (1, 2), trip `(Walk, 1), (Bike, 1), (Bike, 2)`. -/
theorem C31_witness :
    plannerS1.FindFastestPath sampleDeps 9 1 2 [] =
      some (69 / 8, [(ETransportationMode.Walk, 1), (ETransportationMode.Bike, 1),
        (ETransportationMode.Bike, 2)]) ∧ (69 / 8 : ℚ) < DBL_MAX ∧
    ∃ s t st states, plannerS1.nodeIndexMap 1 = some s ∧ plannerS1.nodeIndexMap 2 = some t ∧
      (∃ u, fastestLoop sampleDeps plannerS1 2 t 9
        { dist := Function.update (fun _ => DBL_MAX) (s * 2 + 0) 0, prev := fun _ => -1,
          prevEdgeType := fun _ => -1, pq := [(0, s * 2 + 0)] } =
          some (st, some (69 / 8, u))) ∧
      states.head? = some (s * 2 + 0) ∧
      [(ETransportationMode.Walk, 1), (ETransportationMode.Bike, 1),
        (ETransportationMode.Bike, 2)] = states.map (tripStep plannerS1 st) ∧
      List.Chain' (fun a b => ∃ w kind, st.prev b = (a : Int) ∧
        Entered sampleDeps plannerS1 t a b w kind ∧
        st.prevEdgeType b = kind.tag ∧
        (∀ w2 k2, Entered sampleDeps plannerS1 t a b w2 k2 →
          st.prevEdgeType b = k2.tag → k2 = kind) ∧
        tripStep plannerS1 st b =
          (emittedMode kind, idAt plannerS1.sortedNodes (b / 2))) states :=
  ⟨by decide!, by unfold DBL_MAX; norm_num,
    C31_step_modes sampleDeps (defaultConfig mapS1 noBus) 1 2 9 []
      (69 / 8) _ (by decide!) (by unfold DBL_MAX; norm_num)⟩

/-- C31, counterexample to the claim as stated: in scenario S1 the query (1, 2) returns
the trip `(Walk, 1), (Bike, 1), (Bike, 2)`.  The second state of the chain, (node 1,
Bike), has the start state (node 1, Walk) as its `prev` link and tag 0; it was entered
by the mode swap and by no other kind of relaxation, and the step emitted for it has the
mode Bike, where the claim has Walk. -/
theorem C31_counterexample :
    plannerS1.FindFastestPath sampleDeps 9 1 2 [] =
      some (69 / 8, [(ETransportationMode.Walk, 1), (ETransportationMode.Bike, 1),
        (ETransportationMode.Bike, 2)]) ∧
    plannerS1.nodeIndexMap 1 = some 0 ∧ plannerS1.nodeIndexMap 2 = some 1 ∧
    (fastestLoop sampleDeps plannerS1 2 1 9
        { dist := Function.update (fun _ => DBL_MAX) (0 * 2 + 0) 0, prev := fun _ => -1,
          prevEdgeType := fun _ => -1, pq := [(0, 0 * 2 + 0)] }).map
      (fun r => (r.1.prev 3, r.1.prev 1, r.1.prevEdgeType 1, r.2)) =
      some (1, 0, 0, some (69 / 8, 3)) ∧
    (fastestLoop sampleDeps plannerS1 2 1 9
        { dist := Function.update (fun _ => DBL_MAX) (0 * 2 + 0) 0, prev := fun _ => -1,
          prevEdgeType := fun _ => -1, pq := [(0, 0 * 2 + 0)] }).map
      (fun r => tripStep plannerS1 r.1 1) = some (ETransportationMode.Bike, 1) ∧
    Entered sampleDeps plannerS1 1 0 1 0 EntryKind.swapToBike ∧
    (∀ w kind, Entered sampleDeps plannerS1 1 0 1 w kind → kind = EntryKind.swapToBike) ∧
    specStepMode EntryKind.swapToBike = ETransportationMode.Walk := by
  refine ⟨by decide!, by decide!, by decide!, by decide!, by decide!, ⟨by decide, by decide, rfl⟩,
    ?_, rfl⟩
  intro w kind hk
  cases kind
  · obtain ⟨_, e, _, he, _⟩ := hk; omega
  · obtain ⟨hk, _⟩ := hk; exact absurd rfl hk
  · rfl
  · obtain ⟨hk, _⟩ := hk; exact absurd rfl hk
  · obtain ⟨_, _, _, c, _, _, _, he, _⟩ := hk; omega


/-- C34: for every finite result of `FindFastestPath` and every two consecutive trip
steps `(m1, n1)`, `(Bike, n2)` with `n1 ≠ n2`, the pair `n1 -> n2` is an edge of
`graph_bike`; it comes from two consecutive nodes of a way of the street map that is
not tagged `bicycle=no`, taken in the way's direction, or against it only when the way
is not one-way. -/
theorem C34_bike_steps (deps : Deps) (cfg : SConfiguration) (src dest : TNodeID)
    (fuel : Nat) (trip : List TTripStep) (cost : ℚ) (trip2 : List TTripStep)
    (h : (SImplementation.create deps cfg).FindFastestPath deps fuel src dest trip =
      some (cost, trip2))
    (hfin : cost < DBL_MAX) (pre post : List TTripStep) (m1 : ETransportationMode)
    (n1 n2 : TNodeID)
    (hsplit : trip2 = pre ++ (m1, n1) :: (ETransportationMode.Bike, n2) :: post)
    (hne : n1 ≠ n2) :
    ∃ i1 i2 w, idAt (SImplementation.create deps cfg).sortedNodes i1 = n1 ∧
      idAt (SImplementation.create deps cfg).sortedNodes i2 = n2 ∧
      (i2, w) ∈ (SImplementation.create deps cfg).graphBiking i1 ∧
      ∃ way j idx1 idx2, PairOf (SImplementation.create deps cfg) way j idx1 idx2 ∧
        ¬ (way.HasAttribute "bicycle" = true ∧ way.GetAttribute "bicycle" = "no") ∧
        ((i1 = idx1 ∧ i2 = idx2) ∨ (wayOneWay way = false ∧ i1 = idx2 ∧ i2 = idx1)) := by
  obtain ⟨s, t, st, u, p, _, _, _, _, _, htrip, hchain⟩ :=
    FindFastestPath_entered deps cfg src dest fuel trip cost trip2 h hfin
  rw [htrip] at hsplit
  obtain ⟨a, b, ⟨w, kind, _, he, hk⟩, ha, hb⟩ := chain_map_split _ _ _ hchain pre post _ _ hsplit
  have hb2 := tripStep_entered deps _ t a b st w kind he hk
  rw [hb] at hb2
  simp only [Prod.mk.injEq] at hb2
  obtain ⟨hmode, hn2⟩ := hb2
  have hn1 : idAt (SImplementation.create deps cfg).sortedNodes (a / 2) = n1 := by
    have := congrArg Prod.snd ha
    simpa [tripStep] using this
  cases kind with
  | walkEdge => cases hmode
  | swapToWalk => cases hmode
  | busSegment => cases hmode
  | swapToBike =>
    exfalso
    obtain ⟨_, hb3, _⟩ := he
    have hdiv : b / 2 = a / 2 := by omega
    rw [hdiv, hn1] at hn2
    exact hne hn2.symm
  | bikeEdge =>
    obtain ⟨_, e, hmem, hb3, _⟩ := he
    have hdiv : b / 2 = e.1 := by omega
    rw [hdiv] at hn2
    obtain ⟨way, j, idx1, idx2, hp, hallowed, _, hdir⟩ :=
      (create_biking_iff deps cfg (a / 2) e.1 e.2).1 hmem
    refine ⟨a / 2, e.1, e.2, hn1, hn2.symm, hmem, way, j, idx1, idx2, hp, ?_, hdir⟩
    unfold wayBicycleAllowed at hallowed
    intro hno
    simp [hno.1, hno.2] at hallowed

/-- C34, witness: scenario S1, query (1, 2): the steps `(Bike, 1), (Bike, 2)` follow
the edge of `graph_bike` from node 1 to node 2. -/
theorem C34_witness :
    plannerS1.FindFastestPath sampleDeps 9 1 2 [] =
      some (69 / 8, [(ETransportationMode.Walk, 1), (ETransportationMode.Bike, 1),
        (ETransportationMode.Bike, 2)]) ∧ (69 / 8 : ℚ) < DBL_MAX ∧ (1 : TNodeID) ≠ 2 ∧
    ∃ i1 i2 w, idAt plannerS1.sortedNodes i1 = 1 ∧ idAt plannerS1.sortedNodes i2 = 2 ∧
      (i2, w) ∈ plannerS1.graphBiking i1 ∧
      ∃ way j idx1 idx2, PairOf plannerS1 way j idx1 idx2 ∧
        ¬ (way.HasAttribute "bicycle" = true ∧ way.GetAttribute "bicycle" = "no") ∧
        ((i1 = idx1 ∧ i2 = idx2) ∨ (wayOneWay way = false ∧ i1 = idx2 ∧ i2 = idx1)) :=
  ⟨by decide!, by unfold DBL_MAX; norm_num, by decide,
    C34_bike_steps sampleDeps (defaultConfig mapS1 noBus) 1 2 9 [] (69 / 8) _
      (by decide!) (by unfold DBL_MAX; norm_num) [(ETransportationMode.Walk, 1)] []
      ETransportationMode.Bike 1 2 rfl (by decide)⟩


/-! ## The cost of the dequeued state is the cost of its chain (any weights) -/

theorem initState_hist (adj : Graph) (src : Nat) :
    HistInv adj src (initState src) (fun _ => [(0, src)]) := by
  refine ⟨?_, ?_, ?_, ?_, ?_, ?_⟩
  · intro v
    by_cases hv : v = src
    · simp only [initState, hv, Function.update_same]; exact le_of_lt DBL_MAX_pos
    · simp only [initState, Function.update_noteq hv]; exact le_refl _
  · intro e hm
    simp only [initState, List.mem_singleton] at hm
    subst hm
    simp only [initState, Function.update_same]
    exact ⟨le_refl _, DBL_MAX_pos⟩
  · intro e hm
    simp only [initState, List.mem_singleton] at hm
    subst hm
    exact List.mem_singleton_self _
  · intro e1 _ e2 _ E h1 h2
    exact absurd h1 h2
  · intro v _ hd
    have hv : v = src := by
      by_contra hv
      simp only [initState, Function.update_noteq hv] at hd
      exact lt_irrefl _ hd
    subst hv
    exact ⟨rfl, by simp only [initState, Function.update_same], rfl⟩
  · intro v hp
    exact absurd rfl hp

theorem relax_hist {adj : Graph} {src u : Nat} {d : ℚ} {e0 : Nat × ℚ}
    {rest : List (Nat × ℚ)} {st : DState} {hist : ℚ × Nat → List (ℚ × Nat)}
    (he0 : e0 ∈ adj u)
    (hc : HistCore adj src st hist
      (fun p v w => p = u ∧ st.dist u = d ∧ (v, w) ∈ e0 :: rest))
    (ht : HistTop u d st hist) :
    ∃ hist2, HistCore adj src (relax u d st e0) hist2
        (fun p v w => p = u ∧ (relax u d st e0).dist u = d ∧ (v, w) ∈ rest) ∧
      HistTop u d (relax u d st e0) hist2 := by
  unfold relax
  by_cases hfire : d + e0.2 < st.dist e0.1
  · rw [if_pos hfire]
    obtain ⟨v0, w0⟩ := e0
    simp only at hfire ⊢
    have hfresh : ∀ E : ℚ × Nat, st.dist E.2 ≤ E.1 → E ≠ (d + w0, v0) := by
      intro E hE heq
      rw [heq] at hE
      exact absurd hfire (not_lt.mpr hE)
    have hsame : ∀ E : ℚ × Nat, st.dist E.2 ≤ E.1 →
        Function.update hist (d + w0, v0) ((d + w0, v0) :: hist (d, u)) E = hist E :=
      fun E hE => Function.update_noteq (hfresh E hE) _ _
    have htop : Function.update hist (d + w0, v0) ((d + w0, v0) :: hist (d, u)) (d, u) =
        hist (d, u) := hsame (d, u) ht.top_le
    have hnew : Function.update hist (d + w0, v0) ((d + w0, v0) :: hist (d, u)) (d + w0, v0) =
        (d + w0, v0) :: hist (d, u) := Function.update_same _ _ _
    have hdle : ∀ x, Function.update st.dist v0 (d + w0) x ≤ st.dist x := by
      intro x
      by_cases hx : x = v0
      · rw [hx, Function.update_same]; exact le_of_lt hfire
      · rw [Function.update_noteq hx]
    have hpq : ∀ e ∈ st.pq,
        Function.update hist (d + w0, v0) ((d + w0, v0) :: hist (d, u)) e = hist e :=
      fun e he => hsame e (hc.pq_key e he).1
    refine ⟨Function.update hist (d + w0, v0) ((d + w0, v0) :: hist (d, u)),
      ⟨?_, ?_, ?_, ?_, ?_, ?_⟩, ⟨?_, ht.top_lt, ?_, ?_, ?_⟩⟩
    · intro x
      exact le_trans (hdle x) (hc.dist_le x)
    · intro e he
      simp only [pqPush, List.mem_cons] at he
      rcases he with rfl | he
      · simp only [Function.update_same]
        exact ⟨le_refl _, lt_of_lt_of_le hfire (hc.dist_le _)⟩
      · exact ⟨le_trans (hdle _) (hc.pq_key e he).1, (hc.pq_key e he).2⟩
    · intro e he
      simp only [pqPush, List.mem_cons] at he
      rcases he with rfl | he
      · rw [hnew]; exact List.mem_cons_self _ _
      · rw [hpq e he]; exact hc.self e he
    · intro e1 he1 e2 he2 E hE1 hE2
      simp only [pqPush, List.mem_cons] at he1 he2
      rcases he1 with rfl | he1
      · rcases he2 with rfl | he2
        · exact absurd hE1 hE2
        · rw [hnew] at hE1
          rw [hpq e2 he2] at hE2
          rcases List.mem_cons.1 hE1 with rfl | hE1
          · exact le_max_left _ _
          · exact le_trans ((ht.top_pair e2 he2).1 E hE1 hE2) (le_max_right _ _)
      · rw [hpq e1 he1] at hE1
        rcases he2 with rfl | he2
        · rw [hnew] at hE2
          have hE3 : E ∉ hist (d, u) := fun hm => hE2 (List.mem_cons_of_mem _ hm)
          exact le_trans ((ht.top_pair e1 he1).2 E hE1 hE3) (le_max_left _ _)
        · rw [hpq e2 he2] at hE2
          exact hc.pair e1 he1 e2 he2 E hE1 hE2
    · intro v hp hd
      change Function.update st.prev v0 (u : Int) v = -1 at hp
      change Function.update st.dist v0 (d + w0) v < DBL_MAX at hd
      have hv : v ≠ v0 := by
        intro hv
        rw [hv, Function.update_same] at hp
        omega
      rw [Function.update_noteq hv] at hp hd
      obtain ⟨h1, h2, h3⟩ := hc.root v hp hd
      refine ⟨h1, ?_, ?_⟩
      · show Function.update st.dist v0 (d + w0) v = 0
        rw [Function.update_noteq hv]; exact h2
      · rw [hsame (0, v) (le_of_eq h2)]; exact h3
    · intro v hp
      change Function.update st.prev v0 (u : Int) v ≠ -1 at hp
      show ∃ (p : Nat) (D w : ℚ), Function.update st.prev v0 (u : Int) v = (p : Int) ∧
        (v, w) ∈ adj p ∧ Function.update st.dist v0 (d + w0) v = D + w ∧
        Function.update st.dist v0 (d + w0) p ≤ D ∧ D < DBL_MAX ∧
        Function.update hist (d + w0, v0) ((d + w0, v0) :: hist (d, u))
            (Function.update st.dist v0 (d + w0) v, v) =
          (Function.update st.dist v0 (d + w0) v, v) ::
            Function.update hist (d + w0, v0) ((d + w0, v0) :: hist (d, u)) (D, p) ∧
        (D, p) ∈ Function.update hist (d + w0, v0) ((d + w0, v0) :: hist (d, u)) (D, p) ∧
        (Function.update st.dist v0 (d + w0) p < D →
          (Function.update st.dist v0 (d + w0) p, p) ∈ pqPush st.pq (d + w0, v0) ∨
          (p = u ∧ Function.update st.dist v0 (d + w0) u = d ∧ (v, w) ∈ rest))
      by_cases hv : v = v0
      · subst hv
        refine ⟨u, d, w0, by rw [Function.update_same], he0, by rw [Function.update_same],
          le_trans (hdle u) ht.top_le, ht.top_lt, ?_, ?_, ?_⟩
        · rw [Function.update_same, hnew, htop]
        · rw [htop]; exact ht.top_mem
        · intro hlt
          left
          by_cases hu : u = v
          · subst hu
            rw [Function.update_same]
            exact List.mem_cons_self _ _
          · rw [Function.update_noteq hu] at hlt ⊢
            exact List.mem_cons_of_mem _ (ht.top_pend hlt)
      · rw [Function.update_noteq hv] at hp
        obtain ⟨p, D, w, h1, h2, h3, h4, h5, h6, h7, h8⟩ := hc.link v hp
        refine ⟨p, D, w, by rw [Function.update_noteq hv]; exact h1, h2,
          by rw [Function.update_noteq hv]; exact h3, le_trans (hdle p) h4, h5, ?_, ?_, ?_⟩
        · rw [Function.update_noteq hv, hsame _ (le_refl (st.dist v)), hsame (D, p) h4]
          exact h6
        · rw [hsame (D, p) h4]; exact h7
        · intro hlt
          by_cases hpv : p = v0
          · left
            subst hpv
            rw [Function.update_same]
            exact List.mem_cons_self _ _
          · rw [Function.update_noteq hpv] at hlt ⊢
            rcases h8 hlt with h8 | ⟨hpu, hdu, hmem⟩
            · exact Or.inl (List.mem_cons_of_mem _ h8)
            · right
              subst hpu
              refine ⟨rfl, by rw [Function.update_noteq hpv]; exact hdu, ?_⟩
              rcases List.mem_cons.1 hmem with heq | hmem
              · exact absurd (congrArg Prod.fst heq) hv
              · exact hmem
    · exact le_trans (hdle u) ht.top_le
    · intro hlt
      change Function.update st.dist v0 (d + w0) u < d at hlt
      show (Function.update st.dist v0 (d + w0) u, u) ∈ pqPush st.pq (d + w0, v0)
      by_cases hu : u = v0
      · subst hu
        rw [Function.update_same]
        exact List.mem_cons_self _ _
      · rw [Function.update_noteq hu] at hlt ⊢
        exact List.mem_cons_of_mem _ (ht.top_pend hlt)
    · rw [htop]; exact ht.top_mem
    · intro e2 he2
      simp only [pqPush, List.mem_cons] at he2
      rw [htop]
      rcases he2 with rfl | he2
      · rw [hnew]
        refine ⟨fun E hE hE2 => absurd (List.mem_cons_of_mem _ hE) hE2, fun E hE hE2 => ?_⟩
        rcases List.mem_cons.1 hE with rfl | hE
        · exact le_refl _
        · exact absurd hE hE2
      · rw [hpq e2 he2]
        exact ht.top_pair e2 he2
  · rw [if_neg hfire]
    refine ⟨hist, ⟨hc.dist_le, hc.pq_key, hc.self, hc.pair, hc.root, ?_⟩, ht⟩
    intro v hp
    obtain ⟨p, D, w, h1, h2, h3, h4, h5, h6, h7, h8⟩ := hc.link v hp
    refine ⟨p, D, w, h1, h2, h3, h4, h5, h6, h7, fun hlt => ?_⟩
    rcases h8 hlt with h8 | ⟨hpu, hdu, hmem⟩
    · exact Or.inl h8
    · right
      refine ⟨hpu, hdu, ?_⟩
      rcases List.mem_cons.1 hmem with heq | hmem
      · exfalso
        simp only [Prod.ext_iff] at heq
        have h9 : st.dist e0.1 = D + e0.2 := by rw [← heq.1, ← heq.2]; exact h3
        have h10 : d < D := by rw [← hdu, ← hpu]; exact hlt
        rw [h9] at hfire
        exact hfire (by linarith)
      · exact hmem


theorem foldl_relax_hist {adj : Graph} {src u : Nat} {d : ℚ} (es : List (Nat × ℚ))
    (hes : ∀ e ∈ es, e ∈ adj u) (st : DState) (hist : ℚ × Nat → List (ℚ × Nat))
    (hc : HistCore adj src st hist (fun p v w => p = u ∧ st.dist u = d ∧ (v, w) ∈ es))
    (ht : HistTop u d st hist) :
    ∃ hist2, HistInv adj src (es.foldl (fun s e => relax u d s e) st) hist2 := by
  induction es generalizing st hist with
  | nil =>
    refine ⟨hist, hc.dist_le, hc.pq_key, hc.self, hc.pair, hc.root, ?_⟩
    intro v hp
    obtain ⟨p, D, w, h1, h2, h3, h4, h5, h6, h7, h8⟩ := hc.link v hp
    refine ⟨p, D, w, h1, h2, h3, h4, h5, h6, h7, fun hlt => ?_⟩
    rcases h8 hlt with h8 | ⟨_, _, hmem⟩
    · exact Or.inl h8
    · cases hmem
  | cons e es ih =>
    simp only [List.foldl_cons]
    obtain ⟨hist2, hc2, ht2⟩ := relax_hist (hes e (List.mem_cons_self _ _)) hc ht
    exact ih (fun x hx => hes x (List.mem_cons_of_mem _ hx)) _ hist2 hc2 ht2

theorem pop_hist_stale {adj : Graph} {src : Nat} {st : DState}
    {hist : ℚ × Nat → List (ℚ × Nat)} (hI : HistInv adj src st hist) {d : ℚ} {u : Nat}
    (htop : pqTop st.pq = some (d, u)) (hs : d > st.dist u) :
    HistInv adj src { st with pq := pqPop st.pq } hist := by
  refine ⟨hI.dist_le, fun e he => hI.pq_key e (mem_pqPop he),
    fun e he => hI.self e (mem_pqPop he),
    fun e1 he1 e2 he2 => hI.pair e1 (mem_pqPop he1) e2 (mem_pqPop he2), hI.root, ?_⟩
  intro v hp
  obtain ⟨p, D, w, h1, h2, h3, h4, h5, h6, h7, h8⟩ := hI.link v hp
  refine ⟨p, D, w, h1, h2, h3, h4, h5, h6, h7, fun hlt => ?_⟩
  rcases h8 hlt with h8 | h8
  · left
    refine mem_pqPop_of_ne htop h8 ?_
    intro heq
    simp only [Prod.mk.injEq] at heq
    rw [← heq.2, heq.1] at hs
    exact lt_irrefl _ hs
  · exact absurd h8 id

theorem pop_hist {adj : Graph} {src : Nat} {st : DState}
    {hist : ℚ × Nat → List (ℚ × Nat)} (hI : HistInv adj src st hist) {d : ℚ} {u : Nat}
    (htop : pqTop st.pq = some (d, u)) (hs : ¬ d > st.dist u) :
    HistCore adj src { st with pq := pqPop st.pq } hist
        (fun p v w => p = u ∧ st.dist u = d ∧ (v, w) ∈ adj u) ∧
      HistTop u d { st with pq := pqPop st.pq } hist := by
  have hmem := (pqTop_some htop).1
  have hmin := (pqTop_some htop).2
  have hkey := hI.pq_key (d, u) hmem
  have hdu : st.dist u = d := le_antisymm hkey.1 (not_lt.mp hs)
  refine ⟨⟨hI.dist_le, fun e he => hI.pq_key e (mem_pqPop he),
    fun e he => hI.self e (mem_pqPop he),
    fun e1 he1 e2 he2 => hI.pair e1 (mem_pqPop he1) e2 (mem_pqPop he2), hI.root, ?_⟩,
    ⟨hkey.1, hkey.2, fun hlt => absurd hlt (by rw [hdu]; exact lt_irrefl _),
      hI.self _ hmem, ?_⟩⟩
  · intro v hp
    obtain ⟨p, D, w, h1, h2, h3, h4, h5, h6, h7, h8⟩ := hI.link v hp
    refine ⟨p, D, w, h1, h2, h3, h4, h5, h6, h7, fun hlt => ?_⟩
    rcases h8 hlt with h8 | h8
    · by_cases heq : (st.dist p, p) = (d, u)
      · right
        simp only [Prod.mk.injEq] at heq
        refine ⟨heq.2, hdu, ?_⟩
        rw [← heq.2]; exact h2
      · exact Or.inl (mem_pqPop_of_ne htop h8 heq)
    · exact absurd h8 id
  · intro e2 he2
    have he2q := mem_pqPop he2
    have hle : d ≤ e2.1 := hmin e2 he2q
    constructor
    · intro E hE hE2
      have := hI.pair (d, u) hmem e2 he2q E hE hE2
      rwa [max_eq_right hle] at this
    · intro E hE hE2
      have := hI.pair e2 he2q (d, u) hmem E hE hE2
      rwa [max_eq_left hle] at this

/-- The loop keeps the invariant up to the pair it stops at. -/
theorem searchLoop_hist {adj : Graph} {src : Nat} (isDest : Nat → Bool) (fuel : Nat)
    (st : DState) (hist : ℚ × Nat → List (ℚ × Nat)) (hI : HistInv adj src st hist)
    (st2 : DState) (d : ℚ) (u : Nat)
    (hr : searchLoop adj isDest false fuel st = some (st2, some (d, u))) :
    ∃ st1 hist1, HistInv adj src st1 hist1 ∧ st2.dist = st1.dist ∧ st2.prev = st1.prev ∧
      pqTop st1.pq = some (d, u) ∧ st1.dist u = d := by
  induction fuel generalizing st hist with
  | zero => simp [searchLoop] at hr
  | succ fuel ih =>
    unfold searchLoop at hr
    cases htop : pqTop st.pq with
    | none => simp [htop] at hr
    | some m =>
      obtain ⟨d0, u0⟩ := m
      simp only [htop] at hr
      by_cases hs : d0 > st.dist u0
      · rw [if_pos hs] at hr
        exact ih _ hist (pop_hist_stale hI htop hs) hr
      · rw [if_neg hs] at hr
        by_cases hd : isDest u0 = true
        · rw [if_pos hd] at hr
          simp only [Option.some.injEq, Prod.mk.injEq] at hr
          obtain ⟨h1, h2, h3⟩ := hr
          subst h1 h2 h3
          have hkey := hI.pq_key (d0, u0) (pqTop_some htop).1
          exact ⟨st, hist, hI, rfl, rfl, htop, le_antisymm hkey.1 (not_lt.mp hs)⟩
        · rw [if_neg hd] at hr
          obtain ⟨hc, ht⟩ := pop_hist hI htop hs
          obtain ⟨hist2, hI2⟩ := foldl_relax_hist (adj u0) (fun _ h => h) _ hist hc ht
          simp only [Bool.false_eq_true, if_false] at hr
          exact ih _ hist2 hI2 hr

/-- Along the `prev` links from a vertex with a finite entry: either the chain is
tight, so that the entry is the cost of the chain, or some vertex of the chain is
waiting in the queue with a cost below that of a pair the entry descends from. -/
theorem walkBack_solid {adj : Graph} {src : Nat} {st : DState}
    {hist : ℚ × Nat → List (ℚ × Nat)} (hI : HistInv adj src st hist) (fuel : Nat) (v : Nat)
    (acc r : List Nat) (hv : st.dist v < DBL_MAX)
    (hr : walkBack st.prev fuel (v : Int) acc = some r) :
    ∃ p, r = acc ++ (v :: p) ∧
      (((∀ E ∈ hist (st.dist v, v), E.1 = st.dist E.2) ∧ RPath adj src (v :: p) (st.dist v)) ∨
        ∃ X ∈ st.pq, (∀ E ∈ hist X, E.1 = st.dist E.2) ∧
          ∃ E ∈ hist (st.dist v, v), X.1 < E.1 ∧ st.dist E.2 < E.1) := by
  induction fuel generalizing v acc with
  | zero => simp [walkBack] at hr
  | succ fuel ih =>
    unfold walkBack at hr
    have hne : ((v : Int) = -1) = False := by
      simp only [eq_iff_iff, iff_false]; omega
    simp only [hne, if_false, Int.toNat_ofNat] at hr
    by_cases hp : st.prev v = -1
    · rw [hp] at hr
      cases fuel with
      | zero => simp [walkBack] at hr
      | succ fuel =>
        unfold walkBack at hr
        simp only [if_true, Option.some.injEq] at hr
        obtain ⟨h1, h2, h3⟩ := hI.root v hp hv
        subst h1
        refine ⟨[], by rw [← hr], Or.inl ⟨?_, ?_⟩⟩
        · intro E hE
          rw [h2, h3, List.mem_singleton] at hE
          rw [hE]; exact h2.symm
        · rw [h2]; exact RPath.base
    · obtain ⟨p, D, w, h1, h2, h3, h4, h5, h6, h7, h8⟩ := hI.link v hp
      rw [h1] at hr
      obtain ⟨q, hq1, hq2⟩ := ih p _ (lt_of_le_of_lt h4 h5) hr
      refine ⟨p :: q, by rw [hq1]; simp, ?_⟩
      by_cases hlt : st.dist p < D
      · have hpend : (st.dist p, p) ∈ st.pq := by
          rcases h8 hlt with h | h
          · exact h
          · exact absurd h id
        have hE : (D, p) ∈ hist (st.dist v, v) := by
          rw [h6]; exact List.mem_cons_of_mem _ h7
        right
        rcases hq2 with ⟨hcur, _⟩ | ⟨X, hX, hXcur, E, hEm, hXE, hEold⟩
        · exact ⟨(st.dist p, p), hpend, hcur, (D, p), hE, hlt, hlt⟩
        · have hnot : E ∉ hist X := fun hm => absurd (hXcur E hm) (ne_of_gt hEold)
          have hle := hI.pair (st.dist p, p) hpend X hX E hEm hnot
          have hEp : E.1 ≤ st.dist p := by
            rcases le_max_iff.1 hle with h | h
            · exact h
            · exact absurd hXE (not_lt.mpr h)
          exact ⟨X, hX, hXcur, (D, p), hE, lt_of_lt_of_le hXE (le_trans hEp (le_of_lt hlt)), hlt⟩
      · have hD : D = st.dist p := le_antisymm (not_lt.mp hlt) h4
        subst hD
        rcases hq2 with ⟨hcur, hpath⟩ | ⟨X, hX, hXcur, E, hEm, hXE, hEold⟩
        · left
          constructor
          · intro E hE
            rw [h6] at hE
            rcases List.mem_cons.1 hE with rfl | hE
            · rfl
            · exact hcur E hE
          · rw [h3]; exact RPath.step hpath h2
        · right
          exact ⟨X, hX, hXcur, E, by rw [h6]; exact List.mem_cons_of_mem _ hEm, hXE, hEold⟩

/-- The cost the search loop stops with is the cost of the chain of `prev` links from
the dequeued vertex, for every weight function. -/
theorem searchLoop_tight {adj : Graph} {src : Nat} (isDest : Nat → Bool) (fuel : Nat)
    (st2 : DState) (d : ℚ) (u : Nat)
    (hr : searchLoop adj isDest false fuel (initState src) = some (st2, some (d, u)))
    (fuel2 : Nat) (r : List Nat) (hw : walkBack st2.prev fuel2 (u : Int) [] = some r) :
    ∃ p, r = u :: p ∧ RPath adj src (u :: p) d := by
  obtain ⟨st1, hist1, hI, hdist, hprev, htop, hdu⟩ :=
    searchLoop_hist isDest fuel _ _ (initState_hist adj src) st2 d u hr
  rw [hprev] at hw
  have hmem := (pqTop_some htop).1
  have hmin := (pqTop_some htop).2
  have hfin : st1.dist u < DBL_MAX := by rw [hdu]; exact (hI.pq_key _ hmem).2
  obtain ⟨p, hp1, hp2⟩ := walkBack_solid hI fuel2 u [] r hfin hw
  rw [List.nil_append] at hp1
  refine ⟨p, hp1, ?_⟩
  rcases hp2 with ⟨_, hpath⟩ | ⟨X, hX, hXcur, E, hEm, hXE, hEold⟩
  · rw [hdu] at hpath; exact hpath
  · exfalso
    rw [hdu] at hEm
    have hnot : E ∉ hist1 X := fun hm => absurd (hXcur E hm) (ne_of_gt hEold)
    have hle := hI.pair (d, u) hmem X hX E hEm hnot
    rw [max_eq_right (hmin X hX)] at hle
    exact absurd hXE (not_lt.mpr hle)


/-- The transitions out of a state are the relaxations the loop body attempts there. -/
theorem fastTransitions_entered (deps : Deps) (S : SImplementation) (destIdx a : Nat)
    (e : Nat × ℚ) (h : e ∈ fastTransitions deps S destIdx a) :
    ∃ kind, Entered deps S destIdx a e.1 e.2 kind := by
  unfold fastTransitions at h
  simp only [List.mem_append, List.mem_singleton] at h
  rcases h with (h | h) | h
  · by_cases hm : a % 2 = 0
    · simp only [hm, if_true, List.mem_map] at h
      obtain ⟨x, hx, rfl⟩ := h
      exact ⟨EntryKind.walkEdge, hm, x, hx, rfl, rfl⟩
    · simp only [hm, if_false, List.mem_map] at h
      obtain ⟨x, hx, rfl⟩ := h
      exact ⟨EntryKind.bikeEdge, hm, x, hx, rfl, rfl⟩
  · by_cases hm : a % 2 = 0
    · simp only [hm, if_true] at h
      subst h
      exact ⟨EntryKind.swapToBike, hm, rfl, rfl⟩
    · simp only [hm, if_false] at h
      subst h
      exact ⟨EntryKind.swapToWalk, hm, rfl, rfl⟩
  · by_cases hm : a % 2 = 0
    · simp only [hm, if_true] at h
      unfold busTransitions at h
      cases hb : S.busIndexer.StopByNodeID (idAt S.sortedNodes (a / 2)) with
      | none => simp [hb] at h
      | some busStop =>
        simp only [hb, List.mem_filterMap, Option.map_eq_some'] at h
        obtain ⟨route, hr, c, hc, rfl⟩ := h
        exact ⟨EntryKind.busSegment, hm, busStop, route, c, hb, hr, hc, rfl, rfl⟩
    · simp [hm] at h

theorem RPath_transChain (deps : Deps) (S : SImplementation) (destIdx srcState : Nat)
    (l : List Nat) (W : ℚ) (h : RPath (fastTransitions deps S destIdx) srcState l W) :
    TransChain deps S destIdx srcState l W := by
  induction h with
  | base => exact TransChain.start
  | step _ he ih =>
    obtain ⟨kind, hk⟩ := fastTransitions_entered deps S destIdx _ _ he
    exact TransChain.step ih hk

/-- C37: for every finite result `t` of `FindFastestPath(src, dest)`, whatever the
weights, the states behind the emitted trip (the chain of `prev` links from the dequeued
state, reversed) form a chain of the planner's own transitions from `(src, Walk)`: every
state after the first is the target, from the state before it, of a walking edge in Walk
mode, of a biking edge in Bike mode, of a mode swap at cost 0 at the same node, or of a
bus relaxation, and `t` is the sum of the costs of these transitions. -/
theorem C37_chain_cost (deps : Deps) (cfg : SConfiguration) (src dest : TNodeID)
    (fuel : Nat) (trip : List TTripStep) (cost : ℚ) (trip2 : List TTripStep)
    (h : (SImplementation.create deps cfg).FindFastestPath deps fuel src dest trip =
      some (cost, trip2))
    (hfin : cost < DBL_MAX) :
    ∃ s t st u p, (SImplementation.create deps cfg).nodeIndexMap src = some s ∧
      (SImplementation.create deps cfg).nodeIndexMap dest = some t ∧
      fastestLoop deps (SImplementation.create deps cfg) dest t fuel
        { dist := Function.update (fun _ => DBL_MAX) (s * 2 + 0) 0, prev := fun _ => -1,
          prevEdgeType := fun _ => -1, pq := [(0, s * 2 + 0)] } = some (st, some (cost, u)) ∧
      walkBack st.prev fuel (u : Int) [] = some (u :: p) ∧
      trip2 = (u :: p).reverse.map (tripStep (SImplementation.create deps cfg) st) ∧
      TransChain deps (SImplementation.create deps cfg) t (s * 2 + 0) (u :: p) cost := by
  obtain ⟨s, t, st, u, statePath, hs, ht, hl, hw, htrip⟩ :=
    FindFastestPath_walkBack deps _ src dest fuel trip cost trip2 h hfin
  have hcore := fastestLoop_core deps (SImplementation.create deps cfg) dest t fuel
    { dist := Function.update (fun _ => DBL_MAX) (s * 2 + 0) 0, prev := fun _ => -1,
      prevEdgeType := fun _ => -1, pq := [(0, s * 2 + 0)] }
  rw [hl] at hcore
  change some (st.core, some (cost, u)) = searchLoop _ _ false fuel
    (initState (s * 2 + 0)) at hcore
  obtain ⟨p, hp1, hp2⟩ := searchLoop_tight (atDest (SImplementation.create deps cfg) dest)
    fuel st.core cost u hcore.symm fuel statePath hw
  subst hp1
  exact ⟨s, t, st, u, p, hs, ht, hl, hw, htrip, RPath_transChain deps _ t _ _ _ hp2⟩

/-- C37, witness: the bus example, query (1, 2): the trip `(Walk, 1), (Bus, 2)` at
cost `1 / 120 + 69 / 25`. -/
theorem C37_witness :
    plannerBus.FindFastestPath sampleDeps 9 1 2 [] =
      some (1 / 120 + 69 / 25,
        [(ETransportationMode.Walk, 1), (ETransportationMode.Bus, 2)]) ∧
    (1 / 120 + 69 / 25 : ℚ) < DBL_MAX ∧
    ∃ s t st u p, plannerBus.nodeIndexMap 1 = some s ∧ plannerBus.nodeIndexMap 2 = some t ∧
      fastestLoop sampleDeps plannerBus 2 t 9
        { dist := Function.update (fun _ => DBL_MAX) (s * 2 + 0) 0, prev := fun _ => -1,
          prevEdgeType := fun _ => -1, pq := [(0, s * 2 + 0)] } =
        some (st, some (1 / 120 + 69 / 25, u)) ∧
      walkBack st.prev 9 (u : Int) [] = some (u :: p) ∧
      [(ETransportationMode.Walk, 1), (ETransportationMode.Bus, 2)] =
        (u :: p).reverse.map (tripStep plannerBus st) ∧
      TransChain sampleDeps plannerBus t (s * 2 + 0) (u :: p) (1 / 120 + 69 / 25) :=
  ⟨by decide!, by unfold DBL_MAX; norm_num,
    C37_chain_cost sampleDeps (defaultConfig mapBus busLine) 1 2 9 []
      (1 / 120 + 69 / 25) _ (by decide!) (by unfold DBL_MAX; norm_num)⟩


/-! ## The bus relaxation -/

/-- C32 (the code at the failing input): nodes 1, 2, 3 lie one degree apart on a line;
the bus system lists stop 5 (node 2), stop 10 (node 1), stop 20 (node 3) in this order
and has the route R = [10, 20].  By the claim the bus relaxation from position 0 to
position 1 of R targets node 3 (index 2) and adds
`bus_stop_time + distance(1, 3) / default_speed_limit = 1/120 + 138/25`.  The code
relaxes node 1 itself (index 0) and adds `1/120 + 69/25`: position 1 is resolved to the
second stop of the bus system, stop 10 at node 1, and the distance is taken between the
first and the second stop of the bus system, at nodes 2 and 1.  With the stops listed in
the order of the route the code does what the claim says. -/
theorem C32_bus_relaxation_indexing :
    currentIndexInRoute ⟨"R", [10, 20]⟩ 10 = some 0 ∧
    stopNodeIdx plannerDetour ((⟨"R", [10, 20]⟩ : SRoute).GetStopID 1) = some 2 ∧
    (defaultConfig mapShortcut busDetour).BusStopTime +
      specBusMiles sampleDeps plannerDetour ⟨"R", [10, 20]⟩ 0 1 /
        (defaultConfig mapShortcut busDetour).DefaultSpeedLimit = 1 / 120 + 138 / 25 ∧
    busCandidate sampleDeps plannerDetour 2 ⟨10, 1⟩ ⟨"R", [10, 20]⟩ =
      some (0, 1 / 120 + 69 / 25) ∧
    busTransitions sampleDeps plannerDetour 2 0 = [(0 * 2 + 0, 1 / 120 + 69 / 25)] ∧
    plannerDetour.FindFastestPath sampleDeps 12 1 3 [] =
      some (69 / 4, [(ETransportationMode.Walk, 1), (ETransportationMode.Bike, 1),
        (ETransportationMode.Bike, 2), (ETransportationMode.Bike, 3)]) ∧
    busCandidate sampleDeps plannerShortcut 2 ⟨10, 1⟩ ⟨"R", [10, 20]⟩ =
      some (2, 1 / 120 + 138 / 25) :=
  ⟨by decide, by decide!, by decide!, by decide!, by decide!, by decide!, by decide!⟩


theorem bestAlightStep_eq (deps : Deps) (S : SImplementation) (destIdx cur : Nat)
    (best : BestAlight) (j : Nat) :
    bestAlightStep deps S destIdx cur best j =
      match alightCandidate deps S destIdx cur j with
      | none => best
      | some c =>
        if c.2.2 < best.bestRemainingDist then
          { bestRemainingDist := c.2.2, bestAlightNode := c.1, bestBusTime := c.2.1 }
        else best := by
  unfold bestAlightStep alightCandidate
  cases h1 : S.the_config.BusSystem.StopByIndex j with
  | none => rfl
  | some alightStop =>
    simp only
    cases h2 : S.nodeIndexMap alightStop.NodeID with
    | none => rfl
    | some idx => rfl

/-- The alight loop keeps the first candidate of least remaining distance, if one lies
below the initial bound. -/
theorem alightFold_first_least (cand : Nat → Option (Nat × ℚ × ℚ)) (l : List Nat)
    (b0 : BestAlight) :
    (l.foldl (fun (best : BestAlight) j =>
        match cand j with
        | none => best
        | some c =>
          if c.2.2 < best.bestRemainingDist then
            { bestRemainingDist := c.2.2, bestAlightNode := c.1, bestBusTime := c.2.1 }
          else best) b0 = b0 ∧
      ∀ j ∈ l, ∀ c, cand j = some c → b0.bestRemainingDist ≤ c.2.2) ∨
    ∃ l1 j l2 n bt rem, l = l1 ++ j :: l2 ∧ cand j = some (n, bt, rem) ∧
      l.foldl (fun (best : BestAlight) j =>
        match cand j with
        | none => best
        | some c =>
          if c.2.2 < best.bestRemainingDist then
            { bestRemainingDist := c.2.2, bestAlightNode := c.1, bestBusTime := c.2.1 }
          else best) b0 =
        { bestRemainingDist := rem, bestAlightNode := n, bestBusTime := bt } ∧
      rem < b0.bestRemainingDist ∧
      (∀ j2 ∈ l1, ∀ c, cand j2 = some c → rem < c.2.2) ∧
      (∀ j2 ∈ l2, ∀ c, cand j2 = some c → rem ≤ c.2.2) := by
  induction l generalizing b0 with
  | nil => exact Or.inl ⟨rfl, fun j hj => by cases hj⟩
  | cons j l ih =>
    simp only [List.foldl_cons]
    cases hc : cand j with
    | none =>
      simp only
      rcases ih b0 with ⟨h1, h2⟩ | ⟨l1, j1, l2, n, bt, rem, h1, h2, h3, h4, h5, h6⟩
      · left
        refine ⟨h1, ?_⟩
        intro j2 hj2 c hc2
        rcases List.mem_cons.1 hj2 with rfl | hj2
        · rw [hc] at hc2; cases hc2
        · exact h2 j2 hj2 c hc2
      · right
        refine ⟨j :: l1, j1, l2, n, bt, rem, by rw [h1]; rfl, h2, h3, h4, ?_, h6⟩
        intro j2 hj2 c hc2
        rcases List.mem_cons.1 hj2 with rfl | hj2
        · rw [hc] at hc2; cases hc2
        · exact h5 j2 hj2 c hc2
    | some c0 =>
      simp only
      by_cases hlt : c0.2.2 < b0.bestRemainingDist
      · rw [if_pos hlt]
        rcases ih { bestRemainingDist := c0.2.2, bestAlightNode := c0.1, bestBusTime := c0.2.1 }
          with ⟨h1, h2⟩ | ⟨l1, j1, l2, n, bt, rem, h1, h2, h3, h4, h5, h6⟩
        · right
          exact ⟨[], j, l, c0.1, c0.2.1, c0.2.2, rfl, hc, h1, hlt,
            fun j2 hj2 => absurd hj2 (List.not_mem_nil j2), h2⟩
        · right
          refine ⟨j :: l1, j1, l2, n, bt, rem, by rw [h1]; rfl, h2, h3, lt_trans h4 hlt, ?_, h6⟩
          intro j2 hj2 c hc2
          rcases List.mem_cons.1 hj2 with rfl | hj2
          · rw [hc] at hc2
            simp only [Option.some.injEq] at hc2
            rw [← hc2]; exact h4
          · exact h5 j2 hj2 c hc2
      · rw [if_neg hlt]
        rcases ih b0 with ⟨h1, h2⟩ | ⟨l1, j1, l2, n, bt, rem, h1, h2, h3, h4, h5, h6⟩
        · left
          refine ⟨h1, ?_⟩
          intro j2 hj2 c hc2
          rcases List.mem_cons.1 hj2 with rfl | hj2
          · rw [hc] at hc2
            simp only [Option.some.injEq] at hc2
            rw [← hc2]; exact not_lt.mp hlt
          · exact h2 j2 hj2 c hc2
        · right
          refine ⟨j :: l1, j1, l2, n, bt, rem, by rw [h1]; rfl, h2, h3, h4, ?_, h6⟩
          intro j2 hj2 c hc2
          rcases List.mem_cons.1 hj2 with rfl | hj2
          · rw [hc] at hc2
            simp only [Option.some.injEq] at hc2
            rw [← hc2]; exact lt_of_lt_of_le h4 (not_lt.mp hlt)
          · exact h5 j2 hj2 c hc2

theorem range'_split {s n : Nat} {l1 l2 : List Nat} {j : Nat}
    (h : List.range' s n = l1 ++ j :: l2) :
    s ≤ j ∧ j < s + n ∧ (∀ x ∈ l1, x < j) ∧ ∀ x ∈ l2, j < x := by
  have hmem : j ∈ List.range' s n := by rw [h]; simp
  have hj := List.mem_range'_1.1 hmem
  have hsorted : List.Pairwise (· < ·) (List.range' s n) := List.pairwise_lt_range' s n
  rw [h] at hsorted
  rw [List.pairwise_append] at hsorted
  obtain ⟨_, h2, h3⟩ := hsorted
  refine ⟨hj.1, hj.2, fun x hx => h3 x hx j (List.mem_cons_self _ _), ?_⟩
  intro x hx
  exact (List.pairwise_cons.1 h2).1 x hx

/-- The bus relaxation made for a route: the first downstream position of least
remaining distance. -/
theorem busCandidate_first_least (deps : Deps) (S : SImplementation) (destIdx : Nat)
    (busStop : SStop) (route : SRoute) (node : Nat) (cost : ℚ)
    (h : busCandidate deps S destIdx busStop route = some (node, cost)) :
    ∃ cur j bt rem, currentIndexInRoute route busStop.ID = some cur ∧ cur < j ∧
      j < route.StopCount ∧ alightCandidate deps S destIdx cur j = some (node, bt, rem) ∧
      cost = S.the_config.BusStopTime + bt ∧ rem < DBL_MAX ∧
      ∀ j2 c, cur < j2 → j2 < route.StopCount →
        alightCandidate deps S destIdx cur j2 = some c →
        rem ≤ c.2.2 ∧ (j2 < j → rem < c.2.2) := by
  unfold busCandidate at h
  cases hcur : currentIndexInRoute route busStop.ID with
  | none => simp [hcur] at h
  | some cur =>
    simp only [hcur] at h
    by_cases hlast : cur + 1 < route.StopCount
    · rw [if_pos hlast] at h
      have hfun : bestAlightStep deps S destIdx cur = fun (best : BestAlight) j =>
          match alightCandidate deps S destIdx cur j with
          | none => best
          | some c =>
            if c.2.2 < best.bestRemainingDist then
              { bestRemainingDist := c.2.2, bestAlightNode := c.1, bestBusTime := c.2.1 }
            else best := by
        funext best j
        exact bestAlightStep_eq deps S destIdx cur best j
      rw [hfun] at h
      rcases alightFold_first_least (alightCandidate deps S destIdx cur)
        (List.range' (cur + 1) (route.StopCount - (cur + 1)))
        { bestRemainingDist := DBL_MAX, bestAlightNode := 0, bestBusTime := 0 }
        with ⟨h1, _⟩ | ⟨l1, j, l2, n, bt, rem, h1, h2, h3, h4, h5, h6⟩
      · rw [h1] at h
        simp at h
      · rw [h3] at h
        simp only at h
        rw [if_pos h4] at h
        simp only [Option.some.injEq, Prod.mk.injEq] at h
        obtain ⟨hn, hcost⟩ := h
        subst hn
        obtain ⟨r1, r2, r3, r4⟩ := range'_split h1
        refine ⟨cur, j, bt, rem, rfl, by omega, by omega, h2, hcost.symm, h4, ?_⟩
        intro j2 c hj2 hj2b hc
        have hmem : j2 ∈ List.range' (cur + 1) (route.StopCount - (cur + 1)) :=
          List.mem_range'_1.2 ⟨by omega, by omega⟩
        rw [h1] at hmem
        rcases List.mem_append.1 hmem with hm | hm
        · exact ⟨le_of_lt (h5 j2 hm c hc), fun _ => h5 j2 hm c hc⟩
        · rcases List.mem_cons.1 hm with rfl | hm
          · rw [h2] at hc
            simp only [Option.some.injEq] at hc
            rw [← hc]
            exact ⟨le_refl _, fun hlt => absurd hlt (lt_irrefl _)⟩
          · exact ⟨h6 j2 hm c hc, fun hlt => absurd hlt (not_lt.mpr (le_of_lt (r4 j2 hm)))⟩
    · rw [if_neg hlast] at h
      cases h


/-- The alight loop does make a bus relaxation for a route when some downstream position
has a known alight node whose remaining distance is below the initial bound. -/
theorem busCandidate_exists (deps : Deps) (S : SImplementation) (destIdx : Nat)
    (busStop : SStop) (route : SRoute) (cur j0 : Nat) (c0 : Nat × ℚ × ℚ)
    (hcur : currentIndexInRoute route busStop.ID = some cur) (h1 : cur < j0)
    (h2 : j0 < route.StopCount) (hc : alightCandidate deps S destIdx cur j0 = some c0)
    (hrem : c0.2.2 < DBL_MAX) :
    ∃ node cost, busCandidate deps S destIdx busStop route = some (node, cost) := by
  cases hb : busCandidate deps S destIdx busStop route with
  | some c => exact ⟨c.1, c.2, rfl⟩
  | none =>
    exfalso
    unfold busCandidate at hb
    simp only [hcur] at hb
    rw [if_pos (by omega)] at hb
    have hfun : bestAlightStep deps S destIdx cur = fun (best : BestAlight) j =>
        match alightCandidate deps S destIdx cur j with
        | none => best
        | some c =>
          if c.2.2 < best.bestRemainingDist then
            { bestRemainingDist := c.2.2, bestAlightNode := c.1, bestBusTime := c.2.1 }
          else best := by
      funext best j
      exact bestAlightStep_eq deps S destIdx cur best j
    rcases alightFold_first_least (alightCandidate deps S destIdx cur)
      (List.range' (cur + 1) (route.StopCount - (cur + 1)))
      { bestRemainingDist := DBL_MAX, bestAlightNode := 0, bestBusTime := 0 }
      with ⟨_, hall⟩ | ⟨l1, j, l2, n, bt, rem, _, _, h3, h4, _, _⟩
    · have hmem : j0 ∈ List.range' (cur + 1) (route.StopCount - (cur + 1)) :=
        List.mem_range'_1.2 ⟨by omega, by omega⟩
      exact absurd hrem (not_lt.mpr (hall j0 hmem c0 hc))
    · have h3b : List.foldl (bestAlightStep deps S destIdx cur)
          { bestRemainingDist := DBL_MAX, bestAlightNode := 0, bestBusTime := 0 }
          (List.range' (cur + 1) (route.StopCount - (cur + 1))) =
          { bestRemainingDist := rem, bestAlightNode := n, bestBusTime := bt } := by
        rw [hfun]
        exact h3
      rw [h3b] at hb
      simp only at hb
      rw [if_pos h4] at hb
      cases hb

/-- The bus relaxation made for a route goes to the first downstream position of least
remaining distance: that position determines the alight node and the bus cost. -/
theorem busCandidate_of_first_least (deps : Deps) (S : SImplementation) (destIdx : Nat)
    (busStop : SStop) (route : SRoute) (cur j node : Nat) (bt rem : ℚ)
    (hcur : currentIndexInRoute route busStop.ID = some cur) (h1 : cur < j)
    (h2 : j < route.StopCount)
    (hc : alightCandidate deps S destIdx cur j = some (node, bt, rem)) (hrem : rem < DBL_MAX)
    (hbest : ∀ j2 c, cur < j2 → j2 < route.StopCount →
      alightCandidate deps S destIdx cur j2 = some c → rem ≤ c.2.2 ∧ (j2 < j → rem < c.2.2)) :
    busCandidate deps S destIdx busStop route =
      some (node, S.the_config.BusStopTime + bt) := by
  obtain ⟨n2, cost2, hb⟩ := busCandidate_exists deps S destIdx busStop route cur j
    (node, bt, rem) hcur h1 h2 hc hrem
  obtain ⟨cur2, j2, bt2, rem2, g1, g2, g3, g4, g5, g6, g7⟩ :=
    busCandidate_first_least deps S destIdx busStop route n2 cost2 hb
  rw [hcur] at g1
  obtain rfl : cur = cur2 := Option.some.inj g1
  have hjj : j2 = j := by
    rcases Nat.lt_trichotomy j2 j with hlt | heq | hgt
    · have a1 := (hbest j2 _ g2 g3 g4).2 hlt
      have a2 := (g7 j _ h1 h2 hc).1
      exact absurd a1 (not_lt.mpr a2)
    · exact heq
    · have a1 := (g7 j _ h1 h2 hc).2 hgt
      have a2 := (hbest j2 _ g2 g3 g4).1
      exact absurd a1 (not_lt.mpr a2)
  subst hjj
  rw [hc] at g4
  simp only [Option.some.injEq, Prod.mk.injEq] at g4
  rw [hb, g5, ← g4.1, ← g4.2.1]

theorem mem_busTransitions_of (deps : Deps) (S : SImplementation) (destIdx curNode : Nat)
    (busStop : SStop) (route : SRoute) (c : Nat × ℚ)
    (hb : S.busIndexer.StopByNodeID (idAt S.sortedNodes curNode) = some busStop)
    (hr : route ∈ routesByIndex S.the_config.BusSystem)
    (hc : busCandidate deps S destIdx busStop route = some c) :
    (c.1 * 2 + 0, c.2) ∈ busTransitions deps S destIdx curNode := by
  unfold busTransitions
  simp only [hb, List.mem_filterMap, Option.map_eq_some']
  exact ⟨route, hr, c, hc, rfl⟩

theorem busTransitions_sub (deps : Deps) (S : SImplementation) (destIdx cur : Nat)
    (hm : cur % 2 = 0) (e : Nat × ℚ) (h : e ∈ busTransitions deps S destIdx (cur / 2)) :
    e ∈ fastTransitions deps S destIdx cur := by
  unfold fastTransitions
  simp only [hm, if_true, List.mem_append]
  exact Or.inr h

theorem relax_dist_le (u : Nat) (base : ℚ) (st : DState) (e : Nat × ℚ) (v : Nat) :
    (relax u base st e).dist v ≤ st.dist v := by
  unfold relax
  by_cases hlt : base + e.2 < st.dist e.1
  · rw [if_pos hlt]
    simp only
    by_cases hv : v = e.1
    · subst hv
      rw [Function.update_same]
      exact le_of_lt hlt
    · rw [Function.update_noteq hv]
  · rw [if_neg hlt]

theorem relax_dist_target (u : Nat) (base : ℚ) (st : DState) (e : Nat × ℚ) :
    (relax u base st e).dist e.1 ≤ base + e.2 := by
  unfold relax
  by_cases hlt : base + e.2 < st.dist e.1
  · rw [if_pos hlt]
    simp only
    rw [Function.update_same]
  · rw [if_neg hlt]
    exact not_lt.mp hlt

theorem foldl_relax_dist_le (u : Nat) (base : ℚ) (es : List (Nat × ℚ)) (st : DState)
    (v : Nat) : (es.foldl (fun s e => relax u base s e) st).dist v ≤ st.dist v := by
  induction es generalizing st with
  | nil => exact le_refl _
  | cons e es ih =>
    rw [List.foldl_cons]
    exact le_trans (ih _) (relax_dist_le u base st e v)

/-- After the relaxations of a list have run, the target of each of them holds at most
the cost through it. -/
theorem foldl_relax_dist_mem (u : Nat) (base : ℚ) (es : List (Nat × ℚ)) (st : DState)
    (e : Nat × ℚ) (he : e ∈ es) :
    (es.foldl (fun s e => relax u base s e) st).dist e.1 ≤ base + e.2 := by
  induction es generalizing st with
  | nil => cases he
  | cons x es ih =>
    rw [List.foldl_cons]
    rcases List.mem_cons.1 he with rfl | he
    · exact le_trans (foldl_relax_dist_le u base es _ e.1) (relax_dist_target u base st e)
    · exact ih _ he

/-- C33 (amended): what the loop body does at a state is to relax, in order, the
walking or biking edges, the mode swap and the bus transitions; at `(u, Walk)` there is
at most one bus transition per route of the bus system; each of them, made for a
route that holds the id of the stop at `u` at position `cur`, goes to the alight node of
one position `j > cur` of that route, the first one among the downstream positions whose
alight node has the least remaining distance to the destination, with the bus cost of
that position; and that relaxation is made: whenever a route through the stop at `u` has
a downstream position with a known alight node and a remaining distance below the
sentinel, the bus transition to the first position of least remaining distance is among
the bus transitions at `u`, it is the one made for that route, and after the loop body
has run at `(u, Walk)` with cost `curCost` the target state holds at most
`curCost` plus the bus cost. -/
theorem C33_one_alight_per_route (deps : Deps) (S : SImplementation) (destIdx : Nat) :
    (∀ curCost cur st, (fastestStep deps S destIdx curCost cur st).core =
      (fastTransitions deps S destIdx cur).foldl (fun s e => relax cur curCost s e) st.core) ∧
    (∀ curNode, (busTransitions deps S destIdx curNode).length ≤
      S.the_config.BusSystem.RouteCount) ∧
    (∀ curNode e, e ∈ busTransitions deps S destIdx curNode →
      ∃ busStop route cur j node bt rem,
        S.busIndexer.StopByNodeID (idAt S.sortedNodes curNode) = some busStop ∧
        route ∈ routesByIndex S.the_config.BusSystem ∧
        currentIndexInRoute route busStop.ID = some cur ∧ cur < j ∧ j < route.StopCount ∧
        alightCandidate deps S destIdx cur j = some (node, bt, rem) ∧
        e = (node * 2 + 0, S.the_config.BusStopTime + bt) ∧ rem < DBL_MAX ∧
        ∀ j2 c, cur < j2 → j2 < route.StopCount →
          alightCandidate deps S destIdx cur j2 = some c →
          rem ≤ c.2.2 ∧ (j2 < j → rem < c.2.2)) ∧
    (∀ curNode busStop route cur j0 c0,
      S.busIndexer.StopByNodeID (idAt S.sortedNodes curNode) = some busStop →
      route ∈ routesByIndex S.the_config.BusSystem →
      currentIndexInRoute route busStop.ID = some cur → cur < j0 → j0 < route.StopCount →
      alightCandidate deps S destIdx cur j0 = some c0 → c0.2.2 < DBL_MAX →
      ∃ j node bt rem, cur < j ∧ j < route.StopCount ∧
        alightCandidate deps S destIdx cur j = some (node, bt, rem) ∧ rem < DBL_MAX ∧
        (∀ j2 c, cur < j2 → j2 < route.StopCount →
          alightCandidate deps S destIdx cur j2 = some c →
          rem ≤ c.2.2 ∧ (j2 < j → rem < c.2.2)) ∧
        busCandidate deps S destIdx busStop route =
          some (node, S.the_config.BusStopTime + bt) ∧
        (node * 2 + 0, S.the_config.BusStopTime + bt) ∈
          busTransitions deps S destIdx curNode) ∧
    (∀ curNode busStop route cur j node bt rem,
      S.busIndexer.StopByNodeID (idAt S.sortedNodes curNode) = some busStop →
      route ∈ routesByIndex S.the_config.BusSystem →
      currentIndexInRoute route busStop.ID = some cur → cur < j → j < route.StopCount →
      alightCandidate deps S destIdx cur j = some (node, bt, rem) → rem < DBL_MAX →
      (∀ j2 c, cur < j2 → j2 < route.StopCount →
        alightCandidate deps S destIdx cur j2 = some c →
        rem ≤ c.2.2 ∧ (j2 < j → rem < c.2.2)) →
      busCandidate deps S destIdx busStop route =
        some (node, S.the_config.BusStopTime + bt) ∧
      (node * 2 + 0, S.the_config.BusStopTime + bt) ∈
        busTransitions deps S destIdx curNode) ∧
    ∀ curCost cur st, cur % 2 = 0 → ∀ e, e ∈ busTransitions deps S destIdx (cur / 2) →
      (fastestStep deps S destIdx curCost cur st).dist e.1 ≤ curCost + e.2 := by
  refine ⟨fun curCost cur st => fastestStep_core deps S destIdx curCost cur st, ?_, ?_, ?_,
    ?_, ?_⟩
  · intro curNode
    unfold busTransitions
    cases S.busIndexer.StopByNodeID (idAt S.sortedNodes curNode) with
    | none => exact Nat.zero_le _
    | some busStop =>
      simp only
      refine le_trans (List.length_filterMap_le _ _) ?_
      unfold routesByIndex
      refine le_trans (List.length_filterMap_le _ _) ?_
      rw [List.length_range]
  · intro curNode e he
    unfold busTransitions at he
    cases hb : S.busIndexer.StopByNodeID (idAt S.sortedNodes curNode) with
    | none => simp [hb] at he
    | some busStop =>
      simp only [hb, List.mem_filterMap, Option.map_eq_some'] at he
      obtain ⟨route, hr, c, hc, rfl⟩ := he
      obtain ⟨cur, j, bt, rem, h1, h2, h3, h4, h5, h6, h7⟩ :=
        busCandidate_first_least deps S destIdx busStop route c.1 c.2 hc
      exact ⟨busStop, route, cur, j, c.1, bt, rem, rfl, hr, h1, h2, h3, h4, by rw [h5], h6, h7⟩
  · intro curNode busStop route cur j0 c0 hb hr hcur h1 h2 hc hrem
    obtain ⟨node, cost, hbc⟩ :=
      busCandidate_exists deps S destIdx busStop route cur j0 c0 hcur h1 h2 hc hrem
    obtain ⟨cur2, j, bt, rem, g1, g2, g3, g4, g5, g6, g7⟩ :=
      busCandidate_first_least deps S destIdx busStop route node cost hbc
    rw [hcur] at g1
    obtain rfl : cur = cur2 := Option.some.inj g1
    subst g5
    exact ⟨j, node, bt, rem, g2, g3, g4, g6, g7, hbc,
      mem_busTransitions_of deps S destIdx curNode busStop route _ hb hr hbc⟩
  · intro curNode busStop route cur j node bt rem hb hr hcur h1 h2 hc hrem hbest
    have hbc := busCandidate_of_first_least deps S destIdx busStop route cur j node bt rem
      hcur h1 h2 hc hrem hbest
    exact ⟨hbc, mem_busTransitions_of deps S destIdx curNode busStop route _ hb hr hbc⟩
  · intro curCost cur st hm e he
    have hcore := fastestStep_core deps S destIdx curCost cur st
    have hd : (fastestStep deps S destIdx curCost cur st).dist =
        ((fastTransitions deps S destIdx cur).foldl (fun s e => relax cur curCost s e)
          st.core).dist := by
      rw [← hcore]
      rfl
    rw [hd]
    exact foldl_relax_dist_mem cur curCost _ _ e (busTransitions_sub deps S destIdx cur hm e he)

/-- C33, witness: the bus example with destination node 4 (index 3): at (node 1, Walk)
the one bus transition goes to node 3 (index 2), the first downstream position of least
remaining distance, and the loop body leaves at most the bus cost at (node 3, Walk). -/
theorem C33_witness :
    ((2 * 2 + 0, 1 / 120 + 207 / 25) : Nat × ℚ) ∈ busTransitions sampleDeps plannerBus 3 0 ∧
    (∃ busStop route cur j node bt rem,
      plannerBus.busIndexer.StopByNodeID (idAt plannerBus.sortedNodes 0) = some busStop ∧
      route ∈ routesByIndex plannerBus.the_config.BusSystem ∧
      currentIndexInRoute route busStop.ID = some cur ∧ cur < j ∧ j < route.StopCount ∧
      alightCandidate sampleDeps plannerBus 3 cur j = some (node, bt, rem) ∧
      ((2 * 2 + 0, 1 / 120 + 207 / 25) : Nat × ℚ) =
        (node * 2 + 0, plannerBus.the_config.BusStopTime + bt) ∧ rem < DBL_MAX ∧
      ∀ j2 c, cur < j2 → j2 < route.StopCount →
        alightCandidate sampleDeps plannerBus 3 cur j2 = some c →
        rem ≤ c.2.2 ∧ (j2 < j → rem < c.2.2)) ∧
    (plannerBus.busIndexer.StopByNodeID (idAt plannerBus.sortedNodes 0) = some ⟨101, 1⟩ ∧
      (⟨"R", [101, 102, 103]⟩ : SRoute) ∈ routesByIndex plannerBus.the_config.BusSystem ∧
      currentIndexInRoute ⟨"R", [101, 102, 103]⟩ 101 = some 0 ∧
      alightCandidate sampleDeps plannerBus 3 0 1 = some (1, 69 / 25, 207 / 2)) ∧
    (∃ j node bt rem, 0 < j ∧ j < (⟨"R", [101, 102, 103]⟩ : SRoute).StopCount ∧
      alightCandidate sampleDeps plannerBus 3 0 j = some (node, bt, rem) ∧ rem < DBL_MAX ∧
      (∀ j2 c, 0 < j2 → j2 < (⟨"R", [101, 102, 103]⟩ : SRoute).StopCount →
        alightCandidate sampleDeps plannerBus 3 0 j2 = some c →
        rem ≤ c.2.2 ∧ (j2 < j → rem < c.2.2)) ∧
      busCandidate sampleDeps plannerBus 3 ⟨101, 1⟩ ⟨"R", [101, 102, 103]⟩ =
        some (node, plannerBus.the_config.BusStopTime + bt) ∧
      (node * 2 + 0, plannerBus.the_config.BusStopTime + bt) ∈
        busTransitions sampleDeps plannerBus 3 0) ∧
    (fastestStep sampleDeps plannerBus 3 0 (0 * 2 + 0)
        { dist := Function.update (fun _ => DBL_MAX) (0 * 2 + 0) 0, prev := fun _ => -1,
          prevEdgeType := fun _ => -1, pq := [] }).dist (2 * 2 + 0) ≤
      0 + (1 / 120 + 207 / 25) :=
  ⟨by decide!, (C33_one_alight_per_route sampleDeps plannerBus 3).2.2.1 0 _ (by decide!),
    ⟨by decide!, by decide!, by decide, by decide!⟩,
    (C33_one_alight_per_route sampleDeps plannerBus 3).2.2.2.1 0 ⟨101, 1⟩
      ⟨"R", [101, 102, 103]⟩ 0 1 (1, 69 / 25, 207 / 2) (by decide!) (by decide!) (by decide)
      (by decide) (by decide) (by decide!) (by decide!),
    (C33_one_alight_per_route sampleDeps plannerBus 3).2.2.2.2.2 0 (0 * 2 + 0) _ (by decide)
      (2 * 2 + 0, 1 / 120 + 207 / 25) (by decide!)⟩

/-- C33, counterexample to the claim as stated: the bus example with destination node 4.
The route through the stop at node 1 has two downstream positions, with the stops at
node 2 (index 1) and node 3 (index 2).  At (node 1, Walk) the only bus transition goes to
(node 3, Walk), the stop nearer to node 4; (node 2, Walk) is relaxed along the walking
edge alone and keeps the walking time 23, above the bus arrival time `1/120 + 69/25` the
claim gives it. -/
theorem C33_counterexample :
    currentIndexInRoute ⟨"R", [101, 102, 103]⟩ 101 = some 0 ∧
    stopNodeIdx plannerBus ((⟨"R", [101, 102, 103]⟩ : SRoute).GetStopID 1) = some 1 ∧
    stopNodeIdx plannerBus ((⟨"R", [101, 102, 103]⟩ : SRoute).GetStopID 2) = some 2 ∧
    alightCandidate sampleDeps plannerBus 3 0 1 = some (1, 69 / 25, 207 / 2) ∧
    alightCandidate sampleDeps plannerBus 3 0 2 = some (2, 207 / 25, 69 / 2) ∧
    busTransitions sampleDeps plannerBus 3 0 = [(2 * 2 + 0, 1 / 120 + 207 / 25)] ∧
    (fastestStep sampleDeps plannerBus 3 0 (0 * 2 + 0)
        { dist := Function.update (fun _ => DBL_MAX) (0 * 2 + 0) 0, prev := fun _ => -1,
          prevEdgeType := fun _ => -1, pq := [] }).dist (1 * 2 + 0) = 23 ∧
    (1 / 120 + 69 / 25 : ℚ) < 23 :=
  ⟨by decide, by decide!, by decide!, by decide!, by decide!, by decide!, by decide!,
    by norm_num⟩


/-! ## Termination -/

theorem alightCandidate_lt (deps : Deps) (cfg : SConfiguration) (destIdx cur j node : Nat)
    (bt rem : ℚ)
    (h : alightCandidate deps (SImplementation.create deps cfg) destIdx cur j =
      some (node, bt, rem)) :
    node < (SImplementation.create deps cfg).sortedNodes.length := by
  unfold alightCandidate at h
  cases h1 : (SImplementation.create deps cfg).the_config.BusSystem.StopByIndex j with
  | none => simp [h1] at h
  | some alightStop =>
    simp only [h1] at h
    cases h2 : (SImplementation.create deps cfg).nodeIndexMap alightStop.NodeID with
    | none => simp [h2] at h
    | some idx =>
      simp only [h2, Option.some.injEq, Prod.mk.injEq] at h
      rw [← h.1]
      exact (nodeIndexMap_some deps cfg _ idx h2).1

/-- The transitions stay within the states of the planner, whatever the weights. -/
theorem fastTransitions_lt (deps : Deps) (cfg : SConfiguration) (destIdx : Nat) :
    InRange (fastTransitions deps (SImplementation.create deps cfg) destIdx)
      (2 * (SImplementation.create deps cfg).sortedNodes.length) := by
  intro u hu e he
  rcases mem_fastTransitions deps _ destIdx u e he with
    ⟨_, v, w, hvw, rfl⟩ | ⟨_, v, w, hvw, rfl⟩ | rfl | ⟨_, bs, r, n, c, hc, rfl⟩
  · obtain ⟨⟨id, hid⟩, _⟩ := (create_walkBikeEdges deps cfg).1 _ _ hvw
    have := (nodeIndexMap_some deps cfg id v hid).1
    simp only
    omega
  · obtain ⟨⟨id, hid⟩, _⟩ := (create_walkBikeEdges deps cfg).2 _ _ hvw
    have := (nodeIndexMap_some deps cfg id v hid).1
    simp only
    omega
  · simp only
    split <;> omega
  · obtain ⟨cur, j, bt, rem, _, _, _, h4, _⟩ :=
      busCandidate_first_least deps _ destIdx bs r n c hc
    have := alightCandidate_lt deps cfg destIdx cur j n bt rem h4
    simp only
    omega

/-- `FindFastestPath` returns when no transition has a negative cost. -/
theorem FindFastestPath_terminates (deps : Deps) (cfg : SConfiguration)
    (src dest : TNodeID) (s t : Nat)
    (hs : (SImplementation.create deps cfg).nodeIndexMap src = some s)
    (ht : (SImplementation.create deps cfg).nodeIndexMap dest = some t)
    (hnn : NonnegWeights (fastTransitions deps (SImplementation.create deps cfg) t)) :
    ∃ n cost, ∀ fuel, n ≤ fuel → ∀ trip, ∃ trip2,
      (SImplementation.create deps cfg).FindFastestPath deps fuel src dest trip =
        some (cost, trip2) := by
  have hsN := (nodeIndexMap_some deps cfg src s hs).1
  obtain ⟨r, hpost, hrun⟩ := search_correct
    (fastTransitions deps (SImplementation.create deps cfg) t) (s * 2 + 0)
    (2 * (SImplementation.create deps cfg).sortedNodes.length)
    (atDest (SImplementation.create deps cfg) dest) false
    hnn (fastTransitions_lt deps cfg t) (by omega)
  obtain ⟨done, rank, hT⟩ := hpost.tree
  have hloop : ∀ fuel, 1 + Finset.sum
      (Finset.range (2 * (SImplementation.create deps cfg).sortedNodes.length))
      (fun x => (fastTransitions deps (SImplementation.create deps cfg) t x).length) < fuel →
      ∃ st, fastestLoop deps (SImplementation.create deps cfg) dest t fuel
        { dist := Function.update (fun _ => DBL_MAX) (s * 2 + 0) 0, prev := fun _ => -1,
          prevEdgeType := fun _ => -1, pq := [(0, s * 2 + 0)] } = some (st, r.2) ∧
        st.core = r.1 := by
    intro fuel hfuel
    have h1 := hrun fuel hfuel
    have h2 := fastestLoop_core deps (SImplementation.create deps cfg) dest t fuel
      { dist := Function.update (fun _ => DBL_MAX) (s * 2 + 0) 0, prev := fun _ => -1,
        prevEdgeType := fun _ => -1, pq := [(0, s * 2 + 0)] }
    change _ = searchLoop _ _ false fuel (initState (s * 2 + 0)) at h2
    rw [h1, Option.map_eq_some'] at h2
    obtain ⟨x, hx1, hx2⟩ := h2
    refine ⟨x.1, ?_, ?_⟩
    · rw [hx1, ← hx2]
    · rw [← hx2]
  cases hf : r.2 with
  | none =>
    refine ⟨2 + Finset.sum
      (Finset.range (2 * (SImplementation.create deps cfg).sortedNodes.length))
      (fun x => (fastTransitions deps (SImplementation.create deps cfg) t x).length),
      DBL_MAX, ?_⟩
    intro fuel hfuel trip
    obtain ⟨st, hst, _⟩ := hloop fuel (by omega)
    refine ⟨trip, ?_⟩
    unfold SImplementation.FindFastestPath
    simp only [hs, ht]
    rw [hst, hf]
  | some m =>
    obtain ⟨d, u⟩ := m
    obtain ⟨h1, h2, h3⟩ := hpost.at_dest d u hf
    obtain ⟨p, hp1, hp2⟩ := walkBack_tree hT u (by rw [h2]; exact h3)
    refine ⟨max (2 + Finset.sum
      (Finset.range (2 * (SImplementation.create deps cfg).sortedNodes.length))
      (fun x => (fastTransitions deps (SImplementation.create deps cfg) t x).length))
      (rank u + 2), d, ?_⟩
    intro fuel hfuel trip
    obtain ⟨st, hst, hcore⟩ := hloop fuel (by omega)
    have hprev : st.prev = r.1.prev := by rw [← hcore]; rfl
    have hw := hp2 fuel [] (by omega)
    refine ⟨(u :: p).reverse.map (tripStep (SImplementation.create deps cfg) st), ?_⟩
    unfold SImplementation.FindFastestPath
    simp only [hs, ht]
    rw [hst, hf]
    simp only [hprev, hw, List.nil_append]

/-- C35: for every street map, bus system and configuration and every pair
`(src, dest)`, known or not: when no edge of `graph_drive` has a negative weight,
`FindShortestPath` terminates, and when no transition of the multimodal search (walking
edge, biking edge, mode swap, bus relaxation) has a negative cost, `FindFastestPath`
terminates: there is a number of loop steps after which the main loop has left and the
walk along `prev` has reached the start, so that with at least that much fuel the call
returns, always with the same cost.  The weights are non-negative in this sense when
distances are non-negative, the speeds are positive and the bus stop time is
non-negative. -/
theorem C35_termination (deps : Deps) (cfg : SConfiguration) (src dest : TNodeID) :
    (NonnegWeights (SImplementation.create deps cfg).graphDriving →
      ∃ n cost, ∀ fuel, n ≤ fuel → ∀ path, ∃ path2,
        (SImplementation.create deps cfg).FindShortestPath fuel src dest path =
          some (cost, path2)) ∧
    ((∀ t, NonnegWeights (fastTransitions deps (SImplementation.create deps cfg) t)) →
      ∃ n cost, ∀ fuel, n ≤ fuel → ∀ trip, ∃ trip2,
        (SImplementation.create deps cfg).FindFastestPath deps fuel src dest trip =
          some (cost, trip2)) ∧
    (DrivingOK deps cfg → NonnegWeights (SImplementation.create deps cfg).graphDriving) ∧
    (FastestOK deps cfg →
      ∀ t, NonnegWeights (fastTransitions deps (SImplementation.create deps cfg) t)) := by
  refine ⟨?_, ?_, create_nonneg deps cfg, fun hok t => fastTransitions_nonneg deps cfg hok t⟩
  · intro hnn
    cases hs : (SImplementation.create deps cfg).nodeIndexMap src with
    | none =>
      exact ⟨0, DBL_MAX, fun fuel _ path =>
        ⟨path, FindShortestPath_unknown _ fuel src dest path (Or.inl hs)⟩⟩
    | some s =>
      cases ht : (SImplementation.create deps cfg).nodeIndexMap dest with
      | none =>
        exact ⟨0, DBL_MAX, fun fuel _ path =>
          ⟨path, FindShortestPath_unknown _ fuel src dest path (Or.inr ht)⟩⟩
      | some t =>
        obtain ⟨cost, idxs, n, _, _, _, h4⟩ := FindShortestPath_total _ hnn
          (create_inRange deps cfg) src dest s t hs ht (nodeIndexMap_some deps cfg src s hs).1
        exact ⟨n, cost, fun fuel hf path => ⟨_, h4 fuel hf path⟩⟩
  · intro hnn
    cases hs : (SImplementation.create deps cfg).nodeIndexMap src with
    | none =>
      exact ⟨0, DBL_MAX, fun fuel _ trip =>
        ⟨trip, FindFastestPath_unknown deps _ fuel src dest trip (Or.inl hs)⟩⟩
    | some s =>
      cases ht : (SImplementation.create deps cfg).nodeIndexMap dest with
      | none =>
        exact ⟨0, DBL_MAX, fun fuel _ trip =>
          ⟨trip, FindFastestPath_unknown deps _ fuel src dest trip (Or.inr ht)⟩⟩
      | some t => exact FindFastestPath_terminates deps cfg src dest s t hs ht (hnn t)

/-- C35, witness: the bus example (four nodes, two ways, three stops, one route) with
the default configuration, query (1, 4). -/
theorem C35_witness :
    DrivingOK sampleDeps (defaultConfig mapBus busLine) ∧
    FastestOK sampleDeps (defaultConfig mapBus busLine) ∧
    NonnegWeights plannerBus.graphDriving ∧
    (∀ t, NonnegWeights (fastTransitions sampleDeps plannerBus t)) ∧
    (∃ n cost, ∀ fuel, n ≤ fuel → ∀ path, ∃ path2,
      plannerBus.FindShortestPath fuel 1 4 path = some (cost, path2)) ∧
    ∃ n cost, ∀ fuel, n ≤ fuel → ∀ trip, ∃ trip2,
      plannerBus.FindFastestPath sampleDeps fuel 1 4 trip = some (cost, trip2) :=
  have h1 : DrivingOK sampleDeps (defaultConfig mapBus busLine) :=
    ⟨gridMiles_nonneg, by decide!⟩
  have h2 : FastestOK sampleDeps (defaultConfig mapBus busLine) :=
    ⟨gridMiles_nonneg, by decide!, by decide!, by decide!, by decide!⟩
  ⟨h1, h2,
    (C35_termination sampleDeps (defaultConfig mapBus busLine) 1 4).2.2.1 h1,
    (C35_termination sampleDeps (defaultConfig mapBus busLine) 1 4).2.2.2 h2,
    (C35_termination sampleDeps (defaultConfig mapBus busLine) 1 4).1
      (create_nonneg sampleDeps (defaultConfig mapBus busLine) h1),
    (C35_termination sampleDeps (defaultConfig mapBus busLine) 1 4).2.1
      (fun t => fastTransitions_nonneg sampleDeps (defaultConfig mapBus busLine) h2 t)⟩

/-! ## Indices stay in range -/

theorem foldl_relax_queue (u : Nat) (base : DState → ℚ) (es : List (Nat × ℚ)) (st : DState)
    (x : ℚ × Nat) (h : x ∈ (es.foldl (fun s e => relax u (base s) s e) st).pq) :
    x ∈ st.pq ∨ ∃ e ∈ es, x.2 = e.1 := by
  induction es generalizing st with
  | nil => exact Or.inl h
  | cons e es ih =>
    rw [List.foldl_cons] at h
    rcases ih _ h with h1 | ⟨e2, he2, h2⟩
    · unfold relax at h1
      by_cases hlt : base st + e.2 < st.dist e.1
      · rw [if_pos hlt] at h1
        rcases List.mem_cons.1 h1 with rfl | h1
        · exact Or.inr ⟨e, List.mem_cons_self _ _, rfl⟩
        · exact Or.inl h1
      · rw [if_neg hlt] at h1
        exact Or.inl h1
    · exact Or.inr ⟨e2, List.mem_cons_of_mem _ he2, h2⟩

theorem busTransitions_lt (deps : Deps) (cfg : SConfiguration) (destIdx curNode : Nat)
    (e : Nat × ℚ)
    (h : e ∈ busTransitions deps (SImplementation.create deps cfg) destIdx curNode) :
    e.1 / 2 < (SImplementation.create deps cfg).sortedNodes.length := by
  unfold busTransitions at h
  cases hb : (SImplementation.create deps cfg).busIndexer.StopByNodeID
      (idAt (SImplementation.create deps cfg).sortedNodes curNode) with
  | none => simp [hb] at h
  | some busStop =>
    simp only [hb, List.mem_filterMap, Option.map_eq_some'] at h
    obtain ⟨route, _, c, hc, rfl⟩ := h
    obtain ⟨cur, j, bt, rem, _, _, _, h4, _⟩ :=
      busCandidate_first_least deps _ destIdx busStop route c.1 c.2 hc
    have := alightCandidate_lt deps cfg destIdx cur j c.1 bt rem h4
    simp only
    omega

/-- C28: for every street map, every edge stored in `graph_walk`, `graph_bike` or
`graph_drive` has its source index and its destination index strictly below `N`, the
number of sorted nodes, and every adjacency lookup of the two searches is in range:
the index of a known node id (the start and the destination of a search) is below `N`;
the target of every bus relaxation is a state of a node below `N`; and in each loop,
when all indices in the queue are in range, the index popped (the one whose adjacency
lists the loop body reads) is in range and so are all indices in the queue after the
pop and after the loop body has run. -/
theorem C28_edge_indices (deps : Deps) (cfg : SConfiguration) :
    (∀ u e, (e ∈ (SImplementation.create deps cfg).graphWalking u ∨
        e ∈ (SImplementation.create deps cfg).graphBiking u ∨
        e ∈ (SImplementation.create deps cfg).graphDriving u) →
      u < (SImplementation.create deps cfg).NodeCount ∧
        e.1 < (SImplementation.create deps cfg).NodeCount) ∧
    (∀ id s, (SImplementation.create deps cfg).nodeIndexMap id = some s →
      s < (SImplementation.create deps cfg).NodeCount ∧
        (s * 2 + 0) / 2 < (SImplementation.create deps cfg).NodeCount) ∧
    (∀ destIdx curNode e,
      e ∈ busTransitions deps (SImplementation.create deps cfg) destIdx curNode →
      e.1 / 2 < (SImplementation.create deps cfg).NodeCount) ∧
    (∀ st : DState, (∀ x ∈ st.pq, x.2 < (SImplementation.create deps cfg).NodeCount) →
      ∀ d u, pqTop st.pq = some (d, u) →
        u < (SImplementation.create deps cfg).NodeCount ∧
        (∀ x ∈ pqPop st.pq, x.2 < (SImplementation.create deps cfg).NodeCount) ∧
        ∀ x ∈ (((SImplementation.create deps cfg).graphDriving u).foldl (relaxDriving u)
            { st with pq := pqPop st.pq }).pq,
          x.2 < (SImplementation.create deps cfg).NodeCount) ∧
    (∀ destIdx (st : FState),
      (∀ x ∈ st.pq, x.2 / 2 < (SImplementation.create deps cfg).NodeCount) →
      ∀ curCost curStateIdx, pqTop st.pq = some (curCost, curStateIdx) →
        curStateIdx / 2 < (SImplementation.create deps cfg).NodeCount ∧
        (∀ x ∈ pqPop st.pq, x.2 / 2 < (SImplementation.create deps cfg).NodeCount) ∧
        ∀ x ∈ (fastestStep deps (SImplementation.create deps cfg) destIdx curCost curStateIdx
            { st with pq := pqPop st.pq }).pq,
          x.2 / 2 < (SImplementation.create deps cfg).NodeCount) := by
  unfold SImplementation.NodeCount
  refine ⟨fun u e h => create_edge_lt deps cfg u e h, ?_, ?_, ?_, ?_⟩
  · intro id s hs
    have := (nodeIndexMap_some deps cfg id s hs).1
    exact ⟨this, by omega⟩
  · exact fun destIdx curNode e h => busTransitions_lt deps cfg destIdx curNode e h
  · intro st hq d u htop
    have hu : u < (SImplementation.create deps cfg).sortedNodes.length :=
      hq (d, u) (pqTop_some htop).1
    refine ⟨hu, fun x hx => hq x (mem_pqPop hx), ?_⟩
    intro x hx
    have hfold : List.foldl (relaxDriving u) { st with pq := pqPop st.pq }
          ((SImplementation.create deps cfg).graphDriving u) =
        List.foldl (fun s e => relax u (s.dist u) s e) { st with pq := pqPop st.pq }
          ((SImplementation.create deps cfg).graphDriving u) := by
      congr 1
      funext s e
      exact relaxDriving_eq u s e
    rw [hfold] at hx
    rcases foldl_relax_queue u (fun s => s.dist u) _ _ x hx with h1 | ⟨e, he, h2⟩
    · exact hq x (mem_pqPop h1)
    · rw [h2]
      exact create_inRange deps cfg u hu e he
  · intro destIdx st hq curCost cur htop
    have hu : cur / 2 < (SImplementation.create deps cfg).sortedNodes.length :=
      hq (curCost, cur) (pqTop_some htop).1
    refine ⟨hu, fun x hx => hq x (mem_pqPop hx), ?_⟩
    intro x hx
    have hcore := fastestStep_core deps (SImplementation.create deps cfg) destIdx curCost cur
      { st with pq := pqPop st.pq }
    have hpq : (fastestStep deps (SImplementation.create deps cfg) destIdx curCost cur
        { st with pq := pqPop st.pq }).pq =
        ((fastTransitions deps (SImplementation.create deps cfg) destIdx cur).foldl
          (fun s e => relax cur curCost s e) (FState.core { st with pq := pqPop st.pq })).pq := by
      rw [← hcore]
      rfl
    rw [hpq] at hx
    rcases foldl_relax_queue cur (fun _ => curCost) _ _ x hx with h1 | ⟨e, he, h2⟩
    · exact hq x (mem_pqPop h1)
    · rw [h2]
      have := fastTransitions_lt deps cfg destIdx cur (by omega) e he
      omega

/-- C28, witness: the bus example has four sorted nodes; the driving edge from index 0
to index 1, the index 3 of node 4, and the bus relaxation at (node 1, Walk) towards
(node 3, Walk) are in range, and so is the queue after the first round of each loop. -/
theorem C28_witness :
    (1, (69 / 25 : ℚ)) ∈ plannerBus.graphDriving 0 ∧
    plannerBus.nodeIndexMap 4 = some 3 ∧
    ((2 * 2 + 0, 1 / 120 + 207 / 25) : Nat × ℚ) ∈ busTransitions sampleDeps plannerBus 3 0 ∧
    (0 < plannerBus.NodeCount ∧ 1 < plannerBus.NodeCount) ∧
    (3 < plannerBus.NodeCount ∧ (3 * 2 + 0) / 2 < plannerBus.NodeCount) ∧
    (2 * 2 + 0) / 2 < plannerBus.NodeCount ∧
    (0 < plannerBus.NodeCount ∧
      (∀ x ∈ pqPop (initState 0).pq, x.2 < plannerBus.NodeCount) ∧
      ∀ x ∈ ((plannerBus.graphDriving 0).foldl (relaxDriving 0)
          { initState 0 with pq := pqPop (initState 0).pq }).pq, x.2 < plannerBus.NodeCount) ∧
    ((0 * 2 + 0) / 2 < plannerBus.NodeCount ∧
      (∀ x ∈ pqPop [((0 : ℚ), 0 * 2 + 0)], x.2 / 2 < plannerBus.NodeCount) ∧
      ∀ x ∈ (fastestStep sampleDeps plannerBus 3 0 (0 * 2 + 0)
          { dist := Function.update (fun _ => DBL_MAX) (0 * 2 + 0) 0, prev := fun _ => -1,
            prevEdgeType := fun _ => -1, pq := pqPop [((0 : ℚ), 0 * 2 + 0)] }).pq,
        x.2 / 2 < plannerBus.NodeCount) :=
  ⟨by decide!, by decide!, by decide!,
    (C28_edge_indices sampleDeps (defaultConfig mapBus busLine)).1 0 (1, 69 / 25)
      (Or.inr (Or.inr (by decide!))),
    (C28_edge_indices sampleDeps (defaultConfig mapBus busLine)).2.1 4 3 (by decide!),
    (C28_edge_indices sampleDeps (defaultConfig mapBus busLine)).2.2.1 3 0
      (2 * 2 + 0, 1 / 120 + 207 / 25) (by decide!),
    (C28_edge_indices sampleDeps (defaultConfig mapBus busLine)).2.2.2.1 (initState 0)
      (by decide) 0 0 (by decide!),
    (C28_edge_indices sampleDeps (defaultConfig mapBus busLine)).2.2.2.2 3
      { dist := Function.update (fun _ => DBL_MAX) (0 * 2 + 0) 0, prev := fun _ => -1,
        prevEdgeType := fun _ => -1, pq := [((0 : ℚ), 0 * 2 + 0)] }
      (by decide) 0 (0 * 2 + 0) (by decide!)⟩

/-! ## Bus segments of the spec that the planner relaxes -/

theorem mem_routesByIndex (b : CBusSystem) (route : SRoute) (h : route ∈ b.Routes) :
    route ∈ routesByIndex b := by
  obtain ⟨n, hn⟩ := List.mem_iff_getElem?.1 h
  unfold routesByIndex
  rw [List.mem_filterMap]
  refine ⟨n, List.mem_range.2 ?_, hn⟩
  unfold CBusSystem.RouteCount
  by_contra hge
  rw [List.getElem?_eq_none (not_lt.mp hge)] at hn
  cases hn

theorem aligned_node (S : SImplementation) (route : SRoute) (i : Nat)
    (ha : RouteAligned S route i) (k : Nat) (hik : i ≤ k) (hk : k < route.StopCount) :
    (match S.the_config.BusSystem.StopByIndex k with
      | none => none
      | some st => S.nodeIndexMap st.NodeID) = stopNodeIdx S (route.GetStopID k) := by
  unfold stopNodeIdx
  rw [← ha k hik hk]
  cases S.the_config.BusSystem.StopByIndex k <;> rfl

theorem foldl_add_sum {α : Type} (g : ℚ → α → ℚ) (f : α → ℚ) (l : List α)
    (h : ∀ k ∈ l, ∀ acc, g acc k = acc + f k) (acc : ℚ) :
    l.foldl g acc = acc + (l.map f).sum := by
  induction l generalizing acc with
  | nil => simp
  | cons k l ih =>
    rw [List.foldl_cons, h k (List.mem_cons_self _ _) acc,
      ih (fun x hx => h x (List.mem_cons_of_mem _ hx)), List.map_cons, List.sum_cons, add_assoc]

/-- On a route whose stops the bus system lists in route order from `cur` on, the
distance the alight loop sums is the bus travel distance of the spec. -/
theorem routeDistance_aligned (deps : Deps) (S : SImplementation) (route : SRoute)
    (cur : Nat) (ha : RouteAligned S route cur) (j : Nat) (hj : j < route.StopCount) :
    routeDistance deps S cur j = specBusMiles deps S route cur j := by
  unfold routeDistance specBusMiles
  refine (foldl_add_sum _ (fun k =>
    match stopNodeIdx S (route.GetStopID k), stopNodeIdx S (route.GetStopID (k + 1)) with
    | some a, some b =>
      deps.Haversine (locationAt S.sortedNodes a) (locationAt S.sortedNodes b)
    | _, _ => 0) _ ?_ 0).trans (zero_add _)
  intro k hk acc
  have hk2 := List.mem_range'_1.1 hk
  have h1 := aligned_node S route cur ha k (by omega) (by omega)
  have h2 := aligned_node S route cur ha (k + 1) (by omega) (by omega)
  simp only
  rw [← h1, ← h2]
  cases S.the_config.BusSystem.StopByIndex k with
  | none => simp
  | some stopA =>
    cases S.the_config.BusSystem.StopByIndex (k + 1) with
    | none =>
      simp only
      cases S.nodeIndexMap stopA.NodeID <;> simp
    | some stopB =>
      simp only
      cases S.nodeIndexMap stopA.NodeID with
      | none => simp
      | some ia =>
        cases S.nodeIndexMap stopB.NodeID with
        | none => simp
        | some ib => rfl

/-- On such a route the alight loop sees, at position `j`, the street node of the stop
the route holds at `j`, with the bus time and the remaining distance of the spec. -/
theorem alightCandidate_aligned (deps : Deps) (S : SImplementation) (destIdx : Nat)
    (route : SRoute) (cur : Nat) (ha : RouteAligned S route cur) (j : Nat) (hcj : cur ≤ j)
    (hj : j < route.StopCount) :
    alightCandidate deps S destIdx cur j =
      (stopNodeIdx S (route.GetStopID j)).map (fun v =>
        (v, specBusMiles deps S route cur j / S.the_config.DefaultSpeedLimit,
          deps.Haversine (locationAt S.sortedNodes destIdx) (locationAt S.sortedNodes v))) := by
  unfold alightCandidate
  rw [← aligned_node S route cur ha j hcj hj, routeDistance_aligned deps S route cur ha j hj]
  cases S.the_config.BusSystem.StopByIndex j with
  | none => rfl
  | some st =>
    simp only
    cases S.nodeIndexMap st.NodeID <;> rfl

/-- A bus segment of a planned itinerary is one of the bus relaxations made at its
boarding node. -/
theorem planned_bus_transition (deps : Deps) (S : SImplementation) (destIdx u v : Nat)
    (busStop : SStop) (route : SRoute) (i j : Nat)
    (hr : route ∈ S.the_config.BusSystem.Routes)
    (hb : S.busIndexer.StopByNodeID (idAt S.sortedNodes u) = some busStop)
    (hi : currentIndexInRoute route busStop.ID = some i)
    (ha : RouteAligned S route i) (hbest : BestAlightPosition deps S destIdx route i j)
    (hv : stopNodeIdx S (route.GetStopID j) = some v) :
    (v * 2 + 0, S.the_config.BusStopTime +
        specBusMiles deps S route i j / S.the_config.DefaultSpeedLimit) ∈
      busTransitions deps S destIdx u := by
  obtain ⟨h1, h2, v0, hv0, hrem, hall⟩ := hbest
  rw [hv] at hv0
  obtain rfl : v = v0 := Option.some.inj hv0
  have hc : alightCandidate deps S destIdx i j =
      some (v, specBusMiles deps S route i j / S.the_config.DefaultSpeedLimit,
        deps.Haversine (locationAt S.sortedNodes destIdx) (locationAt S.sortedNodes v)) := by
    rw [alightCandidate_aligned deps S destIdx route i ha j (le_of_lt h1) h2, hv]
    rfl
  have hbc := busCandidate_of_first_least deps S destIdx busStop route i j v _ _ hi h1 h2 hc
    hrem (by
      intro j2 c g1 g2 g3
      rw [alightCandidate_aligned deps S destIdx route i ha j2 (le_of_lt g1) g2,
        Option.map_eq_some'] at g3
      obtain ⟨v2, hv2, rfl⟩ := g3
      exact hall j2 v2 g1 g2 hv2)
  exact mem_busTransitions_of deps S destIdx u busStop route _ hb
    (mem_routesByIndex _ route hr) hbc

/-- Every planned itinerary is an itinerary of the transition table of the spec. -/
theorem planned_itinerary (deps : Deps) (S : SImplementation) (destIdx s : Nat) {v m : Nat}
    {c : ℚ} (h : PlannedItinerary deps S destIdx s v m c) : Itinerary deps S true s v m c := by
  induction h with
  | start => exact Itinerary.start
  | walkEdge _ he ih => exact Itinerary.walkEdge ih he
  | bikeEdge _ he ih => exact Itinerary.bikeEdge ih he
  | swapToBike _ ih => exact Itinerary.swapToBike ih
  | swapToWalk _ ih => exact Itinerary.swapToWalk ih
  | busSegment busStop route i j _ hr _ _ hu _ hbest hv ih =>
    exact Itinerary.busSegment route i j ih rfl hr hbest.1 hbest.2.1 hu hv

/-- Every itinerary without a bus segment is a planned itinerary. -/
theorem itinerary_planned (deps : Deps) (S : SImplementation) (destIdx s : Nat) {v m : Nat}
    {c : ℚ} (h : Itinerary deps S false s v m c) : PlannedItinerary deps S destIdx s v m c := by
  induction h with
  | start => exact PlannedItinerary.start
  | walkEdge _ he ih => exact PlannedItinerary.walkEdge ih he
  | bikeEdge _ he ih => exact PlannedItinerary.bikeEdge ih he
  | swapToBike _ ih => exact PlannedItinerary.swapToBike ih
  | swapToWalk _ ih => exact PlannedItinerary.swapToWalk ih
  | busSegment route i j _ hb _ _ _ _ _ _ => exact absurd hb (by simp)

/-- A planned itinerary is a chain of the transitions the loop relaxes. -/
theorem planned_path (deps : Deps) (S : SImplementation) (destIdx s : Nat) {v m : Nat} {c : ℚ}
    (h : PlannedItinerary deps S destIdx s v m c) :
    m < 2 ∧ ∃ p, RPath (fastTransitions deps S destIdx) (s * 2 + 0) ((v * 2 + m) :: p) c := by
  induction h with
  | start => exact ⟨by omega, [], RPath.base⟩
  | @walkEdge u v c w _ he ih =>
    obtain ⟨_, p, hp⟩ := ih
    refine ⟨by omega, _, RPath.step hp ?_⟩
    unfold fastTransitions
    have h1 : (u * 2 + 0) % 2 = 0 := by omega
    have h2 : (u * 2 + 0) / 2 = u := by omega
    simp only [h1, h2, if_true, List.mem_append, List.mem_map]
    exact Or.inl (Or.inl ⟨(v, w), he, rfl⟩)
  | @bikeEdge u v c w _ he ih =>
    obtain ⟨_, p, hp⟩ := ih
    refine ⟨by omega, _, RPath.step hp ?_⟩
    unfold fastTransitions
    have h1 : ¬ (u * 2 + 1) % 2 = 0 := by omega
    have h2 : (u * 2 + 1) / 2 = u := by omega
    simp only [h1, h2, if_false, List.mem_append, List.mem_map]
    exact Or.inl (Or.inl ⟨(v, w), he, rfl⟩)
  | @swapToBike u c _ ih =>
    obtain ⟨_, p, hp⟩ := ih
    refine ⟨by omega, (u * 2 + 0) :: p, ?_⟩
    have hmem : (u * 2 + 1, (0 : ℚ)) ∈ fastTransitions deps S destIdx (u * 2 + 0) := by
      unfold fastTransitions
      have h1 : (u * 2 + 0) % 2 = 0 := by omega
      have h2 : (u * 2 + 0) / 2 = u := by omega
      simp only [h1, h2, if_true, List.mem_append, List.mem_singleton]
      exact Or.inl (Or.inr trivial)
    have := RPath.step hp hmem
    rwa [add_zero c] at this
  | @swapToWalk u c _ ih =>
    obtain ⟨_, p, hp⟩ := ih
    refine ⟨by omega, (u * 2 + 1) :: p, ?_⟩
    have hmem : (u * 2 + 0, (0 : ℚ)) ∈ fastTransitions deps S destIdx (u * 2 + 1) := by
      unfold fastTransitions
      have h1 : ¬ (u * 2 + 1) % 2 = 0 := by omega
      have h2 : (u * 2 + 1) / 2 = u := by omega
      simp only [h1, h2, if_false, List.mem_append, List.mem_singleton]
      exact Or.inl (Or.inr trivial)
    have := RPath.step hp hmem
    rwa [add_zero c] at this
  | @busSegment u v c busStop route i j _ hr hb hi _ ha hbest hv ih =>
    obtain ⟨_, p, hp⟩ := ih
    refine ⟨by omega, _, RPath.step hp ?_⟩
    have hm : (u * 2 + 0) % 2 = 0 := by omega
    refine busTransitions_sub deps S destIdx (u * 2 + 0) hm _ ?_
    have h2 : (u * 2 + 0) / 2 = u := by omega
    rw [h2]
    exact planned_bus_transition deps S destIdx u v busStop route i j hr hb hi ha hbest hv

/-- C4 (amended): for every street map and bus system with exact non-negative travel
times and every pair of known node ids, `FindFastestPath` returns (for every sufficient
fuel) one value.  That value is at most the total time of every itinerary from
`(src, Walk)` to `dest` built from walk edges in Walk mode, bike edges in Bike mode,
zero-cost mode swaps and bus segments of cost
`bus_stop_time + bus_miles / default_speed_limit` that board the stop at the current
node, at its first position `i` on a route listed in route order by the bus system from
`i` on, and alight at the first position `j > i` whose stop is nearest to `dest`; each such
itinerary is an itinerary of the spec; the value is also at most the total cost of
every chain of relaxations the loop makes from `(src, Walk)` to a state at `dest`, and
when it is below the sentinel it is the cost of such a chain. -/
theorem C4_fastest_least_over_planned (deps : Deps) (cfg : SConfiguration)
    (hok : FastestOK deps cfg) (src dest : TNodeID) (s t : Nat)
    (hs : (SImplementation.create deps cfg).nodeIndexMap src = some s)
    (ht : (SImplementation.create deps cfg).nodeIndexMap dest = some t) :
    (∀ v m c, PlannedItinerary deps (SImplementation.create deps cfg) t s v m c →
      Itinerary deps (SImplementation.create deps cfg) true s v m c) ∧
    (∀ v m c, Itinerary deps (SImplementation.create deps cfg) false s v m c →
      PlannedItinerary deps (SImplementation.create deps cfg) t s v m c) ∧
    ∃ cost n,
      (∀ fuel, n ≤ fuel → ∀ trip, ∃ trip2,
        (SImplementation.create deps cfg).FindFastestPath deps fuel src dest trip =
          some (cost, trip2)) ∧
      (∀ v m c, PlannedItinerary deps (SImplementation.create deps cfg) t s v m c →
        idAt (SImplementation.create deps cfg).sortedNodes v = dest → cost ≤ c) ∧
      (∀ x p W, atDest (SImplementation.create deps cfg) dest x = true →
        RPath (fastTransitions deps (SImplementation.create deps cfg) t) (s * 2 + 0) (x :: p) W →
        cost ≤ W) ∧
      (cost < DBL_MAX → ∃ x p, atDest (SImplementation.create deps cfg) dest x = true ∧
        RPath (fastTransitions deps (SImplementation.create deps cfg) t) (s * 2 + 0) (x :: p)
          cost) := by
  refine ⟨fun v m c h => planned_itinerary deps _ t s h,
    fun v m c h => itinerary_planned deps _ t s h, ?_⟩
  obtain ⟨cost, n, _, h2, h3, h4⟩ := FindFastestPath_total deps cfg hok src dest s t hs ht
  refine ⟨cost, n, fun fuel hf trip => ?_, ?_, h2, h3⟩
  · obtain ⟨trip2, h, _⟩ := h4 fuel hf trip
    exact ⟨trip2, h⟩
  · intro v m c hit hv
    obtain ⟨hm, p, hp⟩ := planned_path deps _ t s hit
    refine h2 (v * 2 + m) p c ?_ hp
    have : (v * 2 + m) / 2 = v := by omega
    simp [atDest, this, hv]

/-- C4, witness: the bus example, query (1, 3).  Node 3 lies on no way; the itinerary
that boards stop 101 at node 1 and alights at position 2 of the route, the stop at node
3, is a planned itinerary of total time `1/120 + 207/25` hours, and that is the value
`FindFastestPath(1, 3)` returns. -/
theorem C4_witness :
    FastestOK sampleDeps (defaultConfig mapBus busLine) ∧
    PlannedItinerary sampleDeps plannerBus 2 0 2 0
      (0 + (plannerBus.the_config.BusStopTime +
        specBusMiles sampleDeps plannerBus ⟨"R", [101, 102, 103]⟩ 0 2 /
          plannerBus.the_config.DefaultSpeedLimit)) ∧
    (0 + (plannerBus.the_config.BusStopTime +
        specBusMiles sampleDeps plannerBus ⟨"R", [101, 102, 103]⟩ 0 2 /
          plannerBus.the_config.DefaultSpeedLimit) : ℚ) = 1 / 120 + 207 / 25 ∧
    plannerBus.FindFastestPath sampleDeps 40 1 3 [] =
      some (1 / 120 + 207 / 25, [(ETransportationMode.Walk, 1), (ETransportationMode.Bus, 3)]) ∧
    ((∀ v m c, PlannedItinerary sampleDeps plannerBus 2 0 v m c →
      Itinerary sampleDeps plannerBus true 0 v m c) ∧
    (∀ v m c, Itinerary sampleDeps plannerBus false 0 v m c →
      PlannedItinerary sampleDeps plannerBus 2 0 v m c) ∧
    ∃ cost n,
      (∀ fuel, n ≤ fuel → ∀ trip, ∃ trip2,
        plannerBus.FindFastestPath sampleDeps fuel 1 3 trip = some (cost, trip2)) ∧
      (∀ v m c, PlannedItinerary sampleDeps plannerBus 2 0 v m c →
        idAt plannerBus.sortedNodes v = 3 → cost ≤ c) ∧
      (∀ x p W, atDest plannerBus 3 x = true →
        RPath (fastTransitions sampleDeps plannerBus 2) (0 * 2 + 0) (x :: p) W → cost ≤ W) ∧
      (cost < DBL_MAX → ∃ x p, atDest plannerBus 3 x = true ∧
        RPath (fastTransitions sampleDeps plannerBus 2) (0 * 2 + 0) (x :: p) cost)) :=
  ⟨⟨gridMiles_nonneg, by decide!, by decide!, by decide!, by decide!⟩,
    PlannedItinerary.busSegment ⟨101, 1⟩ ⟨"R", [101, 102, 103]⟩ 0 2 PlannedItinerary.start
      (by decide!) (by decide!) (by decide) (by decide!)
      (fun k _ hk => by
        have h3 : k < 3 := hk
        interval_cases k <;> decide!)
      ⟨by decide, by decide, 2, by decide!, by decide!, fun j2 v2 h1 h2 h3 => by
        have h4 : j2 < 3 := h2
        interval_cases j2
        · have e1 : stopNodeIdx plannerBus
              ((⟨"R", [101, 102, 103]⟩ : SRoute).GetStopID 1) = some 1 := by decide!
          rw [e1] at h3
          obtain rfl : 1 = v2 := Option.some.inj h3
          exact ⟨by decide!, fun _ => by decide!⟩
        · have e2 : stopNodeIdx plannerBus
              ((⟨"R", [101, 102, 103]⟩ : SRoute).GetStopID 2) = some 2 := by decide!
          rw [e2] at h3
          obtain rfl : 2 = v2 := Option.some.inj h3
          exact ⟨by decide!, fun h => absurd h (by decide)⟩⟩
      (by decide!),
    by decide!, by decide!,
    C4_fastest_least_over_planned sampleDeps (defaultConfig mapBus busLine)
      ⟨gridMiles_nonneg, by decide!, by decide!, by decide!, by decide!⟩ 1 3 0 2
      (by decide!) (by decide!)⟩

/-! ## Reading back what `WriteRow` wrote -/

theorem readLoop_cons (d : Char) (fuel : Nat) (ch : Char) (src : List Char)
    (row : List (List Char)) (cell : List Char) (inQuotes firstChar : Bool) :
    readLoop d (fuel + 1) (ch :: src) row cell inQuotes firstChar =
      if firstChar = true ∧ ch = quoteChar then readLoop d fuel src row cell true false
      else if inQuotes = true then
        if ch = quoteChar then
          match src with
          | peekch :: src2 =>
            if peekch = quoteChar then readLoop d fuel src2 row (cell ++ [quoteChar]) true false
            else readLoop d fuel src row cell false false
          | [] => readLoop d fuel src row cell false false
        else readLoop d fuel src row (cell ++ [ch]) true false
      else if ch = d then readLoop d fuel src (row ++ [cell]) [] false true
      else if ch = newlineChar ∨ ch = returnChar then
        some (!(row ++ [cell]).isEmpty, row ++ [cell],
          (if ch = returnChar then
            match src with
            | next :: rest => if next = newlineChar then rest else src
            | [] => src
          else src),
          (if ch = returnChar then
            match src with
            | next :: rest => if next = newlineChar then rest else src
            | [] => src
          else src).isEmpty)
      else if ch = quoteChar then
        match src with
        | peekch :: src2 =>
          if peekch = quoteChar then readLoop d fuel src2 row (cell ++ [quoteChar]) false false
          else readLoop d fuel src row cell false false
        | [] => readLoop d fuel src row cell false false
      else readLoop d fuel src row (cell ++ [ch]) false false := by
  simp only [readLoop]

theorem readLoop_plain (d : Char) (f : List Char)
    (hf : ∀ c ∈ f, c ≠ d ∧ c ≠ quoteChar ∧ c ≠ newlineChar ∧ c ≠ returnChar)
    (fuel : Nat) (src : List Char) (row : List (List Char)) (cell : List Char) (fc : Bool) :
    readLoop d (f.length + fuel) (f ++ src) row cell false fc =
      readLoop d fuel src row (cell ++ f) false (fc && f.isEmpty) := by
  induction f generalizing cell fc with
  | nil => simp
  | cons c f ih =>
    obtain ⟨h1, h2, h3, h4⟩ := hf c (List.mem_cons_self _ _)
    have hlen : (c :: f).length + fuel = (f.length + fuel) + 1 := by
      simp only [List.length_cons]; omega
    rw [hlen, List.cons_append, readLoop_cons]
    simp only [h1, h2, h3, h4, and_false, if_false, or_self, Bool.false_eq_true]
    rw [ih (fun x hx => hf x (List.mem_cons_of_mem _ hx))]
    simp

theorem readLoop_firstChar (d : Char) (ch : Char) (hch : ch ≠ quoteChar) (fuel : Nat)
    (src : List Char) (row : List (List Char)) (cell : List Char) (fc : Bool) :
    readLoop d fuel (ch :: src) row cell false fc =
      readLoop d fuel (ch :: src) row cell false false := by
  cases fuel with
  | zero => rfl
  | succ fuel =>
    rw [readLoop_cons, readLoop_cons]
    simp only [hch, and_false, if_false]

theorem readLoop_quoted (d : Char) (f : List Char) (t : Char) (ht : t ≠ quoteChar)
    (fuel : Nat) (src : List Char) (row : List (List Char)) (cell : List Char) :
    readLoop d (f.length + 1 + fuel) (escapeQuotes f ++ quoteChar :: t :: src) row cell
        true false =
      readLoop d fuel (t :: src) row (cell ++ f) false false := by
  induction f generalizing cell with
  | nil =>
    have hlen : ([] : List Char).length + 1 + fuel = fuel + 1 := by
      simp only [List.length_nil]; omega
    rw [hlen]
    simp only [escapeQuotes, List.nil_append]
    rw [readLoop_cons]
    simp only [Bool.false_eq_true, false_and, if_false, if_true, ht, List.append_nil]
  | cons c f ih =>
    have hlen : (c :: f).length + 1 + fuel = (f.length + 1 + fuel) + 1 := by
      simp only [List.length_cons]; omega
    rw [hlen]
    by_cases hc : c = quoteChar
    · subst hc
      simp only [escapeQuotes, if_true, List.cons_append]
      rw [readLoop_cons]
      simp only [Bool.false_eq_true, false_and, if_false, if_true]
      rw [ih]
      simp
    · simp only [escapeQuotes, hc, if_false, List.cons_append]
      rw [readLoop_cons]
      simp only [hc, Bool.false_eq_true, false_and, if_false, if_true]
      rw [ih]
      simp

theorem needQuotes_false (w : CDSVWriter) (f : List Char) (h : needQuotes w f = false) :
    ∀ c ∈ f, c ≠ w.Delimiter ∧ c ≠ quoteChar ∧ c ≠ newlineChar ∧ c ≠ returnChar := by
  unfold needQuotes at h
  simp only [Bool.or_eq_false_iff, decide_eq_false_iff_not] at h
  obtain ⟨⟨⟨⟨_, h1⟩, h2⟩, h3⟩, h4⟩ := h
  intro c hc
  exact ⟨fun e => h1 (e ▸ hc), fun e => h2 (e ▸ hc), fun e => h3 (e ▸ hc),
    fun e => h4 (e ▸ hc)⟩

/-- The loop reads the text of one field back into `cell` and stands before the
character that follows it. -/
theorem readLoop_field (w : CDSVWriter) (f : List Char) (t : Char) (ht : t ≠ quoteChar)
    (fuel : Nat) (src : List Char) (row : List (List Char)) :
    readLoop w.Delimiter (fieldSteps w f + (fuel + 1)) (fieldText w f ++ t :: src) row []
        false true =
      readLoop w.Delimiter (fuel + 1) (t :: src) row f false false := by
  unfold fieldSteps fieldText
  cases hq : needQuotes w f with
  | true =>
    simp only [if_true]
    have hlen : f.length + 2 + (fuel + 1) = (f.length + 1 + (fuel + 1)) + 1 := by omega
    rw [hlen]
    simp only [List.cons_append, List.append_assoc, List.singleton_append]
    rw [readLoop_cons]
    simp only [and_self, if_true, List.nil_append]
    rw [readLoop_quoted w.Delimiter f t ht]
    simp
  | false =>
    simp only [Bool.false_eq_true, if_false]
    rw [readLoop_plain w.Delimiter f (needQuotes_false w f hq), List.nil_append]
    exact readLoop_firstChar w.Delimiter t ht _ _ _ _ _

theorem newline_ne_quote : newlineChar ≠ quoteChar := by decide

theorem newline_ne_return : newlineChar ≠ returnChar := by decide

/-- The loop reads the text of a non-empty row back and returns before the characters
that follow it. -/
theorem readLoop_row (w : CDSVWriter) (hq : w.Delimiter ≠ quoteChar)
    (hn : w.Delimiter ≠ newlineChar) (buf : List (List Char)) (hbuf : buf ≠ [])
    (fuel : Nat) (rest : List Char) (row : List (List Char)) :
    readLoop w.Delimiter (rowSteps w buf + fuel) (fieldsText w buf ++ newlineChar :: rest)
        row [] false true =
      some (true, row ++ buf, rest, rest.isEmpty) := by
  induction buf generalizing row with
  | nil => exact absurd rfl hbuf
  | cons f buf ih =>
    cases buf with
    | nil =>
      have hlen : rowSteps w [f] + fuel = fieldSteps w f + (fuel + 1) := by
        simp only [rowSteps, List.map_cons, List.map_nil, List.sum_cons, List.sum_nil]; omega
      rw [hlen]
      simp only [fieldsText]
      rw [readLoop_field w f newlineChar newline_ne_quote, readLoop_cons]
      have hne : (row ++ [f]).isEmpty = false := by
        cases row <;> rfl
      simp only [Bool.false_eq_true, false_and, if_false, Ne.symm hn, true_or,
        if_true, newline_ne_return, hne, Bool.not_false]
    | cons g buf =>
      have hlen : rowSteps w (f :: g :: buf) + fuel =
          fieldSteps w f + ((rowSteps w (g :: buf) + fuel) + 1) := by
        simp only [rowSteps, List.map_cons, List.sum_cons]; omega
      rw [hlen]
      simp only [fieldsText, List.append_assoc, List.cons_append]
      rw [readLoop_field w f w.Delimiter hq, readLoop_cons]
      simp only [Bool.false_eq_true, false_and, if_false, if_true]
      rw [ih (by simp)]
      simp

theorem escapeQuotes_length (f : List Char) : f.length ≤ (escapeQuotes f).length := by
  induction f with
  | nil => exact le_refl _
  | cons c f ih =>
    unfold escapeQuotes
    split
    · simp only [List.length_cons]; omega
    · simp only [List.length_cons]; omega

theorem fieldSteps_le (w : CDSVWriter) (f : List Char) :
    fieldSteps w f ≤ (fieldText w f).length := by
  unfold fieldSteps fieldText
  split
  · have := escapeQuotes_length f
    simp only [List.length_cons, List.length_append, List.length_singleton]
    omega
  · exact le_refl _

theorem rowSteps_le (w : CDSVWriter) (buf : List (List Char)) (hbuf : buf ≠ []) :
    rowSteps w buf ≤ (fieldsText w buf).length + 1 := by
  induction buf with
  | nil => exact absurd rfl hbuf
  | cons f buf ih =>
    cases buf with
    | nil =>
      have := fieldSteps_le w f
      simp only [rowSteps, List.map_cons, List.map_nil, List.sum_cons, List.sum_nil, fieldsText]
      omega
    | cons g buf =>
      have h1 := fieldSteps_le w f
      have h2 := ih (by simp)
      simp only [rowSteps, List.map_cons, List.sum_cons, fieldsText, List.length_append,
        List.length_cons] at h2 ⊢
      omega


theorem foldl_sink (w : CDSVWriter) (rows : List (List (List Char))) (sink : List Char) :
    rows.foldl (fun sink buf => (w.WriteRow sink buf).2) sink =
      sink ++ rows.foldl (fun sink buf => (w.WriteRow sink buf).2) [] := by
  induction rows generalizing sink with
  | nil => simp
  | cons buf rows ih =>
    simp only [List.foldl_cons]
    rw [ih, ih (w.WriteRow [] buf).2]
    simp only [CDSVWriter.WriteRow, List.nil_append, List.append_assoc]

theorem writeRows_cons (w : CDSVWriter) (buf : List (List Char))
    (rows : List (List (List Char))) :
    writeRows w (buf :: rows) = (fieldsText w buf ++ newlineChar :: writeRows w rows) := by
  unfold writeRows
  rw [List.foldl_cons, foldl_sink]
  simp only [CDSVWriter.WriteRow, List.nil_append, List.append_assoc, List.singleton_append]

/-- `ReadRow` on a reader that stands before the text of a non-empty row. -/
theorem ReadRow_written (w : CDSVWriter) (hq : w.Delimiter ≠ quoteChar)
    (hn : w.Delimiter ≠ newlineChar) (buf : List (List Char)) (hbuf : buf ≠ [])
    (rest : List Char) (fuel : Nat) (hfuel : (fieldsText w buf).length + 1 ≤ fuel)
    (row : List (List Char)) :
    ({ DataSource := fieldsText w buf ++ newlineChar :: rest, Delimiter := w.Delimiter,
        ifend := false } : CDSVReader).ReadRow fuel row =
      some (true, buf,
        { DataSource := rest, Delimiter := w.Delimiter, ifend := rest.isEmpty }) := by
  have hsteps := rowSteps_le w buf hbuf
  obtain ⟨k, hk⟩ : ∃ k, fuel = rowSteps w buf + k := ⟨fuel - rowSteps w buf, by omega⟩
  unfold CDSVReader.ReadRow
  simp only [Bool.false_eq_true, if_false]
  rw [hk, readLoop_row w hq hn buf hbuf k rest []]
  simp

theorem readRows_written (w : CDSVWriter) (hq : w.Delimiter ≠ quoteChar)
    (hn : w.Delimiter ≠ newlineChar) (rows : List (List (List Char)))
    (hrows : ∀ buf ∈ rows, buf ≠ []) (fuel : Nat)
    (hfuel : (writeRows w rows).length < fuel) :
    readRows fuel (rows.length + 1)
        { DataSource := writeRows w rows, Delimiter := w.Delimiter, ifend := false } =
      some (rows.map (fun buf => (true, buf)) ++ [(false, [])],
        { DataSource := [], Delimiter := w.Delimiter, ifend := true }) := by
  induction rows with
  | nil =>
    obtain ⟨k, rfl⟩ : ∃ k, fuel = k + 1 := ⟨fuel - 1, by omega⟩
    simp [readRows, CDSVReader.ReadRow, writeRows, readLoop]
  | cons buf rows ih =>
    have hb : buf ≠ [] := hrows buf (List.mem_cons_self _ _)
    rw [writeRows_cons] at hfuel ⊢
    simp only [List.length_append, List.length_cons] at hfuel
    rw [List.length_cons, readRows,
      ReadRow_written w hq hn buf hb (writeRows w rows) fuel (by omega) []]
    simp only
    cases rows with
    | nil =>
      simp [readRows, CDSVReader.ReadRow, writeRows]
    | cons b2 rs =>
      have hne : (writeRows w (b2 :: rs)).isEmpty = false := by
        rw [writeRows_cons]
        cases fieldsText w b2 <;> rfl
      rw [hne, ih (fun x hx => hrows x (List.mem_cons_of_mem _ hx)) (by omega)]
      simp

/-- C39: for every delimiter other than `'"'` and `'\n'` (the delimiter `'\r'`, which
the claim leaves out, is covered as well), both values of `quoteall` and every non-empty
row of arbitrary strings, `WriteRow` returns true, and a
`CDSVReader` with the same delimiter fed the characters `WriteRow` wrote returns true
from `ReadRow` with a row equal to the written one, whatever the vector held on entry,
and has then reached its end; for a sequence of non-empty rows written one after the
other, successive `ReadRow` calls return the rows in order, each with the value true,
and the call after the last row returns false.  The loop of `ReadRow` leaves the row
after at most as many iterations as the text has characters. -/
theorem C39_round_trip (d : Char) (quoteall : Bool) (hq : d ≠ quoteChar)
    (hn : d ≠ newlineChar) :
    (∀ buf : List (List Char), buf ≠ [] → ∀ fuel row,
      (({ Delimiter := d, QuoteAll := quoteall } : CDSVWriter).WriteRow [] buf).2.length ≤ fuel →
      (({ Delimiter := d, QuoteAll := quoteall } : CDSVWriter).WriteRow [] buf).1 = true ∧
      (CDSVReader.create
        (({ Delimiter := d, QuoteAll := quoteall } : CDSVWriter).WriteRow [] buf).2 d).ReadRow
          fuel row =
        some (true, buf, { DataSource := [], Delimiter := d, ifend := true })) ∧
    ∀ rows : List (List (List Char)), (∀ buf ∈ rows, buf ≠ []) → ∀ fuel,
      (writeRows { Delimiter := d, QuoteAll := quoteall } rows).length < fuel →
      readRows fuel (rows.length + 1)
          (CDSVReader.create (writeRows { Delimiter := d, QuoteAll := quoteall } rows) d) =
        some (rows.map (fun buf => (true, buf)) ++ [(false, [])],
          { DataSource := [], Delimiter := d, ifend := true }) := by
  constructor
  · intro buf hbuf fuel row hfuel
    refine ⟨rfl, ?_⟩
    simp only [CDSVWriter.WriteRow, List.nil_append, List.length_append,
      List.length_singleton] at hfuel
    have h := ReadRow_written { Delimiter := d, QuoteAll := quoteall } hq hn buf hbuf [] fuel
      hfuel row
    simpa [CDSVReader.create, CDSVWriter.WriteRow] using h
  · intro rows hrows fuel hfuel
    exact readRows_written { Delimiter := d, QuoteAll := quoteall } hq hn rows hrows fuel hfuel

/-- C39, witness: the comma as delimiter, without `quoteall`; a row with a field that
holds the delimiter, an empty field and a field that holds a quote, a newline and a
carriage return, alone and followed by a row of one empty field. -/
theorem C39_witness :
    commaChar ≠ quoteChar ∧ commaChar ≠ newlineChar ∧
    (({ Delimiter := commaChar, QuoteAll := false } : CDSVWriter).WriteRow [] dsvSampleRow).2 =
      [quoteChar] ++ "a,b".toList ++ [quoteChar, commaChar, commaChar, quoteChar,
        Char.ofNat 120, quoteChar, quoteChar, newlineChar, returnChar, Char.ofNat 121,
        quoteChar, newlineChar] ∧
    (CDSVReader.create
      (({ Delimiter := commaChar, QuoteAll := false } : CDSVWriter).WriteRow []
        dsvSampleRow).2 commaChar).ReadRow 40 [] =
      some (true, dsvSampleRow, { DataSource := [], Delimiter := commaChar, ifend := true }) ∧
    readRows 40 3
        (CDSVReader.create
          (writeRows { Delimiter := commaChar, QuoteAll := false } [dsvSampleRow, [[]]])
          commaChar) =
      some ([(true, dsvSampleRow), (true, [[]]), (false, [])],
        { DataSource := [], Delimiter := commaChar, ifend := true }) :=
  ⟨by decide, by decide, by decide!,
    ((C39_round_trip commaChar false (by decide) (by decide)).1 dsvSampleRow
      (by decide) 40 [] (by decide!)).2,
    (C39_round_trip commaChar false (by decide) (by decide)).2
      [dsvSampleRow, [[]]] (by decide) 40 (by decide!)⟩


/-! ## Edit scripts and the Levenshtein distance -/

theorem Edits.refl {α : Type} (xs : List α) : Edits xs xs 0 := by
  induction xs with
  | nil => exact Edits.done
  | cons a xs ih => exact Edits.keep a ih

theorem Edits.symm {α : Type} {xs ys : List α} {n : Nat} (h : Edits xs ys n) :
    Edits ys xs n := by
  induction h with
  | done => exact Edits.done
  | delete a _ ih => exact Edits.insert a ih
  | insert b _ ih => exact Edits.delete b ih
  | substitute a b _ ih => exact Edits.substitute b a ih
  | keep a _ ih => exact Edits.keep a ih

theorem Edits.eq_of_zero {α : Type} {xs ys : List α} {n : Nat} (h : Edits xs ys n)
    (hn : n = 0) : xs = ys := by
  induction h with
  | done => rfl
  | delete a _ _ => omega
  | insert b _ _ => omega
  | substitute a b _ _ => omega
  | keep a _ ih => rw [ih hn]

/-- Edit scripts compose: the composed script is no longer than the two together. -/
theorem Edits.comp {α : Type} {xs ys : List α} {n : Nat} (h1 : Edits xs ys n) :
    ∀ {zs : List α} {m : Nat}, Edits ys zs m → ∃ k, k ≤ n + m ∧ Edits xs zs k := by
  induction h1 with
  | done => intro zs m h2; exact ⟨m, by omega, h2⟩
  | delete a _ ih =>
    intro zs m h2
    obtain ⟨k, hk, he⟩ := ih h2
    exact ⟨k + 1, by omega, Edits.delete a he⟩
  | @insert b xs ys n h1 ih =>
    intro zs m h2
    generalize hy : b :: ys = l at h2
    induction h2 with
    | done => cases hy
    | delete a2 h2 _ =>
      simp only [List.cons.injEq] at hy
      obtain ⟨_, rfl⟩ := hy
      obtain ⟨k, hk, he⟩ := ih h2
      exact ⟨k, by omega, he⟩
    | insert b2 _ ih2 =>
      obtain ⟨k, hk, he⟩ := ih2 hy
      exact ⟨k + 1, by omega, Edits.insert b2 he⟩
    | substitute a2 b2 h2 _ =>
      simp only [List.cons.injEq] at hy
      obtain ⟨_, rfl⟩ := hy
      obtain ⟨k, hk, he⟩ := ih h2
      exact ⟨k + 1, by omega, Edits.insert b2 he⟩
    | keep a2 h2 _ =>
      simp only [List.cons.injEq] at hy
      obtain ⟨_, rfl⟩ := hy
      obtain ⟨k, hk, he⟩ := ih h2
      exact ⟨k + 1, by omega, Edits.insert a2 he⟩
  | @substitute a b xs ys n h1 ih =>
    intro zs m h2
    generalize hy : b :: ys = l at h2
    induction h2 with
    | done => cases hy
    | delete a2 h2 _ =>
      simp only [List.cons.injEq] at hy
      obtain ⟨_, rfl⟩ := hy
      obtain ⟨k, hk, he⟩ := ih h2
      exact ⟨k + 1, by omega, Edits.delete a he⟩
    | insert b2 _ ih2 =>
      obtain ⟨k, hk, he⟩ := ih2 hy
      exact ⟨k + 1, by omega, Edits.insert b2 he⟩
    | substitute a2 b2 h2 _ =>
      simp only [List.cons.injEq] at hy
      obtain ⟨_, rfl⟩ := hy
      obtain ⟨k, hk, he⟩ := ih h2
      exact ⟨k + 1, by omega, Edits.substitute a b2 he⟩
    | keep a2 h2 _ =>
      simp only [List.cons.injEq] at hy
      obtain ⟨_, rfl⟩ := hy
      obtain ⟨k, hk, he⟩ := ih h2
      exact ⟨k + 1, by omega, Edits.substitute a a2 he⟩
  | @keep a xs ys n h1 ih =>
    intro zs m h2
    generalize hy : a :: ys = l at h2
    induction h2 with
    | done => cases hy
    | delete a2 h2 _ =>
      simp only [List.cons.injEq] at hy
      obtain ⟨_, rfl⟩ := hy
      obtain ⟨k, hk, he⟩ := ih h2
      exact ⟨k + 1, by omega, Edits.delete a he⟩
    | insert b2 _ ih2 =>
      obtain ⟨k, hk, he⟩ := ih2 hy
      exact ⟨k + 1, by omega, Edits.insert b2 he⟩
    | substitute a2 b2 h2 _ =>
      simp only [List.cons.injEq] at hy
      obtain ⟨rfl, rfl⟩ := hy
      obtain ⟨k, hk, he⟩ := ih h2
      exact ⟨k + 1, by omega, Edits.substitute a b2 he⟩
    | keep a2 h2 _ =>
      simp only [List.cons.injEq] at hy
      obtain ⟨rfl, rfl⟩ := hy
      obtain ⟨k, hk, he⟩ := ih h2
      exact ⟨k, by omega, Edits.keep a he⟩

theorem Edits.delete_last {α : Type} (a : α) {xs ys : List α} {n : Nat} (h : Edits xs ys n) :
    Edits (xs ++ [a]) ys (n + 1) := by
  induction h with
  | done => exact Edits.delete a Edits.done
  | delete a2 _ ih => exact Edits.delete a2 ih
  | insert b2 _ ih => exact Edits.insert b2 ih
  | substitute a2 b2 _ ih => exact Edits.substitute a2 b2 ih
  | keep a2 _ ih => exact Edits.keep a2 ih

theorem Edits.substitute_last {α : Type} (a b : α) {xs ys : List α} {n : Nat}
    (h : Edits xs ys n) : Edits (xs ++ [a]) (ys ++ [b]) (n + 1) := by
  induction h with
  | done => exact Edits.substitute a b Edits.done
  | delete a2 _ ih => exact Edits.delete a2 ih
  | insert b2 _ ih => exact Edits.insert b2 ih
  | substitute a2 b2 _ ih => exact Edits.substitute a2 b2 ih
  | keep a2 _ ih => exact Edits.keep a2 ih

theorem Edits.keep_last {α : Type} (a : α) {xs ys : List α} {n : Nat}
    (h : Edits xs ys n) : Edits (xs ++ [a]) (ys ++ [a]) n := by
  induction h with
  | done => exact Edits.keep a Edits.done
  | delete a2 _ ih => exact Edits.delete a2 ih
  | insert b2 _ ih => exact Edits.insert b2 ih
  | substitute a2 b2 _ ih => exact Edits.substitute a2 b2 ih
  | keep a2 _ ih => exact Edits.keep a2 ih

theorem Edits.reverse {α : Type} {xs ys : List α} {n : Nat} (h : Edits xs ys n) :
    Edits xs.reverse ys.reverse n := by
  induction h with
  | done => exact Edits.done
  | delete a _ ih => rw [List.reverse_cons]; exact Edits.delete_last a ih
  | insert b _ ih =>
    rw [List.reverse_cons]
    exact (Edits.delete_last b ih.symm).symm
  | substitute a b _ ih =>
    rw [List.reverse_cons, List.reverse_cons]; exact Edits.substitute_last a b ih
  | keep a _ ih => rw [List.reverse_cons, List.reverse_cons]; exact Edits.keep_last a ih

/-- The Levenshtein distance with unit costs is the length of an edit script. -/
theorem levenshtein_edits {α : Type} [DecidableEq α] (xs ys : List α) :
    Edits xs ys (levenshtein Levenshtein.defaultCost xs ys) := by
  induction xs generalizing ys with
  | nil =>
    induction ys with
    | nil => rw [levenshtein_nil_nil]; exact Edits.done
    | cons b ys ih =>
      rw [levenshtein_nil_cons, Levenshtein.defaultCost_insert, Nat.add_comm]
      exact Edits.insert b ih
  | cons a xs ihx =>
    induction ys with
    | nil =>
      rw [levenshtein_cons_nil, Levenshtein.defaultCost_delete, Nat.add_comm]
      exact Edits.delete a (ihx [])
    | cons b ys ihy =>
      rw [levenshtein_cons_cons, Levenshtein.defaultCost_delete,
        Levenshtein.defaultCost_insert, Levenshtein.defaultCost_substitute]
      rcases min_choice (1 + levenshtein Levenshtein.defaultCost xs (b :: ys))
        (min (1 + levenshtein Levenshtein.defaultCost (a :: xs) ys)
          ((if a = b then 0 else 1) + levenshtein Levenshtein.defaultCost xs ys)) with h | h
      · rw [h, Nat.add_comm]
        exact Edits.delete a (ihx (b :: ys))
      · rw [h]
        rcases min_choice (1 + levenshtein Levenshtein.defaultCost (a :: xs) ys)
          ((if a = b then 0 else 1) + levenshtein Levenshtein.defaultCost xs ys) with h2 | h2
        · rw [h2, Nat.add_comm]
          exact Edits.insert b ihy
        · rw [h2]
          by_cases hab : a = b
          · subst hab
            rw [if_pos rfl, Nat.zero_add]
            exact Edits.keep a (ihx ys)
          · rw [if_neg hab, Nat.add_comm]
            exact Edits.substitute a b (ihx ys)

/-- No edit script is shorter than the Levenshtein distance. -/
theorem levenshtein_le_edits {α : Type} [DecidableEq α] {xs ys : List α} {n : Nat}
    (h : Edits xs ys n) : levenshtein Levenshtein.defaultCost xs ys ≤ n := by
  induction h with
  | done => rw [levenshtein_nil_nil]
  | @delete a xs ys n _ ih =>
    cases ys with
    | nil =>
      rw [levenshtein_cons_nil, Levenshtein.defaultCost_delete]
      omega
    | cons b ys =>
      rw [levenshtein_cons_cons, Levenshtein.defaultCost_delete]
      exact le_trans (min_le_left _ _) (by omega)
  | @insert b xs ys n _ ih =>
    cases xs with
    | nil =>
      rw [levenshtein_nil_cons, Levenshtein.defaultCost_insert]
      omega
    | cons a xs =>
      rw [levenshtein_cons_cons, Levenshtein.defaultCost_insert]
      exact le_trans (min_le_right _ _) (le_trans (min_le_left _ _) (by omega))
  | @substitute a b xs ys n _ ih =>
    rw [levenshtein_cons_cons, Levenshtein.defaultCost_substitute]
    refine le_trans (min_le_right _ _) (le_trans (min_le_right _ _) ?_)
    split <;> omega
  | @keep a xs ys n _ ih =>
    rw [levenshtein_cons_cons, Levenshtein.defaultCost_substitute, if_pos rfl]
    exact le_trans (min_le_right _ _) (le_trans (min_le_right _ _) (by omega))


theorem lev_symm {α : Type} [DecidableEq α] (xs ys : List α) :
    levenshtein Levenshtein.defaultCost xs ys = levenshtein Levenshtein.defaultCost ys xs :=
  le_antisymm (levenshtein_le_edits (levenshtein_edits ys xs).symm)
    (levenshtein_le_edits (levenshtein_edits xs ys).symm)

theorem lev_eq_zero {α : Type} [DecidableEq α] (xs ys : List α) :
    levenshtein Levenshtein.defaultCost xs ys = 0 ↔ xs = ys := by
  constructor
  · intro h
    exact (levenshtein_edits xs ys).eq_of_zero h
  · intro h
    subst h
    exact Nat.le_zero.1 (levenshtein_le_edits (Edits.refl xs))

theorem lev_triangle {α : Type} [DecidableEq α] (xs ys zs : List α) :
    levenshtein Levenshtein.defaultCost xs zs ≤
      levenshtein Levenshtein.defaultCost xs ys + levenshtein Levenshtein.defaultCost ys zs := by
  obtain ⟨k, hk, he⟩ := (levenshtein_edits xs ys).comp (levenshtein_edits ys zs)
  exact le_trans (levenshtein_le_edits he) hk

theorem lev_reverse {α : Type} [DecidableEq α] (xs ys : List α) :
    levenshtein Levenshtein.defaultCost xs.reverse ys.reverse =
      levenshtein Levenshtein.defaultCost xs ys := by
  apply le_antisymm
  · exact levenshtein_le_edits (levenshtein_edits xs ys).reverse
  · have h := (levenshtein_edits xs.reverse ys.reverse).reverse
    rw [List.reverse_reverse, List.reverse_reverse] at h
    exact levenshtein_le_edits h

theorem lev_nil_left {α : Type} [DecidableEq α] (ys : List α) :
    levenshtein Levenshtein.defaultCost [] ys = ys.length := by
  induction ys with
  | nil => rw [levenshtein_nil_nil]; rfl
  | cons b ys ih =>
    rw [levenshtein_nil_cons, Levenshtein.defaultCost_insert, ih, List.length_cons]
    omega

theorem lev_nil_right {α : Type} [DecidableEq α] (xs : List α) :
    levenshtein Levenshtein.defaultCost xs [] = xs.length := by
  rw [lev_symm, lev_nil_left]

/-- Dropping one character from either string changes the distance by at most one. -/
theorem lev_le_cons_right {α : Type} [DecidableEq α] (xs ys : List α) (b : α) :
    levenshtein Levenshtein.defaultCost xs ys ≤
      levenshtein Levenshtein.defaultCost xs (b :: ys) + 1 := by
  obtain ⟨k, hk, he⟩ := (levenshtein_edits xs (b :: ys)).comp
    (Edits.delete b (Edits.refl ys))
  exact le_trans (levenshtein_le_edits he) (by omega)

theorem lev_le_cons_left {α : Type} [DecidableEq α] (xs ys : List α) (a : α) :
    levenshtein Levenshtein.defaultCost xs ys ≤
      levenshtein Levenshtein.defaultCost (a :: xs) ys + 1 := by
  rw [lev_symm xs ys, lev_symm (a :: xs) ys]
  exact lev_le_cons_right ys xs a

theorem lev_cons_same {α : Type} [DecidableEq α] (xs ys : List α) (a : α) :
    levenshtein Levenshtein.defaultCost (a :: xs) (a :: ys) =
      levenshtein Levenshtein.defaultCost xs ys := by
  rw [levenshtein_cons_cons, Levenshtein.defaultCost_delete, Levenshtein.defaultCost_insert,
    Levenshtein.defaultCost_substitute, if_pos rfl, Nat.zero_add]
  have h1 := lev_le_cons_right xs ys a
  have h2 := lev_le_cons_left xs ys a
  rw [min_eq_right (by omega : levenshtein Levenshtein.defaultCost xs ys ≤
    1 + levenshtein Levenshtein.defaultCost (a :: xs) ys)]
  exact min_eq_right (by omega)

theorem lev_cons_ne {α : Type} [DecidableEq α] (xs ys : List α) (a b : α) (h : a ≠ b) :
    levenshtein Levenshtein.defaultCost (a :: xs) (b :: ys) =
      1 + min (levenshtein Levenshtein.defaultCost xs (b :: ys))
        (min (levenshtein Levenshtein.defaultCost (a :: xs) ys)
          (levenshtein Levenshtein.defaultCost xs ys)) := by
  rw [levenshtein_cons_cons, Levenshtein.defaultCost_delete, Levenshtein.defaultCost_insert,
    Levenshtein.defaultCost_substitute, if_neg h]
  omega

/-- The recurrence of the matrix on the last characters, equal case. -/
theorem lev_snoc_same {α : Type} [DecidableEq α] (xs ys : List α) (a : α) :
    levenshtein Levenshtein.defaultCost (xs ++ [a]) (ys ++ [a]) =
      levenshtein Levenshtein.defaultCost xs ys := by
  rw [← lev_reverse, List.reverse_append, List.reverse_append, List.reverse_singleton,
    List.singleton_append, List.singleton_append, lev_cons_same, lev_reverse]

/-- The recurrence of the matrix on the last characters, different case. -/
theorem lev_snoc_ne {α : Type} [DecidableEq α] (xs ys : List α) (a b : α) (h : a ≠ b) :
    levenshtein Levenshtein.defaultCost (xs ++ [a]) (ys ++ [b]) =
      1 + min (levenshtein Levenshtein.defaultCost xs (ys ++ [b]))
        (min (levenshtein Levenshtein.defaultCost (xs ++ [a]) ys)
          (levenshtein Levenshtein.defaultCost xs ys)) := by
  have e1 : levenshtein Levenshtein.defaultCost xs (ys ++ [b]) =
      levenshtein Levenshtein.defaultCost xs.reverse (b :: ys.reverse) := by
    rw [← lev_reverse xs (ys ++ [b]), List.reverse_append, List.reverse_singleton,
      List.singleton_append]
  have e2 : levenshtein Levenshtein.defaultCost (xs ++ [a]) ys =
      levenshtein Levenshtein.defaultCost (a :: xs.reverse) ys.reverse := by
    rw [← lev_reverse (xs ++ [a]) ys, List.reverse_append, List.reverse_singleton,
      List.singleton_append]
  rw [e1, e2, ← lev_reverse xs ys, ← lev_reverse (xs ++ [a]) (ys ++ [b]),
    List.reverse_append, List.reverse_append, List.reverse_singleton,
    List.reverse_singleton, List.singleton_append, List.singleton_append,
    lev_cons_ne _ _ a b h]


/-! ## The matrix of `EditDistance` -/

theorem setCell_apply (matr : Nat → Nat → Nat) (i j v a b : Nat) :
    setCell matr i j v a b = if a = i ∧ b = j then v else matr a b := by
  unfold setCell
  by_cases ha : a = i
  · subst ha
    rw [Function.update_same]
    by_cases hb : b = j
    · subst hb
      rw [Function.update_same, if_pos ⟨rfl, rfl⟩]
    · rw [Function.update_noteq hb, if_neg (fun h => hb h.2)]
  · rw [Function.update_noteq ha, if_neg (fun h => ha h.1)]

theorem init_col (k : Nat) (matr : Nat → Nat → Nat) (a b : Nat) :
    ((List.range k).foldl (fun matr i => setCell matr i 0 i) matr) a b =
      if b = 0 ∧ a < k then a else matr a b := by
  induction k with
  | zero => simp
  | succ k ih =>
    rw [List.range_succ, List.foldl_append, List.foldl_cons, List.foldl_nil, setCell_apply, ih]
    by_cases hb : b = 0
    · by_cases ha : a = k
      · subst ha; simp [hb]
      · by_cases ha2 : a < k
        · have : a < k + 1 := by omega
          simp [hb, ha, ha2, this]
        · have : ¬ a < k + 1 := by omega
          simp [hb, ha, ha2, this]
    · simp [hb]

theorem init_row (k : Nat) (matr : Nat → Nat → Nat) (a b : Nat) :
    ((List.range k).foldl (fun matr j => setCell matr 0 j j) matr) a b =
      if a = 0 ∧ b < k then b else matr a b := by
  induction k with
  | zero => simp
  | succ k ih =>
    rw [List.range_succ, List.foldl_append, List.foldl_cons, List.foldl_nil, setCell_apply, ih]
    by_cases ha : a = 0
    · by_cases hb : b = k
      · subst hb; simp [ha]
      · by_cases hb2 : b < k
        · have : b < k + 1 := by omega
          simp [ha, hb, hb2, this]
        · have : ¬ b < k + 1 := by omega
          simp [ha, hb, hb2, this]
    · simp [ha]

theorem editSpec_zero_left (s1 s2 : List Char) (j : Nat) (hj : j ≤ s2.length) :
    editSpec s1 s2 0 j = j := by
  unfold editSpec
  rw [List.take_zero, lev_nil_left, List.length_take, min_eq_left hj]

theorem editSpec_zero_right (s1 s2 : List Char) (i : Nat) (hi : i ≤ s1.length) :
    editSpec s1 s2 i 0 = i := by
  unfold editSpec
  rw [List.take_zero, lev_nil_right, List.length_take, min_eq_left hi]

theorem take_succ_getElem (l : List Char) (i : Nat) (c : Char) (h : l[i]? = some c) :
    l.take (i + 1) = l.take i ++ [c] := by
  rw [List.take_succ, h]
  rfl

theorem editSpec_succ (s1 s2 : List Char) (i j : Nat) (hi : i < s1.length)
    (hj : j < s2.length) :
    editSpec s1 s2 (i + 1) (j + 1) =
      if s1[i]? = s2[j]? then editSpec s1 s2 i j
      else 1 + min (editSpec s1 s2 i (j + 1))
        (min (editSpec s1 s2 (i + 1) j) (editSpec s1 s2 i j)) := by
  have h1 : s1[i]? = some s1[i] := List.getElem?_eq_getElem hi
  have h2 : s2[j]? = some s2[j] := List.getElem?_eq_getElem hj
  unfold editSpec
  rw [take_succ_getElem s1 i _ h1, take_succ_getElem s2 j _ h2, h1, h2]
  by_cases hc : s1[i] = s2[j]
  · rw [if_pos (by rw [hc]), hc, lev_snoc_same]
  · rw [if_neg (fun h => hc (Option.some.inj h)), lev_snoc_ne _ _ _ _ hc]

theorem editCell_apply (s1 s2 : List Char) (i : Nat) (matr : Nat → Nat → Nat) (j a b : Nat) :
    editCell s1 s2 i matr j a b =
      if a = i ∧ b = j then
        (if s1[i - 1]? = s2[j - 1]? then matr (i - 1) (j - 1)
          else 1 + min (matr (i - 1) j) (min (matr i (j - 1)) (matr (i - 1) (j - 1))))
      else matr a b := by
  unfold editCell
  by_cases hc : s1[i - 1]? = s2[j - 1]?
  · rw [if_pos hc, if_pos hc, setCell_apply]
  · rw [if_neg hc, if_neg hc, setCell_apply]

/-- The inner loop fills row `i` with the distances of the first `i` characters of
`s1` to the first `b` characters of `s2`. -/
theorem editRow_inv (s1 s2 : List Char) (i : Nat) (hi1 : 1 ≤ i) (hi : i ≤ s1.length)
    (matr : Nat → Nat → Nat)
    (hrows : ∀ a b, a < i → b ≤ s2.length → matr a b = editSpec s1 s2 a b)
    (hcol : ∀ a, a ≤ s1.length → matr a 0 = editSpec s1 s2 a 0)
    (k : Nat) (hk : k ≤ s2.length) :
    (∀ a b, a < i → b ≤ s2.length →
      ((List.range' 1 k).foldl (editCell s1 s2 i) matr) a b = editSpec s1 s2 a b) ∧
    (∀ a, a ≤ s1.length →
      ((List.range' 1 k).foldl (editCell s1 s2 i) matr) a 0 = editSpec s1 s2 a 0) ∧
    ∀ b, b ≤ k →
      ((List.range' 1 k).foldl (editCell s1 s2 i) matr) i b = editSpec s1 s2 i b := by
  induction k with
  | zero =>
    refine ⟨hrows, hcol, ?_⟩
    intro b hb
    have : b = 0 := by omega
    subst this
    exact hcol i hi
  | succ k ih =>
    obtain ⟨h1, h2, h3⟩ := ih (by omega)
    rw [List.range'_concat, List.foldl_append, List.foldl_cons, List.foldl_nil, Nat.one_mul]
    refine ⟨?_, ?_, ?_⟩
    · intro a b ha hb
      rw [editCell_apply, if_neg (by omega)]
      exact h1 a b ha hb
    · intro a ha
      rw [editCell_apply, if_neg (by omega)]
      exact h2 a ha
    · intro b hb
      rw [editCell_apply]
      by_cases hbk : b = 1 + k
      · subst hbk
        rw [if_pos ⟨rfl, rfl⟩]
        have e1 : 1 + k - 1 = k := by omega
        have e2 : i - 1 + 1 = i := by omega
        have hs := editSpec_succ s1 s2 (i - 1) k (by omega) (by omega)
        rw [e2] at hs
        rw [e1, h1 (i - 1) k (by omega) (by omega), h1 (i - 1) (1 + k) (by omega) (by omega),
          h3 k (le_refl k), Nat.add_comm 1 k, hs]
      · rw [if_neg (fun h => hbk h.2)]
        exact h3 b (by omega)

/-- The outer loop fills the rows `1 .. r`. -/
theorem editRows_inv (s1 s2 : List Char) (matr : Nat → Nat → Nat)
    (hrow : ∀ b, b ≤ s2.length → matr 0 b = editSpec s1 s2 0 b)
    (hcol : ∀ a, a ≤ s1.length → matr a 0 = editSpec s1 s2 a 0)
    (r : Nat) (hr : r ≤ s1.length) :
    (∀ a b, a ≤ r → b ≤ s2.length →
      ((List.range' 1 r).foldl (editRow s1 s2 s2.length) matr) a b = editSpec s1 s2 a b) ∧
    ∀ a, a ≤ s1.length →
      ((List.range' 1 r).foldl (editRow s1 s2 s2.length) matr) a 0 = editSpec s1 s2 a 0 := by
  induction r with
  | zero =>
    refine ⟨?_, hcol⟩
    intro a b ha hb
    have : a = 0 := by omega
    subst this
    exact hrow b hb
  | succ r ih =>
    obtain ⟨h1, h2⟩ := ih (by omega)
    rw [List.range'_concat, List.foldl_append, List.foldl_cons, List.foldl_nil, Nat.one_mul]
    obtain ⟨g1, g2, g3⟩ := editRow_inv s1 s2 (1 + r) (by omega) (by omega) _
      (fun a b ha hb => h1 a b (by omega) hb) h2 s2.length (le_refl _)
    refine ⟨?_, g2⟩
    intro a b ha hb
    by_cases har : a = 1 + r
    · subst har
      exact g3 b hb
    · exact g1 a b (by omega) hb

/-- `EditDistance` without case folding is the Levenshtein distance. -/
theorem EditDistance_eq (tolower : Char → Char) (left right : List Char) :
    EditDistance tolower left right false =
      levenshtein Levenshtein.defaultCost left right := by
  unfold EditDistance
  simp only [Bool.false_eq_true, if_false]
  have hrow : ∀ b, b ≤ right.length →
      ((List.range (right.length + 1)).foldl (fun matr j => setCell matr 0 j j)
        ((List.range (left.length + 1)).foldl (fun matr i => setCell matr i 0 i)
          (fun _ _ => 0))) 0 b = editSpec left right 0 b := by
    intro b hb
    rw [init_row, if_pos ⟨rfl, by omega⟩, editSpec_zero_left left right b hb]
  have hcol : ∀ a, a ≤ left.length →
      ((List.range (right.length + 1)).foldl (fun matr j => setCell matr 0 j j)
        ((List.range (left.length + 1)).foldl (fun matr i => setCell matr i 0 i)
          (fun _ _ => 0))) a 0 = editSpec left right a 0 := by
    intro a ha
    rw [init_row, editSpec_zero_right left right a ha]
    by_cases ha0 : a = 0
    · subst ha0; simp
    · rw [if_neg (fun h => ha0 h.1), init_col, if_pos ⟨rfl, by omega⟩]
  have h := (editRows_inv left right _ hrow hcol left.length (le_refl _)).1
    left.length right.length (le_refl _) (le_refl _)
  rw [h]
  unfold editSpec
  rw [List.take_length, List.take_length]


/-- C40: `EditDistance(left, right, false)` is the Levenshtein distance between the two
strings, the least number of single-character insertions, deletions and substitutions
that turn `left` into `right`; it is 0 exactly when the strings are equal, it is
symmetric, it is the length of the other string when one string is empty, and it
satisfies the triangle inequality; with `ignorecase = true` it is
`EditDistance(Lower(left), Lower(right), false)`. -/
theorem C40_edit_distance (tolower : Char → Char) (left right : List Char) :
    EditDistance tolower left right false = levenshtein Levenshtein.defaultCost left right ∧
    Edits left right (EditDistance tolower left right false) ∧
    (∀ n, Edits left right n → EditDistance tolower left right false ≤ n) ∧
    (EditDistance tolower left right false = 0 ↔ left = right) ∧
    EditDistance tolower left right false = EditDistance tolower right left false ∧
    EditDistance tolower [] right false = right.length ∧
    EditDistance tolower left [] false = left.length ∧
    (∀ mid, EditDistance tolower left right false ≤
      EditDistance tolower left mid false + EditDistance tolower mid right false) ∧
    EditDistance tolower left right true =
      EditDistance tolower (Lower tolower left) (Lower tolower right) false := by
  refine ⟨EditDistance_eq tolower left right, ?_, ?_, ?_, ?_, ?_, ?_, ?_, rfl⟩
  · rw [EditDistance_eq]; exact levenshtein_edits left right
  · intro n h
    rw [EditDistance_eq]; exact levenshtein_le_edits h
  · rw [EditDistance_eq]; exact lev_eq_zero left right
  · rw [EditDistance_eq, EditDistance_eq]; exact lev_symm left right
  · rw [EditDistance_eq]; exact lev_nil_left right
  · rw [EditDistance_eq]; exact lev_nil_right left
  · intro mid
    rw [EditDistance_eq, EditDistance_eq, EditDistance_eq]
    exact lev_triangle left mid right

/-- The distance between "kitten" and "sitting" is 3, and case is ignored on request. -/
theorem EditDistance_sample :
    EditDistance Char.toLower "kitten".toList "sitting".toList false = 3 ∧
    EditDistance Char.toLower "Kitten".toList "kitTEN".toList true = 0 ∧
    EditDistance Char.toLower "Kitten".toList "kitTEN".toList false = 4 := by
  decide!

end Planner
